import Mathlib

/-!
Shallow embedding of the ChatGPT-Scheduler repository (two Python sources:
GeorgeAvdella/Code.py and RachelNieman/Code.py).  Process objects are
modelled as records stored in a list; Python object identity is modelled by
the index of the record in that list (each `process` directive creates one
fresh object, and the engines never alias them).  The string timeline lines
are modelled as structured events carrying the same data.
-/

namespace Sched

/-- Process record, mirroring the `Process` dataclass of
GeorgeAvdella/Code.py (name, arrival, burst, remaining, start_time,
finish_time) and the `Process` class of RachelNieman/Code.py (whose extra
`run_time` counter is written but never read, and is omitted). -/
structure Proc where
  name : String
  arrival : Nat
  burst : Nat
  remaining : Nat
  start_time : Option Nat
  finish_time : Option Nat
deriving Repr, DecidableEq

instance : Inhabited Proc := ⟨⟨"", 0, 0, 0, none, none⟩⟩

/-- Constructor used by both mains: `Process(name, arrival, burst)` sets
`remaining = burst` and leaves the timestamps unset. -/
def mkProc (n : String) (a b : Nat) : Proc := ⟨n, a, b, b, none, none⟩

/-- One timeline line.  The Python code stores strings
`Time {t} : {name} arrived`, `... selected (burst {r})`, `... Idle`,
`... finished`; we keep the same data structurally. -/
inductive Event where
  | arrived (tick : Nat) (name : String)
  | selected (tick : Nat) (name : String) (burst : Nat)
  | idle (tick : Nat)
  | finished (tick : Nat) (name : String)
deriving Repr, DecidableEq

/-- Process record at index `i` (Python: the i-th object of the list). -/
def procAt (ps : List Proc) (i : Nat) : Proc := ps.getD i default

def nameAt (ps : List Proc) (i : Nat) : String := (procAt ps i).name

def arrivalAt (ps : List Proc) (i : Nat) : Nat := (procAt ps i).arrival

def burstAt (ps : List Proc) (i : Nat) : Nat := (procAt ps i).burst

def remAt (ps : List Proc) (i : Nat) : Nat := (procAt ps i).remaining

def startAt (ps : List Proc) (i : Nat) : Option Nat := (procAt ps i).start_time

def finishAt (ps : List Proc) (i : Nat) : Option Nat := (procAt ps i).finish_time

/-- Mutation `p.remaining -= 1` on the object at index `i`. -/
def decRem (ps : List Proc) (i : Nat) : List Proc :=
  ps.set i ⟨nameAt ps i, arrivalAt ps i, burstAt ps i, remAt ps i - 1,
    startAt ps i, finishAt ps i⟩

/-- Mutation `p.start_time = t` on the object at index `i`. -/
def setStart (ps : List Proc) (i : Nat) (t : Nat) : List Proc :=
  ps.set i ⟨nameAt ps i, arrivalAt ps i, burstAt ps i, remAt ps i,
    some t, finishAt ps i⟩

/-- Mutation `p.finish_time = t` on the object at index `i`. -/
def setFinish (ps : List Proc) (i : Nat) (t : Nat) : List Proc :=
  ps.set i ⟨nameAt ps i, arrivalAt ps i, burstAt ps i, remAt ps i,
    startAt ps i, some t⟩

/-- The `key=lambda p: (p.remaining, p.arrival, p.name)` comparison of
`sjf_preemptive` (GeorgeAvdella) and `simulate_sjf_preemptive`
(RachelNieman), as a lexicographic "less or equal" on indices. -/
def sjfKeyLE (ps : List Proc) (i j : Nat) : Prop :=
  remAt ps i < remAt ps j ∨ (remAt ps i = remAt ps j ∧
    (arrivalAt ps i < arrivalAt ps j ∨ (arrivalAt ps i = arrivalAt ps j ∧
      nameAt ps i ≤ nameAt ps j)))

/-- The `key=lambda p: (p.arrival, p.name)` comparison used to build
`ready_order` (GeorgeAvdella fcfs) and `ordered` (RachelNieman fcfs). -/
def fcfsKeyLE (ps : List Proc) (i j : Nat) : Prop :=
  arrivalAt ps i < arrivalAt ps j ∨ (arrivalAt ps i = arrivalAt ps j ∧
    nameAt ps i ≤ nameAt ps j)

/-- Plain name comparison `key=lambda x: x.name` used by
`arrivals_index`. -/
def nameLE (ps : List Proc) (i j : Nat) : Prop := nameAt ps i ≤ nameAt ps j

instance (ps : List Proc) : DecidableRel (sjfKeyLE ps) := fun _ _ => by
  unfold sjfKeyLE; exact inferInstance

instance (ps : List Proc) : DecidableRel (fcfsKeyLE ps) := fun _ _ => by
  unfold fcfsKeyLE; exact inferInstance

instance (ps : List Proc) : DecidableRel (nameLE ps) := fun _ _ => by
  unfold nameLE; exact inferInstance

/-- Indices `0, ..., ps.length - 1` sorted by `(arrival, name)`; this is
`sorted(processes, key=lambda p: (p.arrival, p.name))` with objects
replaced by their indices (Python's sort and insertion sort are both
stable). -/
def readyOrder (ps : List Proc) : List Nat :=
  (List.range ps.length).insertionSort (fcfsKeyLE ps)

/-- The arrivals dictionary of `arrivals_index` (GeorgeAvdella): for every
distinct arrival tick, the bucket of indices having that arrival, sorted by
name.  Only the key-to-bucket association matters to the engines (the dict
is consumed solely through `pop`). -/
def arrivalsIndex (ps : List Proc) : List (Nat × List Nat) :=
  ((ps.map (·.arrival)).dedup).map (fun k =>
    (k, ((List.range ps.length).filter (fun i => arrivalAt ps i = k)).insertionSort (nameLE ps)))

/-- Association list standing for the dict held in `by_time`. -/
abbrev BT := List (Nat × List Nat)

/-- Model of `by_time.pop(now, [])`: returns the bucket of tick `now` (or
`[]`) and the dictionary with that key removed. -/
def popArrivals (bt : BT) (now : Nat) : List Nat × BT :=
  match bt with
  | [] => ([], [])
  | (k, v) :: rest =>
    if k = now then (v, rest)
    else
      let r := popArrivals rest now
      (r.1, (k, v) :: r.2)

/-- Total bucket size of the dictionary (used as a termination measure for
the round-robin loop). -/
def btSize (bt : BT) : Nat := (bt.map (fun e => e.2.length)).sum

/-- Arrived events for the popped bucket, in bucket order. -/
def arrEvents (ps : List Proc) (now : Nat) (is : List Nat) : List Event :=
  is.map (fun i => Event.arrived now (nameAt ps i))

/-! ### GeorgeAvdella/Code.py: the fcfs engine (lines 45-81) -/

/-- Result of the fcfs idle wait: the events it appended, the new time and
the remaining arrivals dictionary. -/
structure FIdle where
  evs : List Event
  t : Nat
  bt : BT

/-- Lines 56-59: `while t < p.arrival and t < runfor: emit_arrivals(t);
Idle; t += 1`. -/
def fcfsIdle (ps : List Proc) (runfor arrival t : Nat) (bt : BT) : FIdle :=
  if h : t < arrival ∧ t < runfor then
    let pr := popArrivals bt t
    let r := fcfsIdle ps runfor arrival (t + 1) pr.2
    ⟨arrEvents ps t pr.1 ++ [Event.idle t] ++ r.evs, r.t, r.bt⟩
  else ⟨[], t, bt⟩
termination_by runfor - t
decreasing_by omega

/-- Result of the fcfs run loop. -/
structure FRun where
  evs : List Event
  ps : List Proc
  t : Nat
  bt : BT

/-- Lines 69-72: `while p.remaining > 0 and t < runfor: t += 1;
p.remaining -= 1; emit_arrivals(t)`. -/
def fcfsRun (runfor i : Nat) (ps : List Proc) (t : Nat) (bt : BT) : FRun :=
  if h : 0 < remAt ps i ∧ t < runfor then
    let ps1 := decRem ps i
    let pr := popArrivals bt (t + 1)
    let r := fcfsRun runfor i ps1 (t + 1) pr.2
    ⟨arrEvents ps1 (t + 1) pr.1 ++ r.evs, r.ps, r.t, r.bt⟩
  else ⟨[], ps, t, bt⟩
termination_by runfor - t
decreasing_by omega

/-- Lines 78-81: the trailing `while t < runfor: emit_arrivals(t); Idle;
t += 1` after the last process. -/
def fcfsTrail (ps : List Proc) (runfor t : Nat) (bt : BT) : List Event :=
  if h : t < runfor then
    let pr := popArrivals bt t
    arrEvents ps t pr.1 ++ [Event.idle t] ++ fcfsTrail ps runfor (t + 1) pr.2
  else []
termination_by runfor - t
decreasing_by omega

/-- The `for p in ready_order` loop of fcfs (lines 55-76) followed by the
trailing idle loop; `order` carries the indices still to be visited. -/
def fcfsMain (runfor : Nat) (order : List Nat) (ps : List Proc) (t : Nat) (bt : BT) :
    List Event × List Proc :=
  match order with
  | [] => (fcfsTrail ps runfor t bt, ps)
  | i :: rest =>
    let idl := fcfsIdle ps runfor (arrivalAt ps i) t bt
    if runfor ≤ idl.t then (idl.evs, ps)
    else
      let pr := popArrivals idl.bt idl.t
      let sel : List Event × List Proc :=
        if startAt ps i = none then
          ([Event.selected idl.t (nameAt ps i) (remAt ps i)], setStart ps i idl.t)
        else ([], ps)
      let run := fcfsRun runfor i sel.2 idl.t pr.2
      let fin : List Event × List Proc :=
        if remAt run.ps i = 0 then
          ([Event.finished run.t (nameAt run.ps i)], setFinish run.ps i run.t)
        else ([], run.ps)
      let r := fcfsMain runfor rest fin.2 run.t run.bt
      (idl.evs ++ arrEvents ps idl.t pr.1 ++ sel.1 ++ run.evs ++ fin.1 ++ r.1, r.2)

/-- fcfs(processes, runfor, timeline): returns the timeline and the final
process states. -/
def fcfs (ps : List Proc) (runfor : Nat) : List Event × List Proc :=
  fcfsMain runfor (readyOrder ps) ps 0 (arrivalsIndex ps)

/-! ### GeorgeAvdella/Code.py: the preemptive SJF engine (lines 84-121) -/

/-- Ready set of `pick` (line 95): arrived and not finished, in index
order. -/
def sjfReady (ps : List Proc) (t : Nat) : List Nat :=
  (List.range ps.length).filter (fun i => decide (arrivalAt ps i ≤ t ∧ 0 < remAt ps i))

/-- pick(now) (lines 94-99): sort the ready list by
`(remaining, arrival, name)` and take the head.  The head of the stable
sort is exactly `r[0]` of the Python sort; it is `none` exactly when the
`any(...)` test of line 103 fails. -/
def sjfPick (ps : List Proc) (t : Nat) : Option Nat :=
  ((sjfReady ps t).insertionSort (sjfKeyLE ps)).head?

/-- State coming out of one iteration of the sjf while-loop body. -/
structure SStep where
  evs : List Event
  ps : List Proc
  bt : BT
  cur : Option Nat

/-- Lines 115-121: run the chosen process for one tick, advance time, emit
the new tick's arrivals, and finish the process if it reached zero. -/
def sjfExec (ps : List Proc) (t : Nat) (bt : BT) (best : Nat) : SStep :=
  let ps2 := decRem ps best
  let pr2 := popArrivals bt (t + 1)
  let evA2 := arrEvents ps2 (t + 1) pr2.1
  if remAt ps2 best = 0 then
    ⟨evA2 ++ [Event.finished (t + 1) (nameAt ps2 best)],
      setFinish ps2 best (t + 1), pr2.2, none⟩
  else ⟨evA2, ps2, pr2.2, some best⟩

/-- One iteration of the `while t < runfor` body of sjf_preemptive
(lines 101-121): emit arrivals, pick, possibly switch (emitting Selected
and setting start_time), execute one tick. -/
def sjfStep (ps : List Proc) (t : Nat) (bt : BT) (cur : Option Nat) : SStep :=
  let pr := popArrivals bt t
  let evA := arrEvents ps t pr.1
  match sjfPick ps t with
  | none => ⟨evA ++ [Event.idle t], ps, pr.2, cur⟩
  | some best =>
    if cur = some best then
      let r := sjfExec ps t pr.2 best
      ⟨evA ++ r.evs, r.ps, r.bt, r.cur⟩
    else
      let ps1 := if startAt ps best = none then setStart ps best t else ps
      let r := sjfExec ps1 t pr.2 best
      ⟨evA ++ [Event.selected t (nameAt ps best) (remAt ps best)] ++ r.evs,
        r.ps, r.bt, r.cur⟩

/-- The `while t < runfor` loop of sjf_preemptive; each iteration advances
`t` by exactly one. -/
def sjfGo (runfor : Nat) (ps : List Proc) (t : Nat) (bt : BT) (cur : Option Nat) :
    List Event × List Proc :=
  if h : t < runfor then
    let s := sjfStep ps t bt cur
    let r := sjfGo runfor s.ps (t + 1) s.bt s.cur
    (s.evs ++ r.1, r.2)
  else ([], ps)
termination_by runfor - t
decreasing_by omega

/-- sjf_preemptive(processes, runfor, timeline). -/
def sjf (ps : List Proc) (runfor : Nat) : List Event × List Proc :=
  sjfGo runfor ps 0 (arrivalsIndex ps) none

/-! ### GeorgeAvdella/Code.py: the round-robin engine (lines 124-164) -/

/-- State coming out of the rr slice loop and of a whole run branch. -/
structure RSl where
  evs : List Event
  ps : List Proc
  t : Nat
  bt : BT
  rq : List Nat

/-- Lines 153-161: `for _ in range(ticks): p.remaining -= 1; t += 1;
emit_and_enqueue(t); if p.remaining == 0: finish; break`. -/
def rrSlice (i ticks : Nat) (ps : List Proc) (t : Nat) (bt : BT) (rq : List Nat) : RSl :=
  match ticks with
  | 0 => ⟨[], ps, t, bt, rq⟩
  | n + 1 =>
    let ps1 := decRem ps i
    let pr := popArrivals bt (t + 1)
    let evA := arrEvents ps1 (t + 1) pr.1
    let rq1 := rq ++ pr.1
    if remAt ps1 i = 0 then
      ⟨evA ++ [Event.finished (t + 1) (nameAt ps1 i)],
        setFinish ps1 i (t + 1), t + 1, pr.2, rq1⟩
    else
      let r := rrSlice i n ps1 (t + 1) pr.2 rq1
      ⟨evA ++ r.evs, r.ps, r.t, r.bt, r.rq⟩

/-- Lines 148-164 minus the pop at the queue head: select the dequeued
process `i`, run its slice of `min(quantum, remaining, runfor - t)` ticks,
and re-enqueue it behind the arrivals of the slice when it is still
unfinished. -/
def rrRunBranch (runfor q i : Nat) (ps : List Proc) (t : Nat) (bt : BT) (rest : List Nat) : RSl :=
  let ps1 := if startAt ps i = none then setStart ps i t else ps
  let sl := rrSlice i (min q (min (remAt ps i) (runfor - t))) ps1 t bt rest
  let rq := if 0 < remAt sl.ps i then sl.rq ++ [i] else sl.rq
  ⟨Event.selected t (nameAt ps i) (remAt ps i) :: sl.evs, sl.ps, sl.t, sl.bt, rq⟩

theorem popArrivals_size (bt : BT) (now : Nat) :
    btSize (popArrivals bt now).2 + (popArrivals bt now).1.length = btSize bt := by
  induction bt with
  | nil => simp [popArrivals, btSize]
  | cons e rest ih =>
    by_cases h : e.1 = now <;> simp [popArrivals, btSize, h] at ih ⊢ <;> omega

theorem remAt_setStart (ps : List Proc) (i t j : Nat) :
    remAt (setStart ps i t) j = remAt ps j := by
  unfold remAt setStart procAt
  rcases Nat.lt_or_ge i ps.length with hi | hi
  · by_cases hij : i = j
    · subst hij
      simp [List.getD, List.getElem?_set_self hi, nameAt, arrivalAt, burstAt,
        remAt, startAt, finishAt, procAt]
    · simp [List.getD, List.getElem?_set_ne hij]
  · simp [List.getD, List.set_eq_of_length_le hi]

theorem rrSlice_t_ge (i n : Nat) (ps : List Proc) (t : Nat) (bt : BT) (rq : List Nat) :
    t ≤ (rrSlice i n ps t bt rq).t := by
  induction n generalizing ps t bt rq with
  | zero => simp [rrSlice]
  | succ n ih =>
    simp only [rrSlice]
    split
    · simp
    · exact le_trans (Nat.le_succ t) (ih _ _ _ _)

theorem rrSlice_t_pos (i n : Nat) (ps : List Proc) (t : Nat) (bt : BT) (rq : List Nat)
    (hn : 0 < n) : t + 1 ≤ (rrSlice i n ps t bt rq).t := by
  cases n with
  | zero => omega
  | succ n =>
    simp only [rrSlice]
    split
    · simp
    · exact rrSlice_t_ge _ _ _ _ _ _

/-- Conservation of queued-or-pending indices through a slice. -/
theorem rrSlice_size (i n : Nat) (ps : List Proc) (t : Nat) (bt : BT) (rq : List Nat) :
    btSize (rrSlice i n ps t bt rq).bt + (rrSlice i n ps t bt rq).rq.length =
      btSize bt + rq.length := by
  induction n generalizing ps t bt rq with
  | zero => simp [rrSlice]
  | succ n ih =>
    simp only [rrSlice]
    have hp := popArrivals_size bt (t + 1)
    split
    · simp; omega
    · rw [ih]; simp; omega

/-- The measure `runfor - t + pending + queued` strictly falls across a run
branch (with a positive quantum, under the loop guard). -/
theorem rrRunBranch_measure (runfor q i : Nat) (ps : List Proc) (t : Nat) (bt : BT)
    (rest : List Nat) (hq : 0 < q) (ht : t < runfor) :
    runfor - (rrRunBranch runfor q i ps t bt rest).t +
      (btSize (rrRunBranch runfor q i ps t bt rest).bt +
        (rrRunBranch runfor q i ps t bt rest).rq.length) <
      runfor - t + (btSize bt + (rest.length + 1)) := by
  unfold rrRunBranch
  dsimp only
  have hrem1 : remAt (if startAt ps i = none then setStart ps i t else ps) i
      = remAt ps i := by
    split
    · exact remAt_setStart ps i t i
    · rfl
  have hlen : ∀ (l : List Nat) (c : Prop) [Decidable c],
      (if c then l ++ [i] else l).length ≤ l.length + 1 := by
    intro l c _
    split <;> simp
  by_cases hrem : remAt ps i = 0
  · have h0 : min q (min (remAt ps i) (runfor - t)) = 0 := by omega
    rw [h0]
    simp only [rrSlice]
    simp only [hrem1, hrem]
    simp only [Nat.lt_irrefl, if_false]
    omega
  · have hpos : 0 < min q (min (remAt ps i) (runfor - t)) := by omega
    have h1 := rrSlice_t_pos i (min q (min (remAt ps i) (runfor - t)))
      (if startAt ps i = none then setStart ps i t else ps) t bt rest hpos
    have h2 := rrSlice_size i (min q (min (remAt ps i) (runfor - t)))
      (if startAt ps i = none then setStart ps i t else ps) t bt rest
    have hj := hlen
      (rrSlice i (min q (min (remAt ps i) (runfor - t)))
        (if startAt ps i = none then setStart ps i t else ps) t bt rest).rq
      (0 < remAt (rrSlice i (min q (min (remAt ps i) (runfor - t)))
        (if startAt ps i = none then setStart ps i t else ps) t bt rest).ps i)
    omega

/-- The `while t < runfor` loop of rr (lines 140-164).  `q` is the quantum,
already checked positive by the entry guard. -/
def rrGo (runfor : Nat) (q : {n : Nat // 0 < n}) (ps : List Proc) (t : Nat) (bt : BT)
    (rq : List Nat) : List Event × List Proc :=
  if h : t < runfor then
    let pr := popArrivals bt t
    match hm : rq ++ pr.1 with
    | [] =>
      let pr2 := popArrivals pr.2 (t + 1)
      let r := rrGo runfor q ps (t + 1) pr2.2 pr2.1
      (arrEvents ps t pr.1 ++ [Event.idle t] ++ arrEvents ps (t + 1) pr2.1 ++ r.1, r.2)
    | i :: rest =>
      let br := rrRunBranch runfor q.1 i ps t pr.2 rest
      let r := rrGo runfor q br.ps br.t br.bt br.rq
      (arrEvents ps t pr.1 ++ br.evs ++ r.1, r.2)
  else ([], ps)
termination_by runfor - t + (btSize bt + rq.length)
decreasing_by
· have hp1 := popArrivals_size bt t
  have hp2 := popArrivals_size (popArrivals bt t).2 (t + 1)
  omega
· have hp1 := popArrivals_size bt t
  have hlen : rq.length + (popArrivals bt t).1.length = rest.length + 1 := by
    have := congrArg List.length hm
    simpa using this
  have hbr := rrRunBranch_measure runfor q.1 i ps t (popArrivals bt t).2 rest q.2 h
  omega

/-- rr(processes, runfor, quantum, timeline), lines 124-164: the entry
guard rejects a non-positive quantum before any simulation; otherwise
`emit_and_enqueue(0)` runs once and then the loop. -/
def rr (ps : List Proc) (runfor : Nat) (quantum : Int) :
    Except String (List Event × List Proc) :=
  if h : quantum ≤ 0 then
    Except.error "Error: Missing quantum parameter when use is 'rr'"
  else
    let pr := popArrivals (arrivalsIndex ps) 0
    let r := rrGo runfor ⟨quantum.toNat, by omega⟩ ps 0 pr.2 pr.1
    Except.ok (arrEvents ps 0 pr.1 ++ r.1, r.2)

/-! ### GeorgeAvdella/Code.py: metrics and report (lines 29-39, 367-375) -/

/-- One row of the dict calc_metrics returns. -/
structure Metrics where
  waiting : Option Int
  turnaround : Option Int
  response : Option Int
deriving Repr, DecidableEq

/-- calc_metrics, per process: `None` metrics when either timestamp is
missing, else `tat = finish - arrival`, `wait = tat - burst`,
`resp = start - arrival` (integer arithmetic, as in Python). -/
def calcMetric (p : Proc) : Metrics :=
  match p.finish_time, p.start_time with
  | some f, some s =>
    ⟨some ((f : Int) - p.arrival - p.burst), some ((f : Int) - p.arrival),
      some ((s : Int) - p.arrival)⟩
  | _, _ => ⟨none, none, none⟩

/-- calc_metrics over the whole process list, keyed by name. -/
def calc_metrics (ps : List Proc) : List (String × Metrics) :=
  ps.map (fun p => (p.name, calcMetric p))

/-- Name comparison on whole records, for the report's
`sorted(processes, key=lambda x: x.name)`. -/
def pNameLE (p q : Proc) : Prop := p.name ≤ q.name

instance : DecidableRel pNameLE := fun _ _ => by
  unfold pNameLE; exact inferInstance

/-- Processes that get a numeric metrics line in main (lines 367-372): the
ones with `finish_time` set, in name order. -/
def reportFinished (ps : List Proc) : List Proc :=
  (ps.insertionSort pNameLE).filter (fun p => p.finish_time ≠ none)

/-- Processes reported through the did-not-finish path (lines 373-375). -/
def reportDnf (ps : List Proc) : List String :=
  ((ps.insertionSort pNameLE).filter (fun p => p.finish_time = none)).map (·.name)

/-- Validation and dispatch of main (lines 334-354), after the directives
have been parsed: the rr/quantum presence check, the processcount check,
then exactly one engine runs. -/
def runProgram (algo : String) (quantum : Option Int) (processcount : Nat)
    (ps : List Proc) (runfor : Nat) : Except String (List Event × List Proc) :=
  if algo = "rr" ∧ quantum = none then
    Except.error "Error: Missing quantum parameter when use is 'rr'"
  else if processcount ≠ ps.length then
    Except.error "Error: processcount does not match number of process lines"
  else if algo = "fcfs" then Except.ok (fcfs ps runfor)
  else if algo = "sjf" then Except.ok (sjf ps runfor)
  else if algo = "rr" then rr ps runfor (quantum.getD 0)
  else Except.error "Error: Unknown scheduling algorithm"

/-! ### RachelNieman/Code.py: the three simulators (lines 149-262) -/

/-- What the selection block of simulate_fcfs produced: the (possibly new)
current process, the queue after any pop, the processes after any
start_time write, and the Selected event if one was logged. -/
structure RNSel where
  cur : Option Nat
  queue : List Nat
  ps : List Proc
  evs : List Event

/-- Lines 162-171 of simulate_fcfs: drop a finished current process; when
none is running, pop the queue head and select it unless it is already
finished (a finished candidate is silently discarded and nothing runs this
tick). -/
def rnFcfsSelect (ps : List Proc) (time : Nat) (q1 : List Nat) (cur : Option Nat) :
    RNSel :=
  let curA : Option Nat := match cur with
    | some c => if remAt ps c = 0 then none else some c
    | none => none
  match curA with
  | some c => ⟨some c, q1, ps, []⟩
  | none =>
    match q1 with
    | [] => ⟨none, [], ps, []⟩
    | c :: qrest =>
      if remAt ps c = 0 then ⟨none, qrest, ps, []⟩
      else
        let ps1 := if startAt ps c = none then setStart ps c time else ps
        ⟨some c, qrest, ps1, [Event.selected time (nameAt ps c) (remAt ps c)]⟩

/-- Lines 176-180 of simulate_fcfs: run the current process for one tick
and finish it (logging the Finished line for `time + 1` right away) when
its remaining hits zero. -/
def rnFcfsExecStep (ps : List Proc) (time c : Nat) : List Event × List Proc :=
  let ps2 := decRem ps c
  if remAt ps2 c = 0 then
    ([Event.finished (time + 1) (nameAt ps2 c)], setFinish ps2 c (time + 1))
  else ([], ps2)

/-- simulate_fcfs (lines 149-183): one loop iteration per tick; `ordered`
is the `(arrival, name)`-sorted index list scanned for arrivals. -/
def rnFcfsGo (runfor : Nat) (ordered : List Nat) (ps : List Proc) (time : Nat)
    (queue : List Nat) (cur : Option Nat) : List Event × List Proc :=
  if h : time < runfor then
    let arr := ordered.filter (fun i => decide (arrivalAt ps i = time))
    let evA := arr.map (fun i => Event.arrived time (nameAt ps i))
    let sel := rnFcfsSelect ps time (queue ++ arr) cur
    match sel.cur with
    | none =>
      let r := rnFcfsGo runfor ordered sel.ps (time + 1) sel.queue none
      (evA ++ sel.evs ++ [Event.idle time] ++ r.1, r.2)
    | some c =>
      let ex := rnFcfsExecStep sel.ps time c
      let r := rnFcfsGo runfor ordered ex.2 (time + 1) sel.queue (some c)
      (evA ++ sel.evs ++ ex.1 ++ r.1, r.2)
  else ([], ps)
termination_by runfor - time
decreasing_by all_goals omega

/-- simulate_fcfs entry point. -/
def rnFcfs (ps : List Proc) (runfor : Nat) : List Event × List Proc :=
  rnFcfsGo runfor (readyOrder ps) ps 0 [] none

/-- Strict version of the `(remaining, arrival, name)` key comparison, as
Python's `min` uses it (replace the running minimum only on strictly
smaller). -/
def sjfKeyLT (ps : List Proc) (i j : Nat) : Prop :=
  remAt ps i < remAt ps j ∨ (remAt ps i = remAt ps j ∧
    (arrivalAt ps i < arrivalAt ps j ∨ (arrivalAt ps i = arrivalAt ps j ∧
      nameAt ps i < nameAt ps j)))

instance (ps : List Proc) : DecidableRel (sjfKeyLT ps) := fun _ _ => by
  unfold sjfKeyLT; exact inferInstance

/-- Python's `min(ready, key=...)`: scan left to right and keep the first
index attaining the minimum key. -/
def pickMin (ps : List Proc) (l : List Nat) : Option Nat :=
  l.foldl (fun acc i => match acc with
    | none => some i
    | some j => if sjfKeyLT ps i j then some i else acc) none

/-- What one executing tick of simulate_sjf_preemptive does once a process
`s` has been picked (lines 199-210): emit Selected when the name differs
from the last selected one (setting start_time if unset), decrement, and
finish (logging the Finished line for `time + 1` right away) when the
remaining hits zero. -/
structure RNSStep where
  evs : List Event
  ps : List Proc
  last : Option Nat

def rnSjfRunStep (ps : List Proc) (time s : Nat) (lastSel : Option Nat) : RNSStep :=
  let selEmit : Bool := match lastSel with
    | none => true
    | some j => nameAt ps j != nameAt ps s
  let ps1 := if selEmit = true ∧ startAt ps s = none then setStart ps s time else ps
  let evS := if selEmit = true
    then [Event.selected time (nameAt ps s) (remAt ps s)] else []
  let ps2 := decRem ps1 s
  if remAt ps2 s = 0 then
    ⟨evS ++ [Event.finished (time + 1) (nameAt ps2 s)], setFinish ps2 s (time + 1), none⟩
  else ⟨evS, ps2, some s⟩

/-- simulate_sjf_preemptive (lines 185-217): arrivals are scanned in input
order, the Selected test compares names (`last_selected.name !=
selected.name`), and the Finished line for tick `time+1` is appended
before the next iteration emits that tick's arrivals. -/
def rnSjfGo (runfor : Nat) (ps : List Proc) (time : Nat) (lastSel : Option Nat) :
    List Event × List Proc :=
  if h : time < runfor then
    let arr := (List.range ps.length).filter (fun i => decide (arrivalAt ps i = time))
    let evA := arr.map (fun i => Event.arrived time (nameAt ps i))
    let ready := (List.range ps.length).filter
      (fun i => decide (arrivalAt ps i ≤ time ∧ 0 < remAt ps i))
    match pickMin ps ready with
    | none =>
      let r := rnSjfGo runfor ps (time + 1) none
      (evA ++ [Event.idle time] ++ r.1, r.2)
    | some s =>
      let st := rnSjfRunStep ps time s lastSel
      let r := rnSjfGo runfor st.ps (time + 1) st.last
      (evA ++ st.evs ++ r.1, r.2)
  else ([], ps)
termination_by runfor - time
decreasing_by all_goals omega

/-- simulate_sjf_preemptive entry point. -/
def rnSjf (ps : List Proc) (runfor : Nat) : List Event × List Proc :=
  rnSjfGo runfor ps 0 none

/-- The inner `while ready_queue` pop of simulate_rr (lines 238-246):
discard finished queue entries until the first unfinished one. -/
def rnDropFinished (ps : List Proc) : List Nat → Option Nat × List Nat
  | [] => (none, [])
  | c :: rest => if remAt ps c = 0 then rnDropFinished ps rest else (some c, rest)

/-- What the reselection block of simulate_rr produced. -/
structure RNRSel where
  running : Option Nat
  queue : List Nat
  remQ : Int
  ps : List Proc
  evs : List Event

/-- Lines 233-246 of simulate_rr: when nothing is running, the runner is
finished, or the quantum counter is exactly zero, re-enqueue an unfinished
preempted runner behind this tick's arrivals and pop the next unfinished
process, giving it a fresh quantum.  The quantum counter is an `int` that
simply keeps decrementing past zero when `quantum <= 0`. -/
def rnRrSelect (ps : List Proc) (time : Nat) (quantum : Int) (q1 : List Nat)
    (running : Option Nat) (remQ : Int) : RNRSel :=
  let needSel : Bool := match running with
    | none => true
    | some c => decide (remAt ps c = 0) || decide (remQ = 0)
  let reenq : List Nat := match running with
    | some c => if remAt ps c ≠ 0 ∧ remQ = 0 then [c] else []
    | none => []
  if needSel = true then
    match rnDropFinished ps (q1 ++ reenq) with
    | (none, q3) => ⟨none, q3, 0, ps, []⟩
    | (some c, q3) =>
      let ps1 := if startAt ps c = none then setStart ps c time else ps
      ⟨some c, q3, quantum, ps1, [Event.selected time (nameAt ps c) (remAt ps c)]⟩
  else ⟨running, q1, remQ, ps, []⟩

/-- One executing tick of simulate_rr once a process `c` is running
(lines 250-258): decrement remaining and the quantum counter; on reaching
zero remaining, finish (logging the Finished line for `time + 1` right
away) and clear the runner. -/
structure RNRStep where
  evs : List Event
  ps : List Proc
  running : Option Nat
  remQ : Int

def rnRrExecStep (ps : List Proc) (time c : Nat) (remQ : Int) : RNRStep :=
  let ps3 := decRem ps c
  if remAt ps3 c = 0 then
    ⟨[Event.finished (time + 1) (nameAt ps3 c)], setFinish ps3 c (time + 1), none, 0⟩
  else ⟨[], ps3, some c, remQ - 1⟩

/-- simulate_rr (lines 219-262): one loop iteration per tick.  Arrived
events are emitted in input order; only unfinished arrivals are enqueued. -/
def rnRrGo (runfor : Nat) (quantum : Int) (ps : List Proc) (time : Nat)
    (queue : List Nat) (running : Option Nat) (remQ : Int) : List Event × List Proc :=
  if h : time < runfor then
    let arr := (List.range ps.length).filter (fun i => decide (arrivalAt ps i = time))
    let evA := arr.map (fun i => Event.arrived time (nameAt ps i))
    let q1 := queue ++ arr.filter (fun i => decide (0 < remAt ps i))
    let sel := rnRrSelect ps time quantum q1 running remQ
    match sel.running with
    | none =>
      let r := rnRrGo runfor quantum sel.ps (time + 1) sel.queue none sel.remQ
      (evA ++ sel.evs ++ [Event.idle time] ++ r.1, r.2)
    | some c =>
      let ex := rnRrExecStep sel.ps time c sel.remQ
      let r := rnRrGo runfor quantum ex.ps (time + 1) sel.queue ex.running ex.remQ
      (evA ++ sel.evs ++ ex.evs ++ r.1, r.2)
  else ([], ps)
termination_by runfor - time
decreasing_by all_goals omega

/-- simulate_rr entry point (queue empty, nothing running, quantum counter
zero). -/
def rnRr (ps : List Proc) (runfor : Nat) (quantum : Int) : List Event × List Proc :=
  rnRrGo runfor quantum ps 0 [] none 0

/-- One numeric line of print_metrics_lines. -/
structure RNMetricLine where
  name : String
  waiting : Int
  turnaround : Int
  response : Int
deriving Repr, DecidableEq

/-- print_metrics_lines (lines 267-278), numeric part: a process counts as
finished when `is_finished()` holds and `finish_time` is set; response
falls back to 0 when `start_time` is unset. -/
def rnMetricLines (ps : List Proc) : List RNMetricLine :=
  (ps.filter (fun p => decide (p.remaining = 0 ∧ p.finish_time ≠ none))).map (fun p =>
    ⟨p.name, ((p.finish_time.getD 0 : Int) - p.arrival) - p.burst,
      (p.finish_time.getD 0 : Int) - p.arrival,
      ((p.start_time.map (fun s => (s : Int) - p.arrival)).getD 0)⟩)

/-- print_metrics_lines, did-not-finish part. -/
def rnUnfinished (ps : List Proc) : List String :=
  (ps.filter (fun p => decide (¬ (p.remaining = 0 ∧ p.finish_time ≠ none)))).map (·.name)

/-- Final validation of parse_input_file (RachelNieman lines 130-144): the
rr/quantum presence check, then the process-count handling — too few
descriptors is an error, but too many are silently truncated to the first
`processcount`. -/
def rnFinalize (use : String) (quantum : Option Int) (processcount : Nat)
    (procs : List Proc) : Except String (List Proc) :=
  if use = "rr" ∧ quantum = none then
    Except.error "Error: Missing quantum parameter when use is 'rr'"
  else if procs.length < processcount then
    Except.error "Error: Missing parameter process"
  else
    Except.ok (procs.take processcount)

/-! ### Projection lemmas for the engine result records -/

@[simp] theorem FIdle_evs (a : List Event) (b : Nat) (c : BT) :
    (FIdle.mk a b c).evs = a := rfl

@[simp] theorem FIdle_t (a : List Event) (b : Nat) (c : BT) :
    (FIdle.mk a b c).t = b := rfl

@[simp] theorem FIdle_bt (a : List Event) (b : Nat) (c : BT) :
    (FIdle.mk a b c).bt = c := rfl

@[simp] theorem FRun_evs (a : List Event) (b : List Proc) (c : Nat) (d : BT) :
    (FRun.mk a b c d).evs = a := rfl

@[simp] theorem FRun_ps (a : List Event) (b : List Proc) (c : Nat) (d : BT) :
    (FRun.mk a b c d).ps = b := rfl

@[simp] theorem FRun_t (a : List Event) (b : List Proc) (c : Nat) (d : BT) :
    (FRun.mk a b c d).t = c := rfl

@[simp] theorem FRun_bt (a : List Event) (b : List Proc) (c : Nat) (d : BT) :
    (FRun.mk a b c d).bt = d := rfl

@[simp] theorem SStep_evs (a : List Event) (b : List Proc) (c : BT) (d : Option Nat) :
    (SStep.mk a b c d).evs = a := rfl

@[simp] theorem SStep_ps (a : List Event) (b : List Proc) (c : BT) (d : Option Nat) :
    (SStep.mk a b c d).ps = b := rfl

@[simp] theorem SStep_bt (a : List Event) (b : List Proc) (c : BT) (d : Option Nat) :
    (SStep.mk a b c d).bt = c := rfl

@[simp] theorem SStep_cur (a : List Event) (b : List Proc) (c : BT) (d : Option Nat) :
    (SStep.mk a b c d).cur = d := rfl

@[simp] theorem RSl_evs (a : List Event) (b : List Proc) (c : Nat) (d : BT) (e : List Nat) :
    (RSl.mk a b c d e).evs = a := rfl

@[simp] theorem RSl_ps (a : List Event) (b : List Proc) (c : Nat) (d : BT) (e : List Nat) :
    (RSl.mk a b c d e).ps = b := rfl

@[simp] theorem RSl_t (a : List Event) (b : List Proc) (c : Nat) (d : BT) (e : List Nat) :
    (RSl.mk a b c d e).t = c := rfl

@[simp] theorem RSl_bt (a : List Event) (b : List Proc) (c : Nat) (d : BT) (e : List Nat) :
    (RSl.mk a b c d e).bt = d := rfl

@[simp] theorem RSl_rq (a : List Event) (b : List Proc) (c : Nat) (d : BT) (e : List Nat) :
    (RSl.mk a b c d e).rq = e := rfl

@[simp] theorem RNSel_cur (a : Option Nat) (b : List Nat) (c : List Proc) (d : List Event) :
    (RNSel.mk a b c d).cur = a := rfl

@[simp] theorem RNSel_queue (a : Option Nat) (b : List Nat) (c : List Proc) (d : List Event) :
    (RNSel.mk a b c d).queue = b := rfl

@[simp] theorem RNSel_ps (a : Option Nat) (b : List Nat) (c : List Proc) (d : List Event) :
    (RNSel.mk a b c d).ps = c := rfl

@[simp] theorem RNSel_evs (a : Option Nat) (b : List Nat) (c : List Proc) (d : List Event) :
    (RNSel.mk a b c d).evs = d := rfl

@[simp] theorem RNSStep_evs (a : List Event) (b : List Proc) (c : Option Nat) :
    (RNSStep.mk a b c).evs = a := rfl

@[simp] theorem RNSStep_ps (a : List Event) (b : List Proc) (c : Option Nat) :
    (RNSStep.mk a b c).ps = b := rfl

@[simp] theorem RNSStep_last (a : List Event) (b : List Proc) (c : Option Nat) :
    (RNSStep.mk a b c).last = c := rfl

@[simp] theorem RNRSel_running (a : Option Nat) (b : List Nat) (c : Int) (d : List Proc)
    (e : List Event) : (RNRSel.mk a b c d e).running = a := rfl

@[simp] theorem RNRSel_queue (a : Option Nat) (b : List Nat) (c : Int) (d : List Proc)
    (e : List Event) : (RNRSel.mk a b c d e).queue = b := rfl

@[simp] theorem RNRSel_remQ (a : Option Nat) (b : List Nat) (c : Int) (d : List Proc)
    (e : List Event) : (RNRSel.mk a b c d e).remQ = c := rfl

@[simp] theorem RNRSel_ps (a : Option Nat) (b : List Nat) (c : Int) (d : List Proc)
    (e : List Event) : (RNRSel.mk a b c d e).ps = d := rfl

@[simp] theorem RNRSel_evs (a : Option Nat) (b : List Nat) (c : Int) (d : List Proc)
    (e : List Event) : (RNRSel.mk a b c d e).evs = e := rfl

@[simp] theorem RNRStep_evs (a : List Event) (b : List Proc) (c : Option Nat) (d : Int) :
    (RNRStep.mk a b c d).evs = a := rfl

@[simp] theorem RNRStep_ps (a : List Event) (b : List Proc) (c : Option Nat) (d : Int) :
    (RNRStep.mk a b c d).ps = b := rfl

@[simp] theorem RNRStep_running (a : List Event) (b : List Proc) (c : Option Nat) (d : Int) :
    (RNRStep.mk a b c d).running = c := rfl

@[simp] theorem RNRStep_remQ (a : List Event) (b : List Proc) (c : Option Nat) (d : Int) :
    (RNRStep.mk a b c d).remQ = d := rfl

/-! ### Event projections and the log-order relations -/

/-- The tick an event is attributed to. -/
def tickOf : Event → Nat
  | .arrived t _ => t
  | .selected t _ _ => t
  | .idle t => t
  | .finished t _ => t

/-- Whether the event is an Arrived event. -/
def isArr : Event → Bool
  | .arrived _ _ => true
  | _ => false

/-- The subject name of an event (empty for Idle). -/
def evName : Event → String
  | .arrived _ n => n
  | .selected _ n _ => n
  | .idle _ => ""
  | .finished _ n => n

/-- The ordering C1 asserts between two log positions: a later event is at
a later tick, or at the same tick and then it can only be an Arrived event
if the earlier one is too. -/
def c1Ord (e f : Event) : Prop :=
  tickOf e < tickOf f ∨ (tickOf e = tickOf f ∧ (isArr f = true → isArr e = true))

/-- Strengthening of `c1Ord` that also orders same-tick Arrived events by
name (the arrivals of one tick come out of one name-sorted bucket). -/
def evOrd (e f : Event) : Prop :=
  tickOf e < tickOf f ∨ (tickOf e = tickOf f ∧ (isArr f = true → isArr e = true) ∧
    (isArr e = true → isArr f = true → evName e ≤ evName f))

instance : DecidableRel c1Ord := fun _ _ => by
  unfold c1Ord; exact inferInstance

instance : DecidableRel evOrd := fun _ _ => by
  unfold evOrd; exact inferInstance

/-! ### Frame lemmas for the process-state mutations -/

theorem procAt_of_le (ps : List Proc) (i : Nat) (hi : ps.length ≤ i) :
    procAt ps i = default := by
  simp [procAt, List.getD, List.getElem?_eq_none hi]

theorem procAt_set (ps : List Proc) (i j : Nat) (p : Proc) :
    procAt (ps.set i p) j = if j = i ∧ i < ps.length then p else procAt ps j := by
  split
  · next hc =>
    obtain ⟨hj, hi⟩ := hc
    subst hj
    simp [procAt, List.getD, List.getElem?_set_self hi]
  · next hc =>
    rcases Decidable.not_and_iff_or_not.mp hc with hj | hi
    · unfold procAt
      simp [List.getD, List.getElem?_set_ne (fun he => hj he.symm)]
    · rw [List.set_eq_of_length_le (Nat.le_of_not_lt hi)]

theorem length_decRem (ps : List Proc) (i : Nat) : (decRem ps i).length = ps.length :=
  List.length_set ps i _

theorem length_setStart (ps : List Proc) (i t : Nat) :
    (setStart ps i t).length = ps.length := List.length_set ps i _

theorem length_setFinish (ps : List Proc) (i t : Nat) :
    (setFinish ps i t).length = ps.length := List.length_set ps i _

theorem nameAt_decRem (ps : List Proc) (i j : Nat) :
    nameAt (decRem ps i) j = nameAt ps j := by
  unfold nameAt decRem
  rw [procAt_set]
  split
  · next hc => rw [hc.1]; rfl
  · rfl

theorem nameAt_setStart (ps : List Proc) (i t j : Nat) :
    nameAt (setStart ps i t) j = nameAt ps j := by
  unfold nameAt setStart
  rw [procAt_set]
  split
  · next hc => rw [hc.1]; rfl
  · rfl

theorem nameAt_setFinish (ps : List Proc) (i t j : Nat) :
    nameAt (setFinish ps i t) j = nameAt ps j := by
  unfold nameAt setFinish
  rw [procAt_set]
  split
  · next hc => rw [hc.1]; rfl
  · rfl

theorem arrivalAt_decRem (ps : List Proc) (i j : Nat) :
    arrivalAt (decRem ps i) j = arrivalAt ps j := by
  unfold arrivalAt decRem
  rw [procAt_set]
  split
  · next hc => rw [hc.1]; rfl
  · rfl

theorem arrivalAt_setStart (ps : List Proc) (i t j : Nat) :
    arrivalAt (setStart ps i t) j = arrivalAt ps j := by
  unfold arrivalAt setStart
  rw [procAt_set]
  split
  · next hc => rw [hc.1]; rfl
  · rfl

theorem arrivalAt_setFinish (ps : List Proc) (i t j : Nat) :
    arrivalAt (setFinish ps i t) j = arrivalAt ps j := by
  unfold arrivalAt setFinish
  rw [procAt_set]
  split
  · next hc => rw [hc.1]; rfl
  · rfl

theorem burstAt_decRem (ps : List Proc) (i j : Nat) :
    burstAt (decRem ps i) j = burstAt ps j := by
  unfold burstAt decRem
  rw [procAt_set]
  split
  · next hc => rw [hc.1]; rfl
  · rfl

theorem burstAt_setStart (ps : List Proc) (i t j : Nat) :
    burstAt (setStart ps i t) j = burstAt ps j := by
  unfold burstAt setStart
  rw [procAt_set]
  split
  · next hc => rw [hc.1]; rfl
  · rfl

theorem burstAt_setFinish (ps : List Proc) (i t j : Nat) :
    burstAt (setFinish ps i t) j = burstAt ps j := by
  unfold burstAt setFinish
  rw [procAt_set]
  split
  · next hc => rw [hc.1]; rfl
  · rfl

theorem remAt_decRem (ps : List Proc) (i j : Nat) :
    remAt (decRem ps i) j = if j = i then remAt ps i - 1 else remAt ps j := by
  unfold remAt decRem
  rw [procAt_set]
  by_cases hj : j = i
  · subst hj
    by_cases hi : j < ps.length
    · simp [hi]; rfl
    · have hd : procAt ps j = default := procAt_of_le ps j (Nat.le_of_not_lt hi)
      simp [hi, remAt, hd]
      rfl
  · simp [hj]

theorem remAt_setFinish (ps : List Proc) (i t j : Nat) :
    remAt (setFinish ps i t) j = remAt ps j := by
  unfold remAt setFinish
  rw [procAt_set]
  split
  · next hc => rw [hc.1]; rfl
  · rfl

theorem startAt_decRem (ps : List Proc) (i j : Nat) :
    startAt (decRem ps i) j = startAt ps j := by
  unfold startAt decRem
  rw [procAt_set]
  split
  · next hc => rw [hc.1]; rfl
  · rfl

theorem startAt_setFinish (ps : List Proc) (i t j : Nat) :
    startAt (setFinish ps i t) j = startAt ps j := by
  unfold startAt setFinish
  rw [procAt_set]
  split
  · next hc => rw [hc.1]; rfl
  · rfl

theorem startAt_setStart (ps : List Proc) (i t j : Nat) :
    startAt (setStart ps i t) j =
      if j = i ∧ i < ps.length then some t else startAt ps j := by
  unfold startAt setStart
  rw [procAt_set]
  split
  · rfl
  · rfl

theorem finishAt_decRem (ps : List Proc) (i j : Nat) :
    finishAt (decRem ps i) j = finishAt ps j := by
  unfold finishAt decRem
  rw [procAt_set]
  split
  · next hc => rw [hc.1]; rfl
  · rfl

theorem finishAt_setStart (ps : List Proc) (i t j : Nat) :
    finishAt (setStart ps i t) j = finishAt ps j := by
  unfold finishAt setStart
  rw [procAt_set]
  split
  · next hc => rw [hc.1]; rfl
  · rfl

theorem finishAt_setFinish (ps : List Proc) (i t j : Nat) :
    finishAt (setFinish ps i t) j =
      if j = i ∧ i < ps.length then some t else finishAt ps j := by
  unfold finishAt setFinish
  rw [procAt_set]
  split
  · rfl
  · rfl

/-! ### Dictionary lemmas -/

/-- Keys of the arrivals dictionary. -/
def btKeys (bt : BT) : List Nat := bt.map (·.1)

/-- All indices still pending in the dictionary, bucket after bucket. -/
def btMembers (bt : BT) : List Nat := (bt.map (·.2)).flatten

theorem popArrivals_of_not_mem (bt : BT) (now : Nat) (h : now ∉ btKeys bt) :
    popArrivals bt now = ([], bt) := by
  induction bt with
  | nil => rfl
  | cons e rest ih =>
    simp only [btKeys, List.map_cons, List.mem_cons, not_or] at h
    have hne : e.1 ≠ now := fun hc => h.1 hc.symm
    simp only [popArrivals, if_neg hne]
    rw [ih (by simpa [btKeys] using h.2)]

theorem popArrivals_sublist (bt : BT) (now : Nat) :
    List.Sublist (popArrivals bt now).2 bt := by
  induction bt with
  | nil => simp [popArrivals]
  | cons e rest ih =>
    by_cases h : e.1 = now
    · simp only [popArrivals, if_pos h]
      exact List.sublist_cons_self e rest
    · simp only [popArrivals, if_neg h]
      exact List.Sublist.cons₂ e ih

theorem popArrivals_not_mem_keys (bt : BT) (now : Nat) (h : (btKeys bt).Nodup) :
    now ∉ btKeys (popArrivals bt now).2 := by
  induction bt with
  | nil => simp [popArrivals, btKeys]
  | cons e rest ih =>
    simp only [btKeys, List.map_cons, List.nodup_cons] at h
    by_cases he : e.1 = now
    · simp only [popArrivals, if_pos he]
      subst he
      exact fun hc => h.1 hc
    · simp only [popArrivals, if_neg he]
      intro hc
      simp only [btKeys, List.map_cons, List.mem_cons] at hc
      rcases hc with hc | hc
      · exact he hc.symm
      · exact ih h.2 hc

theorem popArrivals_keys_nodup (bt : BT) (now : Nat) (h : (btKeys bt).Nodup) :
    (btKeys (popArrivals bt now).2).Nodup := by
  have hs := (popArrivals_sublist bt now).map (fun e : Nat × List Nat => e.1)
  simp only [btKeys] at h ⊢
  exact hs.nodup h

theorem popArrivals_fst_eq (bt : BT) (now : Nat) (v : List Nat)
    (h : (btKeys bt).Nodup) (hm : (now, v) ∈ bt) : (popArrivals bt now).1 = v := by
  induction bt with
  | nil => cases hm
  | cons e rest ih =>
    simp only [btKeys, List.map_cons, List.nodup_cons] at h
    rcases List.mem_cons.mp hm with he | he
    · rw [← he]
      simp [popArrivals]
    · have hne : e.1 ≠ now := by
        intro hc
        apply h.1
        exact List.mem_map.mpr ⟨(now, v), he, hc.symm⟩
      simp only [popArrivals, if_neg hne]
      exact ih h.2 he

theorem popArrivals_fst_mem (bt : BT) (now : Nat)
    (h : (popArrivals bt now).1 ≠ []) : (now, (popArrivals bt now).1) ∈ bt := by
  induction bt with
  | nil => simp [popArrivals] at h
  | cons e rest ih =>
    by_cases he : e.1 = now
    · simp only [popArrivals, if_pos he]
      rw [← he]
      exact List.mem_cons_self e rest
    · simp only [popArrivals, if_neg he] at h ⊢
      exact List.mem_cons_of_mem e (ih h)

theorem popArrivals_mem_ne (bt : BT) (now k : Nat) (v : List Nat)
    (hk : k ≠ now) (hm : (k, v) ∈ bt) : (k, v) ∈ (popArrivals bt now).2 := by
  induction bt with
  | nil => cases hm
  | cons e rest ih =>
    by_cases he : e.1 = now
    · simp only [popArrivals, if_pos he]
      rcases List.mem_cons.mp hm with h1 | h1
      · exact absurd (by rw [← h1] at he; exact he) hk
      · exact h1
    · simp only [popArrivals, if_neg he]
      rcases List.mem_cons.mp hm with h1 | h1
      · rw [h1]
        exact List.mem_cons_self _ _
      · exact List.mem_cons_of_mem e (ih h1)

theorem popArrivals_members_perm (bt : BT) (now : Nat) :
    ((popArrivals bt now).1 ++ btMembers (popArrivals bt now).2).Perm (btMembers bt) := by
  induction bt with
  | nil => simp [popArrivals, btMembers]
  | cons e rest ih =>
    by_cases he : e.1 = now
    · simp only [popArrivals, if_pos he, btMembers, List.map_cons, List.flatten_cons]
      exact List.Perm.refl _
    · simp only [popArrivals, if_neg he]
      simp only [btMembers, List.map_cons, List.flatten_cons] at ih ⊢
      exact (List.perm_append_comm_assoc _ _ _).trans (ih.append_left e.2)

/-! ### Order-relation facts and sortedness of the built lists -/

theorem nameLE_total (ps : List Proc) : ∀ i j, nameLE ps i j ∨ nameLE ps j i :=
  fun _ _ => le_total _ _

theorem nameLE_trans (ps : List Proc) :
    ∀ a b c, nameLE ps a b → nameLE ps b c → nameLE ps a c :=
  fun _ _ _ => le_trans

theorem fcfsKeyLE_refl (ps : List Proc) (i : Nat) : fcfsKeyLE ps i i :=
  Or.inr ⟨rfl, le_refl _⟩

theorem fcfsKeyLE_total (ps : List Proc) : ∀ i j, fcfsKeyLE ps i j ∨ fcfsKeyLE ps j i := by
  intro i j
  unfold fcfsKeyLE
  rcases Nat.lt_trichotomy (arrivalAt ps i) (arrivalAt ps j) with h | h | h
  · exact Or.inl (Or.inl h)
  · rcases le_total (nameAt ps i) (nameAt ps j) with h2 | h2
    · exact Or.inl (Or.inr ⟨h, h2⟩)
    · exact Or.inr (Or.inr ⟨h.symm, h2⟩)
  · exact Or.inr (Or.inl h)

theorem fcfsKeyLE_trans (ps : List Proc) :
    ∀ a b c, fcfsKeyLE ps a b → fcfsKeyLE ps b c → fcfsKeyLE ps a c := by
  intro a b c hab hbc
  unfold fcfsKeyLE at *
  rcases hab with h1 | ⟨e1, h1⟩ <;> rcases hbc with h2 | ⟨e2, h2⟩
  · exact Or.inl (by omega)
  · exact Or.inl (by omega)
  · exact Or.inl (by omega)
  · exact Or.inr ⟨by omega, le_trans h1 h2⟩

theorem sjfKeyLE_refl (ps : List Proc) (i : Nat) : sjfKeyLE ps i i :=
  Or.inr ⟨rfl, Or.inr ⟨rfl, le_refl _⟩⟩

theorem sjfKeyLE_total (ps : List Proc) : ∀ i j, sjfKeyLE ps i j ∨ sjfKeyLE ps j i := by
  intro i j
  unfold sjfKeyLE
  rcases Nat.lt_trichotomy (remAt ps i) (remAt ps j) with h | h | h
  · exact Or.inl (Or.inl h)
  · rcases Nat.lt_trichotomy (arrivalAt ps i) (arrivalAt ps j) with h2 | h2 | h2
    · exact Or.inl (Or.inr ⟨h, Or.inl h2⟩)
    · rcases le_total (nameAt ps i) (nameAt ps j) with h3 | h3
      · exact Or.inl (Or.inr ⟨h, Or.inr ⟨h2, h3⟩⟩)
      · exact Or.inr (Or.inr ⟨h.symm, Or.inr ⟨h2.symm, h3⟩⟩)
    · exact Or.inr (Or.inr ⟨h.symm, Or.inl h2⟩)
  · exact Or.inr (Or.inl h)

theorem sjfKeyLE_trans (ps : List Proc) :
    ∀ a b c, sjfKeyLE ps a b → sjfKeyLE ps b c → sjfKeyLE ps a c := by
  intro a b c hab hbc
  unfold sjfKeyLE at *
  rcases hab with h1 | ⟨e1, h1⟩ <;> rcases hbc with h2 | ⟨e2, h2⟩
  · exact Or.inl (by omega)
  · exact Or.inl (by omega)
  · exact Or.inl (by omega)
  · refine Or.inr ⟨by omega, ?_⟩
    rcases h1 with g1 | ⟨f1, g1⟩ <;> rcases h2 with g2 | ⟨f2, g2⟩
    · exact Or.inl (by omega)
    · exact Or.inl (by omega)
    · exact Or.inl (by omega)
    · exact Or.inr ⟨by omega, le_trans g1 g2⟩

theorem sorted_insertionSort_of {α : Type} (r : α → α → Prop) [DecidableRel r]
    (htot : ∀ a b, r a b ∨ r b a) (htr : ∀ a b c, r a b → r b c → r a c)
    (l : List α) : List.Sorted r (l.insertionSort r) := by
  letI : IsTotal α r := ⟨htot⟩
  letI : IsTrans α r := ⟨htr⟩
  exact List.sorted_insertionSort r l

theorem mem_insertionSort {α : Type} (r : α → α → Prop) [DecidableRel r]
    (l : List α) (a : α) : a ∈ l.insertionSort r ↔ a ∈ l :=
  (List.perm_insertionSort r l).mem_iff

theorem procAt_eq_getElem (ps : List Proc) (i : Nat) (h : i < ps.length) :
    procAt ps i = ps[i] := by
  simp [procAt, List.getD, List.getElem?_eq_getElem h]

/-! ### Shape of the arrivals dictionary built by arrivals_index -/

theorem btKeys_arrivalsIndex (ps : List Proc) :
    btKeys (arrivalsIndex ps) = (ps.map (fun p => p.arrival)).dedup := by
  unfold btKeys arrivalsIndex
  rw [List.map_map]
  exact List.map_id' _

theorem btKeys_arrivalsIndex_nodup (ps : List Proc) :
    (btKeys (arrivalsIndex ps)).Nodup := by
  rw [btKeys_arrivalsIndex]
  exact List.nodup_dedup _

theorem arrivalsIndex_bucket (ps : List Proc) (k : Nat) (v : List Nat)
    (hm : (k, v) ∈ arrivalsIndex ps) :
    (∀ i ∈ v, arrivalAt ps i = k ∧ i < ps.length) ∧
      List.Sorted (nameLE ps) v ∧ v.Nodup := by
  unfold arrivalsIndex at hm
  rcases List.mem_map.mp hm with ⟨k2, hk2, heq⟩
  have hk : k2 = k := congrArg Prod.fst heq
  have hv : ((List.range ps.length).filter
      (fun i => arrivalAt ps i = k2)).insertionSort (nameLE ps) = v :=
    congrArg Prod.snd heq
  subst hk
  refine ⟨?_, ?_, ?_⟩
  · intro i hi
    rw [← hv] at hi
    rw [mem_insertionSort] at hi
    have := List.mem_filter.mp hi
    refine ⟨by simpa using this.2, List.mem_range.mp this.1⟩
  · rw [← hv]
    exact sorted_insertionSort_of (nameLE ps) (nameLE_total ps) (nameLE_trans ps) _
  · rw [← hv]
    exact ((List.perm_insertionSort _ _).nodup_iff).mpr
      ((List.nodup_range _).filter _)

theorem arrival_mem_dedup (ps : List Proc) (i : Nat) (hi : i < ps.length) :
    arrivalAt ps i ∈ (ps.map (fun p => p.arrival)).dedup := by
  rw [List.mem_dedup]
  refine List.mem_map.mpr ⟨ps[i], List.getElem_mem hi, ?_⟩
  unfold arrivalAt
  rw [procAt_eq_getElem ps i hi]

theorem arrivalsIndex_covers (ps : List Proc) (i : Nat) (hi : i < ps.length) :
    ∃ v, (arrivalAt ps i, v) ∈ arrivalsIndex ps ∧ i ∈ v := by
  refine ⟨((List.range ps.length).filter
      (fun j => arrivalAt ps j = arrivalAt ps i)).insertionSort (nameLE ps), ?_, ?_⟩
  · unfold arrivalsIndex
    exact List.mem_map.mpr ⟨arrivalAt ps i, arrival_mem_dedup ps i hi, rfl⟩
  · rw [mem_insertionSort]
    exact List.mem_filter.mpr ⟨List.mem_range.mpr hi, by simp⟩

theorem count_flatten_eq (i : Nat) : ∀ ls : List (List Nat),
    (ls.flatten).count i = (ls.map (fun s => s.count i)).sum := by
  intro ls
  induction ls with
  | nil => simp
  | cons s ls ih => simp [List.count_append, ih]

theorem sum_map_single (c v : Nat) : ∀ ks : List Nat, ks.Nodup →
    ((ks.map (fun k => if c = k then v else 0)).sum = if c ∈ ks then v else 0) := by
  intro ks hnd
  induction ks with
  | nil => simp
  | cons k ks ih =>
    rw [List.nodup_cons] at hnd
    by_cases hc : c = k
    · subst hc
      rw [List.map_cons, List.sum_cons, if_pos rfl, ih hnd.2, if_neg hnd.1,
        if_pos (List.mem_cons_self c ks)]
      omega
    · rw [List.map_cons, List.sum_cons, if_neg hc, ih hnd.2]
      by_cases hm : c ∈ ks
      · rw [if_pos hm, if_pos (List.mem_cons_of_mem k hm)]
        omega
      · rw [if_neg hm, if_neg (by simp [hc, hm])]

theorem count_range_eq (i n : Nat) :
    (List.range n).count i = if i < n then 1 else 0 := by
  by_cases h : i < n
  · rw [if_pos h]
    exact List.count_eq_one_of_mem (List.nodup_range n) (List.mem_range.mpr h)
  · rw [if_neg h]
    exact List.count_eq_zero_of_not_mem (fun hc => h (List.mem_range.mp hc))

theorem count_filter_eq (p : Nat → Bool) (l : List Nat) (a : Nat) :
    (l.filter p).count a = if p a then l.count a else 0 := by
  by_cases h : p a
  · rw [if_pos h]
    exact List.count_filter h
  · rw [if_neg h]
    exact List.count_eq_zero_of_not_mem (fun hc => h (List.mem_filter.mp hc).2)

theorem count_btMembers_arrivalsIndex (ps : List Proc) (i : Nat) :
    (btMembers (arrivalsIndex ps)).count i = if i < ps.length then 1 else 0 := by
  unfold btMembers arrivalsIndex
  rw [List.map_map, count_flatten_eq, List.map_map]
  have hterm : ∀ k ∈ (ps.map (fun p => p.arrival)).dedup,
      ((fun s : List Nat => s.count i) ∘ ((fun e : Nat × List Nat => e.2) ∘
        (fun k => (k, ((List.range ps.length).filter
          (fun j => arrivalAt ps j = k)).insertionSort (nameLE ps))))) k
      = (fun k => if arrivalAt ps i = k then (if i < ps.length then 1 else 0) else 0) k := by
    intro k _
    show (((List.range ps.length).filter
        (fun j => arrivalAt ps j = k)).insertionSort (nameLE ps)).count i
      = if arrivalAt ps i = k then (if i < ps.length then 1 else 0) else 0
    rw [(List.perm_insertionSort _ _).count_eq, count_filter_eq, count_range_eq]
    by_cases hik : arrivalAt ps i = k
    · rw [if_pos (by simpa using hik), if_pos hik]
    · rw [if_neg (by simpa using hik), if_neg hik]
  rw [List.map_congr_left hterm, sum_map_single _ _ _ (List.nodup_dedup _)]
  by_cases hi : i < ps.length
  · rw [if_pos (arrival_mem_dedup ps i hi), if_pos hi]
  · rw [if_neg hi]
    simp [hi]

/-! ### The SJF pick is the key-minimum of the ready set -/

theorem mem_sjfReady (ps : List Proc) (t i : Nat) :
    i ∈ sjfReady ps t ↔ i < ps.length ∧ arrivalAt ps i ≤ t ∧ 0 < remAt ps i := by
  unfold sjfReady
  simp [List.mem_filter, List.mem_range, and_assoc]

theorem sjfPick_min (ps : List Proc) (t best : Nat) (h : sjfPick ps t = some best) :
    best ∈ sjfReady ps t ∧ ∀ j ∈ sjfReady ps t, sjfKeyLE ps best j := by
  unfold sjfPick at h
  have hsort := sorted_insertionSort_of (sjfKeyLE ps) (sjfKeyLE_total ps)
    (sjfKeyLE_trans ps) (sjfReady ps t)
  have hperm := List.perm_insertionSort (sjfKeyLE ps) (sjfReady ps t)
  cases hm : (sjfReady ps t).insertionSort (sjfKeyLE ps) with
  | nil => rw [hm] at h; cases h
  | cons b rest =>
    rw [hm] at h hsort hperm
    have hb : b = best := by
      simpa using h
    subst hb
    constructor
    · exact hperm.mem_iff.mp (List.mem_cons_self b rest)
    · intro j hj
      rcases List.mem_cons.mp (hperm.mem_iff.mpr hj) with rfl | hj2
      · exact sjfKeyLE_refl ps j
      · exact (List.sorted_cons.mp hsort).1 j hj2

theorem sjfPick_none_iff (ps : List Proc) (t : Nat) :
    sjfPick ps t = none ↔ sjfReady ps t = [] := by
  unfold sjfPick
  rw [List.head?_eq_none_iff]
  constructor
  · intro h
    exact List.eq_nil_of_length_eq_zero
      (by rw [← (List.perm_insertionSort (sjfKeyLE ps) (sjfReady ps t)).length_eq, h]; rfl)
  · intro h
    rw [h]
    rfl

theorem no_selected_arrEvents (ps : List Proc) (u : Nat) (is : List Nat)
    (t2 : Nat) (n : String) (b : Nat) : Event.selected t2 n b ∉ arrEvents ps u is := by
  unfold arrEvents
  simp

theorem no_selected_sjfExec (ps : List Proc) (t : Nat) (bt : BT) (best : Nat)
    (t2 : Nat) (n : String) (b : Nat) :
    Event.selected t2 n b ∉ (sjfExec ps t bt best).evs := by
  simp only [sjfExec]
  split
  · intro hc
    rcases List.mem_append.mp hc with hc | hc
    · exact no_selected_arrEvents _ _ _ _ _ _ hc
    · simp at hc
  · exact no_selected_arrEvents _ _ _ _ _ _

theorem remAt_sjfExec (ps : List Proc) (t : Nat) (bt : BT) (best j : Nat) :
    remAt (sjfExec ps t bt best).ps j = remAt (decRem ps best) j := by
  simp only [sjfExec]
  split
  · exact remAt_setFinish _ _ _ _
  · rfl

theorem startAt_sjfExec (ps : List Proc) (t : Nat) (bt : BT) (best j : Nat) :
    startAt (sjfExec ps t bt best).ps j = startAt ps j := by
  simp only [sjfExec]
  split
  · rw [startAt_setFinish, startAt_decRem]
  · exact startAt_decRem _ _ _

/-! ### Queue shape of a round-robin slice -/

theorem rrSlice_rq_append (i n : Nat) (ps : List Proc) (t : Nat) (bt : BT)
    (rq : List Nat) :
    (rrSlice i n ps t bt rq).rq = rq ++ (rrSlice i n ps t bt []).rq := by
  induction n generalizing ps t bt rq with
  | zero => simp [rrSlice]
  | succ n ih =>
    simp only [rrSlice]
    split
    · simp
    · rw [ih (decRem ps i) (t + 1) (popArrivals bt (t + 1)).2 (rq ++ (popArrivals bt (t + 1)).1),
        ih (decRem ps i) (t + 1) (popArrivals bt (t + 1)).2 ([] ++ (popArrivals bt (t + 1)).1)]
      simp

theorem rrSlice_rq_arrivals (i n : Nat) (ps : List Proc) (t : Nat) (bt : BT)
    (rq : List Nat)
    (hbt : ∀ k v, (k, v) ∈ bt → ∀ j ∈ v, arrivalAt ps j = k) :
    ∀ j ∈ (rrSlice i n ps t bt rq).rq,
      j ∈ rq ∨ (t < arrivalAt ps j ∧ arrivalAt ps j ≤ (rrSlice i n ps t bt rq).t) := by
  induction n generalizing ps t bt rq with
  | zero =>
    intro j hj
    exact Or.inl hj
  | succ n ih =>
    intro j hj
    have harr : ∀ j2 ∈ (popArrivals bt (t + 1)).1, arrivalAt ps j2 = t + 1 := by
      intro j2 hj2
      have hne : (popArrivals bt (t + 1)).1 ≠ [] := by
        intro hc
        rw [hc] at hj2
        cases hj2
      exact hbt (t + 1) _ (popArrivals_fst_mem bt (t + 1) hne) j2 hj2
    have harr1 : ∀ j2, arrivalAt (decRem ps i) j2 = arrivalAt ps j2 :=
      fun j2 => arrivalAt_decRem ps i j2
    simp only [rrSlice] at hj ⊢
    by_cases hfin : remAt (decRem ps i) i = 0
    · rw [if_pos hfin] at hj ⊢
      rcases List.mem_append.mp hj with hj | hj
      · exact Or.inl hj
      · refine Or.inr ⟨by rw [harr j hj]; omega, ?_⟩
        rw [harr j hj]
    · rw [if_neg hfin] at hj ⊢
      have hbt2 : ∀ k v, (k, v) ∈ (popArrivals bt (t + 1)).2 →
          ∀ j2 ∈ v, arrivalAt (decRem ps i) j2 = k := by
        intro k v hkv j2 hj2
        rw [harr1]
        exact hbt k v ((popArrivals_sublist bt (t + 1)).mem hkv) j2 hj2
      have hres := ih (decRem ps i) (t + 1) (popArrivals bt (t + 1)).2
        (rq ++ (popArrivals bt (t + 1)).1) hbt2 j hj
      have htge := rrSlice_t_ge i n (decRem ps i) (t + 1) (popArrivals bt (t + 1)).2
        (rq ++ (popArrivals bt (t + 1)).1)
      rcases hres with hm | hwin
      · rcases List.mem_append.mp hm with hm | hm
        · exact Or.inl hm
        · refine Or.inr ⟨by rw [harr j hm]; omega, ?_⟩
          show arrivalAt ps j ≤ (rrSlice i n (decRem ps i) (t + 1)
            (popArrivals bt (t + 1)).2 (rq ++ (popArrivals bt (t + 1)).1)).t
          rw [harr j hm]
          omega
      · rw [harr1] at hwin
        refine Or.inr ⟨by omega, ?_⟩
        show arrivalAt ps j ≤ (rrSlice i n (decRem ps i) (t + 1)
          (popArrivals bt (t + 1)).2 (rq ++ (popArrivals bt (t + 1)).1)).t
        exact hwin.2



theorem rrSlice_rq_indep (i n : Nat) (ps : List Proc) (t : Nat) (bt : BT)
    (rq : List Nat) :
    (rrSlice i n ps t bt rq).ps = (rrSlice i n ps t bt []).ps ∧
    (rrSlice i n ps t bt rq).t = (rrSlice i n ps t bt []).t ∧
    (rrSlice i n ps t bt rq).bt = (rrSlice i n ps t bt []).bt := by
  induction n generalizing ps t bt rq with
  | zero => exact ⟨rfl, rfl, rfl⟩
  | succ n ih =>
    simp only [rrSlice]
    split
    · exact ⟨rfl, rfl, rfl⟩
    · refine ⟨?_, ?_, ?_⟩
      · rw [(ih _ _ _ (rq ++ (popArrivals bt (t + 1)).1)).1,
          (ih _ _ _ ([] ++ (popArrivals bt (t + 1)).1)).1]
      · rw [(ih _ _ _ (rq ++ (popArrivals bt (t + 1)).1)).2.1,
          (ih _ _ _ ([] ++ (popArrivals bt (t + 1)).1)).2.1]
      · rw [(ih _ _ _ (rq ++ (popArrivals bt (t + 1)).1)).2.2,
          (ih _ _ _ ([] ++ (popArrivals bt (t + 1)).1)).2.2]

/-- C5: for every process with both timestamps set, the reported metrics
satisfy turnaround = finish_time - arrival, waiting = turnaround - burst
and response = start_time - arrival (in both programs); a process lacking
finish_time gets only `none` metrics and is reported through the
did-not-finish path of both reports. -/
theorem C5_metrics (ps : List Proc) (p : Proc) (hp : p ∈ ps) :
    (∀ f s, p.finish_time = some f → p.start_time = some s →
      (calcMetric p).turnaround = some ((f : Int) - p.arrival) ∧
      (calcMetric p).waiting = some (((f : Int) - p.arrival) - p.burst) ∧
      (calcMetric p).response = some ((s : Int) - p.arrival)) ∧
    (p.finish_time = none → calcMetric p = ⟨none, none, none⟩ ∧
      p.name ∈ reportDnf ps ∧ p ∉ reportFinished ps) ∧
    (∀ f s, p.remaining = 0 → p.finish_time = some f → p.start_time = some s →
      (⟨p.name, ((f : Int) - p.arrival) - p.burst, (f : Int) - p.arrival,
        (s : Int) - p.arrival⟩ : RNMetricLine) ∈ rnMetricLines ps) ∧
    (p.finish_time = none → p.name ∈ rnUnfinished ps) := by
  refine ⟨?_, ?_, ?_, ?_⟩
  · intro f s hf hs
    simp [calcMetric, hf, hs, sub_sub]
  · intro hf
    refine ⟨by simp [calcMetric, hf], ?_, ?_⟩
    · unfold reportDnf
      refine List.mem_map.mpr ⟨p, ?_, rfl⟩
      refine List.mem_filter.mpr ⟨?_, by simp [hf]⟩
      exact (List.perm_insertionSort pNameLE ps).mem_iff.mpr hp
    · intro hmem
      unfold reportFinished at hmem
      have := (List.mem_filter.mp hmem).2
      simp [hf] at this
  · intro f s hrem hf hs
    unfold rnMetricLines
    refine List.mem_map.mpr ⟨p, ?_, ?_⟩
    · exact List.mem_filter.mpr ⟨hp, by simp [hrem, hf]⟩
    · simp [hf, hs, sub_sub]
  · intro hf
    unfold rnUnfinished
    refine List.mem_map.mpr ⟨p, ?_, rfl⟩
    exact List.mem_filter.mpr ⟨hp, by simp [hf]⟩

/-- C8 (amended): with algorithm rr and a missing quantum both programs
report the configuration error before any simulation, and GeorgeAvdella's
rr refuses a non-positive quantum with the same fatal error, emitting no
event and touching no process state; RachelNieman's simulate_rr, by
contrast, runs a non-positive quantum (see the counterexample). -/
theorem C8_quantum_guard :
    (∀ pc (ps : List Proc) runfor, runProgram "rr" none pc ps runfor =
      Except.error "Error: Missing quantum parameter when use is 'rr'") ∧
    (∀ (ps : List Proc) runfor (qv : Int), qv ≤ 0 →
      rr ps runfor qv =
        Except.error "Error: Missing quantum parameter when use is 'rr'") ∧
    (∀ (quantum : Option Int) pc (procs : List Proc), quantum = none →
      rnFinalize "rr" quantum pc procs =
        Except.error "Error: Missing quantum parameter when use is 'rr'") := by
  refine ⟨?_, ?_, ?_⟩
  · intro pc ps runfor
    simp [runProgram]
  · intro ps runfor qv hq
    unfold rr
    rw [dif_pos hq]
  · intro quantum pc procs hq
    simp [rnFinalize, hq]

/-- C8 counterexample: RachelNieman's simulate_rr with quantum 0 performs
the whole simulation (events are emitted and process state is mutated)
instead of reporting a fatal configuration error. -/
theorem C8_counterexample :
    (rnRr [mkProc "A" 0 2] 4 0).1 =
      [Event.arrived 0 "A", Event.selected 0 "A" 2, Event.finished 2 "A",
        Event.idle 2, Event.idle 3] ∧
    (rnRr [mkProc "A" 0 2] 4 0).1 ≠ [] ∧
    (rnRr [mkProc "A" 0 2] 4 0).2 ≠ [mkProc "A" 0 2] := by
  have h : rnRr [mkProc "A" 0 2] 4 0 =
      ([Event.arrived 0 "A", Event.selected 0 "A" 2, Event.finished 2 "A",
        Event.idle 2, Event.idle 3],
       [⟨"A", 0, 2, 0, some 0, some 2⟩]) := by
    simp [rnRr, rnRrGo, rnRrSelect, rnRrExecStep, rnDropFinished, mkProc, arrivalAt, burstAt, remAt,
      nameAt, startAt, finishAt, procAt, decRem, setStart, setFinish, List.range,
      List.range.loop, List.getD]
  rw [h]
  refine ⟨rfl, by decide, by decide⟩

/-- C9 (amended): GeorgeAvdella's main reports a configuration error and
runs no engine when processcount differs from the number of descriptors in
either direction; RachelNieman's parser errors only when descriptors are
fewer, and silently truncates extra descriptors to the first processcount
of them. -/
theorem C9_processcount_check :
    (∀ algo (quantum : Option Int) pc (ps : List Proc) runfor, pc ≠ ps.length →
      ∃ msg, runProgram algo quantum pc ps runfor = Except.error msg) ∧
    (∀ u (quantum : Option Int) pc (procs : List Proc),
      ¬ (u = "rr" ∧ quantum = none) → procs.length < pc →
      rnFinalize u quantum pc procs = Except.error "Error: Missing parameter process") ∧
    (∀ u (quantum : Option Int) pc (procs : List Proc),
      ¬ (u = "rr" ∧ quantum = none) → pc ≤ procs.length →
      rnFinalize u quantum pc procs = Except.ok (procs.take pc)) := by
  refine ⟨?_, ?_, ?_⟩
  · intro algo quantum pc ps runfor hne
    unfold runProgram
    by_cases hq : algo = "rr" ∧ quantum = none
    · rw [if_pos hq]
      exact ⟨_, rfl⟩
    · rw [if_neg hq, if_pos hne]
      exact ⟨_, rfl⟩
  · intro u quantum pc procs hq hlt
    unfold rnFinalize
    rw [if_neg hq, if_pos hlt]
  · intro u quantum pc procs hq hle
    unfold rnFinalize
    rw [if_neg hq, if_neg (by omega)]

/-- C9 counterexample: RachelNieman's parser, given processcount 1 and two
descriptors, silently drops the second descriptor and proceeds. -/
theorem C9_counterexample :
    rnFinalize "fcfs" none 1 [mkProc "A" 0 1, mkProc "B" 0 1] =
      Except.ok [mkProc "A" 0 1] := by
  rfl

/-- C1 counterexample: in RachelNieman's preemptive SJF engine the
Finished event attributed to tick 1 is emitted before the Arrived event of
tick 1, so the intra-tick ordering clause fails on this engine. -/
theorem C1_counterexample :
    ¬ List.Pairwise c1Ord (rnSjf [mkProc "A" 0 1, mkProc "B" 1 1] 3).1 := by
  have h : (rnSjf [mkProc "A" 0 1, mkProc "B" 1 1] 3).1 =
      [Event.arrived 0 "A", Event.selected 0 "A" 1, Event.finished 1 "A",
       Event.arrived 1 "B", Event.selected 1 "B" 1, Event.finished 2 "B",
       Event.idle 2] := by
    simp [rnSjf, rnSjfGo, rnSjfRunStep, pickMin, mkProc, arrivalAt, burstAt, remAt, nameAt, startAt,
      finishAt, procAt, decRem, setStart, setFinish, sjfKeyLT, List.range,
      List.range.loop, List.getD]
  rw [h]
  decide

/-- Witness for C5 at a concrete input. -/
theorem C5_witness :
    (calcMetric ⟨"A", 0, 1, 0, some 0, some 1⟩).turnaround = some 1 := by
  rw [((C5_metrics [⟨"A", 0, 1, 0, some 0, some 1⟩] ⟨"A", 0, 1, 0, some 0, some 1⟩
    (List.mem_singleton.mpr rfl)).1 1 0 rfl rfl).1]
  norm_num

/-- Witness for C8 at a concrete input. -/
theorem C8_witness :
    runProgram "rr" none 0 [] 5 =
      Except.error "Error: Missing quantum parameter when use is 'rr'" :=
  C8_quantum_guard.1 0 [] 5

/-- Witness for C9 at a concrete input. -/
theorem C9_witness : ∃ msg, runProgram "fcfs" none 2 [] 5 = Except.error msg :=
  C9_processcount_check.1 "fcfs" none 2 [] 5 (by decide)

/-! ### One-step unfolding equations for the engine loops -/

theorem sjfGo_pos (runfor : Nat) (ps : List Proc) (t : Nat) (bt : BT) (cur : Option Nat)
    (h : t < runfor) :
    sjfGo runfor ps t bt cur =
      ((sjfStep ps t bt cur).evs ++
        (sjfGo runfor (sjfStep ps t bt cur).ps (t + 1) (sjfStep ps t bt cur).bt
          (sjfStep ps t bt cur).cur).1,
       (sjfGo runfor (sjfStep ps t bt cur).ps (t + 1) (sjfStep ps t bt cur).bt
          (sjfStep ps t bt cur).cur).2) := by
  rw [sjfGo.eq_def, dif_pos h]

theorem sjfGo_neg (runfor : Nat) (ps : List Proc) (t : Nat) (bt : BT) (cur : Option Nat)
    (h : ¬ t < runfor) : sjfGo runfor ps t bt cur = ([], ps) := by
  rw [sjfGo.eq_def, dif_neg h]

theorem rrGo_idle (runfor : Nat) (q : {n : Nat // 0 < n}) (ps : List Proc) (t : Nat)
    (bt : BT) (rq : List Nat) (h : t < runfor)
    (hm : rq ++ (popArrivals bt t).1 = []) :
    rrGo runfor q ps t bt rq =
      (arrEvents ps t (popArrivals bt t).1 ++ [Event.idle t] ++
        arrEvents ps (t + 1) (popArrivals (popArrivals bt t).2 (t + 1)).1 ++
        (rrGo runfor q ps (t + 1) (popArrivals (popArrivals bt t).2 (t + 1)).2
          (popArrivals (popArrivals bt t).2 (t + 1)).1).1,
       (rrGo runfor q ps (t + 1) (popArrivals (popArrivals bt t).2 (t + 1)).2
          (popArrivals (popArrivals bt t).2 (t + 1)).1).2) := by
  rw [rrGo.eq_def, dif_pos h]
  dsimp only
  split
  · rfl
  · next i rest heq =>
    rw [hm] at heq
    cases heq

theorem rrGo_run (runfor : Nat) (q : {n : Nat // 0 < n}) (ps : List Proc) (t : Nat)
    (bt : BT) (rq : List Nat) (i : Nat) (rest : List Nat) (h : t < runfor)
    (hm : rq ++ (popArrivals bt t).1 = i :: rest) :
    rrGo runfor q ps t bt rq =
      (arrEvents ps t (popArrivals bt t).1 ++
        (rrRunBranch runfor q.1 i ps t (popArrivals bt t).2 rest).evs ++
        (rrGo runfor q (rrRunBranch runfor q.1 i ps t (popArrivals bt t).2 rest).ps
          (rrRunBranch runfor q.1 i ps t (popArrivals bt t).2 rest).t
          (rrRunBranch runfor q.1 i ps t (popArrivals bt t).2 rest).bt
          (rrRunBranch runfor q.1 i ps t (popArrivals bt t).2 rest).rq).1,
       (rrGo runfor q (rrRunBranch runfor q.1 i ps t (popArrivals bt t).2 rest).ps
          (rrRunBranch runfor q.1 i ps t (popArrivals bt t).2 rest).t
          (rrRunBranch runfor q.1 i ps t (popArrivals bt t).2 rest).bt
          (rrRunBranch runfor q.1 i ps t (popArrivals bt t).2 rest).rq).2) := by
  rw [rrGo.eq_def, dif_pos h]
  dsimp only
  split
  · next heq =>
    rw [hm] at heq
    cases heq
  · next i2 rest2 heq =>
    rw [hm] at heq
    injection heq with h1 h2
    subst h1
    subst h2
    rfl

theorem rrGo_neg (runfor : Nat) (q : {n : Nat // 0 < n}) (ps : List Proc) (t : Nat)
    (bt : BT) (rq : List Nat) (h : ¬ t < runfor) :
    rrGo runfor q ps t bt rq = ([], ps) := by
  rw [rrGo.eq_def, dif_neg h]

theorem fcfsIdle_pos (ps : List Proc) (runfor arrival t : Nat) (bt : BT)
    (h : t < arrival ∧ t < runfor) :
    fcfsIdle ps runfor arrival t bt =
      ⟨arrEvents ps t (popArrivals bt t).1 ++ [Event.idle t] ++
        (fcfsIdle ps runfor arrival (t + 1) (popArrivals bt t).2).evs,
       (fcfsIdle ps runfor arrival (t + 1) (popArrivals bt t).2).t,
       (fcfsIdle ps runfor arrival (t + 1) (popArrivals bt t).2).bt⟩ := by
  rw [fcfsIdle.eq_def, dif_pos h]

theorem fcfsIdle_neg (ps : List Proc) (runfor arrival t : Nat) (bt : BT)
    (h : ¬ (t < arrival ∧ t < runfor)) :
    fcfsIdle ps runfor arrival t bt = ⟨[], t, bt⟩ := by
  rw [fcfsIdle.eq_def, dif_neg h]

theorem fcfsRun_pos (runfor i : Nat) (ps : List Proc) (t : Nat) (bt : BT)
    (h : 0 < remAt ps i ∧ t < runfor) :
    fcfsRun runfor i ps t bt =
      ⟨arrEvents (decRem ps i) (t + 1) (popArrivals bt (t + 1)).1 ++
        (fcfsRun runfor i (decRem ps i) (t + 1) (popArrivals bt (t + 1)).2).evs,
       (fcfsRun runfor i (decRem ps i) (t + 1) (popArrivals bt (t + 1)).2).ps,
       (fcfsRun runfor i (decRem ps i) (t + 1) (popArrivals bt (t + 1)).2).t,
       (fcfsRun runfor i (decRem ps i) (t + 1) (popArrivals bt (t + 1)).2).bt⟩ := by
  rw [fcfsRun.eq_def, dif_pos h]

theorem fcfsRun_neg (runfor i : Nat) (ps : List Proc) (t : Nat) (bt : BT)
    (h : ¬ (0 < remAt ps i ∧ t < runfor)) :
    fcfsRun runfor i ps t bt = ⟨[], ps, t, bt⟩ := by
  rw [fcfsRun.eq_def, dif_neg h]

theorem fcfsTrail_pos (ps : List Proc) (runfor t : Nat) (bt : BT) (h : t < runfor) :
    fcfsTrail ps runfor t bt =
      arrEvents ps t (popArrivals bt t).1 ++ [Event.idle t] ++
        fcfsTrail ps runfor (t + 1) (popArrivals bt t).2 := by
  rw [fcfsTrail.eq_def, dif_pos h]

theorem fcfsTrail_neg (ps : List Proc) (runfor t : Nat) (bt : BT) (h : ¬ t < runfor) :
    fcfsTrail ps runfor t bt = [] := by
  rw [fcfsTrail.eq_def, dif_neg h]

theorem rnFcfsGo_none (runfor : Nat) (ordered : List Nat) (ps : List Proc)
    (time : Nat) (queue : List Nat) (cur : Option Nat) (h : time < runfor)
    (hs : (rnFcfsSelect ps time
      (queue ++ ordered.filter (fun i => decide (arrivalAt ps i = time))) cur).cur = none) :
    rnFcfsGo runfor ordered ps time queue cur =
      (((ordered.filter (fun i => decide (arrivalAt ps i = time))).map
          (fun i => Event.arrived time (nameAt ps i))) ++
        (rnFcfsSelect ps time
          (queue ++ ordered.filter (fun i => decide (arrivalAt ps i = time))) cur).evs ++
        [Event.idle time] ++
        (rnFcfsGo runfor ordered
          (rnFcfsSelect ps time
            (queue ++ ordered.filter (fun i => decide (arrivalAt ps i = time))) cur).ps
          (time + 1)
          (rnFcfsSelect ps time
            (queue ++ ordered.filter (fun i => decide (arrivalAt ps i = time))) cur).queue
          none).1,
       (rnFcfsGo runfor ordered
          (rnFcfsSelect ps time
            (queue ++ ordered.filter (fun i => decide (arrivalAt ps i = time))) cur).ps
          (time + 1)
          (rnFcfsSelect ps time
            (queue ++ ordered.filter (fun i => decide (arrivalAt ps i = time))) cur).queue
          none).2) := by
  rw [rnFcfsGo.eq_def, dif_pos h]
  dsimp only
  split
  · next heq => rfl
  · next c heq =>
    rw [hs] at heq
    cases heq

theorem rnFcfsGo_some (runfor : Nat) (ordered : List Nat) (ps : List Proc)
    (time : Nat) (queue : List Nat) (cur : Option Nat) (c : Nat) (h : time < runfor)
    (hs : (rnFcfsSelect ps time
      (queue ++ ordered.filter (fun i => decide (arrivalAt ps i = time))) cur).cur
      = some c) :
    rnFcfsGo runfor ordered ps time queue cur =
      (((ordered.filter (fun i => decide (arrivalAt ps i = time))).map
          (fun i => Event.arrived time (nameAt ps i))) ++
        (rnFcfsSelect ps time
          (queue ++ ordered.filter (fun i => decide (arrivalAt ps i = time))) cur).evs ++
        (rnFcfsExecStep (rnFcfsSelect ps time
          (queue ++ ordered.filter (fun i => decide (arrivalAt ps i = time))) cur).ps
          time c).1 ++
        (rnFcfsGo runfor ordered
          (rnFcfsExecStep (rnFcfsSelect ps time
            (queue ++ ordered.filter (fun i => decide (arrivalAt ps i = time))) cur).ps
            time c).2
          (time + 1)
          (rnFcfsSelect ps time
            (queue ++ ordered.filter (fun i => decide (arrivalAt ps i = time))) cur).queue
          (some c)).1,
       (rnFcfsGo runfor ordered
          (rnFcfsExecStep (rnFcfsSelect ps time
            (queue ++ ordered.filter (fun i => decide (arrivalAt ps i = time))) cur).ps
            time c).2
          (time + 1)
          (rnFcfsSelect ps time
            (queue ++ ordered.filter (fun i => decide (arrivalAt ps i = time))) cur).queue
          (some c)).2) := by
  rw [rnFcfsGo.eq_def, dif_pos h]
  dsimp only
  split
  · next heq =>
    rw [hs] at heq
    cases heq
  · next c2 heq =>
    rw [hs] at heq
    injection heq with h1
    subst h1
    rfl

theorem rnFcfsGo_neg (runfor : Nat) (ordered : List Nat) (ps : List Proc)
    (time : Nat) (queue : List Nat) (cur : Option Nat) (h : ¬ time < runfor) :
    rnFcfsGo runfor ordered ps time queue cur = ([], ps) := by
  rw [rnFcfsGo.eq_def, dif_neg h]

theorem rnSjfGo_idle (runfor : Nat) (ps : List Proc) (time : Nat)
    (lastSel : Option Nat) (h : time < runfor)
    (hp : pickMin ps ((List.range ps.length).filter
      (fun i => decide (arrivalAt ps i ≤ time ∧ 0 < remAt ps i))) = none) :
    rnSjfGo runfor ps time lastSel =
      (((List.range ps.length).filter (fun i => decide (arrivalAt ps i = time))).map
          (fun i => Event.arrived time (nameAt ps i)) ++
        [Event.idle time] ++ (rnSjfGo runfor ps (time + 1) none).1,
       (rnSjfGo runfor ps (time + 1) none).2) := by
  rw [rnSjfGo.eq_def, dif_pos h]
  dsimp only
  split
  · rfl
  · next s heq =>
    rw [hp] at heq
    cases heq

theorem rnSjfGo_run (runfor : Nat) (ps : List Proc) (time : Nat)
    (lastSel : Option Nat) (s : Nat) (h : time < runfor)
    (hp : pickMin ps ((List.range ps.length).filter
      (fun i => decide (arrivalAt ps i ≤ time ∧ 0 < remAt ps i))) = some s) :
    rnSjfGo runfor ps time lastSel =
      (((List.range ps.length).filter (fun i => decide (arrivalAt ps i = time))).map
          (fun i => Event.arrived time (nameAt ps i)) ++
        (rnSjfRunStep ps time s lastSel).evs ++
        (rnSjfGo runfor (rnSjfRunStep ps time s lastSel).ps (time + 1)
          (rnSjfRunStep ps time s lastSel).last).1,
       (rnSjfGo runfor (rnSjfRunStep ps time s lastSel).ps (time + 1)
          (rnSjfRunStep ps time s lastSel).last).2) := by
  rw [rnSjfGo.eq_def, dif_pos h]
  dsimp only
  split
  · next heq =>
    rw [hp] at heq
    cases heq
  · next s2 heq =>
    rw [hp] at heq
    injection heq with h1
    subst h1
    rfl

theorem rnSjfGo_neg (runfor : Nat) (ps : List Proc) (time : Nat)
    (lastSel : Option Nat) (h : ¬ time < runfor) :
    rnSjfGo runfor ps time lastSel = ([], ps) := by
  rw [rnSjfGo.eq_def, dif_neg h]

theorem rnRrGo_idle (runfor : Nat) (quantum : Int) (ps : List Proc) (time : Nat)
    (queue : List Nat) (running : Option Nat) (remQ : Int) (h : time < runfor)
    (hs : (rnRrSelect ps time quantum
      (queue ++ ((List.range ps.length).filter
        (fun i => decide (arrivalAt ps i = time))).filter
          (fun i => decide (0 < remAt ps i))) running remQ).running = none) :
    rnRrGo runfor quantum ps time queue running remQ =
      (((List.range ps.length).filter (fun i => decide (arrivalAt ps i = time))).map
          (fun i => Event.arrived time (nameAt ps i)) ++
        (rnRrSelect ps time quantum
          (queue ++ ((List.range ps.length).filter
            (fun i => decide (arrivalAt ps i = time))).filter
              (fun i => decide (0 < remAt ps i))) running remQ).evs ++
        [Event.idle time] ++
        (rnRrGo runfor quantum
          (rnRrSelect ps time quantum
            (queue ++ ((List.range ps.length).filter
              (fun i => decide (arrivalAt ps i = time))).filter
                (fun i => decide (0 < remAt ps i))) running remQ).ps
          (time + 1)
          (rnRrSelect ps time quantum
            (queue ++ ((List.range ps.length).filter
              (fun i => decide (arrivalAt ps i = time))).filter
                (fun i => decide (0 < remAt ps i))) running remQ).queue
          none
          (rnRrSelect ps time quantum
            (queue ++ ((List.range ps.length).filter
              (fun i => decide (arrivalAt ps i = time))).filter
                (fun i => decide (0 < remAt ps i))) running remQ).remQ).1,
       (rnRrGo runfor quantum
          (rnRrSelect ps time quantum
            (queue ++ ((List.range ps.length).filter
              (fun i => decide (arrivalAt ps i = time))).filter
                (fun i => decide (0 < remAt ps i))) running remQ).ps
          (time + 1)
          (rnRrSelect ps time quantum
            (queue ++ ((List.range ps.length).filter
              (fun i => decide (arrivalAt ps i = time))).filter
                (fun i => decide (0 < remAt ps i))) running remQ).queue
          none
          (rnRrSelect ps time quantum
            (queue ++ ((List.range ps.length).filter
              (fun i => decide (arrivalAt ps i = time))).filter
                (fun i => decide (0 < remAt ps i))) running remQ).remQ).2) := by
  rw [rnRrGo.eq_def, dif_pos h]
  dsimp only
  split
  · rfl
  · next c heq =>
    rw [hs] at heq
    cases heq

theorem rnRrGo_run (runfor : Nat) (quantum : Int) (ps : List Proc) (time : Nat)
    (queue : List Nat) (running : Option Nat) (remQ : Int) (c : Nat) (h : time < runfor)
    (hs : (rnRrSelect ps time quantum
      (queue ++ ((List.range ps.length).filter
        (fun i => decide (arrivalAt ps i = time))).filter
          (fun i => decide (0 < remAt ps i))) running remQ).running = some c) :
    rnRrGo runfor quantum ps time queue running remQ =
      (((List.range ps.length).filter (fun i => decide (arrivalAt ps i = time))).map
          (fun i => Event.arrived time (nameAt ps i)) ++
        (rnRrSelect ps time quantum
          (queue ++ ((List.range ps.length).filter
            (fun i => decide (arrivalAt ps i = time))).filter
              (fun i => decide (0 < remAt ps i))) running remQ).evs ++
        (rnRrExecStep (rnRrSelect ps time quantum
          (queue ++ ((List.range ps.length).filter
            (fun i => decide (arrivalAt ps i = time))).filter
              (fun i => decide (0 < remAt ps i))) running remQ).ps time c
          (rnRrSelect ps time quantum
            (queue ++ ((List.range ps.length).filter
              (fun i => decide (arrivalAt ps i = time))).filter
                (fun i => decide (0 < remAt ps i))) running remQ).remQ).evs ++
        (rnRrGo runfor quantum
          (rnRrExecStep (rnRrSelect ps time quantum
            (queue ++ ((List.range ps.length).filter
              (fun i => decide (arrivalAt ps i = time))).filter
                (fun i => decide (0 < remAt ps i))) running remQ).ps time c
            (rnRrSelect ps time quantum
              (queue ++ ((List.range ps.length).filter
                (fun i => decide (arrivalAt ps i = time))).filter
                  (fun i => decide (0 < remAt ps i))) running remQ).remQ).ps
          (time + 1)
          (rnRrSelect ps time quantum
            (queue ++ ((List.range ps.length).filter
              (fun i => decide (arrivalAt ps i = time))).filter
                (fun i => decide (0 < remAt ps i))) running remQ).queue
          (rnRrExecStep (rnRrSelect ps time quantum
            (queue ++ ((List.range ps.length).filter
              (fun i => decide (arrivalAt ps i = time))).filter
                (fun i => decide (0 < remAt ps i))) running remQ).ps time c
            (rnRrSelect ps time quantum
              (queue ++ ((List.range ps.length).filter
                (fun i => decide (arrivalAt ps i = time))).filter
                  (fun i => decide (0 < remAt ps i))) running remQ).remQ).running
          (rnRrExecStep (rnRrSelect ps time quantum
            (queue ++ ((List.range ps.length).filter
              (fun i => decide (arrivalAt ps i = time))).filter
                (fun i => decide (0 < remAt ps i))) running remQ).ps time c
            (rnRrSelect ps time quantum
              (queue ++ ((List.range ps.length).filter
                (fun i => decide (arrivalAt ps i = time))).filter
                  (fun i => decide (0 < remAt ps i))) running remQ).remQ).remQ).1,
       (rnRrGo runfor quantum
          (rnRrExecStep (rnRrSelect ps time quantum
            (queue ++ ((List.range ps.length).filter
              (fun i => decide (arrivalAt ps i = time))).filter
                (fun i => decide (0 < remAt ps i))) running remQ).ps time c
            (rnRrSelect ps time quantum
              (queue ++ ((List.range ps.length).filter
                (fun i => decide (arrivalAt ps i = time))).filter
                  (fun i => decide (0 < remAt ps i))) running remQ).remQ).ps
          (time + 1)
          (rnRrSelect ps time quantum
            (queue ++ ((List.range ps.length).filter
              (fun i => decide (arrivalAt ps i = time))).filter
                (fun i => decide (0 < remAt ps i))) running remQ).queue
          (rnRrExecStep (rnRrSelect ps time quantum
            (queue ++ ((List.range ps.length).filter
              (fun i => decide (arrivalAt ps i = time))).filter
                (fun i => decide (0 < remAt ps i))) running remQ).ps time c
            (rnRrSelect ps time quantum
              (queue ++ ((List.range ps.length).filter
                (fun i => decide (arrivalAt ps i = time))).filter
                  (fun i => decide (0 < remAt ps i))) running remQ).remQ).running
          (rnRrExecStep (rnRrSelect ps time quantum
            (queue ++ ((List.range ps.length).filter
              (fun i => decide (arrivalAt ps i = time))).filter
                (fun i => decide (0 < remAt ps i))) running remQ).ps time c
            (rnRrSelect ps time quantum
              (queue ++ ((List.range ps.length).filter
                (fun i => decide (arrivalAt ps i = time))).filter
                  (fun i => decide (0 < remAt ps i))) running remQ).remQ).remQ).2) := by
  rw [rnRrGo.eq_def, dif_pos h]
  dsimp only
  split
  · next heq =>
    rw [hs] at heq
    cases heq
  · next c2 heq =>
    rw [hs] at heq
    injection heq with h1
    subst h1
    rfl

theorem rnRrGo_neg (runfor : Nat) (quantum : Int) (ps : List Proc) (time : Nat)
    (queue : List Nat) (running : Option Nat) (remQ : Int) (h : ¬ time < runfor) :
    rnRrGo runfor quantum ps time queue running remQ = ([], ps) := by
  rw [rnRrGo.eq_def, dif_neg h]

theorem mem_arrEvents {ps : List Proc} {u : Nat} {is : List Nat} {e : Event}
    (he : e ∈ arrEvents ps u is) : ∃ i ∈ is, e = Event.arrived u (nameAt ps i) := by
  unfold arrEvents at he
  rcases List.mem_map.mp he with ⟨i, hi, hei⟩
  exact ⟨i, hi, hei.symm⟩

theorem tick_arrEvents {ps : List Proc} {u : Nat} {is : List Nat} {e : Event}
    (he : e ∈ arrEvents ps u is) : tickOf e = u := by
  rcases mem_arrEvents he with ⟨i, _, rfl⟩
  rfl

theorem isArr_arrEvents {ps : List Proc} {u : Nat} {is : List Nat} {e : Event}
    (he : e ∈ arrEvents ps u is) : isArr e = true := by
  rcases mem_arrEvents he with ⟨i, _, rfl⟩
  rfl

theorem sjfExec_evs_tick (ps : List Proc) (t : Nat) (bt : BT) (best : Nat) :
    ∀ e ∈ (sjfExec ps t bt best).evs, tickOf e = t + 1 := by
  intro e he
  simp only [sjfExec] at he
  split at he
  · rcases List.mem_append.mp he with hm | hm
    · exact tick_arrEvents hm
    · rw [List.mem_singleton.mp hm]
      rfl
  · exact tick_arrEvents he

theorem sjfStep_evs_tick (ps : List Proc) (t : Nat) (bt : BT) (cur : Option Nat) :
    ∀ e ∈ (sjfStep ps t bt cur).evs, tickOf e = t ∨ tickOf e = t + 1 := by
  intro e he
  simp only [sjfStep] at he
  cases hp : sjfPick ps t with
  | none =>
    rw [hp] at he
    simp only at he
    rcases List.mem_append.mp he with hm | hm
    · exact Or.inl (tick_arrEvents hm)
    · rw [List.mem_singleton.mp hm]
      exact Or.inl rfl
  | some best =>
    rw [hp] at he
    simp only at he
    split at he
    · rcases List.mem_append.mp he with hm | hm
      · exact Or.inl (tick_arrEvents hm)
      · exact Or.inr (sjfExec_evs_tick _ _ _ _ _ hm)
    · rcases List.mem_append.mp he with hm | hm
      · rcases List.mem_append.mp hm with hm2 | hm2
        · exact Or.inl (tick_arrEvents hm2)
        · rw [List.mem_singleton.mp hm2]
          exact Or.inl rfl
      · exact Or.inr (sjfExec_evs_tick _ _ _ _ _ hm)

theorem sjfGo_tick_le (runfor : Nat) (ps : List Proc) (t : Nat) (bt : BT)
    (cur : Option Nat) : ∀ e ∈ (sjfGo runfor ps t bt cur).1, tickOf e ≤ runfor := by
  induction ps, t, bt, cur using sjfGo.induct runfor with
  | case1 ps t bt cur h s ih =>
    intro e he
    rw [sjfGo_pos runfor ps t bt cur h] at he
    rcases List.mem_append.mp he with hm | hm
    · rcases sjfStep_evs_tick ps t bt cur e hm with h1 | h1 <;> omega
    · exact ih e hm
  | case2 ps t bt cur h =>
    intro e he
    rw [sjfGo_neg runfor ps t bt cur h] at he
    cases he

end Sched

namespace Sched

theorem fcfsIdle_evs_tick (ps : List Proc) (runfor arrival : Nat) :
    ∀ (t : Nat) (bt : BT), ∀ e ∈ (fcfsIdle ps runfor arrival t bt).evs,
      t ≤ tickOf e ∧ tickOf e < runfor := by
  intro t bt
  induction t, bt using fcfsIdle.induct ps runfor arrival with
  | case1 t bt h pr ih =>
    intro e he
    rw [fcfsIdle_pos ps runfor arrival t bt h] at he
    rcases List.mem_append.mp he with hm | hm
    · rcases List.mem_append.mp hm with hm2 | hm2
      · have := tick_arrEvents hm2
        omega
      · rw [List.mem_singleton.mp hm2]
        simp only [tickOf]
        omega
    · have h2 : t + 1 ≤ tickOf e ∧ tickOf e < runfor := ih e hm
      omega
  | case2 t bt h =>
    intro e he
    rw [fcfsIdle_neg ps runfor arrival t bt h] at he
    cases he

theorem fcfsIdle_t_ge (ps : List Proc) (runfor arrival : Nat) :
    ∀ (t : Nat) (bt : BT), t ≤ (fcfsIdle ps runfor arrival t bt).t := by
  intro t bt
  induction t, bt using fcfsIdle.induct ps runfor arrival with
  | case1 t bt h pr ih =>
    have heq : (fcfsIdle ps runfor arrival t bt).t
        = (fcfsIdle ps runfor arrival (t + 1) (popArrivals bt t).2).t := by
      rw [fcfsIdle_pos ps runfor arrival t bt h]
    rw [heq]
    exact le_trans (Nat.le_succ t) ih
  | case2 t bt h =>
    rw [fcfsIdle_neg ps runfor arrival t bt h]

theorem fcfsIdle_t_le (ps : List Proc) (runfor arrival : Nat) :
    ∀ (t : Nat) (bt : BT), t ≤ runfor → (fcfsIdle ps runfor arrival t bt).t ≤ runfor := by
  intro t bt
  induction t, bt using fcfsIdle.induct ps runfor arrival with
  | case1 t bt h pr ih =>
    intro _
    have heq : (fcfsIdle ps runfor arrival t bt).t
        = (fcfsIdle ps runfor arrival (t + 1) (popArrivals bt t).2).t := by
      rw [fcfsIdle_pos ps runfor arrival t bt h]
    rw [heq]
    exact ih (by omega)
  | case2 t bt h =>
    intro hle
    rw [fcfsIdle_neg ps runfor arrival t bt h]
    exact hle

theorem fcfsRun_t_ge (runfor i : Nat) :
    ∀ (ps : List Proc) (t : Nat) (bt : BT), t ≤ (fcfsRun runfor i ps t bt).t := by
  intro ps t bt
  induction ps, t, bt using fcfsRun.induct runfor i with
  | case1 ps t bt h ps1 pr ih =>
    have heq : (fcfsRun runfor i ps t bt).t
        = (fcfsRun runfor i (decRem ps i) (t + 1) (popArrivals bt (t + 1)).2).t := by
      rw [fcfsRun_pos runfor i ps t bt h]
    rw [heq]
    exact le_trans (Nat.le_succ t) ih
  | case2 ps t bt h =>
    rw [fcfsRun_neg runfor i ps t bt h]

theorem fcfsRun_t_le (runfor i : Nat) :
    ∀ (ps : List Proc) (t : Nat) (bt : BT), t ≤ runfor →
      (fcfsRun runfor i ps t bt).t ≤ runfor := by
  intro ps t bt
  induction ps, t, bt using fcfsRun.induct runfor i with
  | case1 ps t bt h ps1 pr ih =>
    intro _
    have heq : (fcfsRun runfor i ps t bt).t
        = (fcfsRun runfor i (decRem ps i) (t + 1) (popArrivals bt (t + 1)).2).t := by
      rw [fcfsRun_pos runfor i ps t bt h]
    rw [heq]
    exact ih (by omega)
  | case2 ps t bt h =>
    intro hle
    rw [fcfsRun_neg runfor i ps t bt h]
    exact hle

theorem fcfsRun_evs_tick (runfor i : Nat) :
    ∀ (ps : List Proc) (t : Nat) (bt : BT), ∀ e ∈ (fcfsRun runfor i ps t bt).evs,
      t < tickOf e ∧ tickOf e ≤ (fcfsRun runfor i ps t bt).t := by
  intro ps t bt
  induction ps, t, bt using fcfsRun.induct runfor i with
  | case1 ps t bt h ps1 pr ih =>
    intro e he
    have heq : (fcfsRun runfor i ps t bt).t
        = (fcfsRun runfor i (decRem ps i) (t + 1) (popArrivals bt (t + 1)).2).t := by
      rw [fcfsRun_pos runfor i ps t bt h]
    rw [fcfsRun_pos runfor i ps t bt h] at he
    rw [heq]
    have htge := fcfsRun_t_ge runfor i (decRem ps i) (t + 1) (popArrivals bt (t + 1)).2
    rcases List.mem_append.mp he with hm | hm
    · have := tick_arrEvents hm
      omega
    · have h2 : t + 1 < tickOf e ∧ tickOf e ≤
          (fcfsRun runfor i (decRem ps i) (t + 1) (popArrivals bt (t + 1)).2).t := ih e hm
      omega
  | case2 ps t bt h =>
    intro e he
    rw [fcfsRun_neg runfor i ps t bt h] at he
    cases he

theorem fcfsTrail_evs_tick (ps : List Proc) (runfor : Nat) :
    ∀ (t : Nat) (bt : BT), ∀ e ∈ fcfsTrail ps runfor t bt,
      t ≤ tickOf e ∧ tickOf e < runfor := by
  intro t bt
  induction t, bt using fcfsTrail.induct ps runfor with
  | case1 t bt h pr ih =>
    intro e he
    rw [fcfsTrail_pos ps runfor t bt h] at he
    rcases List.mem_append.mp he with hm | hm
    · rcases List.mem_append.mp hm with hm2 | hm2
      · have := tick_arrEvents hm2
        omega
      · rw [List.mem_singleton.mp hm2]
        simp only [tickOf]
        omega
    · have h2 : t + 1 ≤ tickOf e ∧ tickOf e < runfor := ih e hm
      omega
  | case2 t bt h =>
    intro e he
    rw [fcfsTrail_neg ps runfor t bt h] at he
    cases he

theorem fcfsMain_tick_le (runfor : Nat) (order : List Nat) :
    ∀ (ps : List Proc) (t : Nat) (bt : BT), t ≤ runfor →
      ∀ e ∈ (fcfsMain runfor order ps t bt).1, tickOf e ≤ runfor := by
  induction order with
  | nil =>
    intro ps t bt hle e he
    simp only [fcfsMain] at he
    have := fcfsTrail_evs_tick ps runfor t bt e he
    omega
  | cons i rest ih =>
    intro ps t bt hle e he
    have hidle_le := fcfsIdle_t_le ps runfor (arrivalAt ps i) t bt hle
    have hidle_evs := fcfsIdle_evs_tick ps runfor (arrivalAt ps i) t bt
    simp only [fcfsMain] at he
    by_cases hbr : runfor ≤ (fcfsIdle ps runfor (arrivalAt ps i) t bt).t
    · rw [if_pos hbr] at he
      have := hidle_evs e he
      omega
    · rw [if_neg hbr] at he
      generalize hidl : fcfsIdle ps runfor (arrivalAt ps i) t bt = idl at he hidle_le hbr hidle_evs
      generalize hsel : (if startAt ps i = none then
          ([Event.selected idl.t (nameAt ps i) (remAt ps i)], setStart ps i idl.t)
        else (([] : List Event), ps)) = sel at he
      have hrun_le := fcfsRun_t_le runfor i sel.2 idl.t (popArrivals idl.bt idl.t).2
        (by omega)
      have hrun_evs := fcfsRun_evs_tick runfor i sel.2 idl.t (popArrivals idl.bt idl.t).2
      rcases List.mem_append.mp he with hm | hrest
      · rcases List.mem_append.mp hm with hm | hfin
        · rcases List.mem_append.mp hm with hm | hrun
          · rcases List.mem_append.mp hm with hm | hselm
            · rcases List.mem_append.mp hm with hidl2 | harr
              · have := hidle_evs e hidl2
                omega
              · have := tick_arrEvents harr
                omega
            · have : e ∈ sel.1 → tickOf e = idl.t := by
                intro hs
                rw [← hsel] at hs
                split at hs
                · rw [List.mem_singleton.mp hs]
                  rfl
                · cases hs
              have := this hselm
              omega
          · have := hrun_evs e hrun
            omega
        · split at hfin
          · rw [List.mem_singleton.mp hfin]
            simp only [tickOf]
            omega
          · cases hfin
      · exact ih _ _ _ (by omega) e hrest

end Sched
namespace Sched

theorem rrSlice_evs_tick (i : Nat) :
    ∀ (n : Nat) (ps : List Proc) (t : Nat) (bt : BT) (rq : List Nat),
      ∀ e ∈ (rrSlice i n ps t bt rq).evs,
        t < tickOf e ∧ tickOf e ≤ (rrSlice i n ps t bt rq).t := by
  intro n
  induction n with
  | zero =>
    intro ps t bt rq e he
    simp only [rrSlice, RSl_evs] at he
    cases he
  | succ n ih =>
    intro ps t bt rq e he
    simp only [rrSlice] at he ⊢
    split at he <;> rename_i hfin
    · rw [if_pos hfin]
      simp only [RSl_evs, RSl_t] at he ⊢
      rcases List.mem_append.mp he with hm | hm
      · have := tick_arrEvents hm
        omega
      · rw [List.mem_singleton.mp hm]
        simp only [tickOf]
        omega
    · rw [if_neg hfin]
      simp only [RSl_evs, RSl_t] at he ⊢
      have htge := rrSlice_t_ge i n (decRem ps i) (t + 1) (popArrivals bt (t + 1)).2
        (rq ++ (popArrivals bt (t + 1)).1)
      rcases List.mem_append.mp he with hm | hm
      · have := tick_arrEvents hm
        omega
      · have h2 := ih (decRem ps i) (t + 1) (popArrivals bt (t + 1)).2
          (rq ++ (popArrivals bt (t + 1)).1) e hm
        omega

theorem rrSlice_t_add_le (i : Nat) :
    ∀ (n : Nat) (ps : List Proc) (t : Nat) (bt : BT) (rq : List Nat),
      (rrSlice i n ps t bt rq).t ≤ t + n := by
  intro n
  induction n with
  | zero =>
    intro ps t bt rq
    simp [rrSlice]
  | succ n ih =>
    intro ps t bt rq
    simp only [rrSlice]
    split
    · simp only [RSl_t]
      omega
    · simp only [RSl_t]
      have := ih (decRem ps i) (t + 1) (popArrivals bt (t + 1)).2
        (rq ++ (popArrivals bt (t + 1)).1)
      omega

theorem rrRunBranch_t_le (runfor q i : Nat) (ps : List Proc) (t : Nat) (bt : BT)
    (rest : List Nat) (h : t < runfor) :
    (rrRunBranch runfor q i ps t bt rest).t ≤ runfor := by
  simp only [rrRunBranch, RSl_t]
  have h1 := rrSlice_t_add_le i (min q (min (remAt ps i) (runfor - t)))
    (if startAt ps i = none then setStart ps i t else ps) t bt rest
  omega

theorem rrRunBranch_evs_tick (runfor q i : Nat) (ps : List Proc) (t : Nat) (bt : BT)
    (rest : List Nat) (h : t < runfor) :
    ∀ e ∈ (rrRunBranch runfor q i ps t bt rest).evs,
      t ≤ tickOf e ∧ tickOf e ≤ runfor := by
  intro e he
  have hb := rrRunBranch_t_le runfor q i ps t bt rest h
  simp only [rrRunBranch, RSl_evs, RSl_t] at he hb
  rcases List.mem_cons.mp he with hm | hm
  · rw [hm]
    simp only [tickOf]
    omega
  · have := rrSlice_evs_tick i (min q (min (remAt ps i) (runfor - t)))
      (if startAt ps i = none then setStart ps i t else ps) t bt rest e hm
    omega

theorem rrGo_tick_le (runfor : Nat) (q : {n : Nat // 0 < n}) :
    ∀ (ps : List Proc) (t : Nat) (bt : BT) (rq : List Nat), t < runfor →
      ∀ e ∈ (rrGo runfor q ps t bt rq).1, tickOf e ≤ runfor := by
  intro ps t bt rq
  induction ps, t, bt, rq using rrGo.induct runfor q with
  | case1 ps t bt rq h pr hm pr2 ih =>
    intro _ e he
    have hpr : pr = popArrivals bt t := rfl
    rw [hpr] at hm
    rw [rrGo_idle runfor q ps t bt rq h hm] at he
    rcases List.mem_append.mp he with hmm | hrest
    · rcases List.mem_append.mp hmm with hmm2 | harr2
      · rcases List.mem_append.mp hmm2 with harr | hidl
        · have := tick_arrEvents harr
          omega
        · rw [List.mem_singleton.mp hidl]
          simp only [tickOf]
          omega
      · have := tick_arrEvents harr2
        omega
    · by_cases ht2 : t + 1 < runfor
      · exact ih ht2 e hrest
      · rw [rrGo_neg runfor q ps (t + 1) _ _ ht2] at hrest
        cases hrest
  | case2 ps t bt rq h pr i rest hm br ih =>
    intro _ e he
    have hpr : pr = popArrivals bt t := rfl
    rw [hpr] at hm
    rw [rrGo_run runfor q ps t bt rq i rest h hm] at he
    have hbr_t := rrRunBranch_t_le runfor q.1 i ps t (popArrivals bt t).2 rest h
    rcases List.mem_append.mp he with hmm | hrest
    · rcases List.mem_append.mp hmm with harr | hbr2
      · have := tick_arrEvents harr
        omega
      · have := rrRunBranch_evs_tick runfor q.1 i ps t (popArrivals bt t).2 rest h e hbr2
        omega
    · by_cases ht2 : (rrRunBranch runfor q.1 i ps t (popArrivals bt t).2 rest).t < runfor
      · exact ih ht2 e hrest
      · rw [rrGo_neg runfor q _ _ _ _ ht2] at hrest
        cases hrest
  | case3 ps t bt rq h =>
    intro hc
    omega

end Sched

namespace Sched

theorem rnFcfsSelect_evs_tick (ps : List Proc) (time : Nat) (q1 : List Nat)
    (cur : Option Nat) : ∀ e ∈ (rnFcfsSelect ps time q1 cur).evs, tickOf e = time := by
  intro e he
  simp only [rnFcfsSelect] at he
  split at he
  · simp only [RNSel_evs] at he
    cases he
  · split at he
    · simp only [RNSel_evs] at he
      cases he
    · split at he
      · simp only [RNSel_evs] at he
        cases he
      · simp only [RNSel_evs] at he
        rw [List.mem_singleton.mp he]
        rfl

theorem rnFcfsExecStep_evs_tick (ps : List Proc) (time c : Nat) :
    ∀ e ∈ (rnFcfsExecStep ps time c).1, tickOf e = time + 1 := by
  intro e he
  simp only [rnFcfsExecStep] at he
  split at he
  · rw [List.mem_singleton.mp he]
    rfl
  · cases he

theorem rnSjfRunStep_evs_tick (ps : List Proc) (time s : Nat) (lastSel : Option Nat) :
    ∀ e ∈ (rnSjfRunStep ps time s lastSel).evs,
      tickOf e = time ∨ tickOf e = time + 1 := by
  intro e he
  simp only [rnSjfRunStep] at he
  repeat' split at he
  all_goals
    simp only [RNSStep_evs, List.mem_append, List.mem_singleton, List.nil_append,
      List.not_mem_nil, false_or, or_false] at he
  all_goals
    first
      | (rcases he with rfl | rfl
         exacts [Or.inl rfl, Or.inr rfl])
      | (subst he
         exact Or.inl rfl)
      | (subst he
         exact Or.inr rfl)

theorem rnRrSelect_evs_tick (ps : List Proc) (time : Nat) (quantum : Int)
    (q1 : List Nat) (running : Option Nat) (remQ : Int) :
    ∀ e ∈ (rnRrSelect ps time quantum q1 running remQ).evs, tickOf e = time := by
  intro e he
  simp only [rnRrSelect] at he
  repeat' split at he
  all_goals
    simp only [RNRSel_evs, List.mem_singleton, List.not_mem_nil] at he
  all_goals
    subst he
  all_goals
    rfl

theorem rnRrExecStep_evs_tick (ps : List Proc) (time c : Nat) (remQ : Int) :
    ∀ e ∈ (rnRrExecStep ps time c remQ).evs, tickOf e = time + 1 := by
  intro e he
  simp only [rnRrExecStep] at he
  split at he <;> simp only [RNRStep_evs] at he
  · rw [List.mem_singleton.mp he]
    rfl
  · cases he

theorem rnFcfsGo_tick_le (runfor : Nat) (ordered : List Nat) :
    ∀ (ps : List Proc) (time : Nat) (queue : List Nat) (cur : Option Nat),
      ∀ e ∈ (rnFcfsGo runfor ordered ps time queue cur).1, tickOf e ≤ runfor := by
  intro ps time queue cur
  induction ps, time, queue, cur using rnFcfsGo.induct runfor ordered with
  | case1 ps time queue cur h arr sel hcur ih =>
    intro e he
    rw [rnFcfsGo_none runfor ordered ps time queue cur h hcur] at he
    rcases List.mem_append.mp he with hm | hrest
    · rcases List.mem_append.mp hm with hm2 | hidl
      · rcases List.mem_append.mp hm2 with harr | hsel
        · rcases List.mem_map.mp harr with ⟨j, _, hj⟩
          rw [← hj]
          simp only [tickOf]
          omega
        · have := rnFcfsSelect_evs_tick ps time _ cur e hsel
          omega
      · rw [List.mem_singleton.mp hidl]
        simp only [tickOf]
        omega
    · exact ih e hrest
  | case2 ps time queue cur h arr sel c hcur ex ih =>
    intro e he
    rw [rnFcfsGo_some runfor ordered ps time queue cur c h hcur] at he
    rcases List.mem_append.mp he with hm | hrest
    · rcases List.mem_append.mp hm with hm2 | hex
      · rcases List.mem_append.mp hm2 with harr | hsel
        · rcases List.mem_map.mp harr with ⟨j, _, hj⟩
          rw [← hj]
          simp only [tickOf]
          omega
        · have := rnFcfsSelect_evs_tick ps time _ cur e hsel
          omega
      · have := rnFcfsExecStep_evs_tick _ time c e hex
        omega
    · exact ih e hrest
  | case3 ps time queue cur h =>
    intro e he
    rw [rnFcfsGo_neg runfor ordered ps time queue cur h] at he
    cases he

theorem rnSjfGo_tick_le (runfor : Nat) :
    ∀ (ps : List Proc) (time : Nat) (lastSel : Option Nat),
      ∀ e ∈ (rnSjfGo runfor ps time lastSel).1, tickOf e ≤ runfor := by
  intro ps time lastSel
  induction ps, time, lastSel using rnSjfGo.induct runfor with
  | case1 ps time lastSel h ready hpick ih =>
    intro e he
    rw [rnSjfGo_idle runfor ps time lastSel h hpick] at he
    rcases List.mem_append.mp he with hm | hrest
    · rcases List.mem_append.mp hm with harr | hidl
      · rcases List.mem_map.mp harr with ⟨j, _, hj⟩
        rw [← hj]
        simp only [tickOf]
        omega
      · rw [List.mem_singleton.mp hidl]
        simp only [tickOf]
        omega
    · exact ih e hrest
  | case2 ps time lastSel h ready s hpick st ih =>
    intro e he
    rw [rnSjfGo_run runfor ps time lastSel s h hpick] at he
    rcases List.mem_append.mp he with hm | hrest
    · rcases List.mem_append.mp hm with harr | hst
      · rcases List.mem_map.mp harr with ⟨j, _, hj⟩
        rw [← hj]
        simp only [tickOf]
        omega
      · rcases rnSjfRunStep_evs_tick ps time s lastSel e hst with h1 | h1 <;> omega
    · exact ih e hrest
  | case3 ps time lastSel h =>
    intro e he
    rw [rnSjfGo_neg runfor ps time lastSel h] at he
    cases he

theorem rnRrGo_tick_le (runfor : Nat) (quantum : Int) :
    ∀ (ps : List Proc) (time : Nat) (queue : List Nat) (running : Option Nat)
      (remQ : Int),
      ∀ e ∈ (rnRrGo runfor quantum ps time queue running remQ).1, tickOf e ≤ runfor := by
  intro ps time queue running remQ
  induction ps, time, queue, running, remQ using rnRrGo.induct runfor quantum with
  | case1 ps time queue running remQ h arr q1 sel hrun ih =>
    intro e he
    rw [rnRrGo_idle runfor quantum ps time queue running remQ h hrun] at he
    rcases List.mem_append.mp he with hm | hrest
    · rcases List.mem_append.mp hm with hm2 | hidl
      · rcases List.mem_append.mp hm2 with harr | hsel
        · rcases List.mem_map.mp harr with ⟨j, _, hj⟩
          rw [← hj]
          simp only [tickOf]
          omega
        · have := rnRrSelect_evs_tick ps time quantum _ running remQ e hsel
          omega
      · rw [List.mem_singleton.mp hidl]
        simp only [tickOf]
        omega
    · exact ih e hrest
  | case2 ps time queue running remQ h arr q1 sel c hrun ex ih =>
    intro e he
    rw [rnRrGo_run runfor quantum ps time queue running remQ c h hrun] at he
    rcases List.mem_append.mp he with hm | hrest
    · rcases List.mem_append.mp hm with hm2 | hex
      · rcases List.mem_append.mp hm2 with harr | hsel
        · rcases List.mem_map.mp harr with ⟨j, _, hj⟩
          rw [← hj]
          simp only [tickOf]
          omega
        · have := rnRrSelect_evs_tick ps time quantum _ running remQ e hsel
          omega
      · have := rnRrExecStep_evs_tick _ time c _ e hex
        omega
    · exact ih e hrest
  | case3 ps time queue running remQ h =>
    intro e he
    rw [rnRrGo_neg runfor quantum ps time queue running remQ h] at he
    cases he

end Sched

namespace Sched

/-- C10: GeorgeAvdella's round-robin engine can emit an Arrived event whose
tick equals the run horizon itself (a process arriving at tick 1 under
runfor 1 is logged even though tick 1 is never executed), while in all six
engines of both programs no emitted event ever carries a tick greater than
runfor. -/
theorem C10_arrival_at_horizon :
    (∃ p, rr [mkProc "A" 1 1] 1 1 = Except.ok p ∧ Event.arrived 1 "A" ∈ p.1) ∧
    (∀ ps runfor, ∀ e ∈ (fcfs ps runfor).1, tickOf e ≤ runfor) ∧
    (∀ ps runfor, ∀ e ∈ (sjf ps runfor).1, tickOf e ≤ runfor) ∧
    (∀ ps runfor quantum p, rr ps runfor quantum = Except.ok p →
      ∀ e ∈ p.1, tickOf e ≤ runfor) ∧
    (∀ ps runfor, ∀ e ∈ (rnFcfs ps runfor).1, tickOf e ≤ runfor) ∧
    (∀ ps runfor, ∀ e ∈ (rnSjf ps runfor).1, tickOf e ≤ runfor) ∧
    (∀ ps runfor quantum, ∀ e ∈ (rnRr ps runfor quantum).1, tickOf e ≤ runfor) := by
  refine ⟨?_, ?_, ?_, ?_, ?_, ?_, ?_⟩
  · refine ⟨([Event.idle 0, Event.arrived 1 "A"], [mkProc "A" 1 1]), ?_, by decide⟩
    simp [rr, rrGo, rrSlice, rrRunBranch, popArrivals, arrEvents, arrivalsIndex,
      btSize, mkProc, nameAt, arrivalAt, burstAt, remAt, startAt, finishAt, procAt,
      decRem, setStart, setFinish, List.range, List.range.loop, List.getD]
  · intro ps runfor e he
    exact fcfsMain_tick_le runfor (readyOrder ps) ps 0 (arrivalsIndex ps)
      (Nat.zero_le _) e he
  · intro ps runfor e he
    exact sjfGo_tick_le runfor ps 0 (arrivalsIndex ps) none e he
  · intro ps runfor quantum p hok e he
    by_cases hq : quantum ≤ 0
    · simp only [rr, dif_pos hq] at hok
      exact Except.noConfusion hok
    · simp only [rr, dif_neg hq] at hok
      injection hok with h1
      subst h1
      rcases List.mem_append.mp he with harr | hgo
      · have := tick_arrEvents harr
        omega
      · by_cases hr : 0 < runfor
        · exact rrGo_tick_le runfor _ ps 0 _ _ hr e hgo
        · rw [rrGo_neg runfor _ ps 0 _ _ hr] at hgo
          cases hgo
  · intro ps runfor e he
    exact rnFcfsGo_tick_le runfor (readyOrder ps) ps 0 [] none e he
  · intro ps runfor e he
    exact rnSjfGo_tick_le runfor ps 0 none e he
  · intro ps runfor quantum e he
    exact rnRrGo_tick_le runfor quantum ps 0 [] none 0 e he

/-- Witness for C10 at a concrete input. -/
theorem C10_witness : tickOf (Event.arrived 0 "A") ≤ 3 :=
  C10_arrival_at_horizon.2.2.2.2.2.1 [mkProc "A" 0 1, mkProc "B" 1 1] 3
    (Event.arrived 0 "A")
    (by simp [rnSjf, rnSjfGo, rnSjfRunStep, pickMin, mkProc, arrivalAt, burstAt,
      remAt, nameAt, startAt, finishAt, procAt, decRem, setStart, setFinish,
      sjfKeyLT, List.range, List.range.loop, List.getD])

end Sched

namespace Sched

/-! ### C3: FCFS is non-preemptive -/

/-- The selection/finish skeleton of a timeline line. -/
inductive Mark where
  | sel (n : String)
  | fin (n : String)
deriving Repr, DecidableEq

/-- Which mark (if any) a timeline event contributes. -/
def markOf : Event → Option Mark
  | Event.selected _ n _ => some (Mark.sel n)
  | Event.finished _ n => some (Mark.fin n)
  | Event.arrived _ _ => none
  | Event.idle _ => none

/-- The Selected/Finished skeleton of a timeline. -/
def marksOf : List Event → List Mark
  | [] => []
  | e :: rest =>
    match markOf e with
    | some m => m :: marksOf rest
    | none => marksOf rest

/-- Mark chains `sel a, fin a, sel b, fin b, ...`, possibly cut after a
`sel` by the run horizon; the first argument names the process whose
Finished line is still pending. -/
inductive MCF : Option String → List Mark → Prop where
  | nil : MCF none []
  | nilPending (n : String) : MCF (some n) []
  | openSel (n : String) (rest : List Mark) : MCF (some n) rest →
      MCF none (Mark.sel n :: rest)
  | closeFin (n : String) (rest : List Mark) : MCF none rest →
      MCF (some n) (Mark.fin n :: rest)

/-- After a `sel n`, no other process may be selected until the matching
`fin n` (the scan stops at that `fin n`; running into the end of the log
is fine). -/
def noOtherSel (n : String) : List Mark → Prop
  | [] => True
  | Mark.sel m :: rest => m = n ∧ noOtherSel n rest
  | Mark.fin m :: rest => if m = n then True else noOtherSel n rest

/-- Non-preemption read off a timeline: whenever the Selected/Finished
skeleton splits at a `sel n`, nothing else is selected before `n`
finishes. -/
def Disciplined (evs : List Event) : Prop :=
  ∀ l1 n l2, marksOf evs = l1 ++ Mark.sel n :: l2 → noOtherSel n l2

theorem noOtherSel_of_pending (n : String) (ms : List Mark) (h : MCF (some n) ms) :
    noOtherSel n ms := by
  cases h with
  | nilPending n => trivial
  | closeFin n rest hr => simp [noOtherSel]

theorem MCF_disciplined {p : Option String} {ms : List Mark} (h : MCF p ms) :
    ∀ l1 n l2, ms = l1 ++ Mark.sel n :: l2 → noOtherSel n l2 := by
  induction h with
  | nil =>
    intro l1 n l2 he
    simp at he
  | nilPending m =>
    intro l1 n l2 he
    simp at he
  | openSel m rest hr ih =>
    intro l1 n l2 he
    cases l1 with
    | nil =>
      simp only [List.nil_append] at he
      injection he with h1 h2
      injection h1 with h3
      subst h3
      subst h2
      exact noOtherSel_of_pending m rest hr
    | cons a l1t =>
      simp only [List.cons_append] at he
      injection he with h1 h2
      exact ih l1t n l2 h2
  | closeFin m rest hr ih =>
    intro l1 n l2 he
    cases l1 with
    | nil =>
      simp only [List.nil_append] at he
      injection he with h1 h2
      exact Mark.noConfusion h1
    | cons a l1t =>
      simp only [List.cons_append] at he
      injection he with h1 h2
      exact ih l1t n l2 h2

theorem marksOf_append (a b : List Event) :
    marksOf (a ++ b) = marksOf a ++ marksOf b := by
  induction a with
  | nil => rfl
  | cons e r ih =>
    simp only [List.cons_append, marksOf]
    cases markOf e <;> simp [ih]

theorem marksOf_arr_map (ps : List Proc) (time : Nat) (l : List Nat) :
    marksOf (l.map (fun i => Event.arrived time (nameAt ps i))) = [] := by
  induction l with
  | nil => rfl
  | cons i r ih =>
    simp only [List.map_cons, marksOf, markOf]
    exact ih

theorem marksOf_arrEvents (ps : List Proc) (now : Nat) (is : List Nat) :
    marksOf (arrEvents ps now is) = [] :=
  marksOf_arr_map ps now is


theorem marksOf_fcfsIdle (ps : List Proc) (runfor arrival : Nat) :
    ∀ (t : Nat) (bt : BT), marksOf (fcfsIdle ps runfor arrival t bt).evs = [] := by
  intro t bt
  induction t, bt using fcfsIdle.induct ps runfor arrival with
  | case1 t bt h pr ih =>
    rw [fcfsIdle_pos ps runfor arrival t bt h]
    simp only [FIdle_evs, marksOf_append, marksOf_arrEvents, List.nil_append]
    simp only [marksOf, markOf]
    exact ih
  | case2 t bt h =>
    rw [fcfsIdle_neg ps runfor arrival t bt h]
    rfl

theorem marksOf_fcfsRun (runfor i : Nat) :
    ∀ (ps : List Proc) (t : Nat) (bt : BT),
      marksOf (fcfsRun runfor i ps t bt).evs = [] := by
  intro ps t bt
  induction ps, t, bt using fcfsRun.induct runfor i with
  | case1 ps t bt h ps1 pr ih =>
    rw [fcfsRun_pos runfor i ps t bt h]
    simp only [FRun_evs, marksOf_append, marksOf_arrEvents, List.nil_append]
    exact ih
  | case2 ps t bt h =>
    rw [fcfsRun_neg runfor i ps t bt h]
    rfl

theorem marksOf_fcfsTrail (ps : List Proc) (runfor : Nat) :
    ∀ (t : Nat) (bt : BT), marksOf (fcfsTrail ps runfor t bt) = [] := by
  intro t bt
  induction t, bt using fcfsTrail.induct ps runfor with
  | case1 t bt h pr =>
    rw [fcfsTrail_pos ps runfor t bt h]
    simp only [marksOf_append, marksOf_arrEvents, List.nil_append]
    simp only [marksOf, markOf]
    assumption
  | case2 t bt h =>
    rw [fcfsTrail_neg ps runfor t bt h]
    rfl

theorem fcfsRun_startAt (runfor i : Nat) :
    ∀ (ps : List Proc) (t : Nat) (bt : BT) (j : Nat),
      startAt (fcfsRun runfor i ps t bt).ps j = startAt ps j := by
  intro ps t bt
  induction ps, t, bt using fcfsRun.induct runfor i with
  | case1 ps t bt h ps1 pr ih =>
    intro j
    have heq : (fcfsRun runfor i ps t bt).ps
        = (fcfsRun runfor i (decRem ps i) (t + 1) (popArrivals bt (t + 1)).2).ps := by
      rw [fcfsRun_pos runfor i ps t bt h]
    rw [heq]
    exact (ih j).trans (startAt_decRem ps i j)
  | case2 ps t bt h =>
    intro j
    rw [fcfsRun_neg runfor i ps t bt h]

theorem fcfsRun_nameAt (runfor i : Nat) :
    ∀ (ps : List Proc) (t : Nat) (bt : BT) (j : Nat),
      nameAt (fcfsRun runfor i ps t bt).ps j = nameAt ps j := by
  intro ps t bt
  induction ps, t, bt using fcfsRun.induct runfor i with
  | case1 ps t bt h ps1 pr ih =>
    intro j
    have heq : (fcfsRun runfor i ps t bt).ps
        = (fcfsRun runfor i (decRem ps i) (t + 1) (popArrivals bt (t + 1)).2).ps := by
      rw [fcfsRun_pos runfor i ps t bt h]
    rw [heq]
    exact (ih j).trans (nameAt_decRem ps i j)
  | case2 ps t bt h =>
    intro j
    rw [fcfsRun_neg runfor i ps t bt h]

theorem fcfsRun_stop (runfor i : Nat) :
    ∀ (ps : List Proc) (t : Nat) (bt : BT),
      ¬ (0 < remAt (fcfsRun runfor i ps t bt).ps i ∧
          (fcfsRun runfor i ps t bt).t < runfor) := by
  intro ps t bt
  induction ps, t, bt using fcfsRun.induct runfor i with
  | case1 ps t bt h ps1 pr ih =>
    have h1 : (fcfsRun runfor i ps t bt).ps
        = (fcfsRun runfor i (decRem ps i) (t + 1) (popArrivals bt (t + 1)).2).ps := by
      rw [fcfsRun_pos runfor i ps t bt h]
    have h2 : (fcfsRun runfor i ps t bt).t
        = (fcfsRun runfor i (decRem ps i) (t + 1) (popArrivals bt (t + 1)).2).t := by
      rw [fcfsRun_pos runfor i ps t bt h]
    rw [h1, h2]
    exact ih
  | case2 ps t bt h =>
    rw [fcfsRun_neg runfor i ps t bt h]
    exact h

theorem fcfsMain_marks_of_ge (runfor : Nat) (order : List Nat) (ps : List Proc)
    (t : Nat) (bt : BT) (hge : runfor ≤ t) :
    marksOf (fcfsMain runfor order ps t bt).1 = [] := by
  cases order with
  | nil =>
    simp only [fcfsMain]
    rw [fcfsTrail_neg ps runfor t bt (by omega)]
    rfl
  | cons i rest =>
    simp only [fcfsMain]
    rw [fcfsIdle_neg ps runfor (arrivalAt ps i) t bt (by simp; omega)]
    simp only [FIdle_evs, FIdle_t, FIdle_bt]
    rw [if_pos hge]
    rfl


theorem readyOrder_nodup (ps : List Proc) : (readyOrder ps).Nodup :=
  ((List.perm_insertionSort (fcfsKeyLE ps) (List.range ps.length)).nodup_iff).mpr
    (List.nodup_range ps.length)

theorem fcfsMain_chain (runfor : Nat) (order : List Nat) :
    ∀ (ps : List Proc) (t : Nat) (bt : BT),
      (∀ j ∈ order, startAt ps j = none) → order.Nodup →
      MCF none (marksOf (fcfsMain runfor order ps t bt).1) := by
  induction order with
  | nil =>
    intro ps t bt _ _
    simp only [fcfsMain]
    rw [marksOf_fcfsTrail]
    exact MCF.nil
  | cons i rest ih =>
    intro ps t bt hstart hnd
    have hsi : startAt ps i = none := hstart i (List.mem_cons_self i rest)
    have hni : i ∉ rest := (List.nodup_cons.mp hnd).1
    have hndr : rest.Nodup := (List.nodup_cons.mp hnd).2
    simp only [fcfsMain]
    by_cases hge : runfor ≤ (fcfsIdle ps runfor (arrivalAt ps i) t bt).t
    · rw [if_pos hge]
      rw [marksOf_fcfsIdle]
      exact MCF.nil
    · rw [if_neg hge]
      rw [if_pos hsi]
      dsimp only
      by_cases hrem : remAt (fcfsRun runfor i
          (setStart ps i (fcfsIdle ps runfor (arrivalAt ps i) t bt).t)
          (fcfsIdle ps runfor (arrivalAt ps i) t bt).t
          (popArrivals (fcfsIdle ps runfor (arrivalAt ps i) t bt).bt
            (fcfsIdle ps runfor (arrivalAt ps i) t bt).t).2).ps i = 0
      · rw [if_pos hrem]
        dsimp only
        simp only [marksOf_append, marksOf_fcfsIdle, marksOf_arrEvents,
          marksOf_fcfsRun, List.nil_append, List.append_nil]
        simp only [marksOf, markOf]
        rw [fcfsRun_nameAt, nameAt_setStart]
        refine MCF.openSel _ _ (MCF.closeFin _ _ (ih _ _ _ ?_ hndr))
        intro j hj
        have hji : j ≠ i := fun hc => hni (hc ▸ hj)
        rw [startAt_setFinish, fcfsRun_startAt, startAt_setStart]
        rw [if_neg (by simp [hji])]
        exact hstart j (List.mem_cons_of_mem i hj)
      · rw [if_neg hrem]
        dsimp only
        simp only [marksOf_append, marksOf_fcfsIdle, marksOf_arrEvents,
          marksOf_fcfsRun, List.nil_append, List.append_nil]
        simp only [marksOf, markOf]
        have hstop := fcfsRun_stop runfor i
          (setStart ps i (fcfsIdle ps runfor (arrivalAt ps i) t bt).t)
          (fcfsIdle ps runfor (arrivalAt ps i) t bt).t
          (popArrivals (fcfsIdle ps runfor (arrivalAt ps i) t bt).bt
            (fcfsIdle ps runfor (arrivalAt ps i) t bt).t).2
        have hge2 : runfor ≤ (fcfsRun runfor i
            (setStart ps i (fcfsIdle ps runfor (arrivalAt ps i) t bt).t)
            (fcfsIdle ps runfor (arrivalAt ps i) t bt).t
            (popArrivals (fcfsIdle ps runfor (arrivalAt ps i) t bt).bt
              (fcfsIdle ps runfor (arrivalAt ps i) t bt).t).2).t := by
          by_contra hlt
          exact hstop ⟨Nat.pos_of_ne_zero hrem, Nat.lt_of_not_le hlt⟩
        rw [fcfsMain_marks_of_ge runfor rest _ _ _ hge2]
        exact MCF.openSel _ _ (MCF.nilPending _)


/-- Name of the process whose Finished line is still owed by RachelNieman's
simulate_fcfs, given the current process: pending exactly when a current
process exists and has remaining work. -/
def pendOf (ps : List Proc) (cur : Option Nat) : Option String :=
  match cur with
  | none => none
  | some c => if remAt ps c = 0 then none else some (nameAt ps c)

theorem rnFcfsSelect_none_evs (ps : List Proc) (time : Nat) (q1 : List Nat)
    (cur : Option Nat) (h : (rnFcfsSelect ps time q1 cur).cur = none) :
    (rnFcfsSelect ps time q1 cur).evs = [] := by
  cases cur with
  | none =>
    simp only [rnFcfsSelect] at h ⊢
    try dsimp only at h ⊢
    cases q1 with
    | nil => rfl
    | cons c1 qrest =>
      try dsimp only at h ⊢
      by_cases h1 : remAt ps c1 = 0
      · rw [if_pos h1]
      · rw [if_neg h1] at h
        simp at h
  | some c0 =>
    by_cases h0 : remAt ps c0 = 0
    · simp only [rnFcfsSelect] at h ⊢
      try dsimp only at h ⊢
      rw [if_pos h0] at h ⊢
      cases q1 with
      | nil => rfl
      | cons c1 qrest =>
        try dsimp only at h ⊢
        by_cases h1 : remAt ps c1 = 0
        · rw [if_pos h1]
        · rw [if_neg h1] at h
          simp at h
    · simp only [rnFcfsSelect] at h
      try dsimp only at h
      rw [if_neg h0] at h
      simp at h

theorem rnFcfsSelect_none_pend (ps : List Proc) (time : Nat) (q1 : List Nat)
    (cur : Option Nat) (h : (rnFcfsSelect ps time q1 cur).cur = none) :
    pendOf ps cur = none := by
  cases cur with
  | none => rfl
  | some c0 =>
    by_cases h0 : remAt ps c0 = 0
    · simp [pendOf, h0]
    · exfalso
      simp only [rnFcfsSelect] at h
      try dsimp only at h
      rw [if_neg h0] at h
      simp at h

theorem rnFcfsSelect_remAt (ps : List Proc) (time : Nat) (q1 : List Nat)
    (cur : Option Nat) (j : Nat) :
    remAt (rnFcfsSelect ps time q1 cur).ps j = remAt ps j := by
  simp only [rnFcfsSelect]
  repeat' split
  all_goals first | rfl | simp [remAt_setStart]

theorem rnFcfsSelect_nameAt (ps : List Proc) (time : Nat) (q1 : List Nat)
    (cur : Option Nat) (j : Nat) :
    nameAt (rnFcfsSelect ps time q1 cur).ps j = nameAt ps j := by
  simp only [rnFcfsSelect]
  repeat' split
  all_goals first | rfl | simp [nameAt_setStart]

theorem rnFcfsSelect_cases (ps : List Proc) (time : Nat) (q1 : List Nat)
    (cur : Option Nat) (c : Nat)
    (h : (rnFcfsSelect ps time q1 cur).cur = some c) :
    remAt ps c ≠ 0 ∧
    ((pendOf ps cur = some (nameAt ps c) ∧ (rnFcfsSelect ps time q1 cur).evs = []) ∨
     (pendOf ps cur = none ∧ (rnFcfsSelect ps time q1 cur).evs =
        [Event.selected time (nameAt ps c) (remAt ps c)])) := by
  cases cur with
  | none =>
    simp only [rnFcfsSelect] at h ⊢
    try dsimp only at h ⊢
    cases q1 with
    | nil => simp at h
    | cons c1 qrest =>
      try dsimp only at h ⊢
      by_cases h1 : remAt ps c1 = 0
      · rw [if_pos h1] at h
        simp at h
      · rw [if_neg h1] at h ⊢
        simp only [RNSel_cur, Option.some.injEq] at h
        subst h
        exact ⟨h1, Or.inr ⟨rfl, by simp⟩⟩
  | some c0 =>
    by_cases h0 : remAt ps c0 = 0
    · simp only [rnFcfsSelect] at h ⊢
      try dsimp only at h ⊢
      rw [if_pos h0] at h ⊢
      cases q1 with
      | nil => simp at h
      | cons c1 qrest =>
        try dsimp only at h ⊢
        by_cases h1 : remAt ps c1 = 0
        · rw [if_pos h1] at h
          simp at h
        · rw [if_neg h1] at h ⊢
          simp only [RNSel_cur, Option.some.injEq] at h
          subst h
          refine ⟨h1, Or.inr ⟨by simp [pendOf, h0], by simp⟩⟩
    · simp only [rnFcfsSelect] at h ⊢
      try dsimp only at h ⊢
      rw [if_neg h0] at h ⊢
      simp only [RNSel_cur, Option.some.injEq] at h
      subst h
      exact ⟨h0, Or.inl ⟨by simp [pendOf, h0], by simp⟩⟩

theorem rnFcfsExecStep_fin (ps : List Proc) (time c : Nat)
    (h : remAt (decRem ps c) c = 0) :
    rnFcfsExecStep ps time c =
      ([Event.finished (time + 1) (nameAt ps c)], setFinish (decRem ps c) c (time + 1)) := by
  simp only [rnFcfsExecStep]
  rw [if_pos h, nameAt_decRem]

theorem rnFcfsExecStep_run (ps : List Proc) (time c : Nat)
    (h : ¬ remAt (decRem ps c) c = 0) :
    rnFcfsExecStep ps time c = ([], decRem ps c) := by
  simp only [rnFcfsExecStep]
  rw [if_neg h]


theorem rnFcfsGo_chain (runfor : Nat) (ordered : List Nat) :
    ∀ (ps : List Proc) (time : Nat) (queue : List Nat) (cur : Option Nat),
      MCF (pendOf ps cur) (marksOf (rnFcfsGo runfor ordered ps time queue cur).1) := by
  intro ps time queue cur
  induction ps, time, queue, cur using rnFcfsGo.induct runfor ordered with
  | case1 ps time queue cur h arr sel hcur ih =>
    rw [rnFcfsGo_none runfor ordered ps time queue cur h hcur]
    have hevs := rnFcfsSelect_none_evs ps time
      (queue ++ ordered.filter (fun i => decide (arrivalAt ps i = time))) cur hcur
    rw [rnFcfsSelect_none_pend ps time
      (queue ++ ordered.filter (fun i => decide (arrivalAt ps i = time))) cur hcur]
    dsimp only
    rw [hevs]
    simp only [marksOf_append, marksOf_arr_map, List.append_nil, List.nil_append]
    simp only [marksOf, markOf]
    exact ih
  | case2 ps time queue cur h arr sel c hcur ex ih =>
    rw [rnFcfsGo_some runfor ordered ps time queue cur c h hcur]
    obtain ⟨hrem, hcase⟩ := rnFcfsSelect_cases ps time
      (queue ++ ordered.filter (fun i => decide (arrivalAt ps i = time))) cur c hcur
    have hex : ex = rnFcfsExecStep (rnFcfsSelect ps time
      (queue ++ ordered.filter (fun i => decide (arrivalAt ps i = time))) cur).ps
      time c := rfl
    dsimp only
    by_cases hfin : remAt (decRem (rnFcfsSelect ps time
        (queue ++ ordered.filter (fun i => decide (arrivalAt ps i = time))) cur).ps c) c = 0
    · rw [rnFcfsExecStep_fin _ time c hfin]
      have hpd : pendOf (setFinish (decRem (rnFcfsSelect ps time
          (queue ++ ordered.filter (fun i => decide (arrivalAt ps i = time))) cur).ps c)
          c (time + 1)) (some c) = none := by
        simp [pendOf, remAt_setFinish, hfin]
      rw [hex, rnFcfsExecStep_fin _ time c hfin] at ih
      dsimp only at ih
      rw [hpd] at ih
      dsimp only
      rw [rnFcfsSelect_nameAt]
      rcases hcase with ⟨hpend, hevs⟩ | ⟨hpend, hevs⟩ <;> rw [hpend, hevs] <;>
        simp only [marksOf_append, marksOf_arr_map, List.append_nil, List.nil_append] <;>
        simp only [marksOf, markOf]
      · exact MCF.closeFin _ _ ih
      · exact MCF.openSel _ _ (MCF.closeFin _ _ ih)
    · rw [rnFcfsExecStep_run _ time c hfin]
      have hpd : pendOf (decRem (rnFcfsSelect ps time
          (queue ++ ordered.filter (fun i => decide (arrivalAt ps i = time))) cur).ps c)
          (some c) = some (nameAt ps c) := by
        simp [pendOf, hfin, nameAt_decRem, rnFcfsSelect_nameAt]
      rw [hex, rnFcfsExecStep_run _ time c hfin] at ih
      dsimp only at ih
      rw [hpd] at ih
      dsimp only
      rcases hcase with ⟨hpend, hevs⟩ | ⟨hpend, hevs⟩ <;> rw [hpend, hevs] <;>
        simp only [marksOf_append, marksOf_arr_map, List.append_nil, List.nil_append] <;>
        (try simp only [marksOf, markOf])
      · exact ih
      · exact MCF.openSel _ _ ih
  | case3 ps time queue cur h =>
    rw [rnFcfsGo_neg runfor ordered ps time queue cur h]
    cases hpd : pendOf ps cur with
    | none => exact MCF.nil
    | some n => exact MCF.nilPending n


/-- C3: both FCFS engines are non-preemptive: on any process list whose
start_time fields are unset (as both mains construct them), whenever the
timeline selects a process, no other process is selected before that
process's Finished line (or before the run horizon cuts the log). -/
theorem C3_fcfs_nonpreemptive (ps : List Proc) (runfor : Nat)
    (hfresh : ∀ j, startAt ps j = none) :
    Disciplined (fcfs ps runfor).1 ∧ Disciplined (rnFcfs ps runfor).1 := by
  constructor
  · intro l1 n l2 hdec
    exact MCF_disciplined
      (fcfsMain_chain runfor (readyOrder ps) ps 0 (arrivalsIndex ps)
        (fun j _ => hfresh j) (readyOrder_nodup ps)) l1 n l2 hdec
  · intro l1 n l2 hdec
    exact MCF_disciplined
      (rnFcfsGo_chain runfor (readyOrder ps) ps 0 [] none) l1 n l2 hdec

/-- Witness for C3 at a concrete input. -/
theorem C3_witness :
    Disciplined (fcfs [mkProc "A" 0 2, mkProc "B" 1 1] 5).1 ∧
    Disciplined (rnFcfs [mkProc "A" 0 2, mkProc "B" 1 1] 5).1 :=
  C3_fcfs_nonpreemptive [mkProc "A" 0 2, mkProc "B" 1 1] 5
    (fun j => by cases j with | zero => rfl | succ k => cases k <;> rfl)


/-! ### C1: ordering of the logs of the GeorgeAvdella engines -/

theorem c1Ord_cross {e f : Event} {X : Nat} (he : tickOf e ≤ X)
    (hf : X ≤ tickOf f) (hfa : isArr f = true → X < tickOf f) : c1Ord e f := by
  by_cases harr : isArr f = true
  · exact Or.inl (by have := hfa harr; omega)
  · rcases Nat.lt_or_ge (tickOf e) (tickOf f) with h | h
    · exact Or.inl h
    · exact Or.inr ⟨by omega, fun hc => absurd hc harr⟩

theorem c1Ord_arr_le {e f : Event} (he : isArr e = true)
    (h : tickOf e ≤ tickOf f) : c1Ord e f := by
  rcases Nat.lt_or_ge (tickOf e) (tickOf f) with h1 | h1
  · exact Or.inl h1
  · exact Or.inr ⟨by omega, fun _ => he⟩

theorem pairwise_c1_arrEvents (ps : List Proc) (u : Nat) (is : List Nat) :
    List.Pairwise c1Ord (arrEvents ps u is) := by
  induction is with
  | nil => exact List.Pairwise.nil
  | cons i r ih =>
    simp only [arrEvents, List.map_cons] at ih ⊢
    refine List.Pairwise.cons ?_ ih
    intro f hf
    obtain ⟨j, _, hj⟩ := List.mem_map.mp hf
    rw [← hj]
    exact Or.inr ⟨rfl, fun _ => rfl⟩

theorem btKeys_pop_subset (bt : BT) (now : Nat) :
    btKeys (popArrivals bt now).2 ⊆ btKeys bt :=
  ((popArrivals_sublist bt now).map (fun e : Nat × List Nat => e.1)).subset

theorem arr_tick_mem_keys {ps : List Proc} {u : Nat} {bt : BT} {e : Event}
    (he : e ∈ arrEvents ps u (popArrivals bt u).1) : u ∈ btKeys bt := by
  have hne : (popArrivals bt u).1 ≠ [] := by
    intro hc
    rw [hc] at he
    cases he
  exact List.mem_map.mpr ⟨(u, (popArrivals bt u).1), popArrivals_fst_mem bt u hne, rfl⟩

theorem sjfGo_tick_ge (runfor : Nat) :
    ∀ (ps : List Proc) (t : Nat) (bt : BT) (cur : Option Nat),
      ∀ e ∈ (sjfGo runfor ps t bt cur).1, t ≤ tickOf e := by
  intro ps t bt cur
  induction ps, t, bt, cur using sjfGo.induct runfor with
  | case1 ps t bt cur h s ih =>
    intro e he
    rw [sjfGo_pos runfor ps t bt cur h] at he
    rcases List.mem_append.mp he with hm | hm
    · rcases sjfStep_evs_tick ps t bt cur e hm with h1 | h1 <;> omega
    · have := ih e hm
      omega
  | case2 ps t bt cur h =>
    intro e he
    rw [sjfGo_neg runfor ps t bt cur h] at he
    cases he

theorem sjfStep_bt_cases (ps : List Proc) (t : Nat) (bt : BT) (cur : Option Nat) :
    (sjfStep ps t bt cur).bt = (popArrivals bt t).2 ∨
    (sjfStep ps t bt cur).bt = (popArrivals (popArrivals bt t).2 (t + 1)).2 := by
  simp only [sjfStep, sjfExec]
  repeat' split
  all_goals simp

theorem sjfStep_disj (ps : List Proc) (t : Nat) (bt : BT) (cur : Option Nat) :
    (∀ e ∈ (sjfStep ps t bt cur).evs, tickOf e ≤ t) ∨
    (sjfStep ps t bt cur).bt = (popArrivals (popArrivals bt t).2 (t + 1)).2 := by
  simp only [sjfStep, sjfExec]
  repeat' split
  all_goals simp only [SStep_evs, SStep_bt]
  · left
    intro e he
    rcases List.mem_append.mp he with hm | hm
    · have := tick_arrEvents hm
      omega
    · rw [List.mem_singleton.mp hm]
      simp [tickOf]
  all_goals right
  all_goals trivial

theorem c1Ord_le_nonarr {e f : Event} (h1 : tickOf e ≤ tickOf f)
    (h2 : isArr f = false) : c1Ord e f := by
  rcases Nat.lt_or_ge (tickOf e) (tickOf f) with h | h
  · exact Or.inl h
  · exact Or.inr ⟨by omega, fun hc => by rw [hc] at h2; cases h2⟩

theorem sjfExec_bt (ps : List Proc) (t : Nat) (bt : BT) (best : Nat) :
    (sjfExec ps t bt best).bt = (popArrivals bt (t + 1)).2 := by
  simp only [sjfExec]
  split <;> simp

theorem sjfExec_arr_keys (ps : List Proc) (t : Nat) (bt : BT) (best : Nat) :
    ∀ e ∈ (sjfExec ps t bt best).evs, isArr e = true → tickOf e ∈ btKeys bt := by
  simp only [sjfExec]
  split
  all_goals simp only [SStep_evs]
  all_goals intro e he harr
  · rcases List.mem_append.mp he with hm | hm
    · rw [tick_arrEvents hm]
      exact arr_tick_mem_keys hm
    · rw [List.mem_singleton.mp hm] at harr
      cases harr
  · rw [tick_arrEvents he]
    exact arr_tick_mem_keys he

theorem sjfExec_pairwise (ps : List Proc) (t : Nat) (bt : BT) (best : Nat) :
    List.Pairwise c1Ord (sjfExec ps t bt best).evs := by
  simp only [sjfExec]
  split
  all_goals simp only [SStep_evs]
  · rw [List.pairwise_append]
    refine ⟨pairwise_c1_arrEvents _ _ _, List.pairwise_singleton _ _, ?_⟩
    intro e he f hf
    rw [List.mem_singleton.mp hf]
    exact c1Ord_arr_le (isArr_arrEvents he) (by rw [tick_arrEvents he]; simp [tickOf])
  · exact pairwise_c1_arrEvents _ _ _

theorem sjfStep_arr_keys (ps : List Proc) (t : Nat) (bt : BT) (cur : Option Nat) :
    ∀ e ∈ (sjfStep ps t bt cur).evs, isArr e = true → tickOf e ∈ btKeys bt := by
  simp only [sjfStep]
  split
  all_goals try split
  all_goals simp only [SStep_evs]
  all_goals intro e he harr
  · rcases List.mem_append.mp he with hm | hm
    · rw [tick_arrEvents hm]
      exact arr_tick_mem_keys hm
    · rw [List.mem_singleton.mp hm] at harr
      cases harr
  · rcases List.mem_append.mp he with hm | hm
    · rw [tick_arrEvents hm]
      exact arr_tick_mem_keys hm
    · have := sjfExec_arr_keys _ t (popArrivals bt t).2 _ e hm harr
      exact btKeys_pop_subset bt t this
  · rcases List.mem_append.mp he with hm | hm
    · rcases List.mem_append.mp hm with hm2 | hm2
      · rw [tick_arrEvents hm2]
        exact arr_tick_mem_keys hm2
      · rw [List.mem_singleton.mp hm2] at harr
        cases harr
    · have := sjfExec_arr_keys _ t (popArrivals bt t).2 _ e hm harr
      exact btKeys_pop_subset bt t this

theorem sjfGo_arr_keys (runfor : Nat) :
    ∀ (ps : List Proc) (t : Nat) (bt : BT) (cur : Option Nat),
      ∀ e ∈ (sjfGo runfor ps t bt cur).1, isArr e = true → tickOf e ∈ btKeys bt := by
  intro ps t bt cur
  induction ps, t, bt, cur using sjfGo.induct runfor with
  | case1 ps t bt cur h s ih =>
    intro e he harr
    rw [sjfGo_pos runfor ps t bt cur h] at he
    rcases List.mem_append.mp he with hm | hm
    · exact sjfStep_arr_keys ps t bt cur e hm harr
    · have hmem := ih e hm harr
      rcases sjfStep_bt_cases ps t bt cur with hc | hc
      · rw [hc] at hmem
        exact btKeys_pop_subset bt t hmem
      · rw [hc] at hmem
        exact btKeys_pop_subset bt t (btKeys_pop_subset (popArrivals bt t).2 (t + 1) hmem)
  | case2 ps t bt cur h =>
    intro e he
    rw [sjfGo_neg runfor ps t bt cur h] at he
    cases he

theorem sjfStep_pairwise (ps : List Proc) (t : Nat) (bt : BT) (cur : Option Nat) :
    List.Pairwise c1Ord (sjfStep ps t bt cur).evs := by
  simp only [sjfStep]
  split
  all_goals try split
  all_goals simp only [SStep_evs]
  · rw [List.pairwise_append]
    refine ⟨pairwise_c1_arrEvents _ _ _, List.pairwise_singleton _ _, ?_⟩
    intro e he f hf
    rw [List.mem_singleton.mp hf]
    exact c1Ord_arr_le (isArr_arrEvents he) (by rw [tick_arrEvents he]; simp [tickOf])
  · rw [List.pairwise_append]
    refine ⟨pairwise_c1_arrEvents _ _ _, sjfExec_pairwise _ _ _ _, ?_⟩
    intro e he f hf
    have htf := sjfExec_evs_tick _ t _ _ f hf
    exact c1Ord_arr_le (isArr_arrEvents he) (by rw [tick_arrEvents he, htf]; omega)
  · rw [List.pairwise_append, List.pairwise_append]
    refine ⟨⟨pairwise_c1_arrEvents _ _ _, List.pairwise_singleton _ _, ?_⟩,
      sjfExec_pairwise _ _ _ _, ?_⟩
    · intro e he f hf
      rw [List.mem_singleton.mp hf]
      exact c1Ord_arr_le (isArr_arrEvents he) (by rw [tick_arrEvents he]; simp [tickOf])
    · intro e he f hf
      have htf := sjfExec_evs_tick _ t _ _ f hf
      refine Or.inl ?_
      rw [htf]
      rcases List.mem_append.mp he with hm | hm
      · rw [tick_arrEvents hm]
        omega
      · rw [List.mem_singleton.mp hm]
        simp [tickOf]


theorem sjfGo_pairwise (runfor : Nat) :
    ∀ (ps : List Proc) (t : Nat) (bt : BT) (cur : Option Nat), (btKeys bt).Nodup →
      List.Pairwise c1Ord (sjfGo runfor ps t bt cur).1 := by
  intro ps t bt cur
  induction ps, t, bt, cur using sjfGo.induct runfor with
  | case1 ps t bt cur h s ih =>
    intro hnd
    rw [sjfGo_pos runfor ps t bt cur h]
    rw [List.pairwise_append]
    have hnd2 : (btKeys (sjfStep ps t bt cur).bt).Nodup := by
      rcases sjfStep_bt_cases ps t bt cur with hc | hc <;> rw [hc]
      · exact popArrivals_keys_nodup bt t hnd
      · exact popArrivals_keys_nodup _ _ (popArrivals_keys_nodup bt t hnd)
    refine ⟨sjfStep_pairwise ps t bt cur, ih hnd2, ?_⟩
    intro e he f hf
    have hf_ge : t + 1 ≤ tickOf f := sjfGo_tick_ge runfor _ (t + 1) _ _ f hf
    rcases sjfStep_disj ps t bt cur with hd | hd
    · exact c1Ord_cross (hd e he) (by omega) (fun _ => by omega)
    · have he_le : tickOf e ≤ t + 1 := by
        rcases sjfStep_evs_tick ps t bt cur e he with h1 | h1 <;> omega
      refine c1Ord_cross he_le hf_ge ?_
      intro harr
      have hkeys := sjfGo_arr_keys runfor _ (t + 1) _ _ f hf harr
      rw [hd] at hkeys
      have hnot : t + 1 ∉ btKeys (popArrivals (popArrivals bt t).2 (t + 1)).2 :=
        popArrivals_not_mem_keys _ _ (popArrivals_keys_nodup bt t hnd)
      have hne : tickOf f ≠ t + 1 := fun hc => hnot (hc ▸ hkeys)
      omega
  | case2 ps t bt cur h =>
    intro _
    rw [sjfGo_neg runfor ps t bt cur h]
    exact List.Pairwise.nil


theorem pairwise_blocks (A B C D E R : List Event) (T0 T1 : Nat) (hT : T0 ≤ T1)
    (hA : List.Pairwise c1Ord A) (hAlt : ∀ e ∈ A, tickOf e < T0)
    (hB : List.Pairwise c1Ord B) (hBc : ∀ e ∈ B, tickOf e = T0 ∧ isArr e = true)
    (hC : List.Pairwise c1Ord C) (hCc : ∀ e ∈ C, tickOf e = T0 ∧ isArr e = false)
    (hD : List.Pairwise c1Ord D) (hDc : ∀ e ∈ D, T0 < tickOf e ∧ tickOf e ≤ T1)
    (hE : List.Pairwise c1Ord E) (hEc : ∀ e ∈ E, tickOf e = T1 ∧ isArr e = false)
    (hR : List.Pairwise c1Ord R)
    (hRc : ∀ f ∈ R, T1 ≤ tickOf f ∧ (isArr f = true → T1 < tickOf f)) :
    List.Pairwise c1Ord (A ++ B ++ C ++ D ++ E ++ R) := by
  have hle : ∀ e ∈ A ++ B ++ C ++ D ++ E, tickOf e ≤ T1 := by
    intro e he
    rcases List.mem_append.mp he with h4 | h5
    · rcases List.mem_append.mp h4 with h3 | h4
      · rcases List.mem_append.mp h3 with h2 | h3
        · rcases List.mem_append.mp h2 with h1 | h2
          · have := hAlt e h1
            omega
          · have := (hBc e h2).1
            omega
        · have := (hCc e h3).1
          omega
      · have := (hDc e h4).2
        omega
    · have := (hEc e h5).1
      omega
  rw [List.pairwise_append]
  refine ⟨?_, hR, ?_⟩
  swap
  · intro e he f hf
    exact c1Ord_cross (hle e he) (hRc f hf).1 (hRc f hf).2
  rw [List.pairwise_append]
  refine ⟨?_, hE, ?_⟩
  swap
  · intro e he f hf
    rcases List.mem_append.mp he with h3 | h4
    · rcases List.mem_append.mp h3 with h2 | h3
      · rcases List.mem_append.mp h2 with h1 | h2
        · exact Or.inl (by have := hAlt e h1; have := (hEc f hf).1; omega)
        · exact c1Ord_arr_le (hBc e h2).2 (by have := (hBc e h2).1; have := (hEc f hf).1; omega)
      · exact c1Ord_le_nonarr (by have := (hCc e h3).1; have := (hEc f hf).1; omega) (hEc f hf).2
    · exact c1Ord_le_nonarr (by have := (hDc e h4).2; have := (hEc f hf).1; omega) (hEc f hf).2
  rw [List.pairwise_append]
  refine ⟨?_, hD, ?_⟩
  swap
  · intro e he f hf
    rcases List.mem_append.mp he with h2 | h3
    · rcases List.mem_append.mp h2 with h1 | h2
      · exact Or.inl (by have := hAlt e h1; have := (hDc f hf).1; omega)
      · exact c1Ord_arr_le (hBc e h2).2 (by have := (hBc e h2).1; have := (hDc f hf).1; omega)
    · exact Or.inl (by have := (hCc e h3).1; have := (hDc f hf).1; omega)
  rw [List.pairwise_append]
  refine ⟨?_, hC, ?_⟩
  swap
  · intro e he f hf
    rcases List.mem_append.mp he with h1 | h2
    · exact Or.inl (by have := hAlt e h1; have := (hCc f hf).1; omega)
    · exact c1Ord_arr_le (hBc e h2).2 (by have := (hBc e h2).1; have := (hCc f hf).1; omega)
  rw [List.pairwise_append]
  refine ⟨hA, hB, ?_⟩
  intro e he f hf
  exact Or.inl (by have := hAlt e he; have := (hBc f hf).1; omega)

theorem fcfsIdle_evs_lt (ps : List Proc) (runfor arrival : Nat) :
    ∀ (t : Nat) (bt : BT), ∀ e ∈ (fcfsIdle ps runfor arrival t bt).evs,
      tickOf e < (fcfsIdle ps runfor arrival t bt).t := by
  intro t bt
  induction t, bt using fcfsIdle.induct ps runfor arrival with
  | case1 t bt h pr ih =>
    intro e he
    have heq : (fcfsIdle ps runfor arrival t bt).t
        = (fcfsIdle ps runfor arrival (t + 1) (popArrivals bt t).2).t := by
      rw [fcfsIdle_pos ps runfor arrival t bt h]
    rw [heq]
    rw [fcfsIdle_pos ps runfor arrival t bt h] at he
    simp only [FIdle_evs] at he
    have hge := fcfsIdle_t_ge ps runfor arrival (t + 1) (popArrivals bt t).2
    rcases List.mem_append.mp he with hm | hm
    · rcases List.mem_append.mp hm with hm2 | hm2
      · rw [tick_arrEvents hm2]
        omega
      · rw [List.mem_singleton.mp hm2]
        simp only [tickOf]
        omega
    · exact ih e hm
  | case2 t bt h =>
    intro e he
    rw [fcfsIdle_neg ps runfor arrival t bt h] at he
    cases he

theorem fcfsIdle_pairwise (ps : List Proc) (runfor arrival : Nat) :
    ∀ (t : Nat) (bt : BT), List.Pairwise c1Ord (fcfsIdle ps runfor arrival t bt).evs := by
  intro t bt
  induction t, bt using fcfsIdle.induct ps runfor arrival with
  | case1 t bt h pr ih =>
    rw [fcfsIdle_pos ps runfor arrival t bt h]
    simp only [FIdle_evs]
    rw [List.pairwise_append]
    refine ⟨?_, ih, ?_⟩
    · rw [List.pairwise_append]
      refine ⟨pairwise_c1_arrEvents _ _ _, List.pairwise_singleton _ _, ?_⟩
      intro e he f hf
      rw [List.mem_singleton.mp hf]
      exact c1Ord_arr_le (isArr_arrEvents he) (by rw [tick_arrEvents he]; simp [tickOf])
    · intro e he f hf
      have hf2 := fcfsIdle_evs_tick ps runfor arrival (t + 1) (popArrivals bt t).2 f hf
      refine Or.inl ?_
      rcases List.mem_append.mp he with hm | hm
      · rw [tick_arrEvents hm]
        omega
      · rw [List.mem_singleton.mp hm]
        have h3 : tickOf (Event.idle t) = t := rfl
        omega
  | case2 t bt h =>
    rw [fcfsIdle_neg ps runfor arrival t bt h]
    exact List.Pairwise.nil

theorem fcfsIdle_bt_sub (ps : List Proc) (runfor arrival : Nat) :
    ∀ (t : Nat) (bt : BT), List.Sublist (fcfsIdle ps runfor arrival t bt).bt bt := by
  intro t bt
  induction t, bt using fcfsIdle.induct ps runfor arrival with
  | case1 t bt h pr ih =>
    have heq : (fcfsIdle ps runfor arrival t bt).bt
        = (fcfsIdle ps runfor arrival (t + 1) (popArrivals bt t).2).bt := by
      rw [fcfsIdle_pos ps runfor arrival t bt h]
    rw [heq]
    exact ih.trans (popArrivals_sublist bt t)
  | case2 t bt h =>
    rw [fcfsIdle_neg ps runfor arrival t bt h]

theorem fcfsIdle_arr_keys (ps : List Proc) (runfor arrival : Nat) :
    ∀ (t : Nat) (bt : BT), ∀ e ∈ (fcfsIdle ps runfor arrival t bt).evs,
      isArr e = true → tickOf e ∈ btKeys bt := by
  intro t bt
  induction t, bt using fcfsIdle.induct ps runfor arrival with
  | case1 t bt h pr ih =>
    intro e he harr
    rw [fcfsIdle_pos ps runfor arrival t bt h] at he
    simp only [FIdle_evs] at he
    rcases List.mem_append.mp he with hm | hm
    · rcases List.mem_append.mp hm with hm2 | hm2
      · rw [tick_arrEvents hm2]
        exact arr_tick_mem_keys hm2
      · rw [List.mem_singleton.mp hm2] at harr
        cases harr
    · exact btKeys_pop_subset bt t (ih e hm harr)
  | case2 t bt h =>
    intro e he
    rw [fcfsIdle_neg ps runfor arrival t bt h] at he
    cases he

theorem fcfsRun_arr_keys (runfor i : Nat) :
    ∀ (ps : List Proc) (t : Nat) (bt : BT), ∀ e ∈ (fcfsRun runfor i ps t bt).evs,
      isArr e = true → tickOf e ∈ btKeys bt := by
  intro ps t bt
  induction ps, t, bt using fcfsRun.induct runfor i with
  | case1 ps t bt h ps1 pr ih =>
    intro e he harr
    rw [fcfsRun_pos runfor i ps t bt h] at he
    simp only [FRun_evs] at he
    rcases List.mem_append.mp he with hm | hm
    · rw [tick_arrEvents hm]
      exact arr_tick_mem_keys hm
    · exact btKeys_pop_subset bt (t + 1) (ih e hm harr)
  | case2 ps t bt h =>
    intro e he
    rw [fcfsRun_neg runfor i ps t bt h] at he
    cases he

theorem fcfsRun_bt_sub (runfor i : Nat) :
    ∀ (ps : List Proc) (t : Nat) (bt : BT),
      List.Sublist (fcfsRun runfor i ps t bt).bt bt := by
  intro ps t bt
  induction ps, t, bt using fcfsRun.induct runfor i with
  | case1 ps t bt h ps1 pr ih =>
    have heq : (fcfsRun runfor i ps t bt).bt
        = (fcfsRun runfor i (decRem ps i) (t + 1) (popArrivals bt (t + 1)).2).bt := by
      rw [fcfsRun_pos runfor i ps t bt h]
    rw [heq]
    exact ih.trans (popArrivals_sublist bt (t + 1))
  | case2 ps t bt h =>
    rw [fcfsRun_neg runfor i ps t bt h]

theorem fcfsRun_key_out (runfor i : Nat) :
    ∀ (ps : List Proc) (t : Nat) (bt : BT), (btKeys bt).Nodup → t ∉ btKeys bt →
      (fcfsRun runfor i ps t bt).t ∉ btKeys (fcfsRun runfor i ps t bt).bt := by
  intro ps t bt
  induction ps, t, bt using fcfsRun.induct runfor i with
  | case1 ps t bt h ps1 pr ih =>
    intro hnd _
    have heq : (fcfsRun runfor i ps t bt).t
        = (fcfsRun runfor i (decRem ps i) (t + 1) (popArrivals bt (t + 1)).2).t := by
      rw [fcfsRun_pos runfor i ps t bt h]
    have heq2 : (fcfsRun runfor i ps t bt).bt
        = (fcfsRun runfor i (decRem ps i) (t + 1) (popArrivals bt (t + 1)).2).bt := by
      rw [fcfsRun_pos runfor i ps t bt h]
    rw [heq, heq2]
    exact ih (popArrivals_keys_nodup bt (t + 1) hnd)
      (popArrivals_not_mem_keys bt (t + 1) hnd)
  | case2 ps t bt h =>
    intro _ hout
    rw [fcfsRun_neg runfor i ps t bt h]
    exact hout

theorem fcfsRun_pairwise (runfor i : Nat) :
    ∀ (ps : List Proc) (t : Nat) (bt : BT),
      List.Pairwise c1Ord (fcfsRun runfor i ps t bt).evs := by
  intro ps t bt
  induction ps, t, bt using fcfsRun.induct runfor i with
  | case1 ps t bt h ps1 pr ih =>
    rw [fcfsRun_pos runfor i ps t bt h]
    simp only [FRun_evs]
    rw [List.pairwise_append]
    refine ⟨pairwise_c1_arrEvents _ _ _, ih, ?_⟩
    intro e he f hf
    have hf2 := fcfsRun_evs_tick runfor i (decRem ps i) (t + 1) (popArrivals bt (t + 1)).2 f hf
    exact c1Ord_arr_le (isArr_arrEvents he) (by rw [tick_arrEvents he]; omega)
  | case2 ps t bt h =>
    rw [fcfsRun_neg runfor i ps t bt h]
    exact List.Pairwise.nil

theorem fcfsTrail_pairwise (ps : List Proc) (runfor : Nat) :
    ∀ (t : Nat) (bt : BT), List.Pairwise c1Ord (fcfsTrail ps runfor t bt) := by
  intro t bt
  induction t, bt using fcfsTrail.induct ps runfor with
  | case1 t bt h pr ih =>
    rw [fcfsTrail_pos ps runfor t bt h]
    rw [List.pairwise_append]
    refine ⟨?_, ih, ?_⟩
    · rw [List.pairwise_append]
      refine ⟨pairwise_c1_arrEvents _ _ _, List.pairwise_singleton _ _, ?_⟩
      intro e he f hf
      rw [List.mem_singleton.mp hf]
      exact c1Ord_arr_le (isArr_arrEvents he) (by rw [tick_arrEvents he]; simp [tickOf])
    · intro e he f hf
      have hf2 := fcfsTrail_evs_tick ps runfor (t + 1) (popArrivals bt t).2 f hf
      refine Or.inl ?_
      rcases List.mem_append.mp he with hm | hm
      · rw [tick_arrEvents hm]
        omega
      · rw [List.mem_singleton.mp hm]
        have h3 : tickOf (Event.idle t) = t := rfl
        omega
  | case2 t bt h =>
    rw [fcfsTrail_neg ps runfor t bt h]
    exact List.Pairwise.nil

theorem fcfsTrail_arr_keys (ps : List Proc) (runfor : Nat) :
    ∀ (t : Nat) (bt : BT), ∀ e ∈ fcfsTrail ps runfor t bt,
      isArr e = true → tickOf e ∈ btKeys bt := by
  intro t bt
  induction t, bt using fcfsTrail.induct ps runfor with
  | case1 t bt h pr ih =>
    intro e he harr
    rw [fcfsTrail_pos ps runfor t bt h] at he
    rcases List.mem_append.mp he with hm | hm
    · rcases List.mem_append.mp hm with hm2 | hm2
      · rw [tick_arrEvents hm2]
        exact arr_tick_mem_keys hm2
      · rw [List.mem_singleton.mp hm2] at harr
        cases harr
    · exact btKeys_pop_subset bt t (ih e hm harr)
  | case2 t bt h =>
    intro e he
    rw [fcfsTrail_neg ps runfor t bt h] at he
    cases he


theorem tick_sel (u b : Nat) (n : String) : tickOf (Event.selected u n b) = u := rfl

theorem tick_fin (u : Nat) (n : String) : tickOf (Event.finished u n) = u := rfl

theorem tick_idl (u : Nat) : tickOf (Event.idle u) = u := rfl

theorem btKeys_sub_of_sublist {b1 b2 : BT} (h : List.Sublist b1 b2) :
    btKeys b1 ⊆ btKeys b2 := (h.map (fun e : Nat × List Nat => e.1)).subset

theorem btKeys_nodup_of_sublist {b1 b2 : BT} (h : List.Sublist b1 b2)
    (hnd : (btKeys b2).Nodup) : (btKeys b1).Nodup :=
  (h.map (fun e : Nat × List Nat => e.1)).nodup hnd

theorem fcfsMain_tick_ge (runfor : Nat) (order : List Nat) :
    ∀ (ps : List Proc) (t : Nat) (bt : BT), ∀ e ∈ (fcfsMain runfor order ps t bt).1,
      t ≤ tickOf e := by
  induction order with
  | nil =>
    intro ps t bt e he
    simp only [fcfsMain] at he
    exact (fcfsTrail_evs_tick ps runfor t bt e he).1
  | cons i rest ih =>
    intro ps t bt e he
    simp only [fcfsMain] at he
    by_cases hge : runfor ≤ (fcfsIdle ps runfor (arrivalAt ps i) t bt).t
    · rw [if_pos hge] at he
      exact (fcfsIdle_evs_tick ps runfor (arrivalAt ps i) t bt e he).1
    · rw [if_neg hge] at he
      dsimp only at he
      have hI_ge := fcfsIdle_t_ge ps runfor (arrivalAt ps i) t bt
      by_cases hsel : startAt ps i = none
      · rw [if_pos hsel] at he
        dsimp only at he
        have hR_ge := fcfsRun_t_ge runfor i (setStart ps i (fcfsIdle ps runfor (arrivalAt ps i) t bt).t) (fcfsIdle ps runfor (arrivalAt ps i) t bt).t (popArrivals (fcfsIdle ps runfor (arrivalAt ps i) t bt).bt (fcfsIdle ps runfor (arrivalAt ps i) t bt).t).2
        rcases List.mem_append.mp he with h5 | h6
        · rcases List.mem_append.mp h5 with h4 | h5
          · rcases List.mem_append.mp h4 with h3 | h4
            · rcases List.mem_append.mp h3 with h2 | h3
              · rcases List.mem_append.mp h2 with h1 | h2
                · exact (fcfsIdle_evs_tick ps runfor (arrivalAt ps i) t bt e h1).1
                · rw [tick_arrEvents h2]
                  omega
              · simp only [List.mem_singleton] at h3
                subst h3
                rw [tick_sel]
                omega
            · have := (fcfsRun_evs_tick runfor i _ _ _ e h4).1
              omega
          · split at h5
            · simp only [List.mem_singleton] at h5
              subst h5
              rw [tick_fin]
              omega
            · simp at h5
        · have := ih _ _ _ e h6
          omega
      · rw [if_neg hsel] at he
        dsimp only at he
        have hR_ge := fcfsRun_t_ge runfor i ps (fcfsIdle ps runfor (arrivalAt ps i) t bt).t (popArrivals (fcfsIdle ps runfor (arrivalAt ps i) t bt).bt (fcfsIdle ps runfor (arrivalAt ps i) t bt).t).2
        rcases List.mem_append.mp he with h5 | h6
        · rcases List.mem_append.mp h5 with h4 | h5
          · rcases List.mem_append.mp h4 with h3 | h4
            · rcases List.mem_append.mp h3 with h2 | h3
              · rcases List.mem_append.mp h2 with h1 | h2
                · exact (fcfsIdle_evs_tick ps runfor (arrivalAt ps i) t bt e h1).1
                · rw [tick_arrEvents h2]
                  omega
              · simp at h3
            · have := (fcfsRun_evs_tick runfor i _ _ _ e h4).1
              omega
          · split at h5
            · simp only [List.mem_singleton] at h5
              subst h5
              rw [tick_fin]
              omega
            · simp at h5
        · have := ih _ _ _ e h6
          omega


theorem fcfsMain_arr_keys (runfor : Nat) (order : List Nat) :
    ∀ (ps : List Proc) (t : Nat) (bt : BT), ∀ e ∈ (fcfsMain runfor order ps t bt).1,
      isArr e = true → tickOf e ∈ btKeys bt := by
  induction order with
  | nil =>
    intro ps t bt e he harr
    simp only [fcfsMain] at he
    exact fcfsTrail_arr_keys ps runfor t bt e he harr
  | cons i rest ih =>
    intro ps t bt e he harr
    simp only [fcfsMain] at he
    by_cases hge : runfor ≤ (fcfsIdle ps runfor (arrivalAt ps i) t bt).t
    · rw [if_pos hge] at he
      exact fcfsIdle_arr_keys ps runfor (arrivalAt ps i) t bt e he harr
    · rw [if_neg hge] at he
      dsimp only at he
      have hsubI : btKeys (fcfsIdle ps runfor (arrivalAt ps i) t bt).bt ⊆ btKeys bt :=
        btKeys_sub_of_sublist (fcfsIdle_bt_sub ps runfor (arrivalAt ps i) t bt)
      have hsubP : btKeys (popArrivals (fcfsIdle ps runfor (arrivalAt ps i) t bt).bt (fcfsIdle ps runfor (arrivalAt ps i) t bt).t).2 ⊆ btKeys (fcfsIdle ps runfor (arrivalAt ps i) t bt).bt :=
        btKeys_pop_subset _ _
      by_cases hsel : startAt ps i = none
      · rw [if_pos hsel] at he
        dsimp only at he
        have hsubR : btKeys (fcfsRun runfor i (setStart ps i (fcfsIdle ps runfor (arrivalAt ps i) t bt).t) (fcfsIdle ps runfor (arrivalAt ps i) t bt).t (popArrivals (fcfsIdle ps runfor (arrivalAt ps i) t bt).bt (fcfsIdle ps runfor (arrivalAt ps i) t bt).t).2).bt
            ⊆ btKeys (popArrivals (fcfsIdle ps runfor (arrivalAt ps i) t bt).bt (fcfsIdle ps runfor (arrivalAt ps i) t bt).t).2 :=
          btKeys_sub_of_sublist (fcfsRun_bt_sub runfor i _ _ _)
        rcases List.mem_append.mp he with h5 | h6
        · rcases List.mem_append.mp h5 with h4 | h5
          · rcases List.mem_append.mp h4 with h3 | h4
            · rcases List.mem_append.mp h3 with h2 | h3
              · rcases List.mem_append.mp h2 with h1 | h2
                · exact fcfsIdle_arr_keys ps runfor (arrivalAt ps i) t bt e h1 harr
                · rw [tick_arrEvents h2]
                  exact hsubI (arr_tick_mem_keys h2)
              · simp only [List.mem_singleton] at h3
                subst h3
                cases harr
            · exact hsubI (hsubP (fcfsRun_arr_keys runfor i _ _ _ e h4 harr))
          · split at h5
            · simp only [List.mem_singleton] at h5
              subst h5
              cases harr
            · simp at h5
        · exact hsubI (hsubP (hsubR (ih _ _ _ e h6 harr)))
      · rw [if_neg hsel] at he
        dsimp only at he
        have hsubR : btKeys (fcfsRun runfor i ps (fcfsIdle ps runfor (arrivalAt ps i) t bt).t (popArrivals (fcfsIdle ps runfor (arrivalAt ps i) t bt).bt (fcfsIdle ps runfor (arrivalAt ps i) t bt).t).2).bt
            ⊆ btKeys (popArrivals (fcfsIdle ps runfor (arrivalAt ps i) t bt).bt (fcfsIdle ps runfor (arrivalAt ps i) t bt).t).2 :=
          btKeys_sub_of_sublist (fcfsRun_bt_sub runfor i _ _ _)
        rcases List.mem_append.mp he with h5 | h6
        · rcases List.mem_append.mp h5 with h4 | h5
          · rcases List.mem_append.mp h4 with h3 | h4
            · rcases List.mem_append.mp h3 with h2 | h3
              · rcases List.mem_append.mp h2 with h1 | h2
                · exact fcfsIdle_arr_keys ps runfor (arrivalAt ps i) t bt e h1 harr
                · rw [tick_arrEvents h2]
                  exact hsubI (arr_tick_mem_keys h2)
              · simp at h3
            · exact hsubI (hsubP (fcfsRun_arr_keys runfor i _ _ _ e h4 harr))
          · split at h5
            · simp only [List.mem_singleton] at h5
              subst h5
              cases harr
            · simp at h5
        · exact hsubI (hsubP (hsubR (ih _ _ _ e h6 harr)))



theorem fcfsMain_pairwise (runfor : Nat) (order : List Nat) :
    ∀ (ps : List Proc) (t : Nat) (bt : BT), (btKeys bt).Nodup →
      List.Pairwise c1Ord (fcfsMain runfor order ps t bt).1 := by
  induction order with
  | nil =>
    intro ps t bt _
    simp only [fcfsMain]
    exact fcfsTrail_pairwise ps runfor t bt
  | cons i rest ih =>
    intro ps t bt hnd
    simp only [fcfsMain]
    by_cases hge : runfor ≤ (fcfsIdle ps runfor (arrivalAt ps i) t bt).t
    · rw [if_pos hge]
      exact fcfsIdle_pairwise ps runfor (arrivalAt ps i) t bt
    · rw [if_neg hge]
      dsimp only
      by_cases hsel : startAt ps i = none
      · rw [if_pos hsel]
        dsimp only
        have hnodI : (btKeys (fcfsIdle ps runfor (arrivalAt ps i) t bt).bt).Nodup :=
          btKeys_nodup_of_sublist (fcfsIdle_bt_sub ps runfor (arrivalAt ps i) t bt) hnd
        have hnodP : (btKeys (popArrivals (fcfsIdle ps runfor (arrivalAt ps i) t bt).bt (fcfsIdle ps runfor (arrivalAt ps i) t bt).t).2).Nodup :=
          popArrivals_keys_nodup _ _ hnodI
        have houtP : (fcfsIdle ps runfor (arrivalAt ps i) t bt).t ∉ btKeys (popArrivals (fcfsIdle ps runfor (arrivalAt ps i) t bt).bt (fcfsIdle ps runfor (arrivalAt ps i) t bt).t).2 :=
          popArrivals_not_mem_keys _ _ hnodI
        have hnodR : (btKeys (fcfsRun runfor i (setStart ps i (fcfsIdle ps runfor (arrivalAt ps i) t bt).t) (fcfsIdle ps runfor (arrivalAt ps i) t bt).t (popArrivals (fcfsIdle ps runfor (arrivalAt ps i) t bt).bt (fcfsIdle ps runfor (arrivalAt ps i) t bt).t).2).bt).Nodup :=
          btKeys_nodup_of_sublist (fcfsRun_bt_sub runfor i _ _ _) hnodP
        have houtR : (fcfsRun runfor i (setStart ps i (fcfsIdle ps runfor (arrivalAt ps i) t bt).t) (fcfsIdle ps runfor (arrivalAt ps i) t bt).t (popArrivals (fcfsIdle ps runfor (arrivalAt ps i) t bt).bt (fcfsIdle ps runfor (arrivalAt ps i) t bt).t).2).t ∉ btKeys (fcfsRun runfor i (setStart ps i (fcfsIdle ps runfor (arrivalAt ps i) t bt).t) (fcfsIdle ps runfor (arrivalAt ps i) t bt).t (popArrivals (fcfsIdle ps runfor (arrivalAt ps i) t bt).bt (fcfsIdle ps runfor (arrivalAt ps i) t bt).t).2).bt :=
          fcfsRun_key_out runfor i (setStart ps i (fcfsIdle ps runfor (arrivalAt ps i) t bt).t) (fcfsIdle ps runfor (arrivalAt ps i) t bt).t (popArrivals (fcfsIdle ps runfor (arrivalAt ps i) t bt).bt (fcfsIdle ps runfor (arrivalAt ps i) t bt).t).2 hnodP houtP
        refine pairwise_blocks _ _ _ _ _ _ (fcfsIdle ps runfor (arrivalAt ps i) t bt).t (fcfsRun runfor i (setStart ps i (fcfsIdle ps runfor (arrivalAt ps i) t bt).t) (fcfsIdle ps runfor (arrivalAt ps i) t bt).t (popArrivals (fcfsIdle ps runfor (arrivalAt ps i) t bt).bt (fcfsIdle ps runfor (arrivalAt ps i) t bt).t).2).t
          (fcfsRun_t_ge runfor i _ _ _)
          (fcfsIdle_pairwise ps runfor (arrivalAt ps i) t bt)
          (fcfsIdle_evs_lt ps runfor (arrivalAt ps i) t bt)
          (pairwise_c1_arrEvents _ _ _)
          (fun e he => ⟨tick_arrEvents he, isArr_arrEvents he⟩)
          (List.pairwise_singleton _ _)
          (fun e he => by
            simp only [List.mem_singleton] at he
            subst he
            exact ⟨rfl, rfl⟩)
          (fcfsRun_pairwise runfor i _ _ _)
          (fcfsRun_evs_tick runfor i _ _ _)
          ?_ ?_ (ih _ _ _ hnodR) ?_
        · split
          · exact List.pairwise_singleton _ _
          · exact List.Pairwise.nil
        · intro e he
          split at he
          · simp only [List.mem_singleton] at he
            subst he
            exact ⟨rfl, rfl⟩
          · simp at he
        · intro f hf
          refine ⟨fcfsMain_tick_ge runfor rest _ _ _ f hf, ?_⟩
          intro harr
          have hkeys := fcfsMain_arr_keys runfor rest _ _ _ f hf harr
          have hge2 := fcfsMain_tick_ge runfor rest _ _ _ f hf
          have hne : tickOf f ≠ (fcfsRun runfor i (setStart ps i (fcfsIdle ps runfor (arrivalAt ps i) t bt).t) (fcfsIdle ps runfor (arrivalAt ps i) t bt).t (popArrivals (fcfsIdle ps runfor (arrivalAt ps i) t bt).bt (fcfsIdle ps runfor (arrivalAt ps i) t bt).t).2).t := fun hc => houtR (hc ▸ hkeys)
          omega
      · rw [if_neg hsel]
        dsimp only
        have hnodI : (btKeys (fcfsIdle ps runfor (arrivalAt ps i) t bt).bt).Nodup :=
          btKeys_nodup_of_sublist (fcfsIdle_bt_sub ps runfor (arrivalAt ps i) t bt) hnd
        have hnodP : (btKeys (popArrivals (fcfsIdle ps runfor (arrivalAt ps i) t bt).bt (fcfsIdle ps runfor (arrivalAt ps i) t bt).t).2).Nodup :=
          popArrivals_keys_nodup _ _ hnodI
        have houtP : (fcfsIdle ps runfor (arrivalAt ps i) t bt).t ∉ btKeys (popArrivals (fcfsIdle ps runfor (arrivalAt ps i) t bt).bt (fcfsIdle ps runfor (arrivalAt ps i) t bt).t).2 :=
          popArrivals_not_mem_keys _ _ hnodI
        have hnodR : (btKeys (fcfsRun runfor i ps (fcfsIdle ps runfor (arrivalAt ps i) t bt).t (popArrivals (fcfsIdle ps runfor (arrivalAt ps i) t bt).bt (fcfsIdle ps runfor (arrivalAt ps i) t bt).t).2).bt).Nodup :=
          btKeys_nodup_of_sublist (fcfsRun_bt_sub runfor i _ _ _) hnodP
        have houtR : (fcfsRun runfor i ps (fcfsIdle ps runfor (arrivalAt ps i) t bt).t (popArrivals (fcfsIdle ps runfor (arrivalAt ps i) t bt).bt (fcfsIdle ps runfor (arrivalAt ps i) t bt).t).2).t ∉ btKeys (fcfsRun runfor i ps (fcfsIdle ps runfor (arrivalAt ps i) t bt).t (popArrivals (fcfsIdle ps runfor (arrivalAt ps i) t bt).bt (fcfsIdle ps runfor (arrivalAt ps i) t bt).t).2).bt :=
          fcfsRun_key_out runfor i ps (fcfsIdle ps runfor (arrivalAt ps i) t bt).t (popArrivals (fcfsIdle ps runfor (arrivalAt ps i) t bt).bt (fcfsIdle ps runfor (arrivalAt ps i) t bt).t).2 hnodP houtP
        refine pairwise_blocks _ _ _ _ _ _ (fcfsIdle ps runfor (arrivalAt ps i) t bt).t (fcfsRun runfor i ps (fcfsIdle ps runfor (arrivalAt ps i) t bt).t (popArrivals (fcfsIdle ps runfor (arrivalAt ps i) t bt).bt (fcfsIdle ps runfor (arrivalAt ps i) t bt).t).2).t
          (fcfsRun_t_ge runfor i _ _ _)
          (fcfsIdle_pairwise ps runfor (arrivalAt ps i) t bt)
          (fcfsIdle_evs_lt ps runfor (arrivalAt ps i) t bt)
          (pairwise_c1_arrEvents _ _ _)
          (fun e he => ⟨tick_arrEvents he, isArr_arrEvents he⟩)
          List.Pairwise.nil
          (fun e he => absurd he (List.not_mem_nil e))
          (fcfsRun_pairwise runfor i _ _ _)
          (fcfsRun_evs_tick runfor i _ _ _)
          ?_ ?_ (ih _ _ _ hnodR) ?_
        · split
          · exact List.pairwise_singleton _ _
          · exact List.Pairwise.nil
        · intro e he
          split at he
          · simp only [List.mem_singleton] at he
            subst he
            exact ⟨rfl, rfl⟩
          · simp at he
        · intro f hf
          refine ⟨fcfsMain_tick_ge runfor rest _ _ _ f hf, ?_⟩
          intro harr
          have hkeys := fcfsMain_arr_keys runfor rest _ _ _ f hf harr
          have hge2 := fcfsMain_tick_ge runfor rest _ _ _ f hf
          have hne : tickOf f ≠ (fcfsRun runfor i ps (fcfsIdle ps runfor (arrivalAt ps i) t bt).t (popArrivals (fcfsIdle ps runfor (arrivalAt ps i) t bt).bt (fcfsIdle ps runfor (arrivalAt ps i) t bt).t).2).t := fun hc => houtR (hc ▸ hkeys)
          omega


theorem rrGo_tick_ge (runfor : Nat) (q : {n : Nat // 0 < n}) :
    ∀ (ps : List Proc) (t : Nat) (bt : BT) (rq : List Nat),
      ∀ e ∈ (rrGo runfor q ps t bt rq).1, t ≤ tickOf e := by
  intro ps t bt rq
  induction ps, t, bt, rq using rrGo.induct runfor q with
  | case1 ps t bt rq h pr hm pr2 ih =>
    intro e he
    have hpr : pr = popArrivals bt t := rfl
    rw [hpr] at hm
    rw [rrGo_idle runfor q ps t bt rq h hm] at he
    rcases List.mem_append.mp he with hmm | hrest
    · rcases List.mem_append.mp hmm with hmm2 | harr2
      · rcases List.mem_append.mp hmm2 with harr | hidl
        · rw [tick_arrEvents harr]
        · rw [List.mem_singleton.mp hidl, tick_idl]
      · rw [tick_arrEvents harr2]
        omega
    · have := ih e hrest
      omega
  | case2 ps t bt rq h pr i rest hm br ih =>
    intro e he
    have hpr : pr = popArrivals bt t := rfl
    rw [hpr] at hm
    rw [rrGo_run runfor q ps t bt rq i rest h hm] at he
    have hbr_ge := rrSlice_t_ge i (min q.1 (min (remAt ps i) (runfor - t)))
      (if startAt ps i = none then setStart ps i t else ps) t (popArrivals bt t).2 rest
    rcases List.mem_append.mp he with hmm | hrest
    · rcases List.mem_append.mp hmm with harr | hbr2
      · rw [tick_arrEvents harr]
      · exact (rrRunBranch_evs_tick runfor q.1 i ps t (popArrivals bt t).2 rest h e hbr2).1
    · have h2 := ih e hrest
      have hbr : br = rrRunBranch runfor q.1 i ps t (popArrivals bt t).2 rest := rfl
      rw [hbr] at h2
      simp only [rrRunBranch, RSl_t] at h2
      omega
  | case3 ps t bt rq h =>
    intro e he
    rw [rrGo_neg runfor q ps t bt rq h] at he
    cases he

theorem rrSlice_bt_sub (i : Nat) :
    ∀ (n : Nat) (ps : List Proc) (t : Nat) (bt : BT) (rq : List Nat),
      List.Sublist (rrSlice i n ps t bt rq).bt bt := by
  intro n
  induction n with
  | zero =>
    intro ps t bt rq
    simp [rrSlice]
  | succ n ih =>
    intro ps t bt rq
    simp only [rrSlice]
    split
    · simp only [RSl_bt]
      exact popArrivals_sublist bt (t + 1)
    · simp only [RSl_bt]
      exact (ih _ _ _ _).trans (popArrivals_sublist bt (t + 1))

theorem rrSlice_arr_keys (i : Nat) :
    ∀ (n : Nat) (ps : List Proc) (t : Nat) (bt : BT) (rq : List Nat),
      ∀ e ∈ (rrSlice i n ps t bt rq).evs, isArr e = true → tickOf e ∈ btKeys bt := by
  intro n
  induction n with
  | zero =>
    intro ps t bt rq e he
    simp [rrSlice] at he
  | succ n ih =>
    intro ps t bt rq e he harr
    simp only [rrSlice] at he
    split at he
    · simp only [RSl_evs] at he
      rcases List.mem_append.mp he with hm | hm
      · rw [tick_arrEvents hm]
        exact arr_tick_mem_keys hm
      · rw [List.mem_singleton.mp hm] at harr
        cases harr
    · simp only [RSl_evs] at he
      rcases List.mem_append.mp he with hm | hm
      · rw [tick_arrEvents hm]
        exact arr_tick_mem_keys hm
      · exact btKeys_pop_subset bt (t + 1) (ih _ _ _ _ e hm harr)

theorem rrSlice_key_out (i : Nat) :
    ∀ (n : Nat) (ps : List Proc) (t : Nat) (bt : BT) (rq : List Nat),
      (btKeys bt).Nodup → t ∉ btKeys bt →
      (rrSlice i n ps t bt rq).t ∉ btKeys (rrSlice i n ps t bt rq).bt := by
  intro n
  induction n with
  | zero =>
    intro ps t bt rq _ hout
    simpa [rrSlice] using hout
  | succ n ih =>
    intro ps t bt rq hnd _
    simp only [rrSlice]
    split
    · simp only [RSl_t, RSl_bt]
      exact popArrivals_not_mem_keys bt (t + 1) hnd
    · simp only [RSl_t, RSl_bt]
      exact ih _ _ _ _ (popArrivals_keys_nodup bt (t + 1) hnd)
        (popArrivals_not_mem_keys bt (t + 1) hnd)

theorem rrSlice_keys_nodup (i : Nat) (n : Nat) (ps : List Proc) (t : Nat) (bt : BT)
    (rq : List Nat) (hnd : (btKeys bt).Nodup) :
    (btKeys (rrSlice i n ps t bt rq).bt).Nodup :=
  btKeys_nodup_of_sublist (rrSlice_bt_sub i n ps t bt rq) hnd

theorem rrSlice_pairwise (i : Nat) :
    ∀ (n : Nat) (ps : List Proc) (t : Nat) (bt : BT) (rq : List Nat),
      List.Pairwise c1Ord (rrSlice i n ps t bt rq).evs := by
  intro n
  induction n with
  | zero =>
    intro ps t bt rq
    simp [rrSlice]
  | succ n ih =>
    intro ps t bt rq
    simp only [rrSlice]
    split
    · simp only [RSl_evs]
      rw [List.pairwise_append]
      refine ⟨pairwise_c1_arrEvents _ _ _, List.pairwise_singleton _ _, ?_⟩
      intro e he f hf
      rw [List.mem_singleton.mp hf]
      exact c1Ord_arr_le (isArr_arrEvents he) (by rw [tick_arrEvents he, tick_fin])
    · simp only [RSl_evs]
      rw [List.pairwise_append]
      refine ⟨pairwise_c1_arrEvents _ _ _, ih _ _ _ _, ?_⟩
      intro e he f hf
      have hf2 := (rrSlice_evs_tick i n _ (t + 1) _ _ f hf).1
      exact c1Ord_arr_le (isArr_arrEvents he) (by rw [tick_arrEvents he]; omega)

theorem rrRunBranch_evs_le_t (runfor q i : Nat) (ps : List Proc) (t : Nat) (bt : BT)
    (rest : List Nat) :
    ∀ e ∈ (rrRunBranch runfor q i ps t bt rest).evs,
      tickOf e ≤ (rrRunBranch runfor q i ps t bt rest).t := by
  intro e he
  simp only [rrRunBranch, RSl_evs, RSl_t] at he ⊢
  rcases List.mem_cons.mp he with hm | hm
  · rw [hm, tick_sel]
    exact rrSlice_t_ge i _ _ t bt rest
  · exact (rrSlice_evs_tick i _ _ t bt rest e hm).2

theorem rrRunBranch_pairwise (runfor q i : Nat) (ps : List Proc) (t : Nat) (bt : BT)
    (rest : List Nat) :
    List.Pairwise c1Ord (rrRunBranch runfor q i ps t bt rest).evs := by
  simp only [rrRunBranch, RSl_evs]
  rw [List.pairwise_cons]
  refine ⟨?_, rrSlice_pairwise i _ _ t bt rest⟩
  intro f hf
  have hf2 := (rrSlice_evs_tick i _ _ t bt rest f hf).1
  exact Or.inl (by rw [tick_sel]; omega)

theorem rrRunBranch_arr_keys (runfor q i : Nat) (ps : List Proc) (t : Nat) (bt : BT)
    (rest : List Nat) :
    ∀ e ∈ (rrRunBranch runfor q i ps t bt rest).evs,
      isArr e = true → tickOf e ∈ btKeys bt := by
  intro e he harr
  simp only [rrRunBranch, RSl_evs] at he
  rcases List.mem_cons.mp he with hm | hm
  · rw [hm] at harr
    cases harr
  · exact rrSlice_arr_keys i _ _ t bt rest e hm harr

theorem rrRunBranch_key_out (runfor q i : Nat) (ps : List Proc) (t : Nat) (bt : BT)
    (rest : List Nat) (hnd : (btKeys bt).Nodup) (hout : t ∉ btKeys bt) :
    (rrRunBranch runfor q i ps t bt rest).t
      ∉ btKeys (rrRunBranch runfor q i ps t bt rest).bt := by
  simp only [rrRunBranch, RSl_t, RSl_bt]
  exact rrSlice_key_out i _ _ t bt rest hnd hout

theorem rrRunBranch_bt_sub (runfor q i : Nat) (ps : List Proc) (t : Nat) (bt : BT)
    (rest : List Nat) :
    List.Sublist (rrRunBranch runfor q i ps t bt rest).bt bt := by
  simp only [rrRunBranch, RSl_bt]
  exact rrSlice_bt_sub i _ _ t bt rest

theorem rrGo_arr_keys (runfor : Nat) (q : {n : Nat // 0 < n}) :
    ∀ (ps : List Proc) (t : Nat) (bt : BT) (rq : List Nat),
      ∀ e ∈ (rrGo runfor q ps t bt rq).1, isArr e = true → tickOf e ∈ btKeys bt := by
  intro ps t bt rq
  induction ps, t, bt, rq using rrGo.induct runfor q with
  | case1 ps t bt rq h pr hm pr2 ih =>
    intro e he harr
    have hpr : pr = popArrivals bt t := rfl
    rw [hpr] at hm
    rw [rrGo_idle runfor q ps t bt rq h hm] at he
    rcases List.mem_append.mp he with hmm | hrest
    · rcases List.mem_append.mp hmm with hmm2 | harr2
      · rcases List.mem_append.mp hmm2 with harr1 | hidl
        · rw [tick_arrEvents harr1]
          exact arr_tick_mem_keys harr1
        · rw [List.mem_singleton.mp hidl] at harr
          cases harr
      · rw [tick_arrEvents harr2]
        exact btKeys_pop_subset bt t (arr_tick_mem_keys harr2)
    · exact btKeys_pop_subset bt t
        (btKeys_pop_subset (popArrivals bt t).2 (t + 1) (ih e hrest harr))
  | case2 ps t bt rq h pr i rest hm br ih =>
    intro e he harr
    have hpr : pr = popArrivals bt t := rfl
    rw [hpr] at hm
    rw [rrGo_run runfor q ps t bt rq i rest h hm] at he
    rcases List.mem_append.mp he with hmm | hrest
    · rcases List.mem_append.mp hmm with harr1 | hbr2
      · rw [tick_arrEvents harr1]
        exact arr_tick_mem_keys harr1
      · exact btKeys_pop_subset bt t
          (rrRunBranch_arr_keys runfor q.1 i ps t (popArrivals bt t).2 rest e hbr2 harr)
    · have h2 := ih e hrest harr
      have hsub : btKeys (rrRunBranch runfor q.1 i ps t (popArrivals bt t).2 rest).bt
          ⊆ btKeys (popArrivals bt t).2 :=
        btKeys_sub_of_sublist (rrRunBranch_bt_sub runfor q.1 i ps t (popArrivals bt t).2 rest)
      exact btKeys_pop_subset bt t (hsub h2)
  | case3 ps t bt rq h =>
    intro e he
    rw [rrGo_neg runfor q ps t bt rq h] at he
    cases he


theorem rrGo_pairwise (runfor : Nat) (q : {n : Nat // 0 < n}) :
    ∀ (ps : List Proc) (t : Nat) (bt : BT) (rq : List Nat), (btKeys bt).Nodup →
      List.Pairwise c1Ord (rrGo runfor q ps t bt rq).1 := by
  intro ps t bt rq
  induction ps, t, bt, rq using rrGo.induct runfor q with
  | case1 ps t bt rq h pr hm pr2 ih =>
    intro hnd
    have hpr : pr = popArrivals bt t := rfl
    rw [hpr] at hm
    rw [rrGo_idle runfor q ps t bt rq h hm]
    have hnd2 : (btKeys (popArrivals (popArrivals bt t).2 (t + 1)).2).Nodup :=
      popArrivals_keys_nodup _ _ (popArrivals_keys_nodup bt t hnd)
    have houtk : t + 1 ∉ btKeys (popArrivals (popArrivals bt t).2 (t + 1)).2 :=
      popArrivals_not_mem_keys _ _ (popArrivals_keys_nodup bt t hnd)
    rw [List.pairwise_append]
    refine ⟨?_, ih hnd2, ?_⟩
    · rw [List.pairwise_append]
      refine ⟨?_, pairwise_c1_arrEvents _ _ _, ?_⟩
      · rw [List.pairwise_append]
        refine ⟨pairwise_c1_arrEvents _ _ _, List.pairwise_singleton _ _, ?_⟩
        intro e he f hf
        rw [List.mem_singleton.mp hf]
        exact c1Ord_arr_le (isArr_arrEvents he) (by rw [tick_arrEvents he, tick_idl])
      · intro e he f hf
        refine Or.inl ?_
        rw [tick_arrEvents hf]
        rcases List.mem_append.mp he with hm2 | hm2
        · rw [tick_arrEvents hm2]
          omega
        · rw [List.mem_singleton.mp hm2, tick_idl]
          omega
    · intro e he f hf
      have hf_ge : t + 1 ≤ tickOf f :=
        rrGo_tick_ge runfor q ps (t + 1) _ _ f hf
      have he_le : tickOf e ≤ t + 1 := by
        rcases List.mem_append.mp he with hm2 | hm2
        · rcases List.mem_append.mp hm2 with hm3 | hm3
          · rw [tick_arrEvents hm3]
            omega
          · rw [List.mem_singleton.mp hm3, tick_idl]
            omega
        · rw [tick_arrEvents hm2]
      refine c1Ord_cross he_le hf_ge ?_
      intro harr
      have hkeys := rrGo_arr_keys runfor q ps (t + 1) _ _ f hf harr
      have hne : tickOf f ≠ t + 1 := fun hc => houtk (hc ▸ hkeys)
      omega
  | case2 ps t bt rq h pr i rest hm br ih =>
    intro hnd
    have hpr : pr = popArrivals bt t := rfl
    rw [hpr] at hm
    rw [rrGo_run runfor q ps t bt rq i rest h hm]
    have hndP : (btKeys (popArrivals bt t).2).Nodup := popArrivals_keys_nodup bt t hnd
    have houtP : t ∉ btKeys (popArrivals bt t).2 := popArrivals_not_mem_keys bt t hnd
    have hndB : (btKeys (rrRunBranch runfor q.1 i ps t (popArrivals bt t).2 rest).bt).Nodup :=
      btKeys_nodup_of_sublist (rrRunBranch_bt_sub runfor q.1 i ps t (popArrivals bt t).2 rest) hndP
    have houtB : (rrRunBranch runfor q.1 i ps t (popArrivals bt t).2 rest).t
        ∉ btKeys (rrRunBranch runfor q.1 i ps t (popArrivals bt t).2 rest).bt :=
      rrRunBranch_key_out runfor q.1 i ps t (popArrivals bt t).2 rest hndP houtP
    have ht_le : t ≤ (rrRunBranch runfor q.1 i ps t (popArrivals bt t).2 rest).t := by
      simp only [rrRunBranch, RSl_t]
      exact rrSlice_t_ge i _ _ t _ rest
    rw [List.pairwise_append]
    refine ⟨?_, ih hndB, ?_⟩
    · rw [List.pairwise_append]
      refine ⟨pairwise_c1_arrEvents _ _ _,
        rrRunBranch_pairwise runfor q.1 i ps t (popArrivals bt t).2 rest, ?_⟩
      intro e he f hf
      have hf2 := (rrRunBranch_evs_tick runfor q.1 i ps t (popArrivals bt t).2 rest h f hf).1
      exact c1Ord_arr_le (isArr_arrEvents he) (by rw [tick_arrEvents he]; omega)
    · intro e he f hf
      have hf_ge : (rrRunBranch runfor q.1 i ps t (popArrivals bt t).2 rest).t ≤ tickOf f :=
        rrGo_tick_ge runfor q _ _ _ _ f hf
      have he_le : tickOf e ≤ (rrRunBranch runfor q.1 i ps t (popArrivals bt t).2 rest).t := by
        rcases List.mem_append.mp he with hm2 | hm2
        · rw [tick_arrEvents hm2]
          omega
        · exact rrRunBranch_evs_le_t runfor q.1 i ps t (popArrivals bt t).2 rest e hm2
      refine c1Ord_cross he_le hf_ge ?_
      intro harr
      have hkeys := rrGo_arr_keys runfor q _ _ _ _ f hf harr
      have hne : tickOf f ≠ (rrRunBranch runfor q.1 i ps t (popArrivals bt t).2 rest).t :=
        fun hc => houtB (hc ▸ hkeys)
      omega
  | case3 ps t bt rq h =>
    intro _
    rw [rrGo_neg runfor q ps t bt rq h]
    exact List.Pairwise.nil

/-- C1, corrected: the logs of GeorgeAvdella's three engines are sorted by
tick with each tick's Arrived events first, stated as pairwise ordering of
every log under `c1Ord`; RachelNieman's engines violate the intra-tick
clause (see the counterexample: they emit a Finished line attributed to
tick T+1 before tick T+1's Arrived lines). -/
theorem C1_log_ordering :
    (∀ ps runfor, List.Pairwise c1Ord (fcfs ps runfor).1) ∧
    (∀ ps runfor, List.Pairwise c1Ord (sjf ps runfor).1) ∧
    (∀ ps runfor quantum p, rr ps runfor quantum = Except.ok p →
      List.Pairwise c1Ord p.1) := by
  refine ⟨?_, ?_, ?_⟩
  · intro ps runfor
    exact fcfsMain_pairwise runfor (readyOrder ps) ps 0 (arrivalsIndex ps)
      (btKeys_arrivalsIndex_nodup ps)
  · intro ps runfor
    exact sjfGo_pairwise runfor ps 0 (arrivalsIndex ps) none
      (btKeys_arrivalsIndex_nodup ps)
  · intro ps runfor quantum p hok
    by_cases hq : quantum ≤ 0
    · simp only [rr, dif_pos hq] at hok
      exact Except.noConfusion hok
    · simp only [rr, dif_neg hq] at hok
      injection hok with h1
      subst h1
      dsimp only
      rw [List.pairwise_append]
      have hnd0 : (btKeys (popArrivals (arrivalsIndex ps) 0).2).Nodup :=
        popArrivals_keys_nodup _ _ (btKeys_arrivalsIndex_nodup ps)
      refine ⟨pairwise_c1_arrEvents _ _ _, rrGo_pairwise runfor _ ps 0 _ _ hnd0, ?_⟩
      intro e he f hf
      exact c1Ord_arr_le (isArr_arrEvents he)
        (by rw [tick_arrEvents he]; exact Nat.zero_le _)

/-- Witness for C1 at a concrete input. -/
theorem C1_witness : List.Pairwise c1Ord [Event.idle 0, Event.arrived 1 "A"] :=
  C1_log_ordering.2.2 [mkProc "A" 1 1] 1 1
    ([Event.idle 0, Event.arrived 1 "A"], [mkProc "A" 1 1])
    (by simp [rr, rrGo, rrSlice, rrRunBranch, popArrivals, arrEvents, arrivalsIndex,
      btSize, mkProc, nameAt, arrivalAt, burstAt, remAt, startAt, finishAt, procAt,
      decRem, setStart, setFinish, List.range, List.range.loop, List.getD])


/-! ### C6: arrival events -/

/-- The ordering clause C6 adds on top of tick order: same-tick Arrived
events come in ascending name order. -/
def nameOrd (e f : Event) : Prop :=
  isArr e = true → isArr f = true → tickOf e = tickOf f → evName e ≤ evName f

instance : DecidableRel nameOrd := fun _ _ => by
  unfold nameOrd; exact inferInstance

theorem nameOrd_of_ne {e f : Event} (h : tickOf e ≠ tickOf f) : nameOrd e f :=
  fun _ _ hc => absurd hc h

theorem nameOrd_of_nonarr_l {e f : Event} (h : isArr e = false) : nameOrd e f :=
  fun hc _ _ => absurd hc (by rw [h]; exact Bool.false_ne_true)

theorem nameOrd_of_nonarr_r {e f : Event} (h : isArr f = false) : nameOrd e f :=
  fun _ hc _ => absurd hc (by rw [h]; exact Bool.false_ne_true)

theorem nameOrd_cross {e f : Event} {X : Nat} (he : tickOf e ≤ X)
    (hf : X ≤ tickOf f) (hfa : isArr f = true → X < tickOf f) : nameOrd e f := by
  intro _ haf heq
  have := hfa haf
  omega

/-- The dictionary invariant all GeorgeAvdella engines maintain: every
bucket is sorted by name and holds indices of processes whose arrival is
the bucket key. -/
def BTInv (ps : List Proc) (bt : BT) : Prop :=
  ∀ k v, (k, v) ∈ bt → v.Pairwise (nameLE ps) ∧ ∀ j ∈ v, arrivalAt ps j = k ∧ j < ps.length

theorem BTInv_arrivalsIndex (ps : List Proc) : BTInv ps (arrivalsIndex ps) := by
  intro k v hm
  unfold arrivalsIndex at hm
  obtain ⟨a, _, hav⟩ := List.mem_map.mp hm
  injection hav with h1 h2
  subst h1
  subst h2
  constructor
  · exact sorted_insertionSort_of (nameLE ps) (nameLE_total ps) (nameLE_trans ps) _
  · intro j hj
    rw [mem_insertionSort] at hj
    have hj2 := List.mem_filter.mp hj
    refine ⟨by simpa using hj2.2, List.mem_range.mp hj2.1⟩

theorem BTInv_pop (ps : List Proc) (bt : BT) (now : Nat) (h : BTInv ps bt) :
    BTInv ps (popArrivals bt now).2 :=
  fun k v hm => h k v ((popArrivals_sublist bt now).subset hm)

theorem BTInv_transfer {ps1 ps2 : List Proc} {bt : BT}
    (hn : ∀ j, nameAt ps2 j = nameAt ps1 j)
    (ha : ∀ j, arrivalAt ps2 j = arrivalAt ps1 j)
    (hl : ps2.length = ps1.length) (h : BTInv ps1 bt) : BTInv ps2 bt := by
  intro k v hm
  obtain ⟨h1, h2⟩ := h k v hm
  constructor
  · refine h1.imp ?_
    intro a b hab
    unfold nameLE at hab ⊢
    rw [hn a, hn b]
    exact hab
  · intro j hj
    rw [ha j, hl]
    exact h2 j hj

theorem pairwise_nameOrd_arrEvents (ps : List Proc) (u : Nat) (is : List Nat)
    (hs : is.Pairwise (nameLE ps)) :
    List.Pairwise nameOrd (arrEvents ps u is) := by
  unfold arrEvents
  rw [List.pairwise_map]
  refine hs.imp ?_
  intro a b hab
  intro _ _ _
  exact hab

theorem mem_popArrivals_fst {bt : BT} {now : Nat} {j : Nat}
    (h : j ∈ (popArrivals bt now).1) : (now, (popArrivals bt now).1) ∈ bt := by
  apply popArrivals_fst_mem
  intro hc
  rw [hc] at h
  cases h


theorem BTInv_sub {ps : List Proc} {b1 b2 : BT} (h : List.Sublist b1 b2)
    (hI : BTInv ps b2) : BTInv ps b1 :=
  fun k v hm => hI k v (h.subset hm)

theorem pairwise_nameLE_transfer {ps1 ps2 : List Proc}
    (hn : ∀ j, nameAt ps2 j = nameAt ps1 j) {v : List Nat}
    (h : v.Pairwise (nameLE ps1)) : v.Pairwise (nameLE ps2) := by
  refine h.imp ?_
  intro a b hab
  unfold nameLE at hab ⊢
  rw [hn a, hn b]
  exact hab

theorem pop_bucket_sorted (ps : List Proc) (bt : BT) (now : Nat) (hI : BTInv ps bt) :
    (popArrivals bt now).1.Pairwise (nameLE ps) := by
  by_cases hne : (popArrivals bt now).1 = []
  · rw [hne]
    exact List.Pairwise.nil
  · exact (hI now _ (popArrivals_fst_mem bt now hne)).1

theorem pop_bucket_mem (ps : List Proc) (bt : BT) (now : Nat) (hI : BTInv ps bt) :
    ∀ j ∈ (popArrivals bt now).1, arrivalAt ps j = now ∧ j < ps.length := by
  intro j hj
  exact (hI now _ (mem_popArrivals_fst hj)).2 j hj

theorem sjfStep_profile (ps : List Proc) (t : Nat) (bt : BT) (cur : Option Nat) :
    (∀ j, nameAt (sjfStep ps t bt cur).ps j = nameAt ps j) ∧
    (∀ j, arrivalAt (sjfStep ps t bt cur).ps j = arrivalAt ps j) ∧
    (sjfStep ps t bt cur).ps.length = ps.length := by
  simp only [sjfStep, sjfExec]
  repeat' split
  all_goals simp only [SStep_ps]
  all_goals
    refine ⟨fun j => ?_, fun j => ?_, ?_⟩ <;>
      simp [nameAt_setFinish, nameAt_decRem, nameAt_setStart, arrivalAt_setFinish,
        arrivalAt_decRem, arrivalAt_setStart, length_setFinish, length_decRem,
        length_setStart]

theorem sjfStep_BTInv (ps : List Proc) (t : Nat) (bt : BT) (cur : Option Nat)
    (hI : BTInv ps bt) : BTInv (sjfStep ps t bt cur).ps (sjfStep ps t bt cur).bt := by
  obtain ⟨hn, ha, hl⟩ := sjfStep_profile ps t bt cur
  refine BTInv_transfer hn ha hl ?_
  rcases sjfStep_bt_cases ps t bt cur with hc | hc <;> rw [hc]
  · exact BTInv_pop ps bt t hI
  · exact BTInv_pop _ _ _ (BTInv_pop ps bt t hI)

theorem sjfExec_pairwise_name (ps : List Proc) (t : Nat) (bt : BT) (best : Nat)
    (hI : BTInv ps bt) :
    List.Pairwise nameOrd (sjfExec ps t bt best).evs := by
  have hn : ∀ j, nameAt (decRem ps best) j = nameAt ps j := fun j => nameAt_decRem ps best j
  simp only [sjfExec]
  split
  all_goals simp only [SStep_evs]
  · rw [List.pairwise_append]
    refine ⟨?_, List.pairwise_singleton _ _, ?_⟩
    · exact pairwise_nameOrd_arrEvents _ _ _
        (pairwise_nameLE_transfer hn (pop_bucket_sorted ps bt (t + 1) hI))
    · intro e he f hf
      rw [List.mem_singleton.mp hf]
      exact nameOrd_of_nonarr_r rfl
  · exact pairwise_nameOrd_arrEvents _ _ _
      (pairwise_nameLE_transfer hn (pop_bucket_sorted ps bt (t + 1) hI))

theorem sjfStep_pairwise_name (ps : List Proc) (t : Nat) (bt : BT) (cur : Option Nat)
    (hI : BTInv ps bt) :
    List.Pairwise nameOrd (sjfStep ps t bt cur).evs := by
  have hIexec : ∀ ps2, (∀ j, nameAt ps2 j = nameAt ps j) →
      (∀ j, arrivalAt ps2 j = arrivalAt ps j) → ps2.length = ps.length →
      BTInv ps2 (popArrivals bt t).2 :=
    fun ps2 h1 h2 h3 => BTInv_transfer h1 h2 h3 (BTInv_pop ps bt t hI)
  simp only [sjfStep]
  split
  all_goals try split
  all_goals simp only [SStep_evs]
  · rw [List.pairwise_append]
    refine ⟨pairwise_nameOrd_arrEvents _ _ _ (pop_bucket_sorted ps bt t hI),
      List.pairwise_singleton _ _, ?_⟩
    intro e he f hf
    rw [List.mem_singleton.mp hf]
    exact nameOrd_of_nonarr_r rfl
  · rw [List.pairwise_append]
    refine ⟨pairwise_nameOrd_arrEvents _ _ _ (pop_bucket_sorted ps bt t hI),
      sjfExec_pairwise_name _ t _ _ (hIexec ps (fun _ => rfl) (fun _ => rfl) rfl), ?_⟩
    intro e he f hf
    have htf := sjfExec_evs_tick _ t _ _ f hf
    exact nameOrd_of_ne (by rw [tick_arrEvents he, htf]; omega)
  · rw [List.pairwise_append, List.pairwise_append]
    refine ⟨⟨pairwise_nameOrd_arrEvents _ _ _ (pop_bucket_sorted ps bt t hI),
      List.pairwise_singleton _ _, ?_⟩, ?_, ?_⟩
    · intro e he f hf
      rw [List.mem_singleton.mp hf]
      exact nameOrd_of_nonarr_r rfl
    · refine sjfExec_pairwise_name _ t _ _ (hIexec _ ?_ ?_ ?_)
      · intro j
        split <;> first | rfl | simp [nameAt_setStart]
      · intro j
        split <;> first | rfl | simp [arrivalAt_setStart]
      · split <;> first | rfl | simp [length_setStart]
    · intro e he f hf
      have htf := sjfExec_evs_tick _ t _ _ f hf
      refine nameOrd_of_ne ?_
      rw [htf]
      rcases List.mem_append.mp he with hm | hm
      · rw [tick_arrEvents hm]
        omega
      · rw [List.mem_singleton.mp hm, tick_sel]
        omega

theorem sjfGo_pairwise_name (runfor : Nat) :
    ∀ (ps : List Proc) (t : Nat) (bt : BT) (cur : Option Nat),
      (btKeys bt).Nodup → BTInv ps bt →
      List.Pairwise nameOrd (sjfGo runfor ps t bt cur).1 := by
  intro ps t bt cur
  induction ps, t, bt, cur using sjfGo.induct runfor with
  | case1 ps t bt cur h s ih =>
    intro hnd hI
    rw [sjfGo_pos runfor ps t bt cur h]
    rw [List.pairwise_append]
    have hnd2 : (btKeys (sjfStep ps t bt cur).bt).Nodup := by
      rcases sjfStep_bt_cases ps t bt cur with hc | hc <;> rw [hc]
      · exact popArrivals_keys_nodup bt t hnd
      · exact popArrivals_keys_nodup _ _ (popArrivals_keys_nodup bt t hnd)
    refine ⟨sjfStep_pairwise_name ps t bt cur hI, ih hnd2 (sjfStep_BTInv ps t bt cur hI), ?_⟩
    intro e he f hf
    have hf_ge : t + 1 ≤ tickOf f := sjfGo_tick_ge runfor _ (t + 1) _ _ f hf
    rcases sjfStep_disj ps t bt cur with hd | hd
    · exact nameOrd_cross (hd e he) (by omega) (fun _ => by omega)
    · have he_le : tickOf e ≤ t + 1 := by
        rcases sjfStep_evs_tick ps t bt cur e he with h1 | h1 <;> omega
      refine nameOrd_cross he_le hf_ge ?_
      intro harr
      have hkeys := sjfGo_arr_keys runfor _ (t + 1) _ _ f hf harr
      rw [hd] at hkeys
      have hnot : t + 1 ∉ btKeys (popArrivals (popArrivals bt t).2 (t + 1)).2 :=
        popArrivals_not_mem_keys _ _ (popArrivals_keys_nodup bt t hnd)
      have hne : tickOf f ≠ t + 1 := fun hc => hnot (hc ▸ hkeys)
      omega
  | case2 ps t bt cur h =>
    intro _ _
    rw [sjfGo_neg runfor ps t bt cur h]
    exact List.Pairwise.nil


theorem pairwise_blocks_name (A B C D E R : List Event) (T0 T1 : Nat) (hT : T0 ≤ T1)
    (hA : List.Pairwise nameOrd A) (hAlt : ∀ e ∈ A, tickOf e < T0)
    (hB : List.Pairwise nameOrd B) (hBc : ∀ e ∈ B, tickOf e = T0 ∧ isArr e = true)
    (hC : List.Pairwise nameOrd C) (hCc : ∀ e ∈ C, tickOf e = T0 ∧ isArr e = false)
    (hD : List.Pairwise nameOrd D) (hDc : ∀ e ∈ D, T0 < tickOf e ∧ tickOf e ≤ T1)
    (hE : List.Pairwise nameOrd E) (hEc : ∀ e ∈ E, tickOf e = T1 ∧ isArr e = false)
    (hR : List.Pairwise nameOrd R)
    (hRc : ∀ f ∈ R, T1 ≤ tickOf f ∧ (isArr f = true → T1 < tickOf f)) :
    List.Pairwise nameOrd (A ++ B ++ C ++ D ++ E ++ R) := by
  have hle : ∀ e ∈ A ++ B ++ C ++ D ++ E, tickOf e ≤ T1 := by
    intro e he
    rcases List.mem_append.mp he with h4 | h5
    · rcases List.mem_append.mp h4 with h3 | h4
      · rcases List.mem_append.mp h3 with h2 | h3
        · rcases List.mem_append.mp h2 with h1 | h2
          · have := hAlt e h1
            omega
          · have := (hBc e h2).1
            omega
        · have := (hCc e h3).1
          omega
      · have := (hDc e h4).2
        omega
    · have := (hEc e h5).1
      omega
  rw [List.pairwise_append]
  refine ⟨?_, hR, ?_⟩
  swap
  · intro e he f hf
    exact nameOrd_cross (hle e he) (hRc f hf).1 (hRc f hf).2
  rw [List.pairwise_append]
  refine ⟨?_, hE, ?_⟩
  swap
  · intro e he f hf
    exact nameOrd_of_nonarr_r (hEc f hf).2
  rw [List.pairwise_append]
  refine ⟨?_, hD, ?_⟩
  swap
  · intro e he f hf
    refine nameOrd_of_ne ?_
    rcases List.mem_append.mp he with h2 | h3
    · rcases List.mem_append.mp h2 with h1 | h2
      · have := hAlt e h1
        have := (hDc f hf).1
        omega
      · have := (hBc e h2).1
        have := (hDc f hf).1
        omega
    · have := (hCc e h3).1
      have := (hDc f hf).1
      omega
  rw [List.pairwise_append]
  refine ⟨?_, hC, ?_⟩
  swap
  · intro e he f hf
    exact nameOrd_of_nonarr_r (hCc f hf).2
  rw [List.pairwise_append]
  refine ⟨hA, hB, ?_⟩
  intro e he f hf
  refine nameOrd_of_ne ?_
  have := hAlt e he
  have := (hBc f hf).1
  omega

theorem fcfsIdle_pairwise_name (ps : List Proc) (runfor arrival : Nat) :
    ∀ (t : Nat) (bt : BT), BTInv ps bt →
      List.Pairwise nameOrd (fcfsIdle ps runfor arrival t bt).evs := by
  intro t bt
  induction t, bt using fcfsIdle.induct ps runfor arrival with
  | case1 t bt h pr ih =>
    intro hI
    rw [fcfsIdle_pos ps runfor arrival t bt h]
    simp only [FIdle_evs]
    rw [List.pairwise_append]
    refine ⟨?_, ih (BTInv_pop ps bt t hI), ?_⟩
    · rw [List.pairwise_append]
      refine ⟨pairwise_nameOrd_arrEvents _ _ _ (pop_bucket_sorted ps bt t hI),
        List.pairwise_singleton _ _, ?_⟩
      intro e he f hf
      rw [List.mem_singleton.mp hf]
      exact nameOrd_of_nonarr_r rfl
    · intro e he f hf
      have hf2 := fcfsIdle_evs_tick ps runfor arrival (t + 1) (popArrivals bt t).2 f hf
      refine nameOrd_of_ne ?_
      rcases List.mem_append.mp he with hm | hm
      · rw [tick_arrEvents hm]
        omega
      · rw [List.mem_singleton.mp hm, tick_idl]
        omega
  | case2 t bt h =>
    intro _
    rw [fcfsIdle_neg ps runfor arrival t bt h]
    exact List.Pairwise.nil

theorem fcfsRun_profile (runfor i : Nat) :
    ∀ (ps : List Proc) (t : Nat) (bt : BT),
      (∀ j, arrivalAt (fcfsRun runfor i ps t bt).ps j = arrivalAt ps j) ∧
      (fcfsRun runfor i ps t bt).ps.length = ps.length := by
  intro ps t bt
  induction ps, t, bt using fcfsRun.induct runfor i with
  | case1 ps t bt h ps1 pr ih =>
    have heq : (fcfsRun runfor i ps t bt).ps
        = (fcfsRun runfor i (decRem ps i) (t + 1) (popArrivals bt (t + 1)).2).ps := by
      rw [fcfsRun_pos runfor i ps t bt h]
    rw [heq]
    refine ⟨fun j => (ih.1 j).trans (arrivalAt_decRem ps i j),
      ih.2.trans (length_decRem ps i)⟩
  | case2 ps t bt h =>
    rw [fcfsRun_neg runfor i ps t bt h]
    exact ⟨fun j => rfl, rfl⟩

theorem fcfsRun_pairwise_name (runfor i : Nat) :
    ∀ (ps : List Proc) (t : Nat) (bt : BT), BTInv ps bt →
      List.Pairwise nameOrd (fcfsRun runfor i ps t bt).evs := by
  intro ps t bt
  induction ps, t, bt using fcfsRun.induct runfor i with
  | case1 ps t bt h ps1 pr ih =>
    intro hI
    have hI2 : BTInv (decRem ps i) (popArrivals bt (t + 1)).2 :=
      BTInv_transfer (fun j => nameAt_decRem ps i j) (fun j => arrivalAt_decRem ps i j)
        (length_decRem ps i) (BTInv_pop ps bt (t + 1) hI)
    rw [fcfsRun_pos runfor i ps t bt h]
    simp only [FRun_evs]
    rw [List.pairwise_append]
    refine ⟨?_, ih hI2, ?_⟩
    · refine pairwise_nameOrd_arrEvents _ _ _ ?_
      exact pairwise_nameLE_transfer (fun j => nameAt_decRem ps i j)
        (pop_bucket_sorted ps bt (t + 1) hI)
    · intro e he f hf
      have hf2 := (fcfsRun_evs_tick runfor i (decRem ps i) (t + 1)
        (popArrivals bt (t + 1)).2 f hf).1
      exact nameOrd_of_ne (by rw [tick_arrEvents he]; omega)
  | case2 ps t bt h =>
    intro _
    rw [fcfsRun_neg runfor i ps t bt h]
    exact List.Pairwise.nil

theorem fcfsTrail_pairwise_name (ps : List Proc) (runfor : Nat) :
    ∀ (t : Nat) (bt : BT), BTInv ps bt →
      List.Pairwise nameOrd (fcfsTrail ps runfor t bt) := by
  intro t bt
  induction t, bt using fcfsTrail.induct ps runfor with
  | case1 t bt h pr ih =>
    intro hI
    rw [fcfsTrail_pos ps runfor t bt h]
    rw [List.pairwise_append]
    refine ⟨?_, ih (BTInv_pop ps bt t hI), ?_⟩
    · rw [List.pairwise_append]
      refine ⟨pairwise_nameOrd_arrEvents _ _ _ (pop_bucket_sorted ps bt t hI),
        List.pairwise_singleton _ _, ?_⟩
      intro e he f hf
      rw [List.mem_singleton.mp hf]
      exact nameOrd_of_nonarr_r rfl
    · intro e he f hf
      have hf2 := fcfsTrail_evs_tick ps runfor (t + 1) (popArrivals bt t).2 f hf
      refine nameOrd_of_ne ?_
      rcases List.mem_append.mp he with hm | hm
      · rw [tick_arrEvents hm]
        omega
      · rw [List.mem_singleton.mp hm, tick_idl]
        omega
  | case2 t bt h =>
    intro _
    rw [fcfsTrail_neg ps runfor t bt h]
    exact List.Pairwise.nil


theorem fcfsMain_pairwise_name (runfor : Nat) (order : List Nat) :
    ∀ (ps : List Proc) (t : Nat) (bt : BT), (btKeys bt).Nodup → BTInv ps bt →
      List.Pairwise nameOrd (fcfsMain runfor order ps t bt).1 := by
  induction order with
  | nil =>
    intro ps t bt _ hI
    simp only [fcfsMain]
    exact fcfsTrail_pairwise_name ps runfor t bt hI
  | cons i rest ih =>
    intro ps t bt hnd hI
    simp only [fcfsMain]
    by_cases hge : runfor ≤ (fcfsIdle ps runfor (arrivalAt ps i) t bt).t
    · rw [if_pos hge]
      exact fcfsIdle_pairwise_name ps runfor (arrivalAt ps i) t bt hI
    · rw [if_neg hge]
      dsimp only
      by_cases hsel : startAt ps i = none
      · rw [if_pos hsel]
        dsimp only
        have hnodI : (btKeys (fcfsIdle ps runfor (arrivalAt ps i) t bt).bt).Nodup :=
          btKeys_nodup_of_sublist (fcfsIdle_bt_sub ps runfor (arrivalAt ps i) t bt) hnd
        have hnodP : (btKeys (popArrivals (fcfsIdle ps runfor (arrivalAt ps i) t bt).bt (fcfsIdle ps runfor (arrivalAt ps i) t bt).t).2).Nodup :=
          popArrivals_keys_nodup _ _ hnodI
        have houtP : (fcfsIdle ps runfor (arrivalAt ps i) t bt).t ∉ btKeys (popArrivals (fcfsIdle ps runfor (arrivalAt ps i) t bt).bt (fcfsIdle ps runfor (arrivalAt ps i) t bt).t).2 :=
          popArrivals_not_mem_keys _ _ hnodI
        have hnodR : (btKeys (fcfsRun runfor i (setStart ps i (fcfsIdle ps runfor (arrivalAt ps i) t bt).t) (fcfsIdle ps runfor (arrivalAt ps i) t bt).t (popArrivals (fcfsIdle ps runfor (arrivalAt ps i) t bt).bt (fcfsIdle ps runfor (arrivalAt ps i) t bt).t).2).bt).Nodup :=
          btKeys_nodup_of_sublist (fcfsRun_bt_sub runfor i _ _ _) hnodP
        have houtR : (fcfsRun runfor i (setStart ps i (fcfsIdle ps runfor (arrivalAt ps i) t bt).t) (fcfsIdle ps runfor (arrivalAt ps i) t bt).t (popArrivals (fcfsIdle ps runfor (arrivalAt ps i) t bt).bt (fcfsIdle ps runfor (arrivalAt ps i) t bt).t).2).t ∉ btKeys (fcfsRun runfor i (setStart ps i (fcfsIdle ps runfor (arrivalAt ps i) t bt).t) (fcfsIdle ps runfor (arrivalAt ps i) t bt).t (popArrivals (fcfsIdle ps runfor (arrivalAt ps i) t bt).bt (fcfsIdle ps runfor (arrivalAt ps i) t bt).t).2).bt :=
          fcfsRun_key_out runfor i (setStart ps i (fcfsIdle ps runfor (arrivalAt ps i) t bt).t) (fcfsIdle ps runfor (arrivalAt ps i) t bt).t (popArrivals (fcfsIdle ps runfor (arrivalAt ps i) t bt).bt (fcfsIdle ps runfor (arrivalAt ps i) t bt).t).2 hnodP houtP
        have hIidl : BTInv ps (fcfsIdle ps runfor (arrivalAt ps i) t bt).bt :=
          BTInv_sub (fcfsIdle_bt_sub ps runfor (arrivalAt ps i) t bt) hI
        have hIpr : BTInv ps (popArrivals (fcfsIdle ps runfor (arrivalAt ps i) t bt).bt (fcfsIdle ps runfor (arrivalAt ps i) t bt).t).2 := BTInv_pop ps (fcfsIdle ps runfor (arrivalAt ps i) t bt).bt (fcfsIdle ps runfor (arrivalAt ps i) t bt).t hIidl
        have hIps2 : BTInv (setStart ps i (fcfsIdle ps runfor (arrivalAt ps i) t bt).t) (popArrivals (fcfsIdle ps runfor (arrivalAt ps i) t bt).bt (fcfsIdle ps runfor (arrivalAt ps i) t bt).t).2 := by
          refine BTInv_transfer (fun j => ?_) (fun j => ?_) ?_ hIpr
          · exact nameAt_setStart _ _ _ _
          · exact arrivalAt_setStart _ _ _ _
          · exact length_setStart _ _ _
        have hIrun : BTInv (setStart ps i (fcfsIdle ps runfor (arrivalAt ps i) t bt).t) (fcfsRun runfor i (setStart ps i (fcfsIdle ps runfor (arrivalAt ps i) t bt).t) (fcfsIdle ps runfor (arrivalAt ps i) t bt).t (popArrivals (fcfsIdle ps runfor (arrivalAt ps i) t bt).bt (fcfsIdle ps runfor (arrivalAt ps i) t bt).t).2).bt :=
          BTInv_sub (fcfsRun_bt_sub runfor i _ _ _) hIps2
        have hprof := fcfsRun_profile runfor i (setStart ps i (fcfsIdle ps runfor (arrivalAt ps i) t bt).t) (fcfsIdle ps runfor (arrivalAt ps i) t bt).t (popArrivals (fcfsIdle ps runfor (arrivalAt ps i) t bt).bt (fcfsIdle ps runfor (arrivalAt ps i) t bt).t).2
        refine pairwise_blocks_name _ _ _ _ _ _ (fcfsIdle ps runfor (arrivalAt ps i) t bt).t (fcfsRun runfor i (setStart ps i (fcfsIdle ps runfor (arrivalAt ps i) t bt).t) (fcfsIdle ps runfor (arrivalAt ps i) t bt).t (popArrivals (fcfsIdle ps runfor (arrivalAt ps i) t bt).bt (fcfsIdle ps runfor (arrivalAt ps i) t bt).t).2).t
          (fcfsRun_t_ge runfor i _ _ _)
          (fcfsIdle_pairwise_name ps runfor (arrivalAt ps i) t bt hI)
          (fcfsIdle_evs_lt ps runfor (arrivalAt ps i) t bt)
          (pairwise_nameOrd_arrEvents _ _ _ (pop_bucket_sorted ps (fcfsIdle ps runfor (arrivalAt ps i) t bt).bt (fcfsIdle ps runfor (arrivalAt ps i) t bt).t hIidl))
          (fun e he => ⟨tick_arrEvents he, isArr_arrEvents he⟩)
          (List.pairwise_singleton _ _)
          (fun e he => by
            simp only [List.mem_singleton] at he
            subst he
            exact ⟨rfl, rfl⟩)
          (fcfsRun_pairwise_name runfor i (setStart ps i (fcfsIdle ps runfor (arrivalAt ps i) t bt).t) (fcfsIdle ps runfor (arrivalAt ps i) t bt).t (popArrivals (fcfsIdle ps runfor (arrivalAt ps i) t bt).bt (fcfsIdle ps runfor (arrivalAt ps i) t bt).t).2 hIps2)
          (fcfsRun_evs_tick runfor i _ _ _)
          ?_ ?_ (ih _ _ _ hnodR ?_) ?_
        · split
          · exact List.pairwise_singleton _ _
          · exact List.Pairwise.nil
        · intro e he
          split at he
          · simp only [List.mem_singleton] at he
            subst he
            exact ⟨rfl, rfl⟩
          · simp at he
        · split
          · refine BTInv_transfer (fun j => ?_) (fun j => ?_) ?_ hIrun
            · exact (nameAt_setFinish _ _ _ j).trans (fcfsRun_nameAt runfor i _ _ _ j)
            · exact (arrivalAt_setFinish _ _ _ j).trans (hprof.1 j)
            · exact (length_setFinish _ _ _).trans hprof.2
          · refine BTInv_transfer (fun j => ?_) (fun j => ?_) ?_ hIrun
            · exact fcfsRun_nameAt runfor i _ _ _ j
            · exact hprof.1 j
            · exact hprof.2
        · intro f hf
          refine ⟨fcfsMain_tick_ge runfor rest _ _ _ f hf, ?_⟩
          intro harr
          have hkeys := fcfsMain_arr_keys runfor rest _ _ _ f hf harr
          have hge2 := fcfsMain_tick_ge runfor rest _ _ _ f hf
          have hne : tickOf f ≠ (fcfsRun runfor i (setStart ps i (fcfsIdle ps runfor (arrivalAt ps i) t bt).t) (fcfsIdle ps runfor (arrivalAt ps i) t bt).t (popArrivals (fcfsIdle ps runfor (arrivalAt ps i) t bt).bt (fcfsIdle ps runfor (arrivalAt ps i) t bt).t).2).t := fun hc => houtR (hc ▸ hkeys)
          omega
      · rw [if_neg hsel]
        dsimp only
        have hnodI : (btKeys (fcfsIdle ps runfor (arrivalAt ps i) t bt).bt).Nodup :=
          btKeys_nodup_of_sublist (fcfsIdle_bt_sub ps runfor (arrivalAt ps i) t bt) hnd
        have hnodP : (btKeys (popArrivals (fcfsIdle ps runfor (arrivalAt ps i) t bt).bt (fcfsIdle ps runfor (arrivalAt ps i) t bt).t).2).Nodup :=
          popArrivals_keys_nodup _ _ hnodI
        have houtP : (fcfsIdle ps runfor (arrivalAt ps i) t bt).t ∉ btKeys (popArrivals (fcfsIdle ps runfor (arrivalAt ps i) t bt).bt (fcfsIdle ps runfor (arrivalAt ps i) t bt).t).2 :=
          popArrivals_not_mem_keys _ _ hnodI
        have hnodR : (btKeys (fcfsRun runfor i ps (fcfsIdle ps runfor (arrivalAt ps i) t bt).t (popArrivals (fcfsIdle ps runfor (arrivalAt ps i) t bt).bt (fcfsIdle ps runfor (arrivalAt ps i) t bt).t).2).bt).Nodup :=
          btKeys_nodup_of_sublist (fcfsRun_bt_sub runfor i _ _ _) hnodP
        have houtR : (fcfsRun runfor i ps (fcfsIdle ps runfor (arrivalAt ps i) t bt).t (popArrivals (fcfsIdle ps runfor (arrivalAt ps i) t bt).bt (fcfsIdle ps runfor (arrivalAt ps i) t bt).t).2).t ∉ btKeys (fcfsRun runfor i ps (fcfsIdle ps runfor (arrivalAt ps i) t bt).t (popArrivals (fcfsIdle ps runfor (arrivalAt ps i) t bt).bt (fcfsIdle ps runfor (arrivalAt ps i) t bt).t).2).bt :=
          fcfsRun_key_out runfor i ps (fcfsIdle ps runfor (arrivalAt ps i) t bt).t (popArrivals (fcfsIdle ps runfor (arrivalAt ps i) t bt).bt (fcfsIdle ps runfor (arrivalAt ps i) t bt).t).2 hnodP houtP
        have hIidl : BTInv ps (fcfsIdle ps runfor (arrivalAt ps i) t bt).bt :=
          BTInv_sub (fcfsIdle_bt_sub ps runfor (arrivalAt ps i) t bt) hI
        have hIpr : BTInv ps (popArrivals (fcfsIdle ps runfor (arrivalAt ps i) t bt).bt (fcfsIdle ps runfor (arrivalAt ps i) t bt).t).2 := BTInv_pop ps (fcfsIdle ps runfor (arrivalAt ps i) t bt).bt (fcfsIdle ps runfor (arrivalAt ps i) t bt).t hIidl
        have hIps2 : BTInv ps (popArrivals (fcfsIdle ps runfor (arrivalAt ps i) t bt).bt (fcfsIdle ps runfor (arrivalAt ps i) t bt).t).2 := by
          exact hIpr
        have hIrun : BTInv ps (fcfsRun runfor i ps (fcfsIdle ps runfor (arrivalAt ps i) t bt).t (popArrivals (fcfsIdle ps runfor (arrivalAt ps i) t bt).bt (fcfsIdle ps runfor (arrivalAt ps i) t bt).t).2).bt :=
          BTInv_sub (fcfsRun_bt_sub runfor i _ _ _) hIps2
        have hprof := fcfsRun_profile runfor i ps (fcfsIdle ps runfor (arrivalAt ps i) t bt).t (popArrivals (fcfsIdle ps runfor (arrivalAt ps i) t bt).bt (fcfsIdle ps runfor (arrivalAt ps i) t bt).t).2
        refine pairwise_blocks_name _ _ _ _ _ _ (fcfsIdle ps runfor (arrivalAt ps i) t bt).t (fcfsRun runfor i ps (fcfsIdle ps runfor (arrivalAt ps i) t bt).t (popArrivals (fcfsIdle ps runfor (arrivalAt ps i) t bt).bt (fcfsIdle ps runfor (arrivalAt ps i) t bt).t).2).t
          (fcfsRun_t_ge runfor i _ _ _)
          (fcfsIdle_pairwise_name ps runfor (arrivalAt ps i) t bt hI)
          (fcfsIdle_evs_lt ps runfor (arrivalAt ps i) t bt)
          (pairwise_nameOrd_arrEvents _ _ _ (pop_bucket_sorted ps (fcfsIdle ps runfor (arrivalAt ps i) t bt).bt (fcfsIdle ps runfor (arrivalAt ps i) t bt).t hIidl))
          (fun e he => ⟨tick_arrEvents he, isArr_arrEvents he⟩)
          List.Pairwise.nil
          (fun e he => absurd he (List.not_mem_nil e))
          (fcfsRun_pairwise_name runfor i ps (fcfsIdle ps runfor (arrivalAt ps i) t bt).t (popArrivals (fcfsIdle ps runfor (arrivalAt ps i) t bt).bt (fcfsIdle ps runfor (arrivalAt ps i) t bt).t).2 hIps2)
          (fcfsRun_evs_tick runfor i _ _ _)
          ?_ ?_ (ih _ _ _ hnodR ?_) ?_
        · split
          · exact List.pairwise_singleton _ _
          · exact List.Pairwise.nil
        · intro e he
          split at he
          · simp only [List.mem_singleton] at he
            subst he
            exact ⟨rfl, rfl⟩
          · simp at he
        · split
          · refine BTInv_transfer (fun j => ?_) (fun j => ?_) ?_ hIrun
            · exact (nameAt_setFinish _ _ _ j).trans (fcfsRun_nameAt runfor i _ _ _ j)
            · exact (arrivalAt_setFinish _ _ _ j).trans (hprof.1 j)
            · exact (length_setFinish _ _ _).trans hprof.2
          · refine BTInv_transfer (fun j => ?_) (fun j => ?_) ?_ hIrun
            · exact fcfsRun_nameAt runfor i _ _ _ j
            · exact hprof.1 j
            · exact hprof.2
        · intro f hf
          refine ⟨fcfsMain_tick_ge runfor rest _ _ _ f hf, ?_⟩
          intro harr
          have hkeys := fcfsMain_arr_keys runfor rest _ _ _ f hf harr
          have hge2 := fcfsMain_tick_ge runfor rest _ _ _ f hf
          have hne : tickOf f ≠ (fcfsRun runfor i ps (fcfsIdle ps runfor (arrivalAt ps i) t bt).t (popArrivals (fcfsIdle ps runfor (arrivalAt ps i) t bt).bt (fcfsIdle ps runfor (arrivalAt ps i) t bt).t).2).t := fun hc => houtR (hc ▸ hkeys)
          omega


theorem rrSlice_profile (i : Nat) :
    ∀ (n : Nat) (ps : List Proc) (t : Nat) (bt : BT) (rq : List Nat),
      (∀ j, nameAt (rrSlice i n ps t bt rq).ps j = nameAt ps j) ∧
      (∀ j, arrivalAt (rrSlice i n ps t bt rq).ps j = arrivalAt ps j) ∧
      (rrSlice i n ps t bt rq).ps.length = ps.length := by
  intro n
  induction n with
  | zero =>
    intro ps t bt rq
    exact ⟨fun j => rfl, fun j => rfl, rfl⟩
  | succ n ih =>
    intro ps t bt rq
    simp only [rrSlice]
    split
    · simp only [RSl_ps]
      refine ⟨fun j => ?_, fun j => ?_, ?_⟩
      · exact (nameAt_setFinish _ _ _ j).trans (nameAt_decRem ps i j)
      · exact (arrivalAt_setFinish _ _ _ j).trans (arrivalAt_decRem ps i j)
      · exact (length_setFinish _ _ _).trans (length_decRem ps i)
    · simp only [RSl_ps]
      obtain ⟨h1, h2, h3⟩ := ih (decRem ps i) (t + 1) (popArrivals bt (t + 1)).2
        (rq ++ (popArrivals bt (t + 1)).1)
      refine ⟨fun j => ?_, fun j => ?_, ?_⟩
      · exact (h1 j).trans (nameAt_decRem ps i j)
      · exact (h2 j).trans (arrivalAt_decRem ps i j)
      · exact h3.trans (length_decRem ps i)

theorem rrSlice_pairwise_name (i : Nat) :
    ∀ (n : Nat) (ps : List Proc) (t : Nat) (bt : BT) (rq : List Nat), BTInv ps bt →
      List.Pairwise nameOrd (rrSlice i n ps t bt rq).evs := by
  intro n
  induction n with
  | zero =>
    intro ps t bt rq _
    simp [rrSlice]
  | succ n ih =>
    intro ps t bt rq hI
    have hsorted : (popArrivals bt (t + 1)).1.Pairwise (nameLE (decRem ps i)) :=
      pairwise_nameLE_transfer (fun j => nameAt_decRem ps i j)
        (pop_bucket_sorted ps bt (t + 1) hI)
    have hI2 : BTInv (decRem ps i) (popArrivals bt (t + 1)).2 :=
      BTInv_transfer (fun j => nameAt_decRem ps i j) (fun j => arrivalAt_decRem ps i j)
        (length_decRem ps i) (BTInv_pop ps bt (t + 1) hI)
    simp only [rrSlice]
    split
    · simp only [RSl_evs]
      rw [List.pairwise_append]
      refine ⟨pairwise_nameOrd_arrEvents _ _ _ hsorted, List.pairwise_singleton _ _, ?_⟩
      intro e he f hf
      rw [List.mem_singleton.mp hf]
      exact nameOrd_of_nonarr_r rfl
    · simp only [RSl_evs]
      rw [List.pairwise_append]
      refine ⟨pairwise_nameOrd_arrEvents _ _ _ hsorted, ih _ _ _ _ hI2, ?_⟩
      intro e he f hf
      have hf2 := (rrSlice_evs_tick i n _ (t + 1) _ _ f hf).1
      exact nameOrd_of_ne (by rw [tick_arrEvents he]; omega)

theorem rrRunBranch_profile (runfor q i : Nat) (ps : List Proc) (t : Nat) (bt : BT)
    (rest : List Nat) :
    (∀ j, nameAt (rrRunBranch runfor q i ps t bt rest).ps j = nameAt ps j) ∧
    (∀ j, arrivalAt (rrRunBranch runfor q i ps t bt rest).ps j = arrivalAt ps j) ∧
    (rrRunBranch runfor q i ps t bt rest).ps.length = ps.length := by
  simp only [rrRunBranch, RSl_ps]
  obtain ⟨h1, h2, h3⟩ := rrSlice_profile i (min q (min (remAt ps i) (runfor - t)))
    (if startAt ps i = none then setStart ps i t else ps) t bt rest
  refine ⟨fun j => ?_, fun j => ?_, ?_⟩
  · refine (h1 j).trans ?_
    split <;> first | rfl | simp [nameAt_setStart]
  · refine (h2 j).trans ?_
    split <;> first | rfl | simp [arrivalAt_setStart]
  · refine h3.trans ?_
    split <;> first | rfl | simp [length_setStart]

theorem rrRunBranch_BTInv (runfor q i : Nat) (ps : List Proc) (t : Nat) (bt : BT)
    (rest : List Nat) (hI : BTInv ps bt) :
    BTInv (rrRunBranch runfor q i ps t bt rest).ps (rrRunBranch runfor q i ps t bt rest).bt := by
  obtain ⟨h1, h2, h3⟩ := rrRunBranch_profile runfor q i ps t bt rest
  refine BTInv_transfer h1 h2 h3 ?_
  simp only [rrRunBranch, RSl_bt]
  exact BTInv_sub (rrSlice_bt_sub i _ _ t bt rest) hI

theorem rrRunBranch_pairwise_name (runfor q i : Nat) (ps : List Proc) (t : Nat)
    (bt : BT) (rest : List Nat) (hI : BTInv ps bt) :
    List.Pairwise nameOrd (rrRunBranch runfor q i ps t bt rest).evs := by
  have hI1 : BTInv (if startAt ps i = none then setStart ps i t else ps) bt := by
    split
    · refine BTInv_transfer (fun j => ?_) (fun j => ?_) ?_ hI
      · exact nameAt_setStart _ _ _ _
      · exact arrivalAt_setStart _ _ _ _
      · exact length_setStart _ _ _
    · exact hI
  simp only [rrRunBranch, RSl_evs]
  rw [List.pairwise_cons]
  refine ⟨?_, rrSlice_pairwise_name i _ _ t bt rest hI1⟩
  intro f hf
  exact nameOrd_of_nonarr_l rfl

theorem rrRunBranch_arr_gt (runfor q i : Nat) (ps : List Proc) (t : Nat) (bt : BT)
    (rest : List Nat) :
    ∀ f ∈ (rrRunBranch runfor q i ps t bt rest).evs, isArr f = true → t < tickOf f := by
  intro f hf harr
  simp only [rrRunBranch, RSl_evs] at hf
  rcases List.mem_cons.mp hf with hm | hm
  · rw [hm] at harr
    cases harr
  · exact (rrSlice_evs_tick i _ _ t bt rest f hm).1

theorem rrGo_pairwise_name (runfor : Nat) (q : {n : Nat // 0 < n}) :
    ∀ (ps : List Proc) (t : Nat) (bt : BT) (rq : List Nat),
      (btKeys bt).Nodup → BTInv ps bt →
      List.Pairwise nameOrd (rrGo runfor q ps t bt rq).1 := by
  intro ps t bt rq
  induction ps, t, bt, rq using rrGo.induct runfor q with
  | case1 ps t bt rq h pr hm pr2 ih =>
    intro hnd hI
    have hpr : pr = popArrivals bt t := rfl
    rw [hpr] at hm
    rw [rrGo_idle runfor q ps t bt rq h hm]
    have hnd2 : (btKeys (popArrivals (popArrivals bt t).2 (t + 1)).2).Nodup :=
      popArrivals_keys_nodup _ _ (popArrivals_keys_nodup bt t hnd)
    have houtk : t + 1 ∉ btKeys (popArrivals (popArrivals bt t).2 (t + 1)).2 :=
      popArrivals_not_mem_keys _ _ (popArrivals_keys_nodup bt t hnd)
    have hI2 : BTInv ps (popArrivals (popArrivals bt t).2 (t + 1)).2 :=
      BTInv_pop _ _ _ (BTInv_pop ps bt t hI)
    rw [List.pairwise_append]
    refine ⟨?_, ih hnd2 hI2, ?_⟩
    · rw [List.pairwise_append]
      refine ⟨?_, pairwise_nameOrd_arrEvents _ _ _
        (pop_bucket_sorted ps (popArrivals bt t).2 (t + 1) (BTInv_pop ps bt t hI)), ?_⟩
      · rw [List.pairwise_append]
        refine ⟨pairwise_nameOrd_arrEvents _ _ _ (pop_bucket_sorted ps bt t hI),
          List.pairwise_singleton _ _, ?_⟩
        intro e he f hf
        rw [List.mem_singleton.mp hf]
        exact nameOrd_of_nonarr_r rfl
      · intro e he f hf
        refine nameOrd_of_ne ?_
        rw [tick_arrEvents hf]
        rcases List.mem_append.mp he with hm2 | hm2
        · rw [tick_arrEvents hm2]
          omega
        · rw [List.mem_singleton.mp hm2, tick_idl]
          omega
    · intro e he f hf
      have hf_ge : t + 1 ≤ tickOf f :=
        rrGo_tick_ge runfor q ps (t + 1) _ _ f hf
      have he_le : tickOf e ≤ t + 1 := by
        rcases List.mem_append.mp he with hm2 | hm2
        · rcases List.mem_append.mp hm2 with hm3 | hm3
          · rw [tick_arrEvents hm3]
            omega
          · rw [List.mem_singleton.mp hm3, tick_idl]
            omega
        · rw [tick_arrEvents hm2]
      refine nameOrd_cross he_le hf_ge ?_
      intro harr
      have hkeys := rrGo_arr_keys runfor q ps (t + 1) _ _ f hf harr
      have hne : tickOf f ≠ t + 1 := fun hc => houtk (hc ▸ hkeys)
      omega
  | case2 ps t bt rq h pr i rest hm br ih =>
    intro hnd hI
    have hpr : pr = popArrivals bt t := rfl
    rw [hpr] at hm
    rw [rrGo_run runfor q ps t bt rq i rest h hm]
    have hndP : (btKeys (popArrivals bt t).2).Nodup := popArrivals_keys_nodup bt t hnd
    have houtP : t ∉ btKeys (popArrivals bt t).2 := popArrivals_not_mem_keys bt t hnd
    have hIP : BTInv ps (popArrivals bt t).2 := BTInv_pop ps bt t hI
    have hndB : (btKeys (rrRunBranch runfor q.1 i ps t (popArrivals bt t).2 rest).bt).Nodup :=
      btKeys_nodup_of_sublist (rrRunBranch_bt_sub runfor q.1 i ps t (popArrivals bt t).2 rest) hndP
    have houtB : (rrRunBranch runfor q.1 i ps t (popArrivals bt t).2 rest).t
        ∉ btKeys (rrRunBranch runfor q.1 i ps t (popArrivals bt t).2 rest).bt :=
      rrRunBranch_key_out runfor q.1 i ps t (popArrivals bt t).2 rest hndP houtP
    rw [List.pairwise_append]
    refine ⟨?_, ih hndB (rrRunBranch_BTInv runfor q.1 i ps t (popArrivals bt t).2 rest hIP), ?_⟩
    · rw [List.pairwise_append]
      refine ⟨pairwise_nameOrd_arrEvents _ _ _ (pop_bucket_sorted ps bt t hI),
        rrRunBranch_pairwise_name runfor q.1 i ps t (popArrivals bt t).2 rest hIP, ?_⟩
      intro e he f hf
      have hf2 := (rrRunBranch_evs_tick runfor q.1 i ps t (popArrivals bt t).2 rest h f hf).1
      refine nameOrd_cross (X := t) (by rw [tick_arrEvents he]) hf2 ?_
      exact rrRunBranch_arr_gt runfor q.1 i ps t (popArrivals bt t).2 rest f hf
    · intro e he f hf
      have hf_ge : (rrRunBranch runfor q.1 i ps t (popArrivals bt t).2 rest).t ≤ tickOf f :=
        rrGo_tick_ge runfor q _ _ _ _ f hf
      have he_le : tickOf e ≤ (rrRunBranch runfor q.1 i ps t (popArrivals bt t).2 rest).t := by
        rcases List.mem_append.mp he with hm2 | hm2
        · rw [tick_arrEvents hm2]
          simp only [rrRunBranch, RSl_t]
          exact rrSlice_t_ge i _ _ t _ rest
        · exact rrRunBranch_evs_le_t runfor q.1 i ps t (popArrivals bt t).2 rest e hm2
      refine nameOrd_cross he_le hf_ge ?_
      intro harr
      have hkeys := rrGo_arr_keys runfor q _ _ _ _ f hf harr
      have hne : tickOf f ≠ (rrRunBranch runfor q.1 i ps t (popArrivals bt t).2 rest).t :=
        fun hc => houtB (hc ▸ hkeys)
      omega
  | case3 ps t bt rq h =>
    intro _ _
    rw [rrGo_neg runfor q ps t bt rq h]
    exact List.Pairwise.nil


theorem count_arrEvents (ps : List Proc) (u : Nat) (v : List Nat) (k : Nat) (n : String) :
    (arrEvents ps u v).count (Event.arrived k n) =
      if u = k then (v.map (nameAt ps)).count n else 0 := by
  induction v with
  | nil => simp [arrEvents]
  | cons j r ih =>
    simp only [arrEvents, List.map_cons, List.count_cons] at ih ⊢
    by_cases hu : u = k
    · subst hu
      by_cases hn : nameAt ps j = n
      · simp [hn, ih]
      · simp [hn, ih]
    · simp [hu, ih]

theorem count_zero_of_arr {log : List Event} {k : Nat} {n : String}
    (harr : Event.arrived k n ∈ log → False) :
    log.count (Event.arrived k n) = 0 := by
  rw [List.count_eq_zero]
  intro hm
  exact harr hm

theorem count_sel_zero (u b : Nat) (m : String) (k : Nat) (n : String) :
    ([Event.selected u m b] : List Event).count (Event.arrived k n) = 0 := by
  simp

theorem map_names_eq {ps1 ps2 : List Proc} (h : ∀ j, nameAt ps2 j = nameAt ps1 j)
    (v : List Nat) : v.map (nameAt ps2) = v.map (nameAt ps1) :=
  List.map_congr_left (fun j _ => h j)

theorem keys_pop_not_mem {bt : BT} {u k : Nat} (h : k ∉ btKeys bt) :
    k ∉ btKeys (popArrivals bt u).2 :=
  fun hc => h (btKeys_pop_subset bt u hc)


theorem sjfExec_count (ps : List Proc) (t : Nat) (bt : BT) (best : Nat)
    (k : Nat) (v : List Nat) (n : String)
    (hnd : (btKeys bt).Nodup) (hkv : (k, v) ∈ bt) (ht : t < k) :
    (k = t + 1 → (sjfExec ps t bt best).evs.count (Event.arrived k n)
        = (v.map (nameAt ps)).count n ∧ k ∉ btKeys (sjfExec ps t bt best).bt) ∧
    (t + 1 < k → (sjfExec ps t bt best).evs.count (Event.arrived k n) = 0 ∧
        (k, v) ∈ (sjfExec ps t bt best).bt) := by
  have hn2 : ∀ j, nameAt (decRem ps best) j = nameAt ps j := fun j => nameAt_decRem ps best j
  simp only [sjfExec]
  split
  all_goals simp only [SStep_evs, SStep_bt]
  all_goals constructor
  · intro hk
    subst hk
    constructor
    · rw [List.count_append, count_arrEvents, if_pos rfl,
        popArrivals_fst_eq bt (t + 1) v hnd hkv, map_names_eq hn2]
      simp
    · exact popArrivals_not_mem_keys bt (t + 1) hnd
  · intro hk
    refine ⟨?_, popArrivals_mem_ne bt (t + 1) k v (by omega) hkv⟩
    rw [List.count_append, count_arrEvents, if_neg (by omega)]
    simp
  · intro hk
    subst hk
    constructor
    · rw [count_arrEvents, if_pos rfl, popArrivals_fst_eq bt (t + 1) v hnd hkv,
        map_names_eq hn2]
    · exact popArrivals_not_mem_keys bt (t + 1) hnd
  · intro hk
    refine ⟨?_, popArrivals_mem_ne bt (t + 1) k v (by omega) hkv⟩
    rw [count_arrEvents, if_neg (by omega)]

theorem sjfStep_count (ps : List Proc) (t : Nat) (bt : BT) (cur : Option Nat)
    (k : Nat) (v : List Nat) (n : String)
    (hnd : (btKeys bt).Nodup) (hkv : (k, v) ∈ bt) (ht : t ≤ k) :
    ((sjfStep ps t bt cur).evs.count (Event.arrived k n) = (v.map (nameAt ps)).count n
       ∧ k ∉ btKeys (sjfStep ps t bt cur).bt)
    ∨ ((sjfStep ps t bt cur).evs.count (Event.arrived k n) = 0
       ∧ (k, v) ∈ (sjfStep ps t bt cur).bt ∧ t + 1 ≤ k) := by
  have hndP : (btKeys (popArrivals bt t).2).Nodup := popArrivals_keys_nodup bt t hnd
  have hexec : ∀ ps1 best1, (∀ j, nameAt ps1 j = nameAt ps j) → t < k →
      ((k = t + 1 → (sjfExec ps1 t (popArrivals bt t).2 best1).evs.count (Event.arrived k n)
          = (v.map (nameAt ps)).count n ∧
          k ∉ btKeys (sjfExec ps1 t (popArrivals bt t).2 best1).bt) ∧
       (t + 1 < k →
          (sjfExec ps1 t (popArrivals bt t).2 best1).evs.count (Event.arrived k n) = 0 ∧
          (k, v) ∈ (sjfExec ps1 t (popArrivals bt t).2 best1).bt)) := by
    intro ps1 best1 hn1 htk
    have h2 := sjfExec_count ps1 t (popArrivals bt t).2 best1 k v n hndP
      (popArrivals_mem_ne bt t k v (by omega) hkv) htk
    refine ⟨fun hk => ⟨?_, (h2.1 hk).2⟩, h2.2⟩
    rw [(h2.1 hk).1, map_names_eq hn1]
  simp only [sjfStep]
  split
  all_goals try split
  all_goals simp only [SStep_evs, SStep_bt]
  · by_cases hk : k = t
    · subst hk
      refine Or.inl ⟨?_, popArrivals_not_mem_keys bt k hnd⟩
      rw [List.count_append, count_arrEvents, if_pos rfl,
        popArrivals_fst_eq bt k v hnd hkv]
      simp
    · refine Or.inr ⟨?_, popArrivals_mem_ne bt t k v (fun hc => hk hc) hkv, by omega⟩
      rw [List.count_append, count_arrEvents, if_neg (fun hc => hk hc.symm)]
      simp
  · rename_i x0 best0 hcur0 heq0
    by_cases hk : k = t
    · subst hk
      refine Or.inl ⟨?_, ?_⟩
      · rw [List.count_append, count_arrEvents, if_pos rfl,
          popArrivals_fst_eq bt k v hnd hkv]
        have hz : (sjfExec ps k (popArrivals bt k).2 best0).evs.count
            (Event.arrived k n) = 0 :=
          count_zero_of_arr (fun hm => by
            have h3 := sjfExec_evs_tick ps k (popArrivals bt k).2 best0 _ hm
            simp only [tickOf] at h3
            omega)
        rw [hz]
        simp
      · rw [sjfExec_bt]
        exact keys_pop_not_mem (popArrivals_not_mem_keys bt k hnd)
    · have htk : t < k := by omega
      have h2 := hexec ps best0 (fun _ => rfl) htk
      by_cases hk1 : k = t + 1
      · refine Or.inl ⟨?_, (h2.1 hk1).2⟩
        rw [List.count_append, count_arrEvents, if_neg (fun hc => hk hc.symm),
          (h2.1 hk1).1]
        omega
      · refine Or.inr ⟨?_, (h2.2 (by omega)).2, by omega⟩
        rw [List.count_append, count_arrEvents, if_neg (fun hc => hk hc.symm),
          (h2.2 (by omega)).1]
  · rename_i x0 best0 hcur0 heq0
    by_cases hk : k = t
    · subst hk
      refine Or.inl ⟨?_, ?_⟩
      · rw [List.count_append, List.count_append, count_arrEvents, if_pos rfl,
          popArrivals_fst_eq bt k v hnd hkv]
        have hz : (sjfExec (if startAt ps best0 = none then setStart ps best0 k else ps)
            k (popArrivals bt k).2 best0).evs.count (Event.arrived k n) = 0 :=
          count_zero_of_arr (fun hm => by
            have h3 := sjfExec_evs_tick _ k (popArrivals bt k).2 best0 _ hm
            simp only [tickOf] at h3
            omega)
        rw [hz]
        simp
      · rw [sjfExec_bt]
        exact keys_pop_not_mem (popArrivals_not_mem_keys bt k hnd)
    · have htk : t < k := by omega
      have h2 := hexec (if startAt ps best0 = none then setStart ps best0 t else ps) best0
        (fun j => by split <;> first | rfl | simp [nameAt_setStart]) htk
      by_cases hk1 : k = t + 1
      · refine Or.inl ⟨?_, (h2.1 hk1).2⟩
        rw [List.count_append, List.count_append, count_arrEvents,
          if_neg (fun hc => hk hc.symm), (h2.1 hk1).1]
        simp
      · refine Or.inr ⟨?_, (h2.2 (by omega)).2, by omega⟩
        rw [List.count_append, List.count_append, count_arrEvents,
          if_neg (fun hc => hk hc.symm), (h2.2 (by omega)).1]
        simp

theorem sjfGo_count (runfor : Nat) :
    ∀ (ps : List Proc) (t : Nat) (bt : BT) (cur : Option Nat),
      (btKeys bt).Nodup →
      ∀ (k : Nat) (v : List Nat) (n : String), (k, v) ∈ bt → t ≤ k → k < runfor →
      (sjfGo runfor ps t bt cur).1.count (Event.arrived k n) =
        (v.map (nameAt ps)).count n := by
  intro ps t bt cur
  induction ps, t, bt, cur using sjfGo.induct runfor with
  | case1 ps t bt cur h s ih =>
    intro hnd k v n hkv ht hk
    rw [sjfGo_pos runfor ps t bt cur h, List.count_append]
    have hnd2 : (btKeys (sjfStep ps t bt cur).bt).Nodup := by
      rcases sjfStep_bt_cases ps t bt cur with hc | hc <;> rw [hc]
      · exact popArrivals_keys_nodup bt t hnd
      · exact popArrivals_keys_nodup _ _ (popArrivals_keys_nodup bt t hnd)
    rcases sjfStep_count ps t bt cur k v n hnd hkv ht with ⟨hc, hout⟩ | ⟨hc, hm2, hge⟩
    · rw [hc]
      have hz : (sjfGo runfor (sjfStep ps t bt cur).ps (t + 1) (sjfStep ps t bt cur).bt
          (sjfStep ps t bt cur).cur).1.count (Event.arrived k n) = 0 :=
        count_zero_of_arr (fun hm => hout (sjfGo_arr_keys runfor _ (t + 1) _ _ _ hm rfl))
      rw [hz]
      omega
    · rw [hc, ih hnd2 k v n hm2 hge hk,
        map_names_eq (sjfStep_profile ps t bt cur).1]
      omega
  | case2 ps t bt cur h =>
    intro _ k v n _ ht hk
    omega


theorem fcfsIdle_count (ps : List Proc) (runfor arrival : Nat) :
    ∀ (t : Nat) (bt : BT), (btKeys bt).Nodup →
      ∀ (k : Nat) (v : List Nat) (n : String), (k, v) ∈ bt → t ≤ k →
      (k < (fcfsIdle ps runfor arrival t bt).t →
        (fcfsIdle ps runfor arrival t bt).evs.count (Event.arrived k n)
          = (v.map (nameAt ps)).count n ∧
        k ∉ btKeys (fcfsIdle ps runfor arrival t bt).bt) ∧
      ((fcfsIdle ps runfor arrival t bt).t ≤ k →
        (fcfsIdle ps runfor arrival t bt).evs.count (Event.arrived k n) = 0 ∧
        (k, v) ∈ (fcfsIdle ps runfor arrival t bt).bt) := by
  intro t bt
  induction t, bt using fcfsIdle.induct ps runfor arrival with
  | case1 t bt h pr ih =>
    intro hnd k v n hkv ht
    have heqt : (fcfsIdle ps runfor arrival t bt).t
        = (fcfsIdle ps runfor arrival (t + 1) (popArrivals bt t).2).t := by
      rw [fcfsIdle_pos ps runfor arrival t bt h]
    have heqb : (fcfsIdle ps runfor arrival t bt).bt
        = (fcfsIdle ps runfor arrival (t + 1) (popArrivals bt t).2).bt := by
      rw [fcfsIdle_pos ps runfor arrival t bt h]
    have heqe : (fcfsIdle ps runfor arrival t bt).evs
        = arrEvents ps t (popArrivals bt t).1 ++ [Event.idle t] ++
          (fcfsIdle ps runfor arrival (t + 1) (popArrivals bt t).2).evs := by
      rw [fcfsIdle_pos ps runfor arrival t bt h]
    have hgt : t < (fcfsIdle ps runfor arrival t bt).t := by
      rw [heqt]
      have := fcfsIdle_t_ge ps runfor arrival (t + 1) (popArrivals bt t).2
      omega
    rw [heqt, heqb, heqe]
    by_cases hk : k = t
    · subst hk
      constructor
      · intro _
        constructor
        · rw [List.count_append, List.count_append, count_arrEvents, if_pos rfl,
            popArrivals_fst_eq bt k v hnd hkv]
          have hz : (fcfsIdle ps runfor arrival (k + 1)
              (popArrivals bt k).2).evs.count (Event.arrived k n) = 0 :=
            count_zero_of_arr (fun hm =>
              popArrivals_not_mem_keys bt k hnd
                (fcfsIdle_arr_keys ps runfor arrival (k + 1) _ _ hm rfl))
          rw [hz]
          simp
        · intro hc
          exact popArrivals_not_mem_keys bt k hnd
            (btKeys_sub_of_sublist (fcfsIdle_bt_sub ps runfor arrival (k + 1) _) hc)
      · intro hle
        omega
    · have hmem2 : (k, v) ∈ (popArrivals bt t).2 :=
        popArrivals_mem_ne bt t k v (fun hc => hk hc) hkv
      have hih := ih (popArrivals_keys_nodup bt t hnd) k v n hmem2 (by omega)
      have hzA : (arrEvents ps t (popArrivals bt t).1 ++
          [Event.idle t]).count (Event.arrived k n) = 0 := by
        rw [List.count_append, count_arrEvents, if_neg (fun hc => hk hc.symm)]
        simp
      constructor
      · intro hlt
        refine ⟨?_, (hih.1 hlt).2⟩
        rw [List.count_append, hzA, (hih.1 hlt).1]
        omega
      · intro hle
        refine ⟨?_, (hih.2 hle).2⟩
        rw [List.count_append, hzA, (hih.2 hle).1]
  | case2 t bt h =>
    intro hnd k v n hkv ht
    rw [fcfsIdle_neg ps runfor arrival t bt h]
    constructor
    · intro hlt
      simp only [FIdle_t] at hlt
      omega
    · intro _
      exact ⟨rfl, hkv⟩

theorem fcfsRun_count (runfor i : Nat) :
    ∀ (ps : List Proc) (t : Nat) (bt : BT), (btKeys bt).Nodup →
      ∀ (k : Nat) (v : List Nat) (n : String), (k, v) ∈ bt → t < k →
      (k ≤ (fcfsRun runfor i ps t bt).t →
        (fcfsRun runfor i ps t bt).evs.count (Event.arrived k n)
          = (v.map (nameAt ps)).count n ∧
        k ∉ btKeys (fcfsRun runfor i ps t bt).bt) ∧
      ((fcfsRun runfor i ps t bt).t < k →
        (fcfsRun runfor i ps t bt).evs.count (Event.arrived k n) = 0 ∧
        (k, v) ∈ (fcfsRun runfor i ps t bt).bt) := by
  intro ps t bt
  induction ps, t, bt using fcfsRun.induct runfor i with
  | case1 ps t bt h ps1 pr ih =>
    intro hnd k v n hkv ht
    have hn1 : ∀ j, nameAt (decRem ps i) j = nameAt ps j := fun j => nameAt_decRem ps i j
    have heqt : (fcfsRun runfor i ps t bt).t
        = (fcfsRun runfor i (decRem ps i) (t + 1) (popArrivals bt (t + 1)).2).t := by
      rw [fcfsRun_pos runfor i ps t bt h]
    have heqb : (fcfsRun runfor i ps t bt).bt
        = (fcfsRun runfor i (decRem ps i) (t + 1) (popArrivals bt (t + 1)).2).bt := by
      rw [fcfsRun_pos runfor i ps t bt h]
    have heqe : (fcfsRun runfor i ps t bt).evs
        = arrEvents (decRem ps i) (t + 1) (popArrivals bt (t + 1)).1 ++
          (fcfsRun runfor i (decRem ps i) (t + 1) (popArrivals bt (t + 1)).2).evs := by
      rw [fcfsRun_pos runfor i ps t bt h]
    have hge1 : t + 1 ≤ (fcfsRun runfor i ps t bt).t := by
      rw [heqt]
      exact fcfsRun_t_ge runfor i _ _ _
    rw [heqt, heqb, heqe]
    by_cases hk : k = t + 1
    · subst hk
      constructor
      · intro _
        constructor
        · rw [List.count_append, count_arrEvents, if_pos rfl,
            popArrivals_fst_eq bt (t + 1) v hnd hkv, map_names_eq hn1]
          have hz : (fcfsRun runfor i (decRem ps i) (t + 1)
              (popArrivals bt (t + 1)).2).evs.count (Event.arrived (t + 1) n) = 0 :=
            count_zero_of_arr (fun hm =>
              popArrivals_not_mem_keys bt (t + 1) hnd
                (fcfsRun_arr_keys runfor i (decRem ps i) (t + 1) _ _ hm rfl))
          rw [hz]
          omega
        · intro hc
          exact popArrivals_not_mem_keys bt (t + 1) hnd
            (btKeys_sub_of_sublist (fcfsRun_bt_sub runfor i _ (t + 1) _) hc)
      · intro hlt
        omega
    · have hmem2 : (k, v) ∈ (popArrivals bt (t + 1)).2 :=
        popArrivals_mem_ne bt (t + 1) k v (fun hc => hk hc) hkv
      have hih := ih (popArrivals_keys_nodup bt (t + 1) hnd) k v n hmem2 (by omega)
      have hzA : (arrEvents (decRem ps i) (t + 1)
          (popArrivals bt (t + 1)).1).count (Event.arrived k n) = 0 := by
        rw [count_arrEvents, if_neg (fun hc => hk hc.symm)]
      constructor
      · intro hle
        refine ⟨?_, (hih.1 hle).2⟩
        rw [List.count_append, hzA, (hih.1 hle).1, map_names_eq hn1]
        omega
      · intro hlt
        refine ⟨?_, (hih.2 hlt).2⟩
        rw [List.count_append, hzA, (hih.2 hlt).1]
  | case2 ps t bt h =>
    intro hnd k v n hkv ht
    rw [fcfsRun_neg runfor i ps t bt h]
    constructor
    · intro hle
      simp only [FRun_t] at hle
      omega
    · intro _
      exact ⟨rfl, hkv⟩

theorem fcfsTrail_count (ps : List Proc) (runfor : Nat) :
    ∀ (t : Nat) (bt : BT), (btKeys bt).Nodup →
      ∀ (k : Nat) (v : List Nat) (n : String), (k, v) ∈ bt → t ≤ k → k < runfor →
      (fcfsTrail ps runfor t bt).count (Event.arrived k n) = (v.map (nameAt ps)).count n := by
  intro t bt
  induction t, bt using fcfsTrail.induct ps runfor with
  | case1 t bt h pr ih =>
    intro hnd k v n hkv ht hk
    rw [fcfsTrail_pos ps runfor t bt h]
    by_cases hkt : k = t
    · subst hkt
      rw [List.count_append, List.count_append, count_arrEvents, if_pos rfl,
        popArrivals_fst_eq bt k v hnd hkv]
      have hz : (fcfsTrail ps runfor (k + 1) (popArrivals bt k).2).count
          (Event.arrived k n) = 0 :=
        count_zero_of_arr (fun hm =>
          popArrivals_not_mem_keys bt k hnd
            (fcfsTrail_arr_keys ps runfor (k + 1) _ _ hm rfl))
      rw [hz]
      simp
    · rw [List.count_append, List.count_append, count_arrEvents,
        if_neg (fun hc => hkt hc.symm),
        ih (popArrivals_keys_nodup bt t hnd) k v n
          (popArrivals_mem_ne bt t k v (fun hc => hkt hc) hkv) (by omega) hk]
      simp
  | case2 t bt h =>
    intro _ k v n _ ht hk
    omega


theorem fcfsMain_count (runfor : Nat) (order : List Nat) :
    ∀ (ps : List Proc) (t : Nat) (bt : BT), (btKeys bt).Nodup →
      ∀ (k : Nat) (v : List Nat) (n : String), (k, v) ∈ bt → t ≤ k → k < runfor →
      (fcfsMain runfor order ps t bt).1.count (Event.arrived k n)
        = (v.map (nameAt ps)).count n := by
  induction order with
  | nil =>
    intro ps t bt hnd k v n hkv ht hk
    simp only [fcfsMain]
    exact fcfsTrail_count ps runfor t bt hnd k v n hkv ht hk
  | cons i rest ih =>
    intro ps t bt hnd k v n hkv ht hk
    simp only [fcfsMain]
    by_cases hge : runfor ≤ (fcfsIdle ps runfor (arrivalAt ps i) t bt).t
    · rw [if_pos hge]
      exact ((fcfsIdle_count ps runfor (arrivalAt ps i) t bt hnd k v n hkv ht).1
        (by omega)).1
    · rw [if_neg hge]
      dsimp only
      by_cases hsel : startAt ps i = none
      · rw [if_pos hsel]
        dsimp only
        have hnodI : (btKeys (fcfsIdle ps runfor (arrivalAt ps i) t bt).bt).Nodup :=
          btKeys_nodup_of_sublist (fcfsIdle_bt_sub ps runfor (arrivalAt ps i) t bt) hnd
        have hnodP : (btKeys (popArrivals (fcfsIdle ps runfor (arrivalAt ps i) t bt).bt (fcfsIdle ps runfor (arrivalAt ps i) t bt).t).2).Nodup := popArrivals_keys_nodup _ _ hnodI
        have hnodR : (btKeys (fcfsRun runfor i (setStart ps i (fcfsIdle ps runfor (arrivalAt ps i) t bt).t) (fcfsIdle ps runfor (arrivalAt ps i) t bt).t (popArrivals (fcfsIdle ps runfor (arrivalAt ps i) t bt).bt (fcfsIdle ps runfor (arrivalAt ps i) t bt).t).2).bt).Nodup :=
          btKeys_nodup_of_sublist (fcfsRun_bt_sub runfor i _ _ _) hnodP
        have hsubP : btKeys (popArrivals (fcfsIdle ps runfor (arrivalAt ps i) t bt).bt (fcfsIdle ps runfor (arrivalAt ps i) t bt).t).2 ⊆ btKeys (fcfsIdle ps runfor (arrivalAt ps i) t bt).bt := btKeys_pop_subset _ _
        have hsubR : btKeys (fcfsRun runfor i (setStart ps i (fcfsIdle ps runfor (arrivalAt ps i) t bt).t) (fcfsIdle ps runfor (arrivalAt ps i) t bt).t (popArrivals (fcfsIdle ps runfor (arrivalAt ps i) t bt).bt (fcfsIdle ps runfor (arrivalAt ps i) t bt).t).2).bt ⊆ btKeys (popArrivals (fcfsIdle ps runfor (arrivalAt ps i) t bt).bt (fcfsIdle ps runfor (arrivalAt ps i) t bt).t).2 :=
          btKeys_sub_of_sublist (fcfsRun_bt_sub runfor i _ _ _)
        have hIcnt := fcfsIdle_count ps runfor (arrivalAt ps i) t bt hnd k v n hkv ht
        have hfin0 : (if remAt (fcfsRun runfor i (setStart ps i (fcfsIdle ps runfor (arrivalAt ps i) t bt).t) (fcfsIdle ps runfor (arrivalAt ps i) t bt).t (popArrivals (fcfsIdle ps runfor (arrivalAt ps i) t bt).bt (fcfsIdle ps runfor (arrivalAt ps i) t bt).t).2).ps i = 0 then
            ([Event.finished (fcfsRun runfor i (setStart ps i (fcfsIdle ps runfor (arrivalAt ps i) t bt).t) (fcfsIdle ps runfor (arrivalAt ps i) t bt).t (popArrivals (fcfsIdle ps runfor (arrivalAt ps i) t bt).bt (fcfsIdle ps runfor (arrivalAt ps i) t bt).t).2).t (nameAt (fcfsRun runfor i (setStart ps i (fcfsIdle ps runfor (arrivalAt ps i) t bt).t) (fcfsIdle ps runfor (arrivalAt ps i) t bt).t (popArrivals (fcfsIdle ps runfor (arrivalAt ps i) t bt).bt (fcfsIdle ps runfor (arrivalAt ps i) t bt).t).2).ps i)], setFinish (fcfsRun runfor i (setStart ps i (fcfsIdle ps runfor (arrivalAt ps i) t bt).t) (fcfsIdle ps runfor (arrivalAt ps i) t bt).t (popArrivals (fcfsIdle ps runfor (arrivalAt ps i) t bt).bt (fcfsIdle ps runfor (arrivalAt ps i) t bt).t).2).ps i (fcfsRun runfor i (setStart ps i (fcfsIdle ps runfor (arrivalAt ps i) t bt).t) (fcfsIdle ps runfor (arrivalAt ps i) t bt).t (popArrivals (fcfsIdle ps runfor (arrivalAt ps i) t bt).bt (fcfsIdle ps runfor (arrivalAt ps i) t bt).t).2).t)
            else ([], (fcfsRun runfor i (setStart ps i (fcfsIdle ps runfor (arrivalAt ps i) t bt).t) (fcfsIdle ps runfor (arrivalAt ps i) t bt).t (popArrivals (fcfsIdle ps runfor (arrivalAt ps i) t bt).bt (fcfsIdle ps runfor (arrivalAt ps i) t bt).t).2).ps)).1.count (Event.arrived k n) = 0 := by
          split <;> simp
        have hsel0 : ([Event.selected (fcfsIdle ps runfor (arrivalAt ps i) t bt).t (nameAt ps i) (remAt ps i)] : List Event).count (Event.arrived k n) = 0 := by simp
        rw [List.count_append, List.count_append, List.count_append, List.count_append,
          List.count_append, hfin0, hsel0]
        rcases Nat.lt_trichotomy k (fcfsIdle ps runfor (arrivalAt ps i) t bt).t with hkI | hkI | hkI
        · obtain ⟨hc1, hout1⟩ := hIcnt.1 hkI
          have hz2 : (arrEvents ps (fcfsIdle ps runfor (arrivalAt ps i) t bt).t (popArrivals (fcfsIdle ps runfor (arrivalAt ps i) t bt).bt (fcfsIdle ps runfor (arrivalAt ps i) t bt).t).1).count
              (Event.arrived k n) = 0 := by
            rw [count_arrEvents, if_neg (by omega)]
          have hz4 : (fcfsRun runfor i (setStart ps i (fcfsIdle ps runfor (arrivalAt ps i) t bt).t) (fcfsIdle ps runfor (arrivalAt ps i) t bt).t (popArrivals (fcfsIdle ps runfor (arrivalAt ps i) t bt).bt (fcfsIdle ps runfor (arrivalAt ps i) t bt).t).2).evs.count (Event.arrived k n) = 0 :=
            count_zero_of_arr (fun hm =>
              hout1 (hsubP (fcfsRun_arr_keys runfor i _ _ _ _ hm rfl)))
          have hz6 : (fcfsMain runfor rest
              (if remAt (fcfsRun runfor i (setStart ps i (fcfsIdle ps runfor (arrivalAt ps i) t bt).t) (fcfsIdle ps runfor (arrivalAt ps i) t bt).t (popArrivals (fcfsIdle ps runfor (arrivalAt ps i) t bt).bt (fcfsIdle ps runfor (arrivalAt ps i) t bt).t).2).ps i = 0 then
                ([Event.finished (fcfsRun runfor i (setStart ps i (fcfsIdle ps runfor (arrivalAt ps i) t bt).t) (fcfsIdle ps runfor (arrivalAt ps i) t bt).t (popArrivals (fcfsIdle ps runfor (arrivalAt ps i) t bt).bt (fcfsIdle ps runfor (arrivalAt ps i) t bt).t).2).t (nameAt (fcfsRun runfor i (setStart ps i (fcfsIdle ps runfor (arrivalAt ps i) t bt).t) (fcfsIdle ps runfor (arrivalAt ps i) t bt).t (popArrivals (fcfsIdle ps runfor (arrivalAt ps i) t bt).bt (fcfsIdle ps runfor (arrivalAt ps i) t bt).t).2).ps i)], setFinish (fcfsRun runfor i (setStart ps i (fcfsIdle ps runfor (arrivalAt ps i) t bt).t) (fcfsIdle ps runfor (arrivalAt ps i) t bt).t (popArrivals (fcfsIdle ps runfor (arrivalAt ps i) t bt).bt (fcfsIdle ps runfor (arrivalAt ps i) t bt).t).2).ps i (fcfsRun runfor i (setStart ps i (fcfsIdle ps runfor (arrivalAt ps i) t bt).t) (fcfsIdle ps runfor (arrivalAt ps i) t bt).t (popArrivals (fcfsIdle ps runfor (arrivalAt ps i) t bt).bt (fcfsIdle ps runfor (arrivalAt ps i) t bt).t).2).t)
                else ([], (fcfsRun runfor i (setStart ps i (fcfsIdle ps runfor (arrivalAt ps i) t bt).t) (fcfsIdle ps runfor (arrivalAt ps i) t bt).t (popArrivals (fcfsIdle ps runfor (arrivalAt ps i) t bt).bt (fcfsIdle ps runfor (arrivalAt ps i) t bt).t).2).ps)).2 (fcfsRun runfor i (setStart ps i (fcfsIdle ps runfor (arrivalAt ps i) t bt).t) (fcfsIdle ps runfor (arrivalAt ps i) t bt).t (popArrivals (fcfsIdle ps runfor (arrivalAt ps i) t bt).bt (fcfsIdle ps runfor (arrivalAt ps i) t bt).t).2).t (fcfsRun runfor i (setStart ps i (fcfsIdle ps runfor (arrivalAt ps i) t bt).t) (fcfsIdle ps runfor (arrivalAt ps i) t bt).t (popArrivals (fcfsIdle ps runfor (arrivalAt ps i) t bt).bt (fcfsIdle ps runfor (arrivalAt ps i) t bt).t).2).bt).1.count (Event.arrived k n) = 0 :=
            count_zero_of_arr (fun hm =>
              hout1 (hsubP (hsubR (fcfsMain_arr_keys runfor rest _ _ _ _ hm rfl))))
          rw [hc1, hz2, hz4, hz6]
          omega
        · obtain ⟨hc1, hmem1⟩ := hIcnt.2 (by omega)
          have hc2 : (arrEvents ps (fcfsIdle ps runfor (arrivalAt ps i) t bt).t (popArrivals (fcfsIdle ps runfor (arrivalAt ps i) t bt).bt (fcfsIdle ps runfor (arrivalAt ps i) t bt).t).1).count
              (Event.arrived k n) = (v.map (nameAt ps)).count n := by
            rw [count_arrEvents, if_pos hkI.symm]
            rw [hkI] at hmem1
            rw [popArrivals_fst_eq (fcfsIdle ps runfor (arrivalAt ps i) t bt).bt (fcfsIdle ps runfor (arrivalAt ps i) t bt).t v hnodI hmem1]
          have houtP : k ∉ btKeys (popArrivals (fcfsIdle ps runfor (arrivalAt ps i) t bt).bt (fcfsIdle ps runfor (arrivalAt ps i) t bt).t).2 := by
            rw [hkI]
            exact popArrivals_not_mem_keys _ _ hnodI
          have hz4 : (fcfsRun runfor i (setStart ps i (fcfsIdle ps runfor (arrivalAt ps i) t bt).t) (fcfsIdle ps runfor (arrivalAt ps i) t bt).t (popArrivals (fcfsIdle ps runfor (arrivalAt ps i) t bt).bt (fcfsIdle ps runfor (arrivalAt ps i) t bt).t).2).evs.count (Event.arrived k n) = 0 :=
            count_zero_of_arr (fun hm =>
              houtP (fcfsRun_arr_keys runfor i _ _ _ _ hm rfl))
          have hz6 : (fcfsMain runfor rest
              (if remAt (fcfsRun runfor i (setStart ps i (fcfsIdle ps runfor (arrivalAt ps i) t bt).t) (fcfsIdle ps runfor (arrivalAt ps i) t bt).t (popArrivals (fcfsIdle ps runfor (arrivalAt ps i) t bt).bt (fcfsIdle ps runfor (arrivalAt ps i) t bt).t).2).ps i = 0 then
                ([Event.finished (fcfsRun runfor i (setStart ps i (fcfsIdle ps runfor (arrivalAt ps i) t bt).t) (fcfsIdle ps runfor (arrivalAt ps i) t bt).t (popArrivals (fcfsIdle ps runfor (arrivalAt ps i) t bt).bt (fcfsIdle ps runfor (arrivalAt ps i) t bt).t).2).t (nameAt (fcfsRun runfor i (setStart ps i (fcfsIdle ps runfor (arrivalAt ps i) t bt).t) (fcfsIdle ps runfor (arrivalAt ps i) t bt).t (popArrivals (fcfsIdle ps runfor (arrivalAt ps i) t bt).bt (fcfsIdle ps runfor (arrivalAt ps i) t bt).t).2).ps i)], setFinish (fcfsRun runfor i (setStart ps i (fcfsIdle ps runfor (arrivalAt ps i) t bt).t) (fcfsIdle ps runfor (arrivalAt ps i) t bt).t (popArrivals (fcfsIdle ps runfor (arrivalAt ps i) t bt).bt (fcfsIdle ps runfor (arrivalAt ps i) t bt).t).2).ps i (fcfsRun runfor i (setStart ps i (fcfsIdle ps runfor (arrivalAt ps i) t bt).t) (fcfsIdle ps runfor (arrivalAt ps i) t bt).t (popArrivals (fcfsIdle ps runfor (arrivalAt ps i) t bt).bt (fcfsIdle ps runfor (arrivalAt ps i) t bt).t).2).t)
                else ([], (fcfsRun runfor i (setStart ps i (fcfsIdle ps runfor (arrivalAt ps i) t bt).t) (fcfsIdle ps runfor (arrivalAt ps i) t bt).t (popArrivals (fcfsIdle ps runfor (arrivalAt ps i) t bt).bt (fcfsIdle ps runfor (arrivalAt ps i) t bt).t).2).ps)).2 (fcfsRun runfor i (setStart ps i (fcfsIdle ps runfor (arrivalAt ps i) t bt).t) (fcfsIdle ps runfor (arrivalAt ps i) t bt).t (popArrivals (fcfsIdle ps runfor (arrivalAt ps i) t bt).bt (fcfsIdle ps runfor (arrivalAt ps i) t bt).t).2).t (fcfsRun runfor i (setStart ps i (fcfsIdle ps runfor (arrivalAt ps i) t bt).t) (fcfsIdle ps runfor (arrivalAt ps i) t bt).t (popArrivals (fcfsIdle ps runfor (arrivalAt ps i) t bt).bt (fcfsIdle ps runfor (arrivalAt ps i) t bt).t).2).bt).1.count (Event.arrived k n) = 0 :=
            count_zero_of_arr (fun hm =>
              houtP (hsubR (fcfsMain_arr_keys runfor rest _ _ _ _ hm rfl)))
          rw [hc1, hc2, hz4, hz6]
          omega
        · obtain ⟨hc1, hmem1⟩ := hIcnt.2 (by omega)
          have hz2 : (arrEvents ps (fcfsIdle ps runfor (arrivalAt ps i) t bt).t (popArrivals (fcfsIdle ps runfor (arrivalAt ps i) t bt).bt (fcfsIdle ps runfor (arrivalAt ps i) t bt).t).1).count
              (Event.arrived k n) = 0 := by
            rw [count_arrEvents, if_neg (by omega)]
          have hmemP : (k, v) ∈ (popArrivals (fcfsIdle ps runfor (arrivalAt ps i) t bt).bt (fcfsIdle ps runfor (arrivalAt ps i) t bt).t).2 :=
            popArrivals_mem_ne (fcfsIdle ps runfor (arrivalAt ps i) t bt).bt (fcfsIdle ps runfor (arrivalAt ps i) t bt).t k v (by omega) hmem1
          have hRcnt := fcfsRun_count runfor i (setStart ps i (fcfsIdle ps runfor (arrivalAt ps i) t bt).t) (fcfsIdle ps runfor (arrivalAt ps i) t bt).t (popArrivals (fcfsIdle ps runfor (arrivalAt ps i) t bt).bt (fcfsIdle ps runfor (arrivalAt ps i) t bt).t).2 hnodP k v n hmemP hkI
          rcases le_or_lt k (fcfsRun runfor i (setStart ps i (fcfsIdle ps runfor (arrivalAt ps i) t bt).t) (fcfsIdle ps runfor (arrivalAt ps i) t bt).t (popArrivals (fcfsIdle ps runfor (arrivalAt ps i) t bt).bt (fcfsIdle ps runfor (arrivalAt ps i) t bt).t).2).t with hkR | hkR
          · obtain ⟨hc4, hout4⟩ := hRcnt.1 hkR
            have hz6 : (fcfsMain runfor rest
                (if remAt (fcfsRun runfor i (setStart ps i (fcfsIdle ps runfor (arrivalAt ps i) t bt).t) (fcfsIdle ps runfor (arrivalAt ps i) t bt).t (popArrivals (fcfsIdle ps runfor (arrivalAt ps i) t bt).bt (fcfsIdle ps runfor (arrivalAt ps i) t bt).t).2).ps i = 0 then
                  ([Event.finished (fcfsRun runfor i (setStart ps i (fcfsIdle ps runfor (arrivalAt ps i) t bt).t) (fcfsIdle ps runfor (arrivalAt ps i) t bt).t (popArrivals (fcfsIdle ps runfor (arrivalAt ps i) t bt).bt (fcfsIdle ps runfor (arrivalAt ps i) t bt).t).2).t (nameAt (fcfsRun runfor i (setStart ps i (fcfsIdle ps runfor (arrivalAt ps i) t bt).t) (fcfsIdle ps runfor (arrivalAt ps i) t bt).t (popArrivals (fcfsIdle ps runfor (arrivalAt ps i) t bt).bt (fcfsIdle ps runfor (arrivalAt ps i) t bt).t).2).ps i)], setFinish (fcfsRun runfor i (setStart ps i (fcfsIdle ps runfor (arrivalAt ps i) t bt).t) (fcfsIdle ps runfor (arrivalAt ps i) t bt).t (popArrivals (fcfsIdle ps runfor (arrivalAt ps i) t bt).bt (fcfsIdle ps runfor (arrivalAt ps i) t bt).t).2).ps i (fcfsRun runfor i (setStart ps i (fcfsIdle ps runfor (arrivalAt ps i) t bt).t) (fcfsIdle ps runfor (arrivalAt ps i) t bt).t (popArrivals (fcfsIdle ps runfor (arrivalAt ps i) t bt).bt (fcfsIdle ps runfor (arrivalAt ps i) t bt).t).2).t)
                  else ([], (fcfsRun runfor i (setStart ps i (fcfsIdle ps runfor (arrivalAt ps i) t bt).t) (fcfsIdle ps runfor (arrivalAt ps i) t bt).t (popArrivals (fcfsIdle ps runfor (arrivalAt ps i) t bt).bt (fcfsIdle ps runfor (arrivalAt ps i) t bt).t).2).ps)).2 (fcfsRun runfor i (setStart ps i (fcfsIdle ps runfor (arrivalAt ps i) t bt).t) (fcfsIdle ps runfor (arrivalAt ps i) t bt).t (popArrivals (fcfsIdle ps runfor (arrivalAt ps i) t bt).bt (fcfsIdle ps runfor (arrivalAt ps i) t bt).t).2).t (fcfsRun runfor i (setStart ps i (fcfsIdle ps runfor (arrivalAt ps i) t bt).t) (fcfsIdle ps runfor (arrivalAt ps i) t bt).t (popArrivals (fcfsIdle ps runfor (arrivalAt ps i) t bt).bt (fcfsIdle ps runfor (arrivalAt ps i) t bt).t).2).bt).1.count (Event.arrived k n) = 0 :=
              count_zero_of_arr (fun hm =>
                hout4 (fcfsMain_arr_keys runfor rest _ _ _ _ hm rfl))
            rw [hc1, hz2, hc4, hz6, map_names_eq (fun j => nameAt_setStart ps i _ j) v]
            omega
          · obtain ⟨hc4, hmem4⟩ := hRcnt.2 hkR
            have hprof := fcfsRun_profile runfor i (setStart ps i (fcfsIdle ps runfor (arrivalAt ps i) t bt).t) (fcfsIdle ps runfor (arrivalAt ps i) t bt).t (popArrivals (fcfsIdle ps runfor (arrivalAt ps i) t bt).bt (fcfsIdle ps runfor (arrivalAt ps i) t bt).t).2
            have hc6 := ih
              (if remAt (fcfsRun runfor i (setStart ps i (fcfsIdle ps runfor (arrivalAt ps i) t bt).t) (fcfsIdle ps runfor (arrivalAt ps i) t bt).t (popArrivals (fcfsIdle ps runfor (arrivalAt ps i) t bt).bt (fcfsIdle ps runfor (arrivalAt ps i) t bt).t).2).ps i = 0 then
                ([Event.finished (fcfsRun runfor i (setStart ps i (fcfsIdle ps runfor (arrivalAt ps i) t bt).t) (fcfsIdle ps runfor (arrivalAt ps i) t bt).t (popArrivals (fcfsIdle ps runfor (arrivalAt ps i) t bt).bt (fcfsIdle ps runfor (arrivalAt ps i) t bt).t).2).t (nameAt (fcfsRun runfor i (setStart ps i (fcfsIdle ps runfor (arrivalAt ps i) t bt).t) (fcfsIdle ps runfor (arrivalAt ps i) t bt).t (popArrivals (fcfsIdle ps runfor (arrivalAt ps i) t bt).bt (fcfsIdle ps runfor (arrivalAt ps i) t bt).t).2).ps i)], setFinish (fcfsRun runfor i (setStart ps i (fcfsIdle ps runfor (arrivalAt ps i) t bt).t) (fcfsIdle ps runfor (arrivalAt ps i) t bt).t (popArrivals (fcfsIdle ps runfor (arrivalAt ps i) t bt).bt (fcfsIdle ps runfor (arrivalAt ps i) t bt).t).2).ps i (fcfsRun runfor i (setStart ps i (fcfsIdle ps runfor (arrivalAt ps i) t bt).t) (fcfsIdle ps runfor (arrivalAt ps i) t bt).t (popArrivals (fcfsIdle ps runfor (arrivalAt ps i) t bt).bt (fcfsIdle ps runfor (arrivalAt ps i) t bt).t).2).t)
                else ([], (fcfsRun runfor i (setStart ps i (fcfsIdle ps runfor (arrivalAt ps i) t bt).t) (fcfsIdle ps runfor (arrivalAt ps i) t bt).t (popArrivals (fcfsIdle ps runfor (arrivalAt ps i) t bt).bt (fcfsIdle ps runfor (arrivalAt ps i) t bt).t).2).ps)).2 (fcfsRun runfor i (setStart ps i (fcfsIdle ps runfor (arrivalAt ps i) t bt).t) (fcfsIdle ps runfor (arrivalAt ps i) t bt).t (popArrivals (fcfsIdle ps runfor (arrivalAt ps i) t bt).bt (fcfsIdle ps runfor (arrivalAt ps i) t bt).t).2).t (fcfsRun runfor i (setStart ps i (fcfsIdle ps runfor (arrivalAt ps i) t bt).t) (fcfsIdle ps runfor (arrivalAt ps i) t bt).t (popArrivals (fcfsIdle ps runfor (arrivalAt ps i) t bt).bt (fcfsIdle ps runfor (arrivalAt ps i) t bt).t).2).bt hnodR k v n hmem4 (by omega) hk
            rw [hc1, hz2, hc4, hc6]
            have hmapfix : (v.map (nameAt
                (if remAt (fcfsRun runfor i (setStart ps i (fcfsIdle ps runfor (arrivalAt ps i) t bt).t) (fcfsIdle ps runfor (arrivalAt ps i) t bt).t (popArrivals (fcfsIdle ps runfor (arrivalAt ps i) t bt).bt (fcfsIdle ps runfor (arrivalAt ps i) t bt).t).2).ps i = 0 then
                  ([Event.finished (fcfsRun runfor i (setStart ps i (fcfsIdle ps runfor (arrivalAt ps i) t bt).t) (fcfsIdle ps runfor (arrivalAt ps i) t bt).t (popArrivals (fcfsIdle ps runfor (arrivalAt ps i) t bt).bt (fcfsIdle ps runfor (arrivalAt ps i) t bt).t).2).t (nameAt (fcfsRun runfor i (setStart ps i (fcfsIdle ps runfor (arrivalAt ps i) t bt).t) (fcfsIdle ps runfor (arrivalAt ps i) t bt).t (popArrivals (fcfsIdle ps runfor (arrivalAt ps i) t bt).bt (fcfsIdle ps runfor (arrivalAt ps i) t bt).t).2).ps i)], setFinish (fcfsRun runfor i (setStart ps i (fcfsIdle ps runfor (arrivalAt ps i) t bt).t) (fcfsIdle ps runfor (arrivalAt ps i) t bt).t (popArrivals (fcfsIdle ps runfor (arrivalAt ps i) t bt).bt (fcfsIdle ps runfor (arrivalAt ps i) t bt).t).2).ps i (fcfsRun runfor i (setStart ps i (fcfsIdle ps runfor (arrivalAt ps i) t bt).t) (fcfsIdle ps runfor (arrivalAt ps i) t bt).t (popArrivals (fcfsIdle ps runfor (arrivalAt ps i) t bt).bt (fcfsIdle ps runfor (arrivalAt ps i) t bt).t).2).t)
                  else ([], (fcfsRun runfor i (setStart ps i (fcfsIdle ps runfor (arrivalAt ps i) t bt).t) (fcfsIdle ps runfor (arrivalAt ps i) t bt).t (popArrivals (fcfsIdle ps runfor (arrivalAt ps i) t bt).bt (fcfsIdle ps runfor (arrivalAt ps i) t bt).t).2).ps)).2)) = v.map (nameAt ps) := by
              refine map_names_eq (fun j => ?_) v
              split
              · exact (nameAt_setFinish _ _ _ j).trans
                  ((fcfsRun_nameAt runfor i _ _ _ j).trans (nameAt_setStart ps i _ j))
              · exact (fcfsRun_nameAt runfor i _ _ _ j).trans (nameAt_setStart ps i _ j)
            rw [hmapfix]
            omega
      · rw [if_neg hsel]
        dsimp only
        have hnodI : (btKeys (fcfsIdle ps runfor (arrivalAt ps i) t bt).bt).Nodup :=
          btKeys_nodup_of_sublist (fcfsIdle_bt_sub ps runfor (arrivalAt ps i) t bt) hnd
        have hnodP : (btKeys (popArrivals (fcfsIdle ps runfor (arrivalAt ps i) t bt).bt (fcfsIdle ps runfor (arrivalAt ps i) t bt).t).2).Nodup := popArrivals_keys_nodup _ _ hnodI
        have hnodR : (btKeys (fcfsRun runfor i ps (fcfsIdle ps runfor (arrivalAt ps i) t bt).t (popArrivals (fcfsIdle ps runfor (arrivalAt ps i) t bt).bt (fcfsIdle ps runfor (arrivalAt ps i) t bt).t).2).bt).Nodup :=
          btKeys_nodup_of_sublist (fcfsRun_bt_sub runfor i _ _ _) hnodP
        have hsubP : btKeys (popArrivals (fcfsIdle ps runfor (arrivalAt ps i) t bt).bt (fcfsIdle ps runfor (arrivalAt ps i) t bt).t).2 ⊆ btKeys (fcfsIdle ps runfor (arrivalAt ps i) t bt).bt := btKeys_pop_subset _ _
        have hsubR : btKeys (fcfsRun runfor i ps (fcfsIdle ps runfor (arrivalAt ps i) t bt).t (popArrivals (fcfsIdle ps runfor (arrivalAt ps i) t bt).bt (fcfsIdle ps runfor (arrivalAt ps i) t bt).t).2).bt ⊆ btKeys (popArrivals (fcfsIdle ps runfor (arrivalAt ps i) t bt).bt (fcfsIdle ps runfor (arrivalAt ps i) t bt).t).2 :=
          btKeys_sub_of_sublist (fcfsRun_bt_sub runfor i _ _ _)
        have hIcnt := fcfsIdle_count ps runfor (arrivalAt ps i) t bt hnd k v n hkv ht
        have hfin0 : (if remAt (fcfsRun runfor i ps (fcfsIdle ps runfor (arrivalAt ps i) t bt).t (popArrivals (fcfsIdle ps runfor (arrivalAt ps i) t bt).bt (fcfsIdle ps runfor (arrivalAt ps i) t bt).t).2).ps i = 0 then
            ([Event.finished (fcfsRun runfor i ps (fcfsIdle ps runfor (arrivalAt ps i) t bt).t (popArrivals (fcfsIdle ps runfor (arrivalAt ps i) t bt).bt (fcfsIdle ps runfor (arrivalAt ps i) t bt).t).2).t (nameAt (fcfsRun runfor i ps (fcfsIdle ps runfor (arrivalAt ps i) t bt).t (popArrivals (fcfsIdle ps runfor (arrivalAt ps i) t bt).bt (fcfsIdle ps runfor (arrivalAt ps i) t bt).t).2).ps i)], setFinish (fcfsRun runfor i ps (fcfsIdle ps runfor (arrivalAt ps i) t bt).t (popArrivals (fcfsIdle ps runfor (arrivalAt ps i) t bt).bt (fcfsIdle ps runfor (arrivalAt ps i) t bt).t).2).ps i (fcfsRun runfor i ps (fcfsIdle ps runfor (arrivalAt ps i) t bt).t (popArrivals (fcfsIdle ps runfor (arrivalAt ps i) t bt).bt (fcfsIdle ps runfor (arrivalAt ps i) t bt).t).2).t)
            else ([], (fcfsRun runfor i ps (fcfsIdle ps runfor (arrivalAt ps i) t bt).t (popArrivals (fcfsIdle ps runfor (arrivalAt ps i) t bt).bt (fcfsIdle ps runfor (arrivalAt ps i) t bt).t).2).ps)).1.count (Event.arrived k n) = 0 := by
          split <;> simp
        have hsel0 : (([] : List Event) : List Event).count (Event.arrived k n) = 0 := by simp
        rw [List.count_append, List.count_append, List.count_append, List.count_append,
          List.count_append, hfin0, hsel0]
        rcases Nat.lt_trichotomy k (fcfsIdle ps runfor (arrivalAt ps i) t bt).t with hkI | hkI | hkI
        · obtain ⟨hc1, hout1⟩ := hIcnt.1 hkI
          have hz2 : (arrEvents ps (fcfsIdle ps runfor (arrivalAt ps i) t bt).t (popArrivals (fcfsIdle ps runfor (arrivalAt ps i) t bt).bt (fcfsIdle ps runfor (arrivalAt ps i) t bt).t).1).count
              (Event.arrived k n) = 0 := by
            rw [count_arrEvents, if_neg (by omega)]
          have hz4 : (fcfsRun runfor i ps (fcfsIdle ps runfor (arrivalAt ps i) t bt).t (popArrivals (fcfsIdle ps runfor (arrivalAt ps i) t bt).bt (fcfsIdle ps runfor (arrivalAt ps i) t bt).t).2).evs.count (Event.arrived k n) = 0 :=
            count_zero_of_arr (fun hm =>
              hout1 (hsubP (fcfsRun_arr_keys runfor i _ _ _ _ hm rfl)))
          have hz6 : (fcfsMain runfor rest
              (if remAt (fcfsRun runfor i ps (fcfsIdle ps runfor (arrivalAt ps i) t bt).t (popArrivals (fcfsIdle ps runfor (arrivalAt ps i) t bt).bt (fcfsIdle ps runfor (arrivalAt ps i) t bt).t).2).ps i = 0 then
                ([Event.finished (fcfsRun runfor i ps (fcfsIdle ps runfor (arrivalAt ps i) t bt).t (popArrivals (fcfsIdle ps runfor (arrivalAt ps i) t bt).bt (fcfsIdle ps runfor (arrivalAt ps i) t bt).t).2).t (nameAt (fcfsRun runfor i ps (fcfsIdle ps runfor (arrivalAt ps i) t bt).t (popArrivals (fcfsIdle ps runfor (arrivalAt ps i) t bt).bt (fcfsIdle ps runfor (arrivalAt ps i) t bt).t).2).ps i)], setFinish (fcfsRun runfor i ps (fcfsIdle ps runfor (arrivalAt ps i) t bt).t (popArrivals (fcfsIdle ps runfor (arrivalAt ps i) t bt).bt (fcfsIdle ps runfor (arrivalAt ps i) t bt).t).2).ps i (fcfsRun runfor i ps (fcfsIdle ps runfor (arrivalAt ps i) t bt).t (popArrivals (fcfsIdle ps runfor (arrivalAt ps i) t bt).bt (fcfsIdle ps runfor (arrivalAt ps i) t bt).t).2).t)
                else ([], (fcfsRun runfor i ps (fcfsIdle ps runfor (arrivalAt ps i) t bt).t (popArrivals (fcfsIdle ps runfor (arrivalAt ps i) t bt).bt (fcfsIdle ps runfor (arrivalAt ps i) t bt).t).2).ps)).2 (fcfsRun runfor i ps (fcfsIdle ps runfor (arrivalAt ps i) t bt).t (popArrivals (fcfsIdle ps runfor (arrivalAt ps i) t bt).bt (fcfsIdle ps runfor (arrivalAt ps i) t bt).t).2).t (fcfsRun runfor i ps (fcfsIdle ps runfor (arrivalAt ps i) t bt).t (popArrivals (fcfsIdle ps runfor (arrivalAt ps i) t bt).bt (fcfsIdle ps runfor (arrivalAt ps i) t bt).t).2).bt).1.count (Event.arrived k n) = 0 :=
            count_zero_of_arr (fun hm =>
              hout1 (hsubP (hsubR (fcfsMain_arr_keys runfor rest _ _ _ _ hm rfl))))
          rw [hc1, hz2, hz4, hz6]
          omega
        · obtain ⟨hc1, hmem1⟩ := hIcnt.2 (by omega)
          have hc2 : (arrEvents ps (fcfsIdle ps runfor (arrivalAt ps i) t bt).t (popArrivals (fcfsIdle ps runfor (arrivalAt ps i) t bt).bt (fcfsIdle ps runfor (arrivalAt ps i) t bt).t).1).count
              (Event.arrived k n) = (v.map (nameAt ps)).count n := by
            rw [count_arrEvents, if_pos hkI.symm]
            rw [hkI] at hmem1
            rw [popArrivals_fst_eq (fcfsIdle ps runfor (arrivalAt ps i) t bt).bt (fcfsIdle ps runfor (arrivalAt ps i) t bt).t v hnodI hmem1]
          have houtP : k ∉ btKeys (popArrivals (fcfsIdle ps runfor (arrivalAt ps i) t bt).bt (fcfsIdle ps runfor (arrivalAt ps i) t bt).t).2 := by
            rw [hkI]
            exact popArrivals_not_mem_keys _ _ hnodI
          have hz4 : (fcfsRun runfor i ps (fcfsIdle ps runfor (arrivalAt ps i) t bt).t (popArrivals (fcfsIdle ps runfor (arrivalAt ps i) t bt).bt (fcfsIdle ps runfor (arrivalAt ps i) t bt).t).2).evs.count (Event.arrived k n) = 0 :=
            count_zero_of_arr (fun hm =>
              houtP (fcfsRun_arr_keys runfor i _ _ _ _ hm rfl))
          have hz6 : (fcfsMain runfor rest
              (if remAt (fcfsRun runfor i ps (fcfsIdle ps runfor (arrivalAt ps i) t bt).t (popArrivals (fcfsIdle ps runfor (arrivalAt ps i) t bt).bt (fcfsIdle ps runfor (arrivalAt ps i) t bt).t).2).ps i = 0 then
                ([Event.finished (fcfsRun runfor i ps (fcfsIdle ps runfor (arrivalAt ps i) t bt).t (popArrivals (fcfsIdle ps runfor (arrivalAt ps i) t bt).bt (fcfsIdle ps runfor (arrivalAt ps i) t bt).t).2).t (nameAt (fcfsRun runfor i ps (fcfsIdle ps runfor (arrivalAt ps i) t bt).t (popArrivals (fcfsIdle ps runfor (arrivalAt ps i) t bt).bt (fcfsIdle ps runfor (arrivalAt ps i) t bt).t).2).ps i)], setFinish (fcfsRun runfor i ps (fcfsIdle ps runfor (arrivalAt ps i) t bt).t (popArrivals (fcfsIdle ps runfor (arrivalAt ps i) t bt).bt (fcfsIdle ps runfor (arrivalAt ps i) t bt).t).2).ps i (fcfsRun runfor i ps (fcfsIdle ps runfor (arrivalAt ps i) t bt).t (popArrivals (fcfsIdle ps runfor (arrivalAt ps i) t bt).bt (fcfsIdle ps runfor (arrivalAt ps i) t bt).t).2).t)
                else ([], (fcfsRun runfor i ps (fcfsIdle ps runfor (arrivalAt ps i) t bt).t (popArrivals (fcfsIdle ps runfor (arrivalAt ps i) t bt).bt (fcfsIdle ps runfor (arrivalAt ps i) t bt).t).2).ps)).2 (fcfsRun runfor i ps (fcfsIdle ps runfor (arrivalAt ps i) t bt).t (popArrivals (fcfsIdle ps runfor (arrivalAt ps i) t bt).bt (fcfsIdle ps runfor (arrivalAt ps i) t bt).t).2).t (fcfsRun runfor i ps (fcfsIdle ps runfor (arrivalAt ps i) t bt).t (popArrivals (fcfsIdle ps runfor (arrivalAt ps i) t bt).bt (fcfsIdle ps runfor (arrivalAt ps i) t bt).t).2).bt).1.count (Event.arrived k n) = 0 :=
            count_zero_of_arr (fun hm =>
              houtP (hsubR (fcfsMain_arr_keys runfor rest _ _ _ _ hm rfl)))
          rw [hc1, hc2, hz4, hz6]
          omega
        · obtain ⟨hc1, hmem1⟩ := hIcnt.2 (by omega)
          have hz2 : (arrEvents ps (fcfsIdle ps runfor (arrivalAt ps i) t bt).t (popArrivals (fcfsIdle ps runfor (arrivalAt ps i) t bt).bt (fcfsIdle ps runfor (arrivalAt ps i) t bt).t).1).count
              (Event.arrived k n) = 0 := by
            rw [count_arrEvents, if_neg (by omega)]
          have hmemP : (k, v) ∈ (popArrivals (fcfsIdle ps runfor (arrivalAt ps i) t bt).bt (fcfsIdle ps runfor (arrivalAt ps i) t bt).t).2 :=
            popArrivals_mem_ne (fcfsIdle ps runfor (arrivalAt ps i) t bt).bt (fcfsIdle ps runfor (arrivalAt ps i) t bt).t k v (by omega) hmem1
          have hRcnt := fcfsRun_count runfor i ps (fcfsIdle ps runfor (arrivalAt ps i) t bt).t (popArrivals (fcfsIdle ps runfor (arrivalAt ps i) t bt).bt (fcfsIdle ps runfor (arrivalAt ps i) t bt).t).2 hnodP k v n hmemP hkI
          rcases le_or_lt k (fcfsRun runfor i ps (fcfsIdle ps runfor (arrivalAt ps i) t bt).t (popArrivals (fcfsIdle ps runfor (arrivalAt ps i) t bt).bt (fcfsIdle ps runfor (arrivalAt ps i) t bt).t).2).t with hkR | hkR
          · obtain ⟨hc4, hout4⟩ := hRcnt.1 hkR
            have hz6 : (fcfsMain runfor rest
                (if remAt (fcfsRun runfor i ps (fcfsIdle ps runfor (arrivalAt ps i) t bt).t (popArrivals (fcfsIdle ps runfor (arrivalAt ps i) t bt).bt (fcfsIdle ps runfor (arrivalAt ps i) t bt).t).2).ps i = 0 then
                  ([Event.finished (fcfsRun runfor i ps (fcfsIdle ps runfor (arrivalAt ps i) t bt).t (popArrivals (fcfsIdle ps runfor (arrivalAt ps i) t bt).bt (fcfsIdle ps runfor (arrivalAt ps i) t bt).t).2).t (nameAt (fcfsRun runfor i ps (fcfsIdle ps runfor (arrivalAt ps i) t bt).t (popArrivals (fcfsIdle ps runfor (arrivalAt ps i) t bt).bt (fcfsIdle ps runfor (arrivalAt ps i) t bt).t).2).ps i)], setFinish (fcfsRun runfor i ps (fcfsIdle ps runfor (arrivalAt ps i) t bt).t (popArrivals (fcfsIdle ps runfor (arrivalAt ps i) t bt).bt (fcfsIdle ps runfor (arrivalAt ps i) t bt).t).2).ps i (fcfsRun runfor i ps (fcfsIdle ps runfor (arrivalAt ps i) t bt).t (popArrivals (fcfsIdle ps runfor (arrivalAt ps i) t bt).bt (fcfsIdle ps runfor (arrivalAt ps i) t bt).t).2).t)
                  else ([], (fcfsRun runfor i ps (fcfsIdle ps runfor (arrivalAt ps i) t bt).t (popArrivals (fcfsIdle ps runfor (arrivalAt ps i) t bt).bt (fcfsIdle ps runfor (arrivalAt ps i) t bt).t).2).ps)).2 (fcfsRun runfor i ps (fcfsIdle ps runfor (arrivalAt ps i) t bt).t (popArrivals (fcfsIdle ps runfor (arrivalAt ps i) t bt).bt (fcfsIdle ps runfor (arrivalAt ps i) t bt).t).2).t (fcfsRun runfor i ps (fcfsIdle ps runfor (arrivalAt ps i) t bt).t (popArrivals (fcfsIdle ps runfor (arrivalAt ps i) t bt).bt (fcfsIdle ps runfor (arrivalAt ps i) t bt).t).2).bt).1.count (Event.arrived k n) = 0 :=
              count_zero_of_arr (fun hm =>
                hout4 (fcfsMain_arr_keys runfor rest _ _ _ _ hm rfl))
            rw [hc1, hz2, hc4, hz6]
            omega
          · obtain ⟨hc4, hmem4⟩ := hRcnt.2 hkR
            have hprof := fcfsRun_profile runfor i ps (fcfsIdle ps runfor (arrivalAt ps i) t bt).t (popArrivals (fcfsIdle ps runfor (arrivalAt ps i) t bt).bt (fcfsIdle ps runfor (arrivalAt ps i) t bt).t).2
            have hc6 := ih
              (if remAt (fcfsRun runfor i ps (fcfsIdle ps runfor (arrivalAt ps i) t bt).t (popArrivals (fcfsIdle ps runfor (arrivalAt ps i) t bt).bt (fcfsIdle ps runfor (arrivalAt ps i) t bt).t).2).ps i = 0 then
                ([Event.finished (fcfsRun runfor i ps (fcfsIdle ps runfor (arrivalAt ps i) t bt).t (popArrivals (fcfsIdle ps runfor (arrivalAt ps i) t bt).bt (fcfsIdle ps runfor (arrivalAt ps i) t bt).t).2).t (nameAt (fcfsRun runfor i ps (fcfsIdle ps runfor (arrivalAt ps i) t bt).t (popArrivals (fcfsIdle ps runfor (arrivalAt ps i) t bt).bt (fcfsIdle ps runfor (arrivalAt ps i) t bt).t).2).ps i)], setFinish (fcfsRun runfor i ps (fcfsIdle ps runfor (arrivalAt ps i) t bt).t (popArrivals (fcfsIdle ps runfor (arrivalAt ps i) t bt).bt (fcfsIdle ps runfor (arrivalAt ps i) t bt).t).2).ps i (fcfsRun runfor i ps (fcfsIdle ps runfor (arrivalAt ps i) t bt).t (popArrivals (fcfsIdle ps runfor (arrivalAt ps i) t bt).bt (fcfsIdle ps runfor (arrivalAt ps i) t bt).t).2).t)
                else ([], (fcfsRun runfor i ps (fcfsIdle ps runfor (arrivalAt ps i) t bt).t (popArrivals (fcfsIdle ps runfor (arrivalAt ps i) t bt).bt (fcfsIdle ps runfor (arrivalAt ps i) t bt).t).2).ps)).2 (fcfsRun runfor i ps (fcfsIdle ps runfor (arrivalAt ps i) t bt).t (popArrivals (fcfsIdle ps runfor (arrivalAt ps i) t bt).bt (fcfsIdle ps runfor (arrivalAt ps i) t bt).t).2).t (fcfsRun runfor i ps (fcfsIdle ps runfor (arrivalAt ps i) t bt).t (popArrivals (fcfsIdle ps runfor (arrivalAt ps i) t bt).bt (fcfsIdle ps runfor (arrivalAt ps i) t bt).t).2).bt hnodR k v n hmem4 (by omega) hk
            rw [hc1, hz2, hc4, hc6]
            have hmapfix : (v.map (nameAt
                (if remAt (fcfsRun runfor i ps (fcfsIdle ps runfor (arrivalAt ps i) t bt).t (popArrivals (fcfsIdle ps runfor (arrivalAt ps i) t bt).bt (fcfsIdle ps runfor (arrivalAt ps i) t bt).t).2).ps i = 0 then
                  ([Event.finished (fcfsRun runfor i ps (fcfsIdle ps runfor (arrivalAt ps i) t bt).t (popArrivals (fcfsIdle ps runfor (arrivalAt ps i) t bt).bt (fcfsIdle ps runfor (arrivalAt ps i) t bt).t).2).t (nameAt (fcfsRun runfor i ps (fcfsIdle ps runfor (arrivalAt ps i) t bt).t (popArrivals (fcfsIdle ps runfor (arrivalAt ps i) t bt).bt (fcfsIdle ps runfor (arrivalAt ps i) t bt).t).2).ps i)], setFinish (fcfsRun runfor i ps (fcfsIdle ps runfor (arrivalAt ps i) t bt).t (popArrivals (fcfsIdle ps runfor (arrivalAt ps i) t bt).bt (fcfsIdle ps runfor (arrivalAt ps i) t bt).t).2).ps i (fcfsRun runfor i ps (fcfsIdle ps runfor (arrivalAt ps i) t bt).t (popArrivals (fcfsIdle ps runfor (arrivalAt ps i) t bt).bt (fcfsIdle ps runfor (arrivalAt ps i) t bt).t).2).t)
                  else ([], (fcfsRun runfor i ps (fcfsIdle ps runfor (arrivalAt ps i) t bt).t (popArrivals (fcfsIdle ps runfor (arrivalAt ps i) t bt).bt (fcfsIdle ps runfor (arrivalAt ps i) t bt).t).2).ps)).2)) = v.map (nameAt ps) := by
              refine map_names_eq (fun j => ?_) v
              split
              · exact (nameAt_setFinish _ _ _ j).trans
                  ((fcfsRun_nameAt runfor i _ _ _ j).trans rfl)
              · exact (fcfsRun_nameAt runfor i _ _ _ j).trans rfl
            rw [hmapfix]
            omega


theorem rrSlice_count (i : Nat) :
    ∀ (m : Nat) (ps : List Proc) (t : Nat) (bt : BT) (rq : List Nat),
      (btKeys bt).Nodup →
      ∀ (k : Nat) (v : List Nat) (n : String), (k, v) ∈ bt → t < k →
      (k ≤ (rrSlice i m ps t bt rq).t →
        (rrSlice i m ps t bt rq).evs.count (Event.arrived k n)
          = (v.map (nameAt ps)).count n ∧
        k ∉ btKeys (rrSlice i m ps t bt rq).bt) ∧
      ((rrSlice i m ps t bt rq).t < k →
        (rrSlice i m ps t bt rq).evs.count (Event.arrived k n) = 0 ∧
        (k, v) ∈ (rrSlice i m ps t bt rq).bt) := by
  intro m
  induction m with
  | zero =>
    intro ps t bt rq hnd k v n hkv ht
    simp only [rrSlice]
    exact ⟨fun hle => by have hle2 : k ≤ t := hle; omega, fun _ => ⟨rfl, hkv⟩⟩
  | succ m ihm =>
    intro ps t bt rq hnd k v n hkv ht
    have hn1 : ∀ j, nameAt (decRem ps i) j = nameAt ps j := fun j => nameAt_decRem ps i j
    simp only [rrSlice]
    split
    · simp only [RSl_evs, RSl_t, RSl_bt]
      by_cases hkt : k = t + 1
      · subst hkt
        constructor
        · intro _
          constructor
          · rw [List.count_append, count_arrEvents, if_pos rfl,
              popArrivals_fst_eq bt (t + 1) v hnd hkv, map_names_eq hn1]
            simp
          · exact popArrivals_not_mem_keys bt (t + 1) hnd
        · intro hlt
          omega
      · constructor
        · intro hle
          omega
        · intro _
          refine ⟨?_, popArrivals_mem_ne bt (t + 1) k v (fun hc => hkt hc) hkv⟩
          rw [List.count_append, count_arrEvents, if_neg (fun hc => hkt hc.symm)]
          simp
    · simp only [RSl_evs, RSl_t, RSl_bt]
      by_cases hkt : k = t + 1
      · subst hkt
        have hge1 : t + 1 ≤ (rrSlice i m (decRem ps i) (t + 1) (popArrivals bt (t + 1)).2
            (rq ++ (popArrivals bt (t + 1)).1)).t :=
          rrSlice_t_ge i m _ (t + 1) _ _
        constructor
        · intro _
          constructor
          · have hz : (rrSlice i m (decRem ps i) (t + 1) (popArrivals bt (t + 1)).2
                (rq ++ (popArrivals bt (t + 1)).1)).evs.count (Event.arrived (t + 1) n) = 0 :=
              count_zero_of_arr (fun hm =>
                popArrivals_not_mem_keys bt (t + 1) hnd
                  (rrSlice_arr_keys i m _ (t + 1) _ _ _ hm rfl))
            rw [List.count_append, hz, count_arrEvents, if_pos rfl,
              popArrivals_fst_eq bt (t + 1) v hnd hkv, map_names_eq hn1]
            omega
          · intro hc
            exact popArrivals_not_mem_keys bt (t + 1) hnd
              (btKeys_sub_of_sublist (rrSlice_bt_sub i m _ (t + 1) _ _) hc)
        · intro hlt
          omega
      · have hmem2 : (k, v) ∈ (popArrivals bt (t + 1)).2 :=
          popArrivals_mem_ne bt (t + 1) k v (fun hc => hkt hc) hkv
        have hih := ihm (decRem ps i) (t + 1) (popArrivals bt (t + 1)).2
          (rq ++ (popArrivals bt (t + 1)).1) (popArrivals_keys_nodup bt (t + 1) hnd)
          k v n hmem2 (by omega)
        have hzA : (arrEvents (decRem ps i) (t + 1)
            (popArrivals bt (t + 1)).1).count (Event.arrived k n) = 0 := by
          rw [count_arrEvents, if_neg (fun hc => hkt hc.symm)]
        constructor
        · intro hle
          refine ⟨?_, (hih.1 hle).2⟩
          rw [List.count_append, hzA, (hih.1 hle).1, map_names_eq hn1]
          omega
        · intro hlt
          refine ⟨?_, (hih.2 hlt).2⟩
          rw [List.count_append, hzA, (hih.2 hlt).1]

theorem rrRunBranch_count (runfor q i : Nat) (ps : List Proc) (t : Nat) (bt : BT)
    (rest : List Nat) (hnd : (btKeys bt).Nodup)
    (k : Nat) (v : List Nat) (n : String) (hkv : (k, v) ∈ bt) (ht : t < k) :
    (k ≤ (rrRunBranch runfor q i ps t bt rest).t →
      (rrRunBranch runfor q i ps t bt rest).evs.count (Event.arrived k n)
        = (v.map (nameAt ps)).count n ∧
      k ∉ btKeys (rrRunBranch runfor q i ps t bt rest).bt) ∧
    ((rrRunBranch runfor q i ps t bt rest).t < k →
      (rrRunBranch runfor q i ps t bt rest).evs.count (Event.arrived k n) = 0 ∧
      (k, v) ∈ (rrRunBranch runfor q i ps t bt rest).bt) := by
  have hn1 : ∀ j, nameAt (if startAt ps i = none then setStart ps i t else ps) j
      = nameAt ps j := by
    intro j
    split <;> first | rfl | simp [nameAt_setStart]
  have hsl := rrSlice_count i (min q (min (remAt ps i) (runfor - t)))
    (if startAt ps i = none then setStart ps i t else ps) t bt rest hnd k v n hkv ht
  simp only [rrRunBranch, RSl_evs, RSl_t, RSl_bt]
  constructor
  · intro hle
    refine ⟨?_, (hsl.1 hle).2⟩
    rw [List.count_cons, (hsl.1 hle).1, map_names_eq hn1]
    simp
  · intro hlt
    refine ⟨?_, (hsl.2 hlt).2⟩
    rw [List.count_cons, (hsl.2 hlt).1]
    simp

theorem rrGo_count (runfor : Nat) (q : {n : Nat // 0 < n}) :
    ∀ (ps : List Proc) (t : Nat) (bt : BT) (rq : List Nat), (btKeys bt).Nodup →
      ∀ (k : Nat) (v : List Nat) (n : String), (k, v) ∈ bt → t ≤ k → k < runfor →
      (rrGo runfor q ps t bt rq).1.count (Event.arrived k n)
        = (v.map (nameAt ps)).count n := by
  intro ps t bt rq
  induction ps, t, bt, rq using rrGo.induct runfor q with
  | case1 ps t bt rq h pr hm pr2 ih =>
    intro hnd k v n hkv ht hk
    have hpr : pr = popArrivals bt t := rfl
    rw [hpr] at hm
    rw [rrGo_idle runfor q ps t bt rq h hm]
    have hndP : (btKeys (popArrivals bt t).2).Nodup := popArrivals_keys_nodup bt t hnd
    have hnd2 : (btKeys (popArrivals (popArrivals bt t).2 (t + 1)).2).Nodup :=
      popArrivals_keys_nodup _ _ hndP
    rw [List.count_append, List.count_append, List.count_append]
    by_cases hkt : k = t
    · subst hkt
      rw [count_arrEvents, if_pos rfl, popArrivals_fst_eq bt k v hnd hkv]
      have hz2 : ([Event.idle k] : List Event).count (Event.arrived k n) = 0 := by simp
      have hz3 : (arrEvents ps (k + 1)
          (popArrivals (popArrivals bt k).2 (k + 1)).1).count (Event.arrived k n) = 0 := by
        rw [count_arrEvents, if_neg (by omega)]
      have hz4 : (rrGo runfor q ps (k + 1) (popArrivals (popArrivals bt k).2 (k + 1)).2
          (popArrivals (popArrivals bt k).2 (k + 1)).1).1.count (Event.arrived k n) = 0 :=
        count_zero_of_arr (fun hmm =>
          keys_pop_not_mem (popArrivals_not_mem_keys bt k hnd)
            (rrGo_arr_keys runfor q ps (k + 1) _ _ _ hmm rfl))
      rw [hz2, hz3, hz4]
      omega
    · have hmemP : (k, v) ∈ (popArrivals bt t).2 :=
        popArrivals_mem_ne bt t k v (fun hc => hkt hc) hkv
      have hz1 : (arrEvents ps t (popArrivals bt t).1).count (Event.arrived k n) = 0 := by
        rw [count_arrEvents, if_neg (fun hc => hkt hc.symm)]
      have hz2 : ([Event.idle t] : List Event).count (Event.arrived k n) = 0 := by simp
      by_cases hkt1 : k = t + 1
      · subst hkt1
        have hz4 : (rrGo runfor q ps (t + 1) (popArrivals (popArrivals bt t).2 (t + 1)).2
            (popArrivals (popArrivals bt t).2 (t + 1)).1).1.count
              (Event.arrived (t + 1) n) = 0 :=
          count_zero_of_arr (fun hmm =>
            popArrivals_not_mem_keys (popArrivals bt t).2 (t + 1) hndP
              (rrGo_arr_keys runfor q ps (t + 1) _ _ _ hmm rfl))
        rw [hz1, hz2, hz4, count_arrEvents, if_pos rfl,
          popArrivals_fst_eq (popArrivals bt t).2 (t + 1) v hndP hmemP]
        omega
      · have hmem2 : (k, v) ∈ (popArrivals (popArrivals bt t).2 (t + 1)).2 :=
          popArrivals_mem_ne (popArrivals bt t).2 (t + 1) k v (fun hc => hkt1 hc) hmemP
        have hz3 : (arrEvents ps (t + 1)
            (popArrivals (popArrivals bt t).2 (t + 1)).1).count (Event.arrived k n) = 0 := by
          rw [count_arrEvents, if_neg (fun hc => hkt1 hc.symm)]
        rw [hz1, hz2, hz3, ih hnd2 k v n hmem2 (by omega) hk]
        omega
  | case2 ps t bt rq h pr i rest hm br ih =>
    intro hnd k v n hkv ht hk
    have hpr : pr = popArrivals bt t := rfl
    rw [hpr] at hm
    rw [rrGo_run runfor q ps t bt rq i rest h hm]
    have hndP : (btKeys (popArrivals bt t).2).Nodup := popArrivals_keys_nodup bt t hnd
    have hndB : (btKeys (rrRunBranch runfor q.1 i ps t (popArrivals bt t).2 rest).bt).Nodup :=
      btKeys_nodup_of_sublist (rrRunBranch_bt_sub runfor q.1 i ps t (popArrivals bt t).2 rest)
        hndP
    have hprofB := rrRunBranch_profile runfor q.1 i ps t (popArrivals bt t).2 rest
    rw [List.count_append, List.count_append]
    by_cases hkt : k = t
    · subst hkt
      rw [count_arrEvents, if_pos rfl, popArrivals_fst_eq bt k v hnd hkv]
      have hz2 : (rrRunBranch runfor q.1 i ps k (popArrivals bt k).2 rest).evs.count
          (Event.arrived k n) = 0 :=
        count_zero_of_arr (fun hmm => by
          have h3 := rrRunBranch_arr_gt runfor q.1 i ps k (popArrivals bt k).2 rest _ hmm rfl
          simp only [tickOf] at h3
          omega)
      have hz3 : (rrGo runfor q (rrRunBranch runfor q.1 i ps k (popArrivals bt k).2 rest).ps
          (rrRunBranch runfor q.1 i ps k (popArrivals bt k).2 rest).t
          (rrRunBranch runfor q.1 i ps k (popArrivals bt k).2 rest).bt
          (rrRunBranch runfor q.1 i ps k (popArrivals bt k).2 rest).rq).1.count
            (Event.arrived k n) = 0 :=
        count_zero_of_arr (fun hmm =>
          popArrivals_not_mem_keys bt k hnd
            (btKeys_sub_of_sublist
              (rrRunBranch_bt_sub runfor q.1 i ps k (popArrivals bt k).2 rest)
              (rrGo_arr_keys runfor q _ _ _ _ _ hmm rfl)))
      rw [hz2, hz3]
      omega
    · have hmemP : (k, v) ∈ (popArrivals bt t).2 :=
        popArrivals_mem_ne bt t k v (fun hc => hkt hc) hkv
      have hz1 : (arrEvents ps t (popArrivals bt t).1).count (Event.arrived k n) = 0 := by
        rw [count_arrEvents, if_neg (fun hc => hkt hc.symm)]
      have hbr := rrRunBranch_count runfor q.1 i ps t (popArrivals bt t).2 rest hndP
        k v n hmemP (by omega)
      have hbrt : br.t = (rrRunBranch runfor q.1 i ps t (popArrivals bt t).2 rest).t := rfl
      rcases le_or_lt k (rrRunBranch runfor q.1 i ps t (popArrivals bt t).2 rest).t
        with hkB | hkB
      · obtain ⟨hc2, hout2⟩ := hbr.1 hkB
        have hz3 : (rrGo runfor q (rrRunBranch runfor q.1 i ps t (popArrivals bt t).2 rest).ps
            (rrRunBranch runfor q.1 i ps t (popArrivals bt t).2 rest).t
            (rrRunBranch runfor q.1 i ps t (popArrivals bt t).2 rest).bt
            (rrRunBranch runfor q.1 i ps t (popArrivals bt t).2 rest).rq).1.count
              (Event.arrived k n) = 0 :=
          count_zero_of_arr (fun hmm =>
            hout2 (rrGo_arr_keys runfor q _ _ _ _ _ hmm rfl))
        rw [hz1, hc2, hz3]
        omega
      · obtain ⟨hc2, hmem2⟩ := hbr.2 hkB
        rw [hz1, hc2, ih hndB k v n hmem2 (by omega) hk, map_names_eq hprofB.1]
        omega
  | case3 ps t bt rq h =>
    intro _ k v n _ ht hk
    omega


theorem count_arr_map (ps : List Proc) (u : Nat) (v : List Nat) (k : Nat) (n : String) :
    ((v.map (fun i => Event.arrived u (nameAt ps i))).count (Event.arrived k n)) =
      if u = k then (v.map (nameAt ps)).count n else 0 :=
  count_arrEvents ps u v k n

theorem rnFcfsGo_tick_lb (runfor : Nat) (ordered : List Nat) :
    ∀ (ps : List Proc) (time : Nat) (queue : List Nat) (cur : Option Nat),
      ∀ e ∈ (rnFcfsGo runfor ordered ps time queue cur).1, time ≤ tickOf e := by
  intro ps time queue cur
  induction ps, time, queue, cur using rnFcfsGo.induct runfor ordered with
  | case1 ps time queue cur h arr sel hcur ih =>
    intro e he
    rw [rnFcfsGo_none runfor ordered ps time queue cur h hcur] at he
    rcases List.mem_append.mp he with hm | hrest
    · rcases List.mem_append.mp hm with hm2 | hidl
      · rcases List.mem_append.mp hm2 with harr | hsel
        · obtain ⟨j, _, hj⟩ := List.mem_map.mp harr
          rw [← hj, tick_arrEvents (List.mem_map.mpr ⟨j, List.mem_singleton.mpr rfl, rfl⟩)]
        · have := rnFcfsSelect_evs_tick ps time _ cur e hsel
          omega
      · rw [List.mem_singleton.mp hidl, tick_idl]
    · have := ih e hrest
      omega
  | case2 ps time queue cur h arr sel c hcur ex ih =>
    intro e he
    rw [rnFcfsGo_some runfor ordered ps time queue cur c h hcur] at he
    rcases List.mem_append.mp he with hm | hrest
    · rcases List.mem_append.mp hm with hm2 | hex
      · rcases List.mem_append.mp hm2 with harr | hsel
        · obtain ⟨j, _, hj⟩ := List.mem_map.mp harr
          rw [← hj, tick_arrEvents (List.mem_map.mpr ⟨j, List.mem_singleton.mpr rfl, rfl⟩)]
        · have := rnFcfsSelect_evs_tick ps time _ cur e hsel
          omega
      · have := rnFcfsExecStep_evs_tick _ time c e hex
        omega
    · have := ih e hrest
      omega
  | case3 ps time queue cur h =>
    intro e he
    rw [rnFcfsGo_neg runfor ordered ps time queue cur h] at he
    cases he

theorem rnFcfsSelect_count0 (ps : List Proc) (time : Nat) (q1 : List Nat)
    (cur : Option Nat) (k : Nat) (n : String) :
    (rnFcfsSelect ps time q1 cur).evs.count (Event.arrived k n) = 0 := by
  simp only [rnFcfsSelect]
  repeat' split
  all_goals simp

theorem rnFcfsSelect_profile (ps : List Proc) (time : Nat) (q1 : List Nat)
    (cur : Option Nat) :
    (∀ j, nameAt (rnFcfsSelect ps time q1 cur).ps j = nameAt ps j) ∧
    (∀ j, arrivalAt (rnFcfsSelect ps time q1 cur).ps j = arrivalAt ps j) ∧
    (rnFcfsSelect ps time q1 cur).ps.length = ps.length := by
  simp only [rnFcfsSelect]
  repeat' split
  all_goals
    refine ⟨fun j => ?_, fun j => ?_, ?_⟩ <;>
      first
        | rfl
        | simp [nameAt_setStart, arrivalAt_setStart, length_setStart]

theorem rnFcfsExecStep_count0 (ps : List Proc) (time c : Nat) (k : Nat) (n : String) :
    (rnFcfsExecStep ps time c).1.count (Event.arrived k n) = 0 := by
  simp only [rnFcfsExecStep]
  split
  all_goals simp

theorem rnFcfsExecStep_profile (ps : List Proc) (time c : Nat) :
    (∀ j, nameAt (rnFcfsExecStep ps time c).2 j = nameAt ps j) ∧
    (∀ j, arrivalAt (rnFcfsExecStep ps time c).2 j = arrivalAt ps j) ∧
    (rnFcfsExecStep ps time c).2.length = ps.length := by
  simp only [rnFcfsExecStep]
  split
  all_goals
    refine ⟨fun j => ?_, fun j => ?_, ?_⟩ <;>
      simp [nameAt_setFinish, nameAt_decRem, arrivalAt_setFinish, arrivalAt_decRem,
        length_setFinish, length_decRem]

theorem filter_arr_congr {ps1 ps2 : List Proc}
    (ha : ∀ j, arrivalAt ps2 j = arrivalAt ps1 j) (l : List Nat) (a : Nat) :
    l.filter (fun j => decide (arrivalAt ps2 j = a))
      = l.filter (fun j => decide (arrivalAt ps1 j = a)) := by
  refine List.filter_congr ?_
  intro j _
  rw [ha j]

theorem rnFcfsGo_count (runfor : Nat) (ordered : List Nat) :
    ∀ (ps : List Proc) (time : Nat) (queue : List Nat) (cur : Option Nat),
      ∀ (a : Nat) (n : String), time ≤ a → a < runfor →
      (rnFcfsGo runfor ordered ps time queue cur).1.count (Event.arrived a n)
        = ((ordered.filter (fun j => decide (arrivalAt ps j = a))).map (nameAt ps)).count n := by
  intro ps time queue cur
  induction ps, time, queue, cur using rnFcfsGo.induct runfor ordered with
  | case1 ps time queue cur h arr sel hcur ih =>
    intro a n ht hk
    rw [rnFcfsGo_none runfor ordered ps time queue cur h hcur]
    rw [List.count_append, List.count_append, List.count_append,
      rnFcfsSelect_count0, count_arr_map]
    have hz2 : ([Event.idle time] : List Event).count (Event.arrived a n) = 0 := by simp
    rw [hz2]
    by_cases hta : time = a
    · subst hta
      have hz4 : (rnFcfsGo runfor ordered (rnFcfsSelect ps time
          (queue ++ ordered.filter (fun i => decide (arrivalAt ps i = time))) cur).ps
          (time + 1) (rnFcfsSelect ps time
          (queue ++ ordered.filter (fun i => decide (arrivalAt ps i = time))) cur).queue
          none).1.count (Event.arrived time n) = 0 :=
        count_zero_of_arr (fun hm => by
          have := rnFcfsGo_tick_lb runfor ordered _ (time + 1) _ _ _ hm
          simp only [tickOf] at this
          omega)
      rw [hz4, if_pos rfl]
      omega
    · obtain ⟨hn1, ha1, _⟩ := rnFcfsSelect_profile ps time
        (queue ++ ordered.filter (fun i => decide (arrivalAt ps i = time))) cur
      rw [if_neg hta, ih a n (by omega) hk, filter_arr_congr ha1,
        map_names_eq hn1]
      omega
  | case2 ps time queue cur h arr sel c hcur ex ih =>
    intro a n ht hk
    rw [rnFcfsGo_some runfor ordered ps time queue cur c h hcur]
    rw [List.count_append, List.count_append, List.count_append,
      rnFcfsSelect_count0, rnFcfsExecStep_count0, count_arr_map]
    by_cases hta : time = a
    · subst hta
      have hz4 : (rnFcfsGo runfor ordered (rnFcfsExecStep (rnFcfsSelect ps time
          (queue ++ ordered.filter (fun i => decide (arrivalAt ps i = time))) cur).ps
          time c).2 (time + 1) (rnFcfsSelect ps time
          (queue ++ ordered.filter (fun i => decide (arrivalAt ps i = time))) cur).queue
          (some c)).1.count (Event.arrived time n) = 0 :=
        count_zero_of_arr (fun hm => by
          have := rnFcfsGo_tick_lb runfor ordered _ (time + 1) _ _ _ hm
          simp only [tickOf] at this
          omega)
      rw [hz4, if_pos rfl]
      omega
    · obtain ⟨hn1, ha1, _⟩ := rnFcfsSelect_profile ps time
        (queue ++ ordered.filter (fun i => decide (arrivalAt ps i = time))) cur
      obtain ⟨hn2, ha2, _⟩ := rnFcfsExecStep_profile (rnFcfsSelect ps time
        (queue ++ ordered.filter (fun i => decide (arrivalAt ps i = time))) cur).ps time c
      rw [if_neg hta, ih a n (by omega) hk]
      rw [filter_arr_congr (fun j => (ha2 j).trans (ha1 j)),
        map_names_eq (fun j => (hn2 j).trans (hn1 j))]
      omega
  | case3 ps time queue cur h =>
    intro a n ht hk
    omega


theorem rnSjfGo_tick_lb (runfor : Nat) :
    ∀ (ps : List Proc) (time : Nat) (lastSel : Option Nat),
      ∀ e ∈ (rnSjfGo runfor ps time lastSel).1, time ≤ tickOf e := by
  intro ps time lastSel
  induction ps, time, lastSel using rnSjfGo.induct runfor with
  | case1 ps time lastSel h ready hpick ih =>
    intro e he
    rw [rnSjfGo_idle runfor ps time lastSel h hpick] at he
    rcases List.mem_append.mp he with hm | hrest
    · rcases List.mem_append.mp hm with harr | hidl
      · obtain ⟨j, _, hj⟩ := List.mem_map.mp harr
        rw [← hj]
        exact le_refl _
      · rw [List.mem_singleton.mp hidl, tick_idl]
    · have := ih e hrest
      omega
  | case2 ps time lastSel h ready s hpick st ih =>
    intro e he
    rw [rnSjfGo_run runfor ps time lastSel s h hpick] at he
    rcases List.mem_append.mp he with hm | hrest
    · rcases List.mem_append.mp hm with harr | hst
      · obtain ⟨j, _, hj⟩ := List.mem_map.mp harr
        rw [← hj]
        exact le_refl _
      · rcases rnSjfRunStep_evs_tick ps time s lastSel e hst with h1 | h1 <;> omega
    · have := ih e hrest
      omega
  | case3 ps time lastSel h =>
    intro e he
    rw [rnSjfGo_neg runfor ps time lastSel h] at he
    cases he

theorem rnSjfRunStep_count0 (ps : List Proc) (time s : Nat) (lastSel : Option Nat)
    (k : Nat) (n : String) :
    (rnSjfRunStep ps time s lastSel).evs.count (Event.arrived k n) = 0 := by
  simp only [rnSjfRunStep]
  repeat' split
  all_goals simp

theorem rnSjfRunStep_profile (ps : List Proc) (time s : Nat) (lastSel : Option Nat) :
    (∀ j, nameAt (rnSjfRunStep ps time s lastSel).ps j = nameAt ps j) ∧
    (∀ j, arrivalAt (rnSjfRunStep ps time s lastSel).ps j = arrivalAt ps j) ∧
    (rnSjfRunStep ps time s lastSel).ps.length = ps.length := by
  simp only [rnSjfRunStep]
  repeat' split
  all_goals
    refine ⟨fun j => ?_, fun j => ?_, ?_⟩ <;>
      simp [nameAt_setFinish, nameAt_decRem, nameAt_setStart, arrivalAt_setFinish,
        arrivalAt_decRem, arrivalAt_setStart, length_setFinish, length_decRem,
        length_setStart]

theorem rnSjfGo_count (runfor : Nat) :
    ∀ (ps : List Proc) (time : Nat) (lastSel : Option Nat),
      ∀ (a : Nat) (n : String), time ≤ a → a < runfor →
      (rnSjfGo runfor ps time lastSel).1.count (Event.arrived a n)
        = (((List.range ps.length).filter (fun j => decide (arrivalAt ps j = a))).map
            (nameAt ps)).count n := by
  intro ps time lastSel
  induction ps, time, lastSel using rnSjfGo.induct runfor with
  | case1 ps time lastSel h ready hpick ih =>
    intro a n ht hk
    rw [rnSjfGo_idle runfor ps time lastSel h hpick]
    rw [List.count_append, List.count_append, count_arr_map]
    have hz2 : ([Event.idle time] : List Event).count (Event.arrived a n) = 0 := by simp
    rw [hz2]
    by_cases hta : time = a
    · subst hta
      have hz4 : (rnSjfGo runfor ps (time + 1) none).1.count (Event.arrived time n) = 0 :=
        count_zero_of_arr (fun hm => by
          have := rnSjfGo_tick_lb runfor ps (time + 1) none _ hm
          simp only [tickOf] at this
          omega)
      rw [hz4, if_pos rfl]
      omega
    · rw [if_neg hta, ih a n (by omega) hk]
      omega
  | case2 ps time lastSel h ready s hpick st ih =>
    intro a n ht hk
    rw [rnSjfGo_run runfor ps time lastSel s h hpick]
    rw [List.count_append, List.count_append, count_arr_map, rnSjfRunStep_count0]
    by_cases hta : time = a
    · subst hta
      have hz4 : (rnSjfGo runfor (rnSjfRunStep ps time s lastSel).ps (time + 1)
          (rnSjfRunStep ps time s lastSel).last).1.count (Event.arrived time n) = 0 :=
        count_zero_of_arr (fun hm => by
          have := rnSjfGo_tick_lb runfor _ (time + 1) _ _ hm
          simp only [tickOf] at this
          omega)
      rw [hz4, if_pos rfl]
      omega
    · obtain ⟨hn1, ha1, hl1⟩ := rnSjfRunStep_profile ps time s lastSel
      rw [if_neg hta, ih a n (by omega) hk, hl1, filter_arr_congr ha1,
        map_names_eq hn1]
      omega
  | case3 ps time lastSel h =>
    intro a n ht hk
    omega

theorem rnRrGo_tick_lb (runfor : Nat) (quantum : Int) :
    ∀ (ps : List Proc) (time : Nat) (queue : List Nat) (running : Option Nat)
      (remQ : Int),
      ∀ e ∈ (rnRrGo runfor quantum ps time queue running remQ).1, time ≤ tickOf e := by
  intro ps time queue running remQ
  induction ps, time, queue, running, remQ using rnRrGo.induct runfor quantum with
  | case1 ps time queue running remQ h arr q1 sel hrun ih =>
    intro e he
    rw [rnRrGo_idle runfor quantum ps time queue running remQ h hrun] at he
    rcases List.mem_append.mp he with hm | hrest
    · rcases List.mem_append.mp hm with hm2 | hidl
      · rcases List.mem_append.mp hm2 with harr | hsel
        · obtain ⟨j, _, hj⟩ := List.mem_map.mp harr
          rw [← hj]
          exact le_refl _
        · have := rnRrSelect_evs_tick ps time quantum _ running remQ e hsel
          omega
      · rw [List.mem_singleton.mp hidl, tick_idl]
    · have := ih e hrest
      omega
  | case2 ps time queue running remQ h arr q1 sel c hrun ex ih =>
    intro e he
    rw [rnRrGo_run runfor quantum ps time queue running remQ c h hrun] at he
    rcases List.mem_append.mp he with hm | hrest
    · rcases List.mem_append.mp hm with hm2 | hex
      · rcases List.mem_append.mp hm2 with harr | hsel
        · obtain ⟨j, _, hj⟩ := List.mem_map.mp harr
          rw [← hj]
          exact le_refl _
        · have := rnRrSelect_evs_tick ps time quantum _ running remQ e hsel
          omega
      · have := rnRrExecStep_evs_tick _ time c _ e hex
        omega
    · have := ih e hrest
      omega
  | case3 ps time queue running remQ h =>
    intro e he
    rw [rnRrGo_neg runfor quantum ps time queue running remQ h] at he
    cases he

theorem rnRrSelect_count0 (ps : List Proc) (time : Nat) (quantum : Int)
    (q1 : List Nat) (running : Option Nat) (remQ : Int) (k : Nat) (n : String) :
    (rnRrSelect ps time quantum q1 running remQ).evs.count (Event.arrived k n) = 0 := by
  simp only [rnRrSelect]
  repeat' split
  all_goals simp

theorem rnRrSelect_profile (ps : List Proc) (time : Nat) (quantum : Int)
    (q1 : List Nat) (running : Option Nat) (remQ : Int) :
    (∀ j, nameAt (rnRrSelect ps time quantum q1 running remQ).ps j = nameAt ps j) ∧
    (∀ j, arrivalAt (rnRrSelect ps time quantum q1 running remQ).ps j = arrivalAt ps j) ∧
    (rnRrSelect ps time quantum q1 running remQ).ps.length = ps.length := by
  simp only [rnRrSelect]
  repeat' split
  all_goals
    refine ⟨fun j => ?_, fun j => ?_, ?_⟩ <;>
      first
        | rfl
        | simp [nameAt_setStart, arrivalAt_setStart, length_setStart]

theorem rnRrExecStep_count0 (ps : List Proc) (time c : Nat) (remQ : Int)
    (k : Nat) (n : String) :
    (rnRrExecStep ps time c remQ).evs.count (Event.arrived k n) = 0 := by
  simp only [rnRrExecStep]
  split
  all_goals simp

theorem rnRrExecStep_profile (ps : List Proc) (time c : Nat) (remQ : Int) :
    (∀ j, nameAt (rnRrExecStep ps time c remQ).ps j = nameAt ps j) ∧
    (∀ j, arrivalAt (rnRrExecStep ps time c remQ).ps j = arrivalAt ps j) ∧
    (rnRrExecStep ps time c remQ).ps.length = ps.length := by
  simp only [rnRrExecStep]
  split
  all_goals
    refine ⟨fun j => ?_, fun j => ?_, ?_⟩ <;>
      simp [nameAt_setFinish, nameAt_decRem, arrivalAt_setFinish, arrivalAt_decRem,
        length_setFinish, length_decRem]

theorem rnRrGo_count (runfor : Nat) (quantum : Int) :
    ∀ (ps : List Proc) (time : Nat) (queue : List Nat) (running : Option Nat)
      (remQ : Int),
      ∀ (a : Nat) (n : String), time ≤ a → a < runfor →
      (rnRrGo runfor quantum ps time queue running remQ).1.count (Event.arrived a n)
        = (((List.range ps.length).filter (fun j => decide (arrivalAt ps j = a))).map
            (nameAt ps)).count n := by
  intro ps time queue running remQ
  induction ps, time, queue, running, remQ using rnRrGo.induct runfor quantum with
  | case1 ps time queue running remQ h arr q1 sel hrun ih =>
    intro a n ht hk
    rw [rnRrGo_idle runfor quantum ps time queue running remQ h hrun]
    rw [List.count_append, List.count_append, List.count_append, count_arr_map,
      rnRrSelect_count0]
    have hz3 : ([Event.idle time] : List Event).count (Event.arrived a n) = 0 := by simp
    rw [hz3]
    by_cases hta : time = a
    · subst hta
      have hz4 : (rnRrGo runfor quantum (rnRrSelect ps time quantum
          (queue ++ ((List.range ps.length).filter
            (fun i => decide (arrivalAt ps i = time))).filter
              (fun i => decide (0 < remAt ps i))) running remQ).ps (time + 1)
          (rnRrSelect ps time quantum
            (queue ++ ((List.range ps.length).filter
              (fun i => decide (arrivalAt ps i = time))).filter
                (fun i => decide (0 < remAt ps i))) running remQ).queue none
          (rnRrSelect ps time quantum
            (queue ++ ((List.range ps.length).filter
              (fun i => decide (arrivalAt ps i = time))).filter
                (fun i => decide (0 < remAt ps i))) running remQ).remQ).1.count
            (Event.arrived time n) = 0 :=
        count_zero_of_arr (fun hm => by
          have := rnRrGo_tick_lb runfor quantum _ (time + 1) _ _ _ _ hm
          simp only [tickOf] at this
          omega)
      rw [hz4, if_pos rfl]
      omega
    · obtain ⟨hn1, ha1, hl1⟩ := rnRrSelect_profile ps time quantum
        (queue ++ ((List.range ps.length).filter
          (fun i => decide (arrivalAt ps i = time))).filter
            (fun i => decide (0 < remAt ps i))) running remQ
      rw [if_neg hta, ih a n (by omega) hk, hl1, filter_arr_congr ha1, map_names_eq hn1]
      omega
  | case2 ps time queue running remQ h arr q1 sel c hrun ex ih =>
    intro a n ht hk
    rw [rnRrGo_run runfor quantum ps time queue running remQ c h hrun]
    rw [List.count_append, List.count_append, List.count_append, count_arr_map,
      rnRrSelect_count0, rnRrExecStep_count0]
    by_cases hta : time = a
    · subst hta
      have hz4 : (rnRrGo runfor quantum (rnRrExecStep (rnRrSelect ps time quantum
          (queue ++ ((List.range ps.length).filter
            (fun i => decide (arrivalAt ps i = time))).filter
              (fun i => decide (0 < remAt ps i))) running remQ).ps time c
          (rnRrSelect ps time quantum
            (queue ++ ((List.range ps.length).filter
              (fun i => decide (arrivalAt ps i = time))).filter
                (fun i => decide (0 < remAt ps i))) running remQ).remQ).ps (time + 1)
          (rnRrSelect ps time quantum
            (queue ++ ((List.range ps.length).filter
              (fun i => decide (arrivalAt ps i = time))).filter
                (fun i => decide (0 < remAt ps i))) running remQ).queue
          (rnRrExecStep (rnRrSelect ps time quantum
            (queue ++ ((List.range ps.length).filter
              (fun i => decide (arrivalAt ps i = time))).filter
                (fun i => decide (0 < remAt ps i))) running remQ).ps time c
            (rnRrSelect ps time quantum
              (queue ++ ((List.range ps.length).filter
                (fun i => decide (arrivalAt ps i = time))).filter
                  (fun i => decide (0 < remAt ps i))) running remQ).remQ).running
          (rnRrExecStep (rnRrSelect ps time quantum
            (queue ++ ((List.range ps.length).filter
              (fun i => decide (arrivalAt ps i = time))).filter
                (fun i => decide (0 < remAt ps i))) running remQ).ps time c
            (rnRrSelect ps time quantum
              (queue ++ ((List.range ps.length).filter
                (fun i => decide (arrivalAt ps i = time))).filter
                  (fun i => decide (0 < remAt ps i))) running remQ).remQ).remQ).1.count
            (Event.arrived time n) = 0 :=
        count_zero_of_arr (fun hm => by
          have := rnRrGo_tick_lb runfor quantum _ (time + 1) _ _ _ _ hm
          simp only [tickOf] at this
          omega)
      rw [hz4, if_pos rfl]
      omega
    · obtain ⟨hn1, ha1, hl1⟩ := rnRrSelect_profile ps time quantum
        (queue ++ ((List.range ps.length).filter
          (fun i => decide (arrivalAt ps i = time))).filter
            (fun i => decide (0 < remAt ps i))) running remQ
      obtain ⟨hn2, ha2, hl2⟩ := rnRrExecStep_profile (rnRrSelect ps time quantum
        (queue ++ ((List.range ps.length).filter
          (fun i => decide (arrivalAt ps i = time))).filter
            (fun i => decide (0 < remAt ps i))) running remQ).ps time c
        (rnRrSelect ps time quantum
          (queue ++ ((List.range ps.length).filter
            (fun i => decide (arrivalAt ps i = time))).filter
              (fun i => decide (0 < remAt ps i))) running remQ).remQ
      rw [if_neg hta, ih a n (by omega) hk, hl2.trans hl1,
        filter_arr_congr (fun j => (ha2 j).trans (ha1 j)),
        map_names_eq (fun j => (hn2 j).trans (hn1 j))]
      omega
  | case3 ps time queue running remQ h =>
    intro a n ht hk
    omega


/-- An Arrived event names a real process and carries that process's
arrival tick. -/
def ArrWF (ps : List Proc) (e : Event) : Prop :=
  isArr e = true → ∃ j, j < ps.length ∧ e = Event.arrived (arrivalAt ps j) (nameAt ps j)

theorem ArrWF_transfer {ps1 ps2 : List Proc} {e : Event}
    (hn : ∀ j, nameAt ps2 j = nameAt ps1 j)
    (ha : ∀ j, arrivalAt ps2 j = arrivalAt ps1 j)
    (hl : ps2.length = ps1.length) (h : ArrWF ps2 e) : ArrWF ps1 e := by
  intro harr
  obtain ⟨j, hj, he⟩ := h harr
  exact ⟨j, by omega, by rw [he, hn j, ha j]⟩

theorem ArrWF_bucket {ps : List Proc} {bt : BT} {u : Nat} {e : Event}
    (hI : BTInv ps bt) (he : e ∈ arrEvents ps u (popArrivals bt u).1) : ArrWF ps e := by
  intro _
  obtain ⟨j, hj, hje⟩ := List.mem_map.mp he
  obtain ⟨haj, hlj⟩ := pop_bucket_mem ps bt u hI j hj
  exact ⟨j, hlj, by rw [← hje, haj]⟩

theorem ArrWF_bucket_mut {ps ps2 : List Proc} {bt : BT} {u : Nat} {e : Event}
    (hI : BTInv ps bt) (hn : ∀ j, nameAt ps2 j = nameAt ps j)
    (he : e ∈ arrEvents ps2 u (popArrivals bt u).1) : ArrWF ps e := by
  intro _
  obtain ⟨j, hj, hje⟩ := List.mem_map.mp he
  obtain ⟨haj, hlj⟩ := pop_bucket_mem ps bt u hI j hj
  exact ⟨j, hlj, by rw [← hje, haj, hn j]⟩

theorem sjfExec_arr_wf (ps : List Proc) (t : Nat) (bt : BT) (best : Nat)
    (pss : List Proc) (hn : ∀ j, nameAt ps j = nameAt pss j) (hI : BTInv pss bt) :
    ∀ e ∈ (sjfExec ps t bt best).evs, ArrWF pss e := by
  have hn2 : ∀ j, nameAt (decRem ps best) j = nameAt pss j :=
    fun j => (nameAt_decRem ps best j).trans (hn j)
  simp only [sjfExec]
  split
  all_goals simp only [SStep_evs]
  all_goals intro e he
  · rcases List.mem_append.mp he with hm | hm
    · exact ArrWF_bucket_mut hI hn2 hm
    · rw [List.mem_singleton.mp hm]
      intro hc
      cases hc
  · exact ArrWF_bucket_mut hI hn2 he

theorem sjfStep_arr_wf (ps : List Proc) (t : Nat) (bt : BT) (cur : Option Nat)
    (hI : BTInv ps bt) :
    ∀ e ∈ (sjfStep ps t bt cur).evs, ArrWF ps e := by
  have hIP : BTInv ps (popArrivals bt t).2 := BTInv_pop ps bt t hI
  simp only [sjfStep]
  split
  all_goals try split
  all_goals simp only [SStep_evs]
  all_goals intro e he
  · rcases List.mem_append.mp he with hm | hm
    · exact ArrWF_bucket hI hm
    · rw [List.mem_singleton.mp hm]
      intro hc
      cases hc
  · rcases List.mem_append.mp he with hm | hm
    · exact ArrWF_bucket hI hm
    · exact sjfExec_arr_wf ps t _ _ ps (fun _ => rfl) hIP e hm
  · rcases List.mem_append.mp he with hm | hm
    · rcases List.mem_append.mp hm with hm2 | hm2
      · exact ArrWF_bucket hI hm2
      · rw [List.mem_singleton.mp hm2]
        intro hc
        cases hc
    · refine sjfExec_arr_wf _ t _ _ ps ?_ hIP e hm
      intro j
      split <;> first | rfl | simp [nameAt_setStart]

theorem sjfGo_arr_wf (runfor : Nat) :
    ∀ (ps : List Proc) (t : Nat) (bt : BT) (cur : Option Nat), BTInv ps bt →
      ∀ e ∈ (sjfGo runfor ps t bt cur).1, ArrWF ps e := by
  intro ps t bt cur
  induction ps, t, bt, cur using sjfGo.induct runfor with
  | case1 ps t bt cur h s ih =>
    intro hI e he
    rw [sjfGo_pos runfor ps t bt cur h] at he
    rcases List.mem_append.mp he with hm | hm
    · exact sjfStep_arr_wf ps t bt cur hI e hm
    · obtain ⟨hn, ha, hl⟩ := sjfStep_profile ps t bt cur
      exact ArrWF_transfer hn ha hl (ih (sjfStep_BTInv ps t bt cur hI) e hm)
  | case2 ps t bt cur h =>
    intro _ e he
    rw [sjfGo_neg runfor ps t bt cur h] at he
    cases he

theorem fcfsIdle_arr_wf (ps : List Proc) (runfor arrival : Nat) :
    ∀ (t : Nat) (bt : BT), BTInv ps bt →
      ∀ e ∈ (fcfsIdle ps runfor arrival t bt).evs, ArrWF ps e := by
  intro t bt
  induction t, bt using fcfsIdle.induct ps runfor arrival with
  | case1 t bt h pr ih =>
    intro hI e he
    rw [fcfsIdle_pos ps runfor arrival t bt h] at he
    simp only [FIdle_evs] at he
    rcases List.mem_append.mp he with hm | hm
    · rcases List.mem_append.mp hm with hm2 | hm2
      · exact ArrWF_bucket hI hm2
      · rw [List.mem_singleton.mp hm2]
        intro hc
        cases hc
    · exact ih (BTInv_pop ps bt t hI) e hm
  | case2 t bt h =>
    intro _ e he
    rw [fcfsIdle_neg ps runfor arrival t bt h] at he
    cases he

theorem fcfsRun_arr_wf (runfor i : Nat) :
    ∀ (ps : List Proc) (t : Nat) (bt : BT), BTInv ps bt →
      ∀ e ∈ (fcfsRun runfor i ps t bt).evs, ArrWF ps e := by
  intro ps t bt
  induction ps, t, bt using fcfsRun.induct runfor i with
  | case1 ps t bt h ps1 pr ih =>
    intro hI e he
    have hI2 : BTInv (decRem ps i) (popArrivals bt (t + 1)).2 :=
      BTInv_transfer (fun j => nameAt_decRem ps i j) (fun j => arrivalAt_decRem ps i j)
        (length_decRem ps i) (BTInv_pop ps bt (t + 1) hI)
    rw [fcfsRun_pos runfor i ps t bt h] at he
    simp only [FRun_evs] at he
    rcases List.mem_append.mp he with hm | hm
    · exact ArrWF_bucket_mut hI (fun j => nameAt_decRem ps i j) hm
    · exact ArrWF_transfer (fun j => nameAt_decRem ps i j)
        (fun j => arrivalAt_decRem ps i j) (length_decRem ps i) (ih hI2 e hm)
  | case2 ps t bt h =>
    intro _ e he
    rw [fcfsRun_neg runfor i ps t bt h] at he
    cases he

theorem fcfsTrail_arr_wf (ps : List Proc) (runfor : Nat) :
    ∀ (t : Nat) (bt : BT), BTInv ps bt →
      ∀ e ∈ fcfsTrail ps runfor t bt, ArrWF ps e := by
  intro t bt
  induction t, bt using fcfsTrail.induct ps runfor with
  | case1 t bt h pr ih =>
    intro hI e he
    rw [fcfsTrail_pos ps runfor t bt h] at he
    rcases List.mem_append.mp he with hm | hm
    · rcases List.mem_append.mp hm with hm2 | hm2
      · exact ArrWF_bucket hI hm2
      · rw [List.mem_singleton.mp hm2]
        intro hc
        cases hc
    · exact ih (BTInv_pop ps bt t hI) e hm
  | case2 t bt h =>
    intro _ e he
    rw [fcfsTrail_neg ps runfor t bt h] at he
    cases he


theorem rrSlice_arr_wf (i : Nat) :
    ∀ (n : Nat) (ps : List Proc) (t : Nat) (bt : BT) (rq : List Nat), BTInv ps bt →
      ∀ e ∈ (rrSlice i n ps t bt rq).evs, ArrWF ps e := by
  intro n
  induction n with
  | zero =>
    intro ps t bt rq _ e he
    cases he
  | succ n ih =>
    intro ps t bt rq hI e he
    have hI2 : BTInv (decRem ps i) (popArrivals bt (t + 1)).2 :=
      BTInv_transfer (fun j => nameAt_decRem ps i j) (fun j => arrivalAt_decRem ps i j)
        (length_decRem ps i) (BTInv_pop ps bt (t + 1) hI)
    simp only [rrSlice] at he
    split at he
    · simp only [RSl_evs] at he
      rcases List.mem_append.mp he with hm | hm
      · exact ArrWF_bucket_mut hI (fun j => nameAt_decRem ps i j) hm
      · rw [List.mem_singleton.mp hm]
        intro hc
        cases hc
    · simp only [RSl_evs] at he
      rcases List.mem_append.mp he with hm | hm
      · exact ArrWF_bucket_mut hI (fun j => nameAt_decRem ps i j) hm
      · exact ArrWF_transfer (fun j => nameAt_decRem ps i j)
          (fun j => arrivalAt_decRem ps i j) (length_decRem ps i) (ih _ _ _ _ hI2 e hm)

theorem rrRunBranch_arr_wf (runfor q i : Nat) (ps : List Proc) (t : Nat) (bt : BT)
    (rest : List Nat) (hI : BTInv ps bt) :
    ∀ e ∈ (rrRunBranch runfor q i ps t bt rest).evs, ArrWF ps e := by
  have hI1 : BTInv (if startAt ps i = none then setStart ps i t else ps) bt := by
    split
    · refine BTInv_transfer (fun j => ?_) (fun j => ?_) ?_ hI
      · exact nameAt_setStart _ _ _ _
      · exact arrivalAt_setStart _ _ _ _
      · exact length_setStart _ _ _
    · exact hI
  intro e he
  simp only [rrRunBranch, RSl_evs] at he
  rcases List.mem_cons.mp he with hm | hm
  · rw [hm]
    intro hc
    cases hc
  · refine ArrWF_transfer (fun j => ?_) (fun j => ?_) ?_
      (rrSlice_arr_wf i _ _ t bt rest hI1 e hm)
    · split <;> first | rfl | simp [nameAt_setStart]
    · split <;> first | rfl | simp [arrivalAt_setStart]
    · split <;> first | rfl | simp [length_setStart]

theorem rrGo_arr_wf (runfor : Nat) (q : {n : Nat // 0 < n}) :
    ∀ (ps : List Proc) (t : Nat) (bt : BT) (rq : List Nat), BTInv ps bt →
      ∀ e ∈ (rrGo runfor q ps t bt rq).1, ArrWF ps e := by
  intro ps t bt rq
  induction ps, t, bt, rq using rrGo.induct runfor q with
  | case1 ps t bt rq h pr hm pr2 ih =>
    intro hI e he
    have hpr : pr = popArrivals bt t := rfl
    rw [hpr] at hm
    rw [rrGo_idle runfor q ps t bt rq h hm] at he
    rcases List.mem_append.mp he with hm2 | hm2
    · rcases List.mem_append.mp hm2 with hm3 | hm3
      · rcases List.mem_append.mp hm3 with hm4 | hm4
        · exact ArrWF_bucket hI hm4
        · rw [List.mem_singleton.mp hm4]
          intro hc
          cases hc
      · exact ArrWF_bucket (BTInv_pop ps bt t hI) hm3
    · exact ih (BTInv_pop _ _ _ (BTInv_pop ps bt t hI)) e hm2
  | case2 ps t bt rq h pr i rest hm br ih =>
    intro hI e he
    have hpr : pr = popArrivals bt t := rfl
    rw [hpr] at hm
    rw [rrGo_run runfor q ps t bt rq i rest h hm] at he
    have hIP : BTInv ps (popArrivals bt t).2 := BTInv_pop ps bt t hI
    obtain ⟨h1, h2, h3⟩ := rrRunBranch_profile runfor q.1 i ps t (popArrivals bt t).2 rest
    rcases List.mem_append.mp he with hm2 | hm2
    · rcases List.mem_append.mp hm2 with hm3 | hm3
      · exact ArrWF_bucket hI hm3
      · exact rrRunBranch_arr_wf runfor q.1 i ps t (popArrivals bt t).2 rest hIP e hm3
    · exact ArrWF_transfer h1 h2 h3
        (ih (rrRunBranch_BTInv runfor q.1 i ps t (popArrivals bt t).2 rest hIP) e hm2)
  | case3 ps t bt rq h =>
    intro _ e he
    rw [rrGo_neg runfor q ps t bt rq h] at he
    cases he


theorem fcfsMain_arr_wf (runfor : Nat) (order : List Nat) :
    ∀ (ps : List Proc) (t : Nat) (bt : BT), BTInv ps bt →
      ∀ e ∈ (fcfsMain runfor order ps t bt).1, ArrWF ps e := by
  induction order with
  | nil =>
    intro ps t bt hI e he
    simp only [fcfsMain] at he
    exact fcfsTrail_arr_wf ps runfor t bt hI e he
  | cons i rest ih =>
    intro ps t bt hI e he
    simp only [fcfsMain] at he
    by_cases hge : runfor ≤ (fcfsIdle ps runfor (arrivalAt ps i) t bt).t
    · rw [if_pos hge] at he
      exact fcfsIdle_arr_wf ps runfor (arrivalAt ps i) t bt hI e he
    · rw [if_neg hge] at he
      dsimp only at he
      have hIidl : BTInv ps (fcfsIdle ps runfor (arrivalAt ps i) t bt).bt :=
        BTInv_sub (fcfsIdle_bt_sub ps runfor (arrivalAt ps i) t bt) hI
      have hIpr : BTInv ps (popArrivals (fcfsIdle ps runfor (arrivalAt ps i) t bt).bt
          (fcfsIdle ps runfor (arrivalAt ps i) t bt).t).2 :=
        BTInv_pop ps _ _ hIidl
      by_cases hsel : startAt ps i = none
      · rw [if_pos hsel] at he
        dsimp only at he
        have hIps2 : BTInv (setStart ps i (fcfsIdle ps runfor (arrivalAt ps i) t bt).t)
            (popArrivals (fcfsIdle ps runfor (arrivalAt ps i) t bt).bt
              (fcfsIdle ps runfor (arrivalAt ps i) t bt).t).2 := by
          refine BTInv_transfer (fun j => ?_) (fun j => ?_) ?_ hIpr
          · exact nameAt_setStart _ _ _ _
          · exact arrivalAt_setStart _ _ _ _
          · exact length_setStart _ _ _
        have hprof := fcfsRun_profile runfor i
          (setStart ps i (fcfsIdle ps runfor (arrivalAt ps i) t bt).t)
          (fcfsIdle ps runfor (arrivalAt ps i) t bt).t
          (popArrivals (fcfsIdle ps runfor (arrivalAt ps i) t bt).bt
            (fcfsIdle ps runfor (arrivalAt ps i) t bt).t).2
        have hIrun : BTInv (setStart ps i (fcfsIdle ps runfor (arrivalAt ps i) t bt).t)
            (fcfsRun runfor i (setStart ps i (fcfsIdle ps runfor (arrivalAt ps i) t bt).t)
              (fcfsIdle ps runfor (arrivalAt ps i) t bt).t
              (popArrivals (fcfsIdle ps runfor (arrivalAt ps i) t bt).bt
                (fcfsIdle ps runfor (arrivalAt ps i) t bt).t).2).bt :=
          BTInv_sub (fcfsRun_bt_sub runfor i _ _ _) hIps2
        rcases List.mem_append.mp he with hm | hm
        rotate_left
        · split at hm
          · refine ArrWF_transfer (fun j => ?_) (fun j => ?_) ?_ (ih _ _ _ ?_ e hm)
            · exact ((nameAt_setFinish _ _ _ j).trans
                ((fcfsRun_nameAt runfor i _ _ _ j).trans (nameAt_setStart ps i _ j)))
            · exact ((arrivalAt_setFinish _ _ _ j).trans
                ((hprof.1 j).trans (arrivalAt_setStart ps i _ j)))
            · exact ((length_setFinish _ _ _).trans (hprof.2.trans (length_setStart ps i _)))
            · refine BTInv_transfer (fun j => ?_) (fun j => ?_) ?_ hIrun
              · exact (nameAt_setFinish _ _ _ j).trans (fcfsRun_nameAt runfor i _ _ _ j)
              · exact (arrivalAt_setFinish _ _ _ j).trans (hprof.1 j)
              · exact (length_setFinish _ _ _).trans hprof.2
          · refine ArrWF_transfer (fun j => ?_) (fun j => ?_) ?_ (ih _ _ _ ?_ e hm)
            · exact (fcfsRun_nameAt runfor i _ _ _ j).trans (nameAt_setStart ps i _ j)
            · exact (hprof.1 j).trans (arrivalAt_setStart ps i _ j)
            · exact hprof.2.trans (length_setStart ps i _)
            · refine BTInv_transfer (fun j => ?_) (fun j => ?_) ?_ hIrun
              · exact fcfsRun_nameAt runfor i _ _ _ j
              · exact hprof.1 j
              · exact hprof.2
        rcases List.mem_append.mp hm with hm2 | hm2
        rotate_left
        · split at hm2
          · rw [List.mem_singleton.mp hm2]
            intro hc
            cases hc
          · cases hm2
        rcases List.mem_append.mp hm2 with hm3 | hm3
        rotate_left
        · refine ArrWF_transfer ?_ ?_ ?_ (fcfsRun_arr_wf runfor i _ _ _ hIps2 e hm3)
          · exact fun j => nameAt_setStart ps i _ j
          · exact fun j => arrivalAt_setStart ps i _ j
          · exact length_setStart ps i _
        rcases List.mem_append.mp hm3 with hm4 | hm4
        rotate_left
        · rw [List.mem_singleton.mp hm4]
          intro hc
          cases hc
        rcases List.mem_append.mp hm4 with hm5 | hm5
        · exact fcfsIdle_arr_wf ps runfor (arrivalAt ps i) t bt hI e hm5
        · exact ArrWF_bucket hIidl hm5
      · rw [if_neg hsel] at he
        dsimp only at he
        have hprof := fcfsRun_profile runfor i ps
          (fcfsIdle ps runfor (arrivalAt ps i) t bt).t
          (popArrivals (fcfsIdle ps runfor (arrivalAt ps i) t bt).bt
            (fcfsIdle ps runfor (arrivalAt ps i) t bt).t).2
        have hIrun : BTInv ps
            (fcfsRun runfor i ps (fcfsIdle ps runfor (arrivalAt ps i) t bt).t
              (popArrivals (fcfsIdle ps runfor (arrivalAt ps i) t bt).bt
                (fcfsIdle ps runfor (arrivalAt ps i) t bt).t).2).bt :=
          BTInv_sub (fcfsRun_bt_sub runfor i _ _ _) hIpr
        rcases List.mem_append.mp he with hm | hm
        rotate_left
        · split at hm
          · refine ArrWF_transfer (fun j => ?_) (fun j => ?_) ?_ (ih _ _ _ ?_ e hm)
            · exact (nameAt_setFinish _ _ _ j).trans (fcfsRun_nameAt runfor i _ _ _ j)
            · exact (arrivalAt_setFinish _ _ _ j).trans (hprof.1 j)
            · exact (length_setFinish _ _ _).trans hprof.2
            · refine BTInv_transfer (fun j => ?_) (fun j => ?_) ?_ hIrun
              · exact (nameAt_setFinish _ _ _ j).trans (fcfsRun_nameAt runfor i _ _ _ j)
              · exact (arrivalAt_setFinish _ _ _ j).trans (hprof.1 j)
              · exact (length_setFinish _ _ _).trans hprof.2
          · refine ArrWF_transfer (fun j => ?_) (fun j => ?_) ?_ (ih _ _ _ ?_ e hm)
            · exact fcfsRun_nameAt runfor i _ _ _ j
            · exact hprof.1 j
            · exact hprof.2
            · refine BTInv_transfer (fun j => ?_) (fun j => ?_) ?_ hIrun
              · exact fcfsRun_nameAt runfor i _ _ _ j
              · exact hprof.1 j
              · exact hprof.2
        rcases List.mem_append.mp hm with hm2 | hm2
        rotate_left
        · split at hm2
          · rw [List.mem_singleton.mp hm2]
            intro hc
            cases hc
          · cases hm2
        rcases List.mem_append.mp hm2 with hm3 | hm3
        rotate_left
        · exact fcfsRun_arr_wf runfor i _ _ _ hIpr e hm3
        rcases List.mem_append.mp hm3 with hm4 | hm4
        rotate_left
        · cases hm4
        rcases List.mem_append.mp hm4 with hm5 | hm5
        · exact fcfsIdle_arr_wf ps runfor (arrivalAt ps i) t bt hI e hm5
        · exact ArrWF_bucket hIidl hm5


theorem ArrWF_of_not_arr {ps : List Proc} {e : Event} (h : isArr e = false) :
    ArrWF ps e := by
  intro hc
  rw [h] at hc
  cases hc

theorem ArrWF_filter_map {ps : List Proc} {time : Nat} {l : List Nat} {e : Event}
    (hl : ∀ j ∈ l, j < ps.length)
    (he : e ∈ (l.filter (fun i => decide (arrivalAt ps i = time))).map
      (fun i => Event.arrived time (nameAt ps i))) : ArrWF ps e := by
  intro _
  obtain ⟨j, hj, hje⟩ := List.mem_map.mp he
  obtain ⟨hjl, hjt⟩ := List.mem_filter.mp hj
  have hat : arrivalAt ps j = time := of_decide_eq_true hjt
  exact ⟨j, hl j hjl, by rw [← hje, hat]⟩

theorem rnFcfsSelect_not_arr (ps : List Proc) (time : Nat) (q1 : List Nat)
    (cur : Option Nat) : ∀ e ∈ (rnFcfsSelect ps time q1 cur).evs, isArr e = false := by
  intro e he
  simp only [rnFcfsSelect] at he
  repeat' split at he
  all_goals rcases he with _ | ⟨_, h2⟩
  all_goals first
    | rfl
    | cases h2

theorem rnFcfsExecStep_not_arr (ps : List Proc) (time c : Nat) :
    ∀ e ∈ (rnFcfsExecStep ps time c).1, isArr e = false := by
  intro e he
  simp only [rnFcfsExecStep] at he
  split at he
  all_goals rcases he with _ | ⟨_, h2⟩
  all_goals first
    | rfl
    | cases h2

theorem rnSjfRunStep_not_arr (ps : List Proc) (time s : Nat) (lastSel : Option Nat) :
    ∀ e ∈ (rnSjfRunStep ps time s lastSel).evs, isArr e = false := by
  intro e he
  simp only [rnSjfRunStep] at he
  repeat' split at he
  all_goals
    first
      | (rcases List.mem_append.mp he with hm | hm <;> rcases hm with _ | ⟨_, h2⟩ <;>
          first | rfl | cases h2)
      | (rcases he with _ | ⟨_, h2⟩ <;> first | rfl | cases h2)

theorem rnRrSelect_not_arr (ps : List Proc) (time : Nat) (quantum : Int)
    (q1 : List Nat) (running : Option Nat) (remQ : Int) :
    ∀ e ∈ (rnRrSelect ps time quantum q1 running remQ).evs, isArr e = false := by
  intro e he
  simp only [rnRrSelect] at he
  repeat' split at he
  all_goals rcases he with _ | ⟨_, h2⟩
  all_goals first
    | rfl
    | cases h2

theorem rnRrExecStep_not_arr (ps : List Proc) (time c : Nat) (remQ : Int) :
    ∀ e ∈ (rnRrExecStep ps time c remQ).evs, isArr e = false := by
  intro e he
  simp only [rnRrExecStep] at he
  split at he
  all_goals rcases he with _ | ⟨_, h2⟩
  all_goals first
    | rfl
    | cases h2

theorem rnFcfsGo_arr_wf (runfor : Nat) (ordered : List Nat) :
    ∀ (ps : List Proc) (time : Nat) (queue : List Nat) (cur : Option Nat),
      (∀ j ∈ ordered, j < ps.length) →
      ∀ e ∈ (rnFcfsGo runfor ordered ps time queue cur).1, ArrWF ps e := by
  intro ps time queue cur
  induction ps, time, queue, cur using rnFcfsGo.induct runfor ordered with
  | case1 ps time queue cur h arr sel hcur ih =>
    intro hord e he
    rw [rnFcfsGo_none runfor ordered ps time queue cur h hcur] at he
    obtain ⟨hn1, ha1, hl1⟩ := rnFcfsSelect_profile ps time
      (queue ++ ordered.filter (fun i => decide (arrivalAt ps i = time))) cur
    rcases List.mem_append.mp he with hm | hrest
    · rcases List.mem_append.mp hm with hm2 | hidl
      · rcases List.mem_append.mp hm2 with harr | hsel
        · exact ArrWF_filter_map hord harr
        · exact ArrWF_of_not_arr (rnFcfsSelect_not_arr ps time _ cur e hsel)
      · rw [List.mem_singleton.mp hidl]
        exact ArrWF_of_not_arr rfl
    · refine ArrWF_transfer hn1 ha1 hl1 (ih ?_ e hrest)
      intro j hj
      rw [hl1]
      exact hord j hj
  | case2 ps time queue cur h arr sel c hcur ex ih =>
    intro hord e he
    rw [rnFcfsGo_some runfor ordered ps time queue cur c h hcur] at he
    obtain ⟨hn1, ha1, hl1⟩ := rnFcfsSelect_profile ps time
      (queue ++ ordered.filter (fun i => decide (arrivalAt ps i = time))) cur
    obtain ⟨hn2, ha2, hl2⟩ := rnFcfsExecStep_profile (rnFcfsSelect ps time
      (queue ++ ordered.filter (fun i => decide (arrivalAt ps i = time))) cur).ps time c
    rcases List.mem_append.mp he with hm | hrest
    · rcases List.mem_append.mp hm with hm2 | hex
      · rcases List.mem_append.mp hm2 with harr | hsel
        · exact ArrWF_filter_map hord harr
        · exact ArrWF_of_not_arr (rnFcfsSelect_not_arr ps time _ cur e hsel)
      · exact ArrWF_of_not_arr (rnFcfsExecStep_not_arr _ time c e hex)
    · refine ArrWF_transfer (fun j => (hn2 j).trans (hn1 j))
        (fun j => (ha2 j).trans (ha1 j)) (hl2.trans hl1) (ih ?_ e hrest)
      intro j hj
      rw [hl2, hl1]
      exact hord j hj
  | case3 ps time queue cur h =>
    intro _ e he
    rw [rnFcfsGo_neg runfor ordered ps time queue cur h] at he
    cases he

theorem rnSjfGo_arr_wf (runfor : Nat) :
    ∀ (ps : List Proc) (time : Nat) (lastSel : Option Nat),
      ∀ e ∈ (rnSjfGo runfor ps time lastSel).1, ArrWF ps e := by
  intro ps time lastSel
  induction ps, time, lastSel using rnSjfGo.induct runfor with
  | case1 ps time lastSel h ready hpick ih =>
    intro e he
    rw [rnSjfGo_idle runfor ps time lastSel h hpick] at he
    rcases List.mem_append.mp he with hm | hrest
    · rcases List.mem_append.mp hm with harr | hidl
      · exact ArrWF_filter_map (fun j hj => List.mem_range.mp hj) harr
      · rw [List.mem_singleton.mp hidl]
        exact ArrWF_of_not_arr rfl
    · exact ih e hrest
  | case2 ps time lastSel h ready s hpick st ih =>
    intro e he
    rw [rnSjfGo_run runfor ps time lastSel s h hpick] at he
    obtain ⟨hn1, ha1, hl1⟩ := rnSjfRunStep_profile ps time s lastSel
    rcases List.mem_append.mp he with hm | hrest
    · rcases List.mem_append.mp hm with harr | hst
      · exact ArrWF_filter_map (fun j hj => List.mem_range.mp hj) harr
      · exact ArrWF_of_not_arr (rnSjfRunStep_not_arr ps time s lastSel e hst)
    · exact ArrWF_transfer hn1 ha1 hl1 (ih e hrest)
  | case3 ps time lastSel h =>
    intro e he
    rw [rnSjfGo_neg runfor ps time lastSel h] at he
    cases he

theorem rnRrGo_arr_wf (runfor : Nat) (quantum : Int) :
    ∀ (ps : List Proc) (time : Nat) (queue : List Nat) (running : Option Nat)
      (remQ : Int), ∀ e ∈ (rnRrGo runfor quantum ps time queue running remQ).1,
      ArrWF ps e := by
  intro ps time queue running remQ
  induction ps, time, queue, running, remQ using rnRrGo.induct runfor quantum with
  | case1 ps time queue running remQ h arr q1 sel hrun ih =>
    intro e he
    rw [rnRrGo_idle runfor quantum ps time queue running remQ h hrun] at he
    obtain ⟨hn1, ha1, hl1⟩ := rnRrSelect_profile ps time quantum
      (queue ++ (List.filter (fun i => decide (arrivalAt ps i = time))
        (List.range ps.length)).filter (fun i => decide (0 < remAt ps i)))
      running remQ
    rcases List.mem_append.mp he with hm | hrest
    · rcases List.mem_append.mp hm with hm2 | hidl
      · rcases List.mem_append.mp hm2 with harr | hsel
        · exact ArrWF_filter_map (fun j hj => List.mem_range.mp hj) harr
        · exact ArrWF_of_not_arr (rnRrSelect_not_arr ps time quantum _ running remQ e hsel)
      · rw [List.mem_singleton.mp hidl]
        exact ArrWF_of_not_arr rfl
    · exact ArrWF_transfer hn1 ha1 hl1 (ih e hrest)
  | case2 ps time queue running remQ h arr q1 sel c hrun ex ih =>
    intro e he
    rw [rnRrGo_run runfor quantum ps time queue running remQ c h hrun] at he
    obtain ⟨hn1, ha1, hl1⟩ := rnRrSelect_profile ps time quantum
      (queue ++ (List.filter (fun i => decide (arrivalAt ps i = time))
        (List.range ps.length)).filter (fun i => decide (0 < remAt ps i)))
      running remQ
    obtain ⟨hn2, ha2, hl2⟩ := rnRrExecStep_profile (rnRrSelect ps time quantum
      (queue ++ (List.filter (fun i => decide (arrivalAt ps i = time))
        (List.range ps.length)).filter (fun i => decide (0 < remAt ps i)))
      running remQ).ps time c (rnRrSelect ps time quantum
      (queue ++ (List.filter (fun i => decide (arrivalAt ps i = time))
        (List.range ps.length)).filter (fun i => decide (0 < remAt ps i)))
      running remQ).remQ
    rcases List.mem_append.mp he with hm | hrest
    · rcases List.mem_append.mp hm with hm2 | hex
      · rcases List.mem_append.mp hm2 with harr | hsel
        · exact ArrWF_filter_map (fun j hj => List.mem_range.mp hj) harr
        · exact ArrWF_of_not_arr (rnRrSelect_not_arr ps time quantum _ running remQ e hsel)
      · exact ArrWF_of_not_arr (rnRrExecStep_not_arr _ time c _ e hex)
    · exact ArrWF_transfer (fun j => (hn2 j).trans (hn1 j))
        (fun j => (ha2 j).trans (ha1 j)) (hl2.trans hl1) (ih e hrest)
  | case3 ps time queue running remQ h =>
    intro e he
    rw [rnRrGo_neg runfor quantum ps time queue running remQ h] at he
    cases he


theorem names_inj (ps : List Proc) (hnames : (ps.map (fun p => p.name)).Nodup)
    (j1 j2 : Nat) (h1 : j1 < ps.length) (h2 : j2 < ps.length)
    (he : nameAt ps j1 = nameAt ps j2) : j1 = j2 := by
  have hl1 : j1 < (ps.map (fun p => p.name)).length := by simpa using h1
  have hl2 : j2 < (ps.map (fun p => p.name)).length := by simpa using h2
  have e1 : (ps.map (fun p => p.name)).get ⟨j1, hl1⟩ = nameAt ps j1 := by
    simp [nameAt, procAt_eq_getElem ps j1 h1]
  have e2 : (ps.map (fun p => p.name)).get ⟨j2, hl2⟩ = nameAt ps j2 := by
    simp [nameAt, procAt_eq_getElem ps j2 h2]
  have hg : (⟨j1, hl1⟩ : Fin (ps.map (fun p => p.name)).length) = ⟨j2, hl2⟩ := by
    refine List.nodup_iff_injective_get.mp hnames ?_
    rw [e1, e2]
    exact he
  exact congrArg Fin.val hg

theorem count_map_one (f : Nat → String) (i : Nat) :
    ∀ (l : List Nat), l.Nodup → i ∈ l → (∀ j ∈ l, f j = f i → j = i) →
      (l.map f).count (f i) = 1 := by
  intro l
  induction l with
  | nil =>
    intro _ hi _
    cases hi
  | cons a r ih =>
    intro hnd hi hinj
    rw [List.nodup_cons] at hnd
    simp only [List.map_cons, List.count_cons]
    by_cases hai : a = i
    · subst hai
      have hz : (r.map f).count (f a) = 0 := by
        rw [List.count_eq_zero]
        intro hc
        obtain ⟨j, hj, hje⟩ := List.mem_map.mp hc
        have hji : j = a := hinj j (List.mem_cons_of_mem a hj) hje
        rw [hji] at hj
        exact hnd.1 hj
      rw [hz]
      simp
    · have hfa : f a ≠ f i := fun hc => hai (hinj a (List.mem_cons_self a r) hc)
      have hir : i ∈ r := by
        rcases List.mem_cons.mp hi with h1 | h1
        · exact absurd h1.symm hai
        · exact h1
      rw [ih hnd.2 hir (fun j hj hje => hinj j (List.mem_cons_of_mem a hj) hje)]
      simp [hfa]

theorem bucket_count_one (ps : List Proc) (hnames : (ps.map (fun p => p.name)).Nodup)
    (i : Nat) (hi : i < ps.length) (k : Nat) (v : List Nat)
    (hkv : (k, v) ∈ arrivalsIndex ps) (hiv : i ∈ v) :
    (v.map (nameAt ps)).count (nameAt ps i) = 1 := by
  obtain ⟨hmem, _, hnd⟩ := arrivalsIndex_bucket ps k v hkv
  exact count_map_one (nameAt ps) i v hnd hiv
    (fun j hj hje => names_inj ps hnames j i (hmem j hj).2 hi hje)

theorem filter_count_one (ps : List Proc) (hnames : (ps.map (fun p => p.name)).Nodup)
    (i : Nat) (hi : i < ps.length) (l : List Nat) (hlnd : l.Nodup)
    (hmem : ∀ j ∈ l, j < ps.length) (hil : i ∈ l) :
    ((l.filter (fun j => decide (arrivalAt ps j = arrivalAt ps i))).map
      (nameAt ps)).count (nameAt ps i) = 1 := by
  refine count_map_one (nameAt ps) i _ (hlnd.filter _) ?_ ?_
  · exact List.mem_filter.mpr ⟨hil, by simp⟩
  · intro j hj hje
    exact names_inj ps hnames j i (hmem j (List.mem_filter.mp hj).1) hi hje

theorem fcfs_count_one (ps : List Proc) (runfor : Nat)
    (hnames : (ps.map (fun p => p.name)).Nodup) (i : Nat) (hi : i < ps.length)
    (hk : arrivalAt ps i < runfor) :
    (fcfs ps runfor).1.count (Event.arrived (arrivalAt ps i) (nameAt ps i)) = 1 := by
  obtain ⟨v, hkv, hiv⟩ := arrivalsIndex_covers ps i hi
  show (fcfsMain runfor (readyOrder ps) ps 0 (arrivalsIndex ps)).1.count
    (Event.arrived (arrivalAt ps i) (nameAt ps i)) = 1
  rw [fcfsMain_count runfor (readyOrder ps) ps 0 (arrivalsIndex ps)
    (btKeys_arrivalsIndex_nodup ps) (arrivalAt ps i) v (nameAt ps i) hkv
    (Nat.zero_le _) hk]
  exact bucket_count_one ps hnames i hi _ v hkv hiv

theorem sjf_count_one (ps : List Proc) (runfor : Nat)
    (hnames : (ps.map (fun p => p.name)).Nodup) (i : Nat) (hi : i < ps.length)
    (hk : arrivalAt ps i < runfor) :
    (sjf ps runfor).1.count (Event.arrived (arrivalAt ps i) (nameAt ps i)) = 1 := by
  obtain ⟨v, hkv, hiv⟩ := arrivalsIndex_covers ps i hi
  show (sjfGo runfor ps 0 (arrivalsIndex ps) none).1.count
    (Event.arrived (arrivalAt ps i) (nameAt ps i)) = 1
  rw [sjfGo_count runfor ps 0 (arrivalsIndex ps) none
    (btKeys_arrivalsIndex_nodup ps) (arrivalAt ps i) v (nameAt ps i) hkv
    (Nat.zero_le _) hk]
  exact bucket_count_one ps hnames i hi _ v hkv hiv

theorem rr_count_one (ps : List Proc) (runfor : Nat) (q : {n : Nat // 0 < n})
    (hnames : (ps.map (fun p => p.name)).Nodup) (i : Nat) (hi : i < ps.length)
    (hk : arrivalAt ps i < runfor) :
    (arrEvents ps 0 (popArrivals (arrivalsIndex ps) 0).1 ++
      (rrGo runfor q ps 0 (popArrivals (arrivalsIndex ps) 0).2
        (popArrivals (arrivalsIndex ps) 0).1).1).count
      (Event.arrived (arrivalAt ps i) (nameAt ps i)) = 1 := by
  obtain ⟨v, hkv, hiv⟩ := arrivalsIndex_covers ps i hi
  have hnd := btKeys_arrivalsIndex_nodup ps
  have hnd0 : (btKeys (popArrivals (arrivalsIndex ps) 0).2).Nodup :=
    popArrivals_keys_nodup _ _ hnd
  have hbc := bucket_count_one ps hnames i hi _ v hkv hiv
  rw [List.count_append, count_arrEvents]
  by_cases h0 : arrivalAt ps i = 0
  · rw [h0] at hkv ⊢
    have hz : (rrGo runfor q ps 0 (popArrivals (arrivalsIndex ps) 0).2
        (popArrivals (arrivalsIndex ps) 0).1).1.count
          (Event.arrived 0 (nameAt ps i)) = 0 :=
      count_zero_of_arr (fun hm =>
        popArrivals_not_mem_keys (arrivalsIndex ps) 0 hnd
          (rrGo_arr_keys runfor q ps 0 _ _ _ hm rfl))
    rw [if_pos rfl, hz, popArrivals_fst_eq (arrivalsIndex ps) 0 v hnd hkv]
    omega
  · rw [if_neg (fun hc => h0 hc.symm)]
    have hmem2 : (arrivalAt ps i, v) ∈ (popArrivals (arrivalsIndex ps) 0).2 :=
      popArrivals_mem_ne (arrivalsIndex ps) 0 (arrivalAt ps i) v
        (fun hc => h0 hc) hkv
    rw [rrGo_count runfor q ps 0 _ _ hnd0 (arrivalAt ps i) v (nameAt ps i) hmem2
      (Nat.zero_le _) hk]
    omega

theorem readyOrder_mem_lt (ps : List Proc) : ∀ j ∈ readyOrder ps, j < ps.length :=
  fun j hj => List.mem_range.mp ((mem_insertionSort _ _ _).mp hj)

theorem rnFcfs_count_one (ps : List Proc) (runfor : Nat)
    (hnames : (ps.map (fun p => p.name)).Nodup) (i : Nat) (hi : i < ps.length)
    (hk : arrivalAt ps i < runfor) :
    (rnFcfs ps runfor).1.count (Event.arrived (arrivalAt ps i) (nameAt ps i)) = 1 := by
  show (rnFcfsGo runfor (readyOrder ps) ps 0 [] none).1.count
    (Event.arrived (arrivalAt ps i) (nameAt ps i)) = 1
  rw [rnFcfsGo_count runfor (readyOrder ps) ps 0 [] none (arrivalAt ps i)
    (nameAt ps i) (Nat.zero_le _) hk]
  exact filter_count_one ps hnames i hi (readyOrder ps) (readyOrder_nodup ps)
    (readyOrder_mem_lt ps) ((mem_insertionSort _ _ _).mpr (List.mem_range.mpr hi))

theorem rnSjf_count_one (ps : List Proc) (runfor : Nat)
    (hnames : (ps.map (fun p => p.name)).Nodup) (i : Nat) (hi : i < ps.length)
    (hk : arrivalAt ps i < runfor) :
    (rnSjf ps runfor).1.count (Event.arrived (arrivalAt ps i) (nameAt ps i)) = 1 := by
  show (rnSjfGo runfor ps 0 none).1.count
    (Event.arrived (arrivalAt ps i) (nameAt ps i)) = 1
  rw [rnSjfGo_count runfor ps 0 none (arrivalAt ps i) (nameAt ps i)
    (Nat.zero_le _) hk]
  exact filter_count_one ps hnames i hi (List.range ps.length)
    (List.nodup_range _) (fun j hj => List.mem_range.mp hj) (List.mem_range.mpr hi)

theorem rnRr_count_one (ps : List Proc) (runfor : Nat) (quantum : Int)
    (hnames : (ps.map (fun p => p.name)).Nodup) (i : Nat) (hi : i < ps.length)
    (hk : arrivalAt ps i < runfor) :
    (rnRr ps runfor quantum).1.count
      (Event.arrived (arrivalAt ps i) (nameAt ps i)) = 1 := by
  show (rnRrGo runfor quantum ps 0 [] none 0).1.count
    (Event.arrived (arrivalAt ps i) (nameAt ps i)) = 1
  rw [rnRrGo_count runfor quantum ps 0 [] none 0 (arrivalAt ps i) (nameAt ps i)
    (Nat.zero_le _) hk]
  exact filter_count_one ps hnames i hi (List.range ps.length)
    (List.nodup_range _) (fun j hj => List.mem_range.mp hj) (List.mem_range.mpr hi)

/-- The timestamp invariant carried through every engine loop at tick `t`:
a set start time lies between the process's arrival and the current tick,
and a set finish time strictly exceeds a set start time that is itself at
least the arrival. -/
def StFin (t : Nat) (ps : List Proc) : Prop :=
  ∀ i, i < ps.length →
    (∀ s, startAt ps i = some s → arrivalAt ps i ≤ s ∧ s ≤ t) ∧
    (∀ f, finishAt ps i = some f →
      ∃ s, startAt ps i = some s ∧ arrivalAt ps i ≤ s ∧ s < f)

/-- The claim's conclusion about a final process list: whenever finish_time
is set, start_time is set with finish_time > start_time ≥ arrival. -/
def FinOK (ps : List Proc) : Prop :=
  ∀ i, i < ps.length → ∀ f, finishAt ps i = some f →
    ∃ s, startAt ps i = some s ∧ arrivalAt ps i ≤ s ∧ s < f

theorem StFin_FinOK {t : Nat} {ps : List Proc} (h : StFin t ps) : FinOK ps :=
  fun i hi f hf => (h i hi).2 f hf

theorem StFin_mono {t t2 : Nat} {ps : List Proc} (hle : t ≤ t2) (h : StFin t ps) :
    StFin t2 ps := by
  intro i hi
  refine ⟨fun s hs => ?_, (h i hi).2⟩
  have := (h i hi).1 s hs
  omega

theorem StFin_transfer {t : Nat} {ps1 ps2 : List Proc}
    (hs : ∀ j, startAt ps2 j = startAt ps1 j)
    (hf : ∀ j, finishAt ps2 j = finishAt ps1 j)
    (ha : ∀ j, arrivalAt ps2 j = arrivalAt ps1 j)
    (hl : ps2.length = ps1.length) (h : StFin t ps1) : StFin t ps2 := by
  intro i hi
  rw [hl] at hi
  refine ⟨fun s hst => ?_, fun f hfin => ?_⟩
  · rw [hs i] at hst
    rw [ha i]
    exact (h i hi).1 s hst
  · rw [hf i] at hfin
    obtain ⟨s, h1, h2, h3⟩ := (h i hi).2 f hfin
    exact ⟨s, by rw [hs i]; exact h1, by rw [ha i]; exact h2, h3⟩

theorem StFin_decRem {t : Nat} {ps : List Proc} (i : Nat) (h : StFin t ps) :
    StFin t (decRem ps i) :=
  StFin_transfer (fun j => startAt_decRem ps i j) (fun j => finishAt_decRem ps i j)
    (fun j => arrivalAt_decRem ps i j) (length_decRem ps i) h

theorem StFin_setStart {t : Nat} {ps : List Proc} (i u : Nat) (h : StFin t ps)
    (hnone : startAt ps i = none) (harr : arrivalAt ps i ≤ u) (hu : u ≤ t) :
    StFin t (setStart ps i u) := by
  intro j hj
  rw [length_setStart] at hj
  rw [startAt_setStart, arrivalAt_setStart, finishAt_setStart]
  by_cases hji : j = i ∧ i < ps.length
  · rw [if_pos hji]
    obtain ⟨hji2, _⟩ := hji
    subst hji2
    refine ⟨fun s hs => ?_, fun f hfin => ?_⟩
    · injection hs with hs2
      omega
    · obtain ⟨s, h1, _, _⟩ := (h j hj).2 f hfin
      rw [hnone] at h1
      exact Option.noConfusion h1
  · rw [if_neg hji]
    exact h j hj

theorem StFin_setFinish {t : Nat} {ps : List Proc} (i u : Nat) (h : StFin t ps)
    (hst : i < ps.length → ∃ s, startAt ps i = some s ∧ s < u) :
    StFin t (setFinish ps i u) := by
  intro j hj
  rw [length_setFinish] at hj
  rw [startAt_setFinish, arrivalAt_setFinish, finishAt_setFinish]
  refine ⟨(h j hj).1, fun f hfin => ?_⟩
  by_cases hji : j = i ∧ i < ps.length
  · obtain ⟨hji2, hilen⟩ := hji
    subst hji2
    rw [if_pos ⟨rfl, hilen⟩] at hfin
    injection hfin with hf2
    obtain ⟨s, h1, h2⟩ := hst hilen
    refine ⟨s, h1, ?_, by omega⟩
    exact ((h j hj).1 s h1).1
  · rw [if_neg hji] at hfin
    exact (h j hj).2 f hfin

theorem sjfReady_mem (ps : List Proc) (t : Nat) (b : Nat) (h : b ∈ sjfReady ps t) :
    arrivalAt ps b ≤ t ∧ 0 < remAt ps b ∧ b < ps.length := by
  unfold sjfReady at h
  obtain ⟨hr, hp⟩ := List.mem_filter.mp h
  have := of_decide_eq_true hp
  exact ⟨this.1, this.2, List.mem_range.mp hr⟩

theorem sjfExec_stfin (ps : List Proc) (t : Nat) (bt : BT) (best : Nat)
    (hS : StFin t ps) (hst : startAt ps best ≠ none) (hlen : best < ps.length) :
    StFin (t + 1) (sjfExec ps t bt best).ps ∧
    (∀ c, (sjfExec ps t bt best).cur = some c →
      c < (sjfExec ps t bt best).ps.length ∧
        startAt (sjfExec ps t bt best).ps c ≠ none) := by
  obtain ⟨s, hs⟩ := Option.ne_none_iff_exists.mp hst
  have hsle : s ≤ t := ((hS best hlen).1 s hs.symm).2
  have hS1 : StFin (t + 1) (decRem ps best) :=
    StFin_decRem best (StFin_mono (Nat.le_succ t) hS)
  simp only [sjfExec]
  split
  all_goals simp only [SStep_ps, SStep_cur]
  · refine ⟨?_, ?_⟩
    · refine StFin_setFinish best (t + 1) hS1 ?_
      intro _
      refine ⟨s, ?_, by omega⟩
      rw [startAt_decRem]
      exact hs.symm
    · intro c hc
      cases hc
  · refine ⟨hS1, ?_⟩
    intro c hc
    injection hc with hc2
    subst hc2
    rw [length_decRem, startAt_decRem]
    exact ⟨hlen, hst⟩

theorem sjfStep_stfin (ps : List Proc) (t : Nat) (bt : BT) (cur : Option Nat)
    (hS : StFin t ps)
    (hcur : ∀ c, cur = some c → c < ps.length ∧ startAt ps c ≠ none) :
    StFin (t + 1) (sjfStep ps t bt cur).ps ∧
    (∀ c, (sjfStep ps t bt cur).cur = some c →
      c < (sjfStep ps t bt cur).ps.length ∧
        startAt (sjfStep ps t bt cur).ps c ≠ none) := by
  rcases hpick : sjfPick ps t with _ | best
  · simp only [sjfStep, hpick]
    exact ⟨StFin_mono (Nat.le_succ t) hS, hcur⟩
  · simp only [sjfStep, hpick]
    obtain ⟨harr, hrem, hlen⟩ := sjfReady_mem ps t best (sjfPick_min ps t best hpick).1
    by_cases hc : cur = some best
    · rw [if_pos hc]
      simp only [SStep_ps, SStep_cur]
      exact sjfExec_stfin ps t _ best hS (hcur best hc).2 hlen
    · rw [if_neg hc]
      simp only [SStep_ps, SStep_cur]
      by_cases hsn : startAt ps best = none
      · rw [if_pos hsn]
        refine sjfExec_stfin _ t _ best
          (StFin_setStart best t hS hsn harr (le_refl t)) ?_ ?_
        · rw [startAt_setStart, if_pos ⟨rfl, hlen⟩]
          exact Option.some_ne_none t
        · rw [length_setStart]
          exact hlen
      · rw [if_neg hsn]
        exact sjfExec_stfin ps t _ best hS hsn hlen

theorem sjfGo_stfin (runfor : Nat) :
    ∀ (ps : List Proc) (t : Nat) (bt : BT) (cur : Option Nat),
      StFin t ps →
      (∀ c, cur = some c → c < ps.length ∧ startAt ps c ≠ none) →
      ∃ u, StFin u (sjfGo runfor ps t bt cur).2 := by
  intro ps t bt cur
  induction ps, t, bt, cur using sjfGo.induct runfor with
  | case1 ps t bt cur h s ih =>
    intro hS hcur
    rw [sjfGo_pos runfor ps t bt cur h]
    obtain ⟨h1, h2⟩ := sjfStep_stfin ps t bt cur hS hcur
    exact ih h1 h2
  | case2 ps t bt cur h =>
    intro hS _
    rw [sjfGo_neg runfor ps t bt cur h]
    exact ⟨t, hS⟩


theorem fcfsIdle_t_arr (ps : List Proc) (runfor arrival : Nat) :
    ∀ (t : Nat) (bt : BT),
      arrival ≤ (fcfsIdle ps runfor arrival t bt).t ∨
        runfor ≤ (fcfsIdle ps runfor arrival t bt).t := by
  intro t bt
  induction t, bt using fcfsIdle.induct ps runfor arrival with
  | case1 t bt h pr ih =>
    have heq : (fcfsIdle ps runfor arrival t bt).t
        = (fcfsIdle ps runfor arrival (t + 1) (popArrivals bt t).2).t := by
      rw [fcfsIdle_pos ps runfor arrival t bt h]
    rw [heq]
    exact ih
  | case2 t bt h =>
    rw [fcfsIdle_neg ps runfor arrival t bt h]
    dsimp only
    omega

theorem fcfsRun_finishAt (runfor i : Nat) :
    ∀ (ps : List Proc) (t : Nat) (bt : BT) (j : Nat),
      finishAt (fcfsRun runfor i ps t bt).ps j = finishAt ps j := by
  intro ps t bt
  induction ps, t, bt using fcfsRun.induct runfor i with
  | case1 ps t bt h ps1 pr ih =>
    intro j
    have heq : (fcfsRun runfor i ps t bt).ps
        = (fcfsRun runfor i (decRem ps i) (t + 1) (popArrivals bt (t + 1)).2).ps := by
      rw [fcfsRun_pos runfor i ps t bt h]
    rw [heq]
    exact (ih j).trans (finishAt_decRem ps i j)
  | case2 ps t bt h =>
    intro j
    rw [fcfsRun_neg runfor i ps t bt h]

theorem fcfsRun_remAt_ne (runfor i : Nat) :
    ∀ (ps : List Proc) (t : Nat) (bt : BT) (j : Nat), j ≠ i →
      remAt (fcfsRun runfor i ps t bt).ps j = remAt ps j := by
  intro ps t bt
  induction ps, t, bt using fcfsRun.induct runfor i with
  | case1 ps t bt h ps1 pr ih =>
    intro j hne
    have heq : (fcfsRun runfor i ps t bt).ps
        = (fcfsRun runfor i (decRem ps i) (t + 1) (popArrivals bt (t + 1)).2).ps := by
      rw [fcfsRun_pos runfor i ps t bt h]
    rw [heq, ih j hne, remAt_decRem, if_neg hne]
  | case2 ps t bt h =>
    intro j _
    rw [fcfsRun_neg runfor i ps t bt h]

theorem fcfsRun_t_gt (runfor i : Nat) (ps : List Proc) (t : Nat) (bt : BT)
    (h : 0 < remAt ps i ∧ t < runfor) :
    t + 1 ≤ (fcfsRun runfor i ps t bt).t := by
  have heq : (fcfsRun runfor i ps t bt).t
      = (fcfsRun runfor i (decRem ps i) (t + 1) (popArrivals bt (t + 1)).2).t := by
    rw [fcfsRun_pos runfor i ps t bt h]
  rw [heq]
  exact fcfsRun_t_ge runfor i _ _ _

theorem fcfsRun_stfin (runfor i : Nat) (ps : List Proc) (t : Nat) (bt : BT)
    (hS : StFin t ps) :
    StFin (fcfsRun runfor i ps t bt).t (fcfsRun runfor i ps t bt).ps :=
  StFin_transfer (fun j => fcfsRun_startAt runfor i ps t bt j)
    (fun j => fcfsRun_finishAt runfor i ps t bt j)
    (fun j => (fcfsRun_profile runfor i ps t bt).1 j)
    (fcfsRun_profile runfor i ps t bt).2
    (StFin_mono (fcfsRun_t_ge runfor i ps t bt) hS)

theorem fcfsMain_stfin (runfor : Nat) :
    ∀ (order : List Nat) (ps : List Proc) (t : Nat) (bt : BT),
      StFin t ps → (∀ j ∈ order, 0 < remAt ps j) → order.Nodup →
      ∃ u, StFin u (fcfsMain runfor order ps t bt).2 := by
  intro order
  induction order with
  | nil =>
    intro ps t bt hS _ _
    exact ⟨t, hS⟩
  | cons i rest ih =>
    intro ps t bt hS hrem hnd
    rw [List.nodup_cons] at hnd
    simp only [fcfsMain]
    by_cases hge : runfor ≤ (fcfsIdle ps runfor (arrivalAt ps i) t bt).t
    · rw [if_pos hge]
      exact ⟨t, hS⟩
    · rw [if_neg hge]
      dsimp only
      have harrI : arrivalAt ps i ≤ (fcfsIdle ps runfor (arrivalAt ps i) t bt).t := by
        rcases fcfsIdle_t_arr ps runfor (arrivalAt ps i) t bt with h1 | h1
        · exact h1
        · omega
      have hSI : StFin (fcfsIdle ps runfor (arrivalAt ps i) t bt).t ps :=
        StFin_mono (fcfsIdle_t_ge ps runfor (arrivalAt ps i) t bt) hS
      have hremi : 0 < remAt ps i := hrem i (List.mem_cons_self i rest)
      by_cases hsel : startAt ps i = none
      · rw [if_pos hsel]
        dsimp only
        have hS2 : StFin (fcfsIdle ps runfor (arrivalAt ps i) t bt).t
            (setStart ps i (fcfsIdle ps runfor (arrivalAt ps i) t bt).t) :=
          StFin_setStart i _ hSI hsel harrI (le_refl _)
        have hrem2 : 0 < remAt (setStart ps i (fcfsIdle ps runfor (arrivalAt ps i) t bt).t) i := by
          rw [remAt_setStart]
          exact hremi
        have hgt : (fcfsIdle ps runfor (arrivalAt ps i) t bt).t + 1 ≤
            (fcfsRun runfor i (setStart ps i (fcfsIdle ps runfor (arrivalAt ps i) t bt).t)
              (fcfsIdle ps runfor (arrivalAt ps i) t bt).t
              (popArrivals (fcfsIdle ps runfor (arrivalAt ps i) t bt).bt
                (fcfsIdle ps runfor (arrivalAt ps i) t bt).t).2).t :=
          fcfsRun_t_gt runfor i _ _ _ ⟨hrem2, by omega⟩
        have hSrun := fcfsRun_stfin runfor i
          (setStart ps i (fcfsIdle ps runfor (arrivalAt ps i) t bt).t)
          (fcfsIdle ps runfor (arrivalAt ps i) t bt).t
          (popArrivals (fcfsIdle ps runfor (arrivalAt ps i) t bt).bt
            (fcfsIdle ps runfor (arrivalAt ps i) t bt).t).2 hS2
        have hlen2 := (fcfsRun_profile runfor i
          (setStart ps i (fcfsIdle ps runfor (arrivalAt ps i) t bt).t)
          (fcfsIdle ps runfor (arrivalAt ps i) t bt).t
          (popArrivals (fcfsIdle ps runfor (arrivalAt ps i) t bt).bt
            (fcfsIdle ps runfor (arrivalAt ps i) t bt).t).2).2
        split
        · dsimp only
          refine ih _ _ _ (StFin_setFinish i _ hSrun ?_) ?_ hnd.2
          · intro hilen
            rw [fcfsRun_startAt, startAt_setStart,
              if_pos ⟨rfl, by rw [hlen2, length_setStart] at hilen; exact hilen⟩]
            exact ⟨(fcfsIdle ps runfor (arrivalAt ps i) t bt).t, rfl, by omega⟩
          · intro j hj
            rw [remAt_setFinish, fcfsRun_remAt_ne runfor i _ _ _ j
              (fun hc => hnd.1 (hc ▸ hj)), remAt_setStart]
            exact hrem j (List.mem_cons_of_mem i hj)
        · dsimp only
          refine ih _ _ _ hSrun ?_ hnd.2
          intro j hj
          rw [fcfsRun_remAt_ne runfor i _ _ _ j (fun hc => hnd.1 (hc ▸ hj)),
            remAt_setStart]
          exact hrem j (List.mem_cons_of_mem i hj)
      · rw [if_neg hsel]
        dsimp only
        obtain ⟨s, hs⟩ := Option.ne_none_iff_exists.mp hsel
        have hsle : s ≤ (fcfsIdle ps runfor (arrivalAt ps i) t bt).t ∨
            ps.length ≤ i := by
          by_cases hilen : i < ps.length
          · exact Or.inl ((hSI i hilen).1 s hs.symm).2
          · exact Or.inr (by omega)
        have hgt : (fcfsIdle ps runfor (arrivalAt ps i) t bt).t + 1 ≤
            (fcfsRun runfor i ps (fcfsIdle ps runfor (arrivalAt ps i) t bt).t
              (popArrivals (fcfsIdle ps runfor (arrivalAt ps i) t bt).bt
                (fcfsIdle ps runfor (arrivalAt ps i) t bt).t).2).t :=
          fcfsRun_t_gt runfor i _ _ _ ⟨hremi, by omega⟩
        have hSrun := fcfsRun_stfin runfor i ps
          (fcfsIdle ps runfor (arrivalAt ps i) t bt).t
          (popArrivals (fcfsIdle ps runfor (arrivalAt ps i) t bt).bt
            (fcfsIdle ps runfor (arrivalAt ps i) t bt).t).2 hSI
        have hlen2 := (fcfsRun_profile runfor i ps
          (fcfsIdle ps runfor (arrivalAt ps i) t bt).t
          (popArrivals (fcfsIdle ps runfor (arrivalAt ps i) t bt).bt
            (fcfsIdle ps runfor (arrivalAt ps i) t bt).t).2).2
        split
        · dsimp only
          refine ih _ _ _ (StFin_setFinish i _ hSrun ?_) ?_ hnd.2
          · intro hilen
            rw [fcfsRun_startAt]
            refine ⟨s, hs.symm, ?_⟩
            rcases hsle with h1 | h1
            · omega
            · rw [hlen2] at hilen
              omega
          · intro j hj
            rw [remAt_setFinish, fcfsRun_remAt_ne runfor i _ _ _ j
              (fun hc => hnd.1 (hc ▸ hj))]
            exact hrem j (List.mem_cons_of_mem i hj)
        · dsimp only
          refine ih _ _ _ hSrun ?_ hnd.2
          intro j hj
          rw [fcfsRun_remAt_ne runfor i _ _ _ j (fun hc => hnd.1 (hc ▸ hj))]
          exact hrem j (List.mem_cons_of_mem i hj)


theorem rrSlice_stfin (i : Nat) :
    ∀ (n : Nat) (ps : List Proc) (t : Nat) (bt : BT) (rq : List Nat),
      BTInv ps bt → StFin t ps →
      (i < ps.length → startAt ps i ≠ none) →
      (∀ j ∈ rq, arrivalAt ps j ≤ t ∧ j < ps.length) →
      StFin (rrSlice i n ps t bt rq).t (rrSlice i n ps t bt rq).ps ∧
      (∀ j ∈ (rrSlice i n ps t bt rq).rq,
        arrivalAt (rrSlice i n ps t bt rq).ps j ≤ (rrSlice i n ps t bt rq).t ∧
          j < (rrSlice i n ps t bt rq).ps.length) := by
  intro n
  induction n with
  | zero =>
    intro ps t bt rq _ hS _ hq
    simp only [rrSlice]
    exact ⟨hS, hq⟩
  | succ n ih =>
    intro ps t bt rq hI hS hsti hq
    have hS1 : StFin (t + 1) (decRem ps i) :=
      StFin_decRem i (StFin_mono (Nat.le_succ t) hS)
    have hq1 : ∀ j ∈ rq ++ (popArrivals bt (t + 1)).1,
        arrivalAt (decRem ps i) j ≤ t + 1 ∧ j < (decRem ps i).length := by
      intro j hj
      rw [arrivalAt_decRem, length_decRem]
      rcases List.mem_append.mp hj with hm | hm
      · obtain ⟨h1, h2⟩ := hq j hm
        exact ⟨by omega, h2⟩
      · obtain ⟨ha, hl⟩ := pop_bucket_mem ps bt (t + 1) hI j hm
        exact ⟨by omega, hl⟩
    simp only [rrSlice]
    split
    · simp only [RSl_ps, RSl_t, RSl_rq]
      constructor
      · refine StFin_setFinish i (t + 1) hS1 ?_
        intro hilen
        rw [length_decRem] at hilen
        obtain ⟨s, hs⟩ := Option.ne_none_iff_exists.mp (hsti hilen)
        refine ⟨s, by rw [startAt_decRem]; exact hs.symm, ?_⟩
        have := (hS i hilen).1 s hs.symm
        omega
      · intro j hj
        rw [arrivalAt_setFinish, length_setFinish]
        exact hq1 j hj
    · simp only [RSl_ps, RSl_t, RSl_rq]
      refine ih (decRem ps i) (t + 1) (popArrivals bt (t + 1)).2
        (rq ++ (popArrivals bt (t + 1)).1) ?_ hS1 ?_ hq1
      · exact BTInv_transfer (fun j => nameAt_decRem ps i j)
          (fun j => arrivalAt_decRem ps i j) (length_decRem ps i)
          (BTInv_pop ps bt (t + 1) hI)
      · intro hilen
        rw [length_decRem] at hilen
        rw [startAt_decRem]
        exact hsti hilen

theorem rr_requeue_stfin (i ticks : Nat) (ps1 : List Proc) (t : Nat) (bt : BT)
    (rest : List Nat) (hI1 : BTInv ps1 bt) (hS1 : StFin t ps1)
    (hst1 : i < ps1.length → startAt ps1 i ≠ none)
    (hq1 : ∀ j ∈ rest, arrivalAt ps1 j ≤ t ∧ j < ps1.length)
    (hia1 : arrivalAt ps1 i ≤ t) (hil1 : i < ps1.length) :
    StFin (rrSlice i ticks ps1 t bt rest).t (rrSlice i ticks ps1 t bt rest).ps ∧
    (∀ j ∈ (if 0 < remAt (rrSlice i ticks ps1 t bt rest).ps i
        then (rrSlice i ticks ps1 t bt rest).rq ++ [i]
        else (rrSlice i ticks ps1 t bt rest).rq),
      arrivalAt (rrSlice i ticks ps1 t bt rest).ps j ≤
          (rrSlice i ticks ps1 t bt rest).t ∧
        j < (rrSlice i ticks ps1 t bt rest).ps.length) := by
  have hsl := rrSlice_stfin i ticks ps1 t bt rest hI1 hS1 hst1 hq1
  obtain ⟨hprof1, hprof2, hprof3⟩ := rrSlice_profile i ticks ps1 t bt rest
  refine ⟨hsl.1, ?_⟩
  intro j hj
  split at hj
  · rcases List.mem_append.mp hj with hm | hm
    · exact hsl.2 j hm
    · rw [List.mem_singleton.mp hm]
      constructor
      · rw [hprof2 i]
        have hle := rrSlice_t_ge i ticks ps1 t bt rest
        omega
      · rw [hprof3]
        exact hil1
  · exact hsl.2 j hj

theorem rrRunBranch_stfin (runfor q i : Nat) (ps : List Proc) (t : Nat) (bt : BT)
    (rest : List Nat) (hI : BTInv ps bt) (hS : StFin t ps)
    (hia : arrivalAt ps i ≤ t) (hil : i < ps.length)
    (hq : ∀ j ∈ rest, arrivalAt ps j ≤ t ∧ j < ps.length) :
    StFin (rrRunBranch runfor q i ps t bt rest).t
      (rrRunBranch runfor q i ps t bt rest).ps ∧
    (∀ j ∈ (rrRunBranch runfor q i ps t bt rest).rq,
      arrivalAt (rrRunBranch runfor q i ps t bt rest).ps j ≤
          (rrRunBranch runfor q i ps t bt rest).t ∧
        j < (rrRunBranch runfor q i ps t bt rest).ps.length) := by
  by_cases hsn : startAt ps i = none
  · simp only [rrRunBranch, if_pos hsn, RSl_ps, RSl_t, RSl_rq]
    refine rr_requeue_stfin i _ (setStart ps i t) t bt rest ?_ ?_ ?_ ?_ ?_ ?_
    · refine BTInv_transfer (fun j => ?_) (fun j => ?_) ?_ hI
      · exact nameAt_setStart _ _ _ _
      · exact arrivalAt_setStart _ _ _ _
      · exact length_setStart _ _ _
    · exact StFin_setStart i t hS hsn hia (le_refl t)
    · intro _
      rw [startAt_setStart, if_pos ⟨rfl, hil⟩]
      exact Option.some_ne_none t
    · intro j hj
      rw [arrivalAt_setStart, length_setStart]
      exact hq j hj
    · rw [arrivalAt_setStart]
      exact hia
    · rw [length_setStart]
      exact hil
  · simp only [rrRunBranch, if_neg hsn, RSl_ps, RSl_t, RSl_rq]
    exact rr_requeue_stfin i _ ps t bt rest hI hS (fun _ => hsn) hq hia hil

theorem rrGo_stfin (runfor : Nat) (q : {n : Nat // 0 < n}) :
    ∀ (ps : List Proc) (t : Nat) (bt : BT) (rq : List Nat),
      BTInv ps bt → StFin t ps →
      (∀ j ∈ rq, arrivalAt ps j ≤ t ∧ j < ps.length) →
      ∃ u, StFin u (rrGo runfor q ps t bt rq).2 := by
  intro ps t bt rq
  induction ps, t, bt, rq using rrGo.induct runfor q with
  | case1 ps t bt rq h pr hm pr2 ih =>
    intro hI hS hq
    have hpr : pr = popArrivals bt t := rfl
    rw [hpr] at hm
    rw [rrGo_idle runfor q ps t bt rq h hm]
    dsimp only
    refine ih (BTInv_pop _ _ _ (BTInv_pop ps bt t hI))
      (StFin_mono (Nat.le_succ t) hS) ?_
    intro j hj
    obtain ⟨ha, hl⟩ := pop_bucket_mem ps (popArrivals bt t).2 (t + 1)
      (BTInv_pop ps bt t hI) j hj
    exact ⟨by omega, hl⟩
  | case2 ps t bt rq h pr i rest hm br ih =>
    intro hI hS hq
    have hpr : pr = popArrivals bt t := rfl
    rw [hpr] at hm
    rw [rrGo_run runfor q ps t bt rq i rest h hm]
    dsimp only
    have hIP := BTInv_pop ps bt t hI
    have hq2 : ∀ j ∈ rq ++ (popArrivals bt t).1,
        arrivalAt ps j ≤ t ∧ j < ps.length := by
      intro j hj
      rcases List.mem_append.mp hj with hj2 | hj2
      · exact hq j hj2
      · obtain ⟨ha, hl⟩ := pop_bucket_mem ps bt t hI j hj2
        exact ⟨by omega, hl⟩
    rw [hm] at hq2
    have hbr := rrRunBranch_stfin runfor q.1 i ps t (popArrivals bt t).2 rest hIP hS
      (hq2 i (List.mem_cons_self i rest)).1 (hq2 i (List.mem_cons_self i rest)).2
      (fun j hj => hq2 j (List.mem_cons_of_mem i hj))
    exact ih (rrRunBranch_BTInv runfor q.1 i ps t (popArrivals bt t).2 rest hIP)
      hbr.1 hbr.2
  | case3 ps t bt rq h =>
    intro _ hS _
    rw [rrGo_neg runfor q ps t bt rq h]
    exact ⟨t, hS⟩


theorem rnFcfsExecStep_stfin (ps : List Proc) (time c : Nat)
    (hS : StFin time ps) (hst : c < ps.length → startAt ps c ≠ none) :
    StFin (time + 1) (rnFcfsExecStep ps time c).2 := by
  have hS1 : StFin (time + 1) (decRem ps c) :=
    StFin_decRem c (StFin_mono (Nat.le_succ time) hS)
  simp only [rnFcfsExecStep]
  split
  · dsimp only
    refine StFin_setFinish c (time + 1) hS1 ?_
    intro hclen
    rw [length_decRem] at hclen
    obtain ⟨s, hs⟩ := Option.ne_none_iff_exists.mp (hst hclen)
    refine ⟨s, by rw [startAt_decRem]; exact hs.symm, ?_⟩
    have := (hS c hclen).1 s hs.symm
    omega
  · dsimp only
    exact hS1

theorem rnFcfsExecStep_startAt (ps : List Proc) (time c : Nat) (j : Nat) :
    startAt (rnFcfsExecStep ps time c).2 j = startAt ps j := by
  simp only [rnFcfsExecStep]
  split
  · dsimp only
    rw [startAt_setFinish, startAt_decRem]
  · dsimp only
    exact startAt_decRem ps c j

theorem rnFcfsSelect_drop (ps : List Proc) (time : Nat) (q1 : List Nat) (c0 : Nat)
    (h : remAt ps c0 = 0) :
    rnFcfsSelect ps time q1 (some c0) = rnFcfsSelect ps time q1 none := by
  simp only [rnFcfsSelect, h, if_true]

theorem rnFcfsSelect_keep (ps : List Proc) (time : Nat) (q1 : List Nat) (c0 : Nat)
    (h : ¬ remAt ps c0 = 0) :
    rnFcfsSelect ps time q1 (some c0) = ⟨some c0, q1, ps, []⟩ := by
  simp only [rnFcfsSelect]
  rw [if_neg h]

theorem rnFcfsSelect_stfin_none (ps : List Proc) (time : Nat) (q1 : List Nat)
    (hS : StFin time ps)
    (hq : ∀ j ∈ q1, arrivalAt ps j ≤ time ∧ j < ps.length) :
    StFin time (rnFcfsSelect ps time q1 none).ps ∧
    (∀ j ∈ (rnFcfsSelect ps time q1 none).queue,
      arrivalAt (rnFcfsSelect ps time q1 none).ps j ≤ time ∧
        j < (rnFcfsSelect ps time q1 none).ps.length) ∧
    (∀ c, (rnFcfsSelect ps time q1 none).cur = some c →
      c < (rnFcfsSelect ps time q1 none).ps.length ∧
        startAt (rnFcfsSelect ps time q1 none).ps c ≠ none) := by
  cases q1 with
  | nil =>
    simp only [rnFcfsSelect]
    exact ⟨hS, fun j hj => absurd hj (List.not_mem_nil j),
      fun c hc => Option.noConfusion hc⟩
  | cons c qrest =>
    simp only [rnFcfsSelect]
    by_cases hrc : remAt ps c = 0
    · rw [if_pos hrc]
      refine ⟨hS, ?_, fun c2 hc2 => Option.noConfusion hc2⟩
      intro j hj
      exact hq j (List.mem_cons_of_mem c hj)
    · rw [if_neg hrc]
      dsimp only
      obtain ⟨hca, hcl⟩ := hq c (List.mem_cons_self c qrest)
      by_cases hstc : startAt ps c = none
      · rw [if_pos hstc]
        refine ⟨StFin_setStart c time hS hstc hca (le_refl time), ?_, ?_⟩
        · intro j hj
          rw [arrivalAt_setStart, length_setStart]
          exact hq j (List.mem_cons_of_mem c hj)
        · intro c2 hc2
          injection hc2 with hc3
          subst hc3
          rw [length_setStart, startAt_setStart, if_pos ⟨rfl, hcl⟩]
          exact ⟨hcl, Option.some_ne_none time⟩
      · rw [if_neg hstc]
        refine ⟨hS, fun j hj => hq j (List.mem_cons_of_mem c hj), ?_⟩
        intro c2 hc2
        injection hc2 with hc3
        subst hc3
        exact ⟨hcl, hstc⟩

theorem rnFcfsSelect_stfin (ps : List Proc) (time : Nat) (q1 : List Nat)
    (cur : Option Nat)
    (hS : StFin time ps)
    (hq : ∀ j ∈ q1, arrivalAt ps j ≤ time ∧ j < ps.length)
    (hcur : ∀ c, cur = some c → c < ps.length ∧ startAt ps c ≠ none) :
    StFin time (rnFcfsSelect ps time q1 cur).ps ∧
    (∀ j ∈ (rnFcfsSelect ps time q1 cur).queue,
      arrivalAt (rnFcfsSelect ps time q1 cur).ps j ≤ time ∧
        j < (rnFcfsSelect ps time q1 cur).ps.length) ∧
    (∀ c, (rnFcfsSelect ps time q1 cur).cur = some c →
      c < (rnFcfsSelect ps time q1 cur).ps.length ∧
        startAt (rnFcfsSelect ps time q1 cur).ps c ≠ none) := by
  cases cur with
  | none => exact rnFcfsSelect_stfin_none ps time q1 hS hq
  | some c0 =>
    by_cases hr0 : remAt ps c0 = 0
    · rw [rnFcfsSelect_drop ps time q1 c0 hr0]
      exact rnFcfsSelect_stfin_none ps time q1 hS hq
    · rw [rnFcfsSelect_keep ps time q1 c0 hr0]
      refine ⟨hS, hq, ?_⟩
      intro c hc
      injection hc with hc2
      subst hc2
      exact hcur _ rfl


theorem rnFcfsGo_stfin (runfor : Nat) (ordered : List Nat) :
    ∀ (ps : List Proc) (time : Nat) (queue : List Nat) (cur : Option Nat),
      (∀ j ∈ ordered, j < ps.length) → StFin time ps →
      (∀ j ∈ queue, arrivalAt ps j ≤ time ∧ j < ps.length) →
      (∀ c, cur = some c → c < ps.length ∧ startAt ps c ≠ none) →
      ∃ u, StFin u (rnFcfsGo runfor ordered ps time queue cur).2 := by
  intro ps time queue cur
  induction ps, time, queue, cur using rnFcfsGo.induct runfor ordered with
  | case1 ps time queue cur h arr sel hcur ih =>
    intro hord hS hq hc
    have hselv : sel = rnFcfsSelect ps time
        (queue ++ ordered.filter (fun i => decide (arrivalAt ps i = time))) cur := rfl
    rw [hselv] at ih
    rw [rnFcfsGo_none runfor ordered ps time queue cur h hcur]
    dsimp only
    have hq1 : ∀ j ∈ queue ++ ordered.filter (fun i => decide (arrivalAt ps i = time)),
        arrivalAt ps j ≤ time ∧ j < ps.length := by
      intro j hj
      rcases List.mem_append.mp hj with hm | hm
      · exact hq j hm
      · obtain ⟨hjl, hjt⟩ := List.mem_filter.mp hm
        exact ⟨le_of_eq (of_decide_eq_true hjt), hord j hjl⟩
    have hsel := rnFcfsSelect_stfin ps time
      (queue ++ ordered.filter (fun i => decide (arrivalAt ps i = time))) cur hS hq1 hc
    obtain ⟨hn1, ha1, hl1⟩ := rnFcfsSelect_profile ps time
      (queue ++ ordered.filter (fun i => decide (arrivalAt ps i = time))) cur
    refine ih ?_ (StFin_mono (Nat.le_succ time) hsel.1) ?_ ?_
    · intro j hj
      rw [hl1]
      exact hord j hj
    · intro j hj
      obtain ⟨h1, h2⟩ := hsel.2.1 j hj
      exact ⟨by omega, h2⟩
    · intro c hc2
      cases hc2
  | case2 ps time queue cur h arr sel c hcur ex ih =>
    intro hord hS hq hc
    have hselv : sel = rnFcfsSelect ps time
        (queue ++ ordered.filter (fun i => decide (arrivalAt ps i = time))) cur := rfl
    have hexv : ex = rnFcfsExecStep sel.ps time c := rfl
    rw [hselv] at hexv hcur
    rw [hexv] at ih
    rw [rnFcfsGo_some runfor ordered ps time queue cur c h hcur]
    dsimp only
    have hq1 : ∀ j ∈ queue ++ ordered.filter (fun i => decide (arrivalAt ps i = time)),
        arrivalAt ps j ≤ time ∧ j < ps.length := by
      intro j hj
      rcases List.mem_append.mp hj with hm | hm
      · exact hq j hm
      · obtain ⟨hjl, hjt⟩ := List.mem_filter.mp hm
        exact ⟨le_of_eq (of_decide_eq_true hjt), hord j hjl⟩
    have hsel := rnFcfsSelect_stfin ps time
      (queue ++ ordered.filter (fun i => decide (arrivalAt ps i = time))) cur hS hq1 hc
    have hc2 := hsel.2.2 c hcur
    obtain ⟨hn1, ha1, hl1⟩ := rnFcfsSelect_profile ps time
      (queue ++ ordered.filter (fun i => decide (arrivalAt ps i = time))) cur
    obtain ⟨hn2, ha2, hl2⟩ := rnFcfsExecStep_profile (rnFcfsSelect ps time
      (queue ++ ordered.filter (fun i => decide (arrivalAt ps i = time))) cur).ps time c
    refine ih ?_ ?_ ?_ ?_
    · intro j hj
      rw [hl2, hl1]
      exact hord j hj
    · exact rnFcfsExecStep_stfin _ time c hsel.1 (fun _ => hc2.2)
    · intro j hj
      obtain ⟨h1, h2⟩ := hsel.2.1 j hj
      rw [ha2 j, hl2]
      exact ⟨by omega, h2⟩
    · intro c2 hcc
      injection hcc with hcc2
      subst hcc2
      constructor
      · rw [hl2]
        exact hc2.1
      · rw [rnFcfsExecStep_startAt]
        exact hc2.2
  | case3 ps time queue cur h =>
    intro _ hS _ _
    rw [rnFcfsGo_neg runfor ordered ps time queue cur h]
    exact ⟨time, hS⟩

theorem pickMin_step_mem (ps : List Proc) :
    ∀ (l : List Nat) (acc : Option Nat) (b : Nat),
      l.foldl (fun acc2 i => match acc2 with
        | none => some i
        | some j => if sjfKeyLT ps i j then some i else acc2) acc = some b →
      acc = some b ∨ b ∈ l := by
  intro l
  induction l with
  | nil =>
    intro acc b h
    exact Or.inl h
  | cons a r ih =>
    intro acc b h
    rw [List.foldl_cons] at h
    rcases ih _ b h with h2 | h2
    · cases acc with
      | none =>
        injection h2 with h3
        exact Or.inr (by rw [← h3]; exact List.mem_cons_self a r)
      | some j =>
        dsimp only at h2
        split at h2
        · injection h2 with h3
          exact Or.inr (by rw [← h3]; exact List.mem_cons_self a r)
        · exact Or.inl h2
    · exact Or.inr (List.mem_cons_of_mem a h2)

theorem pickMin_mem (ps : List Proc) (l : List Nat) (b : Nat)
    (h : pickMin ps l = some b) : b ∈ l := by
  unfold pickMin at h
  rcases pickMin_step_mem ps l none b h with h2 | h2
  · exact Option.noConfusion h2
  · exact h2

theorem rnSjf_exec_stfin (ps1 : List Proc) (time s : Nat) (evS evF : List Event)
    (hS1 : StFin time ps1) (hsl1 : s < ps1.length) (hst1 : startAt ps1 s ≠ none) :
    StFin (time + 1) (if remAt (decRem ps1 s) s = 0
      then (⟨evF, setFinish (decRem ps1 s) s (time + 1), none⟩ : RNSStep)
      else ⟨evS, decRem ps1 s, some s⟩).ps ∧
    (∀ j, (if remAt (decRem ps1 s) s = 0
      then (⟨evF, setFinish (decRem ps1 s) s (time + 1), none⟩ : RNSStep)
      else ⟨evS, decRem ps1 s, some s⟩).last = some j →
      j < (if remAt (decRem ps1 s) s = 0
        then (⟨evF, setFinish (decRem ps1 s) s (time + 1), none⟩ : RNSStep)
        else ⟨evS, decRem ps1 s, some s⟩).ps.length ∧
      startAt (if remAt (decRem ps1 s) s = 0
        then (⟨evF, setFinish (decRem ps1 s) s (time + 1), none⟩ : RNSStep)
        else ⟨evS, decRem ps1 s, some s⟩).ps j ≠ none) := by
  have hS2 : StFin (time + 1) (decRem ps1 s) :=
    StFin_decRem s (StFin_mono (Nat.le_succ time) hS1)
  obtain ⟨u, hu⟩ := Option.ne_none_iff_exists.mp hst1
  split
  · dsimp only
    refine ⟨StFin_setFinish s (time + 1) hS2 ?_, ?_⟩
    · intro _
      refine ⟨u, by rw [startAt_decRem]; exact hu.symm, ?_⟩
      have := (hS1 s hsl1).1 u hu.symm
      omega
    · intro j hj
      cases hj
  · dsimp only
    refine ⟨hS2, ?_⟩
    intro j hj
    injection hj with hj2
    subst hj2
    rw [length_decRem, startAt_decRem]
    exact ⟨hsl1, hst1⟩

theorem rnSjfRunStep_stfin (ps : List Proc) (time s : Nat) (lastSel : Option Nat)
    (hS : StFin time ps) (hsa : arrivalAt ps s ≤ time) (hsl : s < ps.length)
    (hlast : ∀ j, lastSel = some j → j < ps.length ∧ startAt ps j ≠ none)
    (hinj : ∀ j1 j2, j1 < ps.length → j2 < ps.length →
      nameAt ps j1 = nameAt ps j2 → j1 = j2) :
    StFin (time + 1) (rnSjfRunStep ps time s lastSel).ps ∧
    (∀ j, (rnSjfRunStep ps time s lastSel).last = some j →
      j < (rnSjfRunStep ps time s lastSel).ps.length ∧
        startAt (rnSjfRunStep ps time s lastSel).ps j ≠ none) := by
  cases lastSel with
  | none =>
    simp only [rnSjfRunStep]
    by_cases hsn : startAt ps s = none
    · have hc1 : True ∧ startAt ps s = none := ⟨trivial, hsn⟩
      rw [if_pos hc1]
      refine rnSjf_exec_stfin (setStart ps s time) time s _ _
        (StFin_setStart s time hS hsn hsa (le_refl time)) ?_ ?_
      · rw [length_setStart]
        exact hsl
      · rw [startAt_setStart, if_pos ⟨rfl, hsl⟩]
        exact Option.some_ne_none time
    · have hc1 : ¬ (True ∧ startAt ps s = none) := fun hcc => hsn hcc.2
      rw [if_neg hc1]
      exact rnSjf_exec_stfin ps time s _ _ hS hsl hsn
  | some j0 =>
    simp only [rnSjfRunStep]
    by_cases hne : (nameAt ps j0 != nameAt ps s) = true
    · by_cases hsn : startAt ps s = none
      · have hc1 : (nameAt ps j0 != nameAt ps s) = true ∧ startAt ps s = none := ⟨hne, hsn⟩
        rw [if_pos hc1]
        refine rnSjf_exec_stfin (setStart ps s time) time s _ _
          (StFin_setStart s time hS hsn hsa (le_refl time)) ?_ ?_
        · rw [length_setStart]
          exact hsl
        · rw [startAt_setStart, if_pos ⟨rfl, hsl⟩]
          exact Option.some_ne_none time
      · have hc1 : ¬ ((nameAt ps j0 != nameAt ps s) = true ∧ startAt ps s = none) :=
          fun hcc => hsn hcc.2
        rw [if_neg hc1]
        exact rnSjf_exec_stfin ps time s _ _ hS hsl hsn
    · have hjeq : nameAt ps j0 = nameAt ps s := by
        simpa using hne
      have hj0 := hlast j0 rfl
      have hse : j0 = s := hinj j0 s hj0.1 hsl hjeq
      have hstart : startAt ps s ≠ none := by
        rw [← hse]
        exact hj0.2
      have hc1 : ¬ ((nameAt ps j0 != nameAt ps s) = true ∧ startAt ps s = none) :=
        fun hcc => hne hcc.1
      rw [if_neg hc1]
      exact rnSjf_exec_stfin ps time s _ _ hS hsl hstart

theorem rnSjfGo_stfin (runfor : Nat) :
    ∀ (ps : List Proc) (time : Nat) (lastSel : Option Nat),
      StFin time ps →
      (∀ j, lastSel = some j → j < ps.length ∧ startAt ps j ≠ none) →
      (∀ j1 j2, j1 < ps.length → j2 < ps.length →
        nameAt ps j1 = nameAt ps j2 → j1 = j2) →
      ∃ u, StFin u (rnSjfGo runfor ps time lastSel).2 := by
  intro ps time lastSel
  induction ps, time, lastSel using rnSjfGo.induct runfor with
  | case1 ps time lastSel h ready hpick ih =>
    intro hS hlast hinj
    rw [rnSjfGo_idle runfor ps time lastSel h hpick]
    dsimp only
    exact ih (StFin_mono (Nat.le_succ time) hS) (fun j hj => Option.noConfusion hj) hinj
  | case2 ps time lastSel h ready s hpick st ih =>
    intro hS hlast hinj
    rw [rnSjfGo_run runfor ps time lastSel s h hpick]
    dsimp only
    have hready : ready = (List.range ps.length).filter
        (fun i => decide (arrivalAt ps i ≤ time ∧ 0 < remAt ps i)) := rfl
    rw [hready] at hpick
    have hmem := pickMin_mem ps _ s hpick
    obtain ⟨hsr, hsp⟩ := List.mem_filter.mp hmem
    have hfacts := of_decide_eq_true hsp
    have hslen : s < ps.length := List.mem_range.mp hsr
    have hst := rnSjfRunStep_stfin ps time s lastSel hS hfacts.1 hslen hlast hinj
    obtain ⟨hn1, ha1, hl1⟩ := rnSjfRunStep_profile ps time s lastSel
    refine ih hst.1 hst.2 ?_
    intro j1 j2 h1 h2 he
    rw [hl1] at h1 h2
    rw [hn1 j1, hn1 j2] at he
    exact hinj j1 j2 h1 h2 he
  | case3 ps time lastSel h =>
    intro hS _ _
    rw [rnSjfGo_neg runfor ps time lastSel h]
    exact ⟨time, hS⟩


theorem rnDropFinished_none (ps : List Proc) :
    ∀ (l : List Nat) (q3 : List Nat), rnDropFinished ps l = (none, q3) → q3 = [] := by
  intro l
  induction l with
  | nil =>
    intro q3 h
    injection h with h1 h2
    exact h2.symm
  | cons a r ih =>
    intro q3 h
    simp only [rnDropFinished] at h
    split at h
    · exact ih q3 h
    · injection h with h1 h2
      exact Option.noConfusion h1

theorem rnDropFinished_mem (ps : List Proc) :
    ∀ (l : List Nat) (c : Nat) (q3 : List Nat),
      rnDropFinished ps l = (some c, q3) → c ∈ l ∧ ∀ j ∈ q3, j ∈ l := by
  intro l
  induction l with
  | nil =>
    intro c q3 h
    injection h with h1 h2
    exact Option.noConfusion h1
  | cons a r ih =>
    intro c q3 h
    simp only [rnDropFinished] at h
    split at h
    · obtain ⟨h1, h2⟩ := ih c q3 h
      exact ⟨List.mem_cons_of_mem a h1, fun j hj => List.mem_cons_of_mem a (h2 j hj)⟩
    · injection h with h1 h2
      injection h1 with h3
      subst h3
      subst h2
      exact ⟨List.mem_cons_self a r, fun j hj => List.mem_cons_of_mem a hj⟩

theorem rnRrPick_core (ps : List Proc) (time : Nat) (l q3 : List Nat) (c : Nat)
    (hdrop : rnDropFinished ps l = (some c, q3))
    (hS : StFin time ps)
    (hl : ∀ j ∈ l, arrivalAt ps j ≤ time ∧ j < ps.length) :
    StFin time (if startAt ps c = none then setStart ps c time else ps) ∧
    (∀ j ∈ q3,
      arrivalAt (if startAt ps c = none then setStart ps c time else ps) j ≤ time ∧
        j < (if startAt ps c = none then setStart ps c time else ps).length) ∧
    (c < (if startAt ps c = none then setStart ps c time else ps).length ∧
      startAt (if startAt ps c = none then setStart ps c time else ps) c ≠ none) := by
  obtain ⟨hcm, hq3⟩ := rnDropFinished_mem ps l c q3 hdrop
  obtain ⟨hca, hcl⟩ := hl c hcm
  by_cases hstc : startAt ps c = none
  · rw [if_pos hstc]
    refine ⟨StFin_setStart c time hS hstc hca (le_refl time), ?_, ?_⟩
    · intro j hj
      rw [arrivalAt_setStart, length_setStart]
      exact hl j (hq3 j hj)
    · rw [length_setStart, startAt_setStart, if_pos ⟨rfl, hcl⟩]
      exact ⟨hcl, Option.some_ne_none time⟩
  · rw [if_neg hstc]
    exact ⟨hS, fun j hj => hl j (hq3 j hj), hcl, hstc⟩

theorem rnRrSelect_stfin (ps : List Proc) (time : Nat) (quantum : Int)
    (q1 : List Nat) (running : Option Nat) (remQ : Int)
    (hS : StFin time ps)
    (hq : ∀ j ∈ q1, arrivalAt ps j ≤ time ∧ j < ps.length)
    (hrun : ∀ c, running = some c → c < ps.length ∧ startAt ps c ≠ none) :
    StFin time (rnRrSelect ps time quantum q1 running remQ).ps ∧
    (∀ j ∈ (rnRrSelect ps time quantum q1 running remQ).queue,
      arrivalAt (rnRrSelect ps time quantum q1 running remQ).ps j ≤ time ∧
        j < (rnRrSelect ps time quantum q1 running remQ).ps.length) ∧
    (∀ c, (rnRrSelect ps time quantum q1 running remQ).running = some c →
      c < (rnRrSelect ps time quantum q1 running remQ).ps.length ∧
        startAt (rnRrSelect ps time quantum q1 running remQ).ps c ≠ none) := by
  cases running with
  | none =>
    have hl : ∀ j ∈ q1 ++ ([] : List Nat),
        arrivalAt ps j ≤ time ∧ j < ps.length := by
      intro j hj
      rcases List.mem_append.mp hj with hm | hm
      · exact hq j hm
      · cases hm
    simp only [rnRrSelect]
    rcases hdrop : rnDropFinished ps (q1 ++ []) with ⟨co, q3⟩
    cases co with
    | none =>
      rw [if_pos trivial]
      dsimp only
      have hq3 : q3 = [] := rnDropFinished_none ps _ q3 hdrop
      subst hq3
      exact ⟨hS, fun j hj => absurd hj (List.not_mem_nil j),
        fun c hc => Option.noConfusion hc⟩
    | some c =>
      rw [if_pos trivial]
      dsimp only
      obtain ⟨h1, h2, h3⟩ := rnRrPick_core ps time (q1 ++ []) q3 c hdrop hS hl
      refine ⟨h1, h2, ?_⟩
      intro c2 hc2
      injection hc2 with hc3
      subst hc3
      exact h3
  | some c0 =>
    have hre : ∀ j ∈ q1 ++ (if remAt ps c0 ≠ 0 ∧ remQ = 0 then [c0] else []),
        arrivalAt ps j ≤ time ∧ j < ps.length := by
      intro j hj
      rcases List.mem_append.mp hj with hm | hm
      · exact hq j hm
      · split at hm
        · rw [List.mem_singleton.mp hm]
          obtain ⟨hcl, hcs⟩ := hrun c0 rfl
          obtain ⟨s, hs⟩ := Option.ne_none_iff_exists.mp hcs
          have := (hS c0 hcl).1 s hs.symm
          exact ⟨by omega, hcl⟩
        · cases hm
    simp only [rnRrSelect]
    by_cases hns : (decide (remAt ps c0 = 0) || decide (remQ = 0)) = true
    · rw [if_pos hns]
      rcases hdrop : rnDropFinished ps
        (q1 ++ if remAt ps c0 ≠ 0 ∧ remQ = 0 then [c0] else []) with ⟨co, q3⟩
      cases co with
      | none =>
        dsimp only
        have hq3 : q3 = [] := rnDropFinished_none ps _ q3 hdrop
        subst hq3
        exact ⟨hS, fun j hj => absurd hj (List.not_mem_nil j),
          fun c hc => Option.noConfusion hc⟩
      | some c =>
        dsimp only
        obtain ⟨h1, h2, h3⟩ := rnRrPick_core ps time
          (q1 ++ if remAt ps c0 ≠ 0 ∧ remQ = 0 then [c0] else []) q3 c hdrop hS hre
        refine ⟨h1, h2, ?_⟩
        intro c2 hc2
        injection hc2 with hc3
        subst hc3
        exact h3
    · rw [if_neg hns]
      refine ⟨hS, hq, ?_⟩
      intro c2 hc2
      injection hc2 with hc3
      subst hc3
      exact hrun _ rfl

theorem rnRrExecStep_stfin (ps : List Proc) (time c : Nat) (remQ : Int)
    (hS : StFin time ps) (hcl : c < ps.length) (hst : startAt ps c ≠ none) :
    StFin (time + 1) (rnRrExecStep ps time c remQ).ps ∧
    (∀ c2, (rnRrExecStep ps time c remQ).running = some c2 →
      c2 < (rnRrExecStep ps time c remQ).ps.length ∧
        startAt (rnRrExecStep ps time c remQ).ps c2 ≠ none) := by
  have hS1 : StFin (time + 1) (decRem ps c) :=
    StFin_decRem c (StFin_mono (Nat.le_succ time) hS)
  obtain ⟨s, hs⟩ := Option.ne_none_iff_exists.mp hst
  simp only [rnRrExecStep]
  split
  · dsimp only
    refine ⟨StFin_setFinish c (time + 1) hS1 ?_, fun c2 hc2 => Option.noConfusion hc2⟩
    intro _
    refine ⟨s, by rw [startAt_decRem]; exact hs.symm, ?_⟩
    have := (hS c hcl).1 s hs.symm
    omega
  · dsimp only
    refine ⟨hS1, ?_⟩
    intro c2 hc2
    injection hc2 with hc3
    subst hc3
    rw [length_decRem, startAt_decRem]
    exact ⟨hcl, hst⟩

theorem rnRrExecStep_startAt (ps : List Proc) (time c : Nat) (remQ : Int) (j : Nat) :
    startAt (rnRrExecStep ps time c remQ).ps j = startAt ps j := by
  simp only [rnRrExecStep]
  split
  · dsimp only
    rw [startAt_setFinish, startAt_decRem]
  · dsimp only
    exact startAt_decRem ps c j

theorem rnRrGo_stfin (runfor : Nat) (quantum : Int) :
    ∀ (ps : List Proc) (time : Nat) (queue : List Nat) (running : Option Nat)
      (remQ : Int),
      StFin time ps →
      (∀ j ∈ queue, arrivalAt ps j ≤ time ∧ j < ps.length) →
      (∀ c, running = some c → c < ps.length ∧ startAt ps c ≠ none) →
      ∃ u, StFin u (rnRrGo runfor quantum ps time queue running remQ).2 := by
  intro ps time queue running remQ
  induction ps, time, queue, running, remQ using rnRrGo.induct runfor quantum with
  | case1 ps time queue running remQ h arr q1 sel hrun ih =>
    intro hS hq hr
    have hselv : sel = rnRrSelect ps time quantum
        (queue ++ (List.filter (fun i => decide (arrivalAt ps i = time))
          (List.range ps.length)).filter (fun i => decide (0 < remAt ps i)))
        running remQ := rfl
    rw [hselv] at ih
    rw [rnRrGo_idle runfor quantum ps time queue running remQ h hrun]
    dsimp only
    have hq1 : ∀ j ∈ queue ++ (List.filter (fun i => decide (arrivalAt ps i = time))
        (List.range ps.length)).filter (fun i => decide (0 < remAt ps i)),
        arrivalAt ps j ≤ time ∧ j < ps.length := by
      intro j hj
      rcases List.mem_append.mp hj with hm | hm
      · exact hq j hm
      · obtain ⟨hm2, _⟩ := List.mem_filter.mp hm
        obtain ⟨hm3, hm4⟩ := List.mem_filter.mp hm2
        exact ⟨le_of_eq (of_decide_eq_true hm4), List.mem_range.mp hm3⟩
    have hsel := rnRrSelect_stfin ps time quantum _ running remQ hS hq1 hr
    refine ih (StFin_mono (Nat.le_succ time) hsel.1) ?_ ?_
    · intro j hj
      obtain ⟨h1, h2⟩ := hsel.2.1 j hj
      exact ⟨by omega, h2⟩
    · intro c hc2
      cases hc2
  | case2 ps time queue running remQ h arr q1 sel c hrun ex ih =>
    intro hS hq hr
    have hselv : sel = rnRrSelect ps time quantum
        (queue ++ (List.filter (fun i => decide (arrivalAt ps i = time))
          (List.range ps.length)).filter (fun i => decide (0 < remAt ps i)))
        running remQ := rfl
    have hexv : ex = rnRrExecStep sel.ps time c sel.remQ := rfl
    rw [hselv] at hexv hrun
    rw [hexv] at ih
    rw [rnRrGo_run runfor quantum ps time queue running remQ c h hrun]
    dsimp only
    have hq1 : ∀ j ∈ queue ++ (List.filter (fun i => decide (arrivalAt ps i = time))
        (List.range ps.length)).filter (fun i => decide (0 < remAt ps i)),
        arrivalAt ps j ≤ time ∧ j < ps.length := by
      intro j hj
      rcases List.mem_append.mp hj with hm | hm
      · exact hq j hm
      · obtain ⟨hm2, _⟩ := List.mem_filter.mp hm
        obtain ⟨hm3, hm4⟩ := List.mem_filter.mp hm2
        exact ⟨le_of_eq (of_decide_eq_true hm4), List.mem_range.mp hm3⟩
    have hsel := rnRrSelect_stfin ps time quantum _ running remQ hS hq1 hr
    have hc2 := hsel.2.2 c hrun
    have hex := rnRrExecStep_stfin (rnRrSelect ps time quantum
      (queue ++ (List.filter (fun i => decide (arrivalAt ps i = time))
        (List.range ps.length)).filter (fun i => decide (0 < remAt ps i)))
      running remQ).ps time c (rnRrSelect ps time quantum
      (queue ++ (List.filter (fun i => decide (arrivalAt ps i = time))
        (List.range ps.length)).filter (fun i => decide (0 < remAt ps i)))
      running remQ).remQ hsel.1 hc2.1 hc2.2
    obtain ⟨hn2, ha2, hl2⟩ := rnRrExecStep_profile (rnRrSelect ps time quantum
      (queue ++ (List.filter (fun i => decide (arrivalAt ps i = time))
        (List.range ps.length)).filter (fun i => decide (0 < remAt ps i)))
      running remQ).ps time c (rnRrSelect ps time quantum
      (queue ++ (List.filter (fun i => decide (arrivalAt ps i = time))
        (List.range ps.length)).filter (fun i => decide (0 < remAt ps i)))
      running remQ).remQ
    refine ih hex.1 ?_ hex.2
    intro j hj
    obtain ⟨h1, h2⟩ := hsel.2.1 j hj
    rw [ha2 j, hl2]
    exact ⟨by omega, h2⟩
  | case3 ps time queue running remQ h =>
    intro hS _ _
    rw [rnRrGo_neg runfor quantum ps time queue running remQ h]
    exact ⟨time, hS⟩


/-- C7: starting from fresh process states (no timestamps set) with positive
bursts and distinct names, every engine of both programs leaves every
process whose finish_time is set with finish_time > start_time ≥ arrival.
(The positivity and distinctness provisos are needed: see the
counterexample, where GeorgeAvdella's fcfs finishes a zero-burst process at
its start tick, and RachelNieman's preemptive SJF finishes a process whose
start_time was never set because its name collides with the previously
selected process's.) -/
theorem C7_timestamps (ps : List Proc) (runfor : Nat) (quantum : Int)
    (p : List Event × List Proc)
    (hfresh : ∀ i, i < ps.length → startAt ps i = none ∧ finishAt ps i = none)
    (hburst : ∀ i, i < ps.length → 0 < remAt ps i)
    (hnames : (ps.map (fun q => q.name)).Nodup)
    (hok : rr ps runfor quantum = Except.ok p) :
    FinOK (fcfs ps runfor).2 ∧ FinOK (sjf ps runfor).2 ∧ FinOK p.2 ∧
    FinOK (rnFcfs ps runfor).2 ∧ FinOK (rnSjf ps runfor).2 ∧
    FinOK (rnRr ps runfor quantum).2 := by
  have hS0 : ∀ t, StFin t ps := by
    intro t i hi
    obtain ⟨h1, h2⟩ := hfresh i hi
    refine ⟨fun s hs => ?_, fun f hf => ?_⟩
    · rw [h1] at hs
      exact Option.noConfusion hs
    · rw [h2] at hf
      exact Option.noConfusion hf
  refine ⟨?_, ?_, ?_, ?_, ?_, ?_⟩
  · obtain ⟨u, hu⟩ := fcfsMain_stfin runfor (readyOrder ps) ps 0 (arrivalsIndex ps)
      (hS0 0) (fun j hj => hburst j (readyOrder_mem_lt ps j hj)) (readyOrder_nodup ps)
    exact StFin_FinOK hu
  · obtain ⟨u, hu⟩ := sjfGo_stfin runfor ps 0 (arrivalsIndex ps) none (hS0 0)
      (fun c hc => Option.noConfusion hc)
    exact StFin_FinOK hu
  · by_cases hq : quantum ≤ 0
    · simp only [rr, dif_pos hq] at hok
      exact Except.noConfusion hok
    · simp only [rr, dif_neg hq] at hok
      injection hok with h1
      subst h1
      dsimp only
      obtain ⟨u, hu⟩ := rrGo_stfin runfor ⟨quantum.toNat, by omega⟩ ps 0
        (popArrivals (arrivalsIndex ps) 0).2 (popArrivals (arrivalsIndex ps) 0).1
        (BTInv_pop ps (arrivalsIndex ps) 0 (BTInv_arrivalsIndex ps)) (hS0 0)
        (fun j hj => by
          obtain ⟨ha, hl⟩ := pop_bucket_mem ps (arrivalsIndex ps) 0
            (BTInv_arrivalsIndex ps) j hj
          exact ⟨le_of_eq ha, hl⟩)
      exact StFin_FinOK hu
  · obtain ⟨u, hu⟩ := rnFcfsGo_stfin runfor (readyOrder ps) ps 0 [] none
      (readyOrder_mem_lt ps) (hS0 0) (fun j hj => absurd hj (List.not_mem_nil j))
      (fun c hc => Option.noConfusion hc)
    exact StFin_FinOK hu
  · obtain ⟨u, hu⟩ := rnSjfGo_stfin runfor ps 0 none (hS0 0)
      (fun j hj => Option.noConfusion hj)
      (fun j1 j2 h1 h2 he => names_inj ps hnames j1 j2 h1 h2 he)
    exact StFin_FinOK hu
  · obtain ⟨u, hu⟩ := rnRrGo_stfin runfor quantum ps 0 [] none 0 (hS0 0)
      (fun j hj => absurd hj (List.not_mem_nil j)) (fun c hc => Option.noConfusion hc)
    exact StFin_FinOK hu

/-- C7 counterexample: GeorgeAvdella's fcfs gives a zero-burst process
finish_time = start_time (both 0 here), and RachelNieman's preemptive SJF
finishes the second of two identically named processes without ever setting
its start_time (her Selected test compares names, so the newly picked
process inherits the previous selection). -/
theorem C7_counterexample :
    (startAt (fcfs [mkProc "A" 0 0] 1).2 0 = some 0 ∧
     finishAt (fcfs [mkProc "A" 0 0] 1).2 0 = some 0) ∧
    (startAt (rnSjf [mkProc "A" 0 5, mkProc "A" 2 1] 4).2 1 = none ∧
     finishAt (rnSjf [mkProc "A" 0 5, mkProc "A" 2 1] 4).2 1 = some 3) := by
  constructor
  · constructor <;>
      simp [fcfs, fcfsMain, fcfsIdle, fcfsRun, fcfsTrail, readyOrder, arrivalsIndex,
        popArrivals, arrEvents, mkProc, nameAt, arrivalAt, burstAt, remAt, startAt,
        finishAt, procAt, decRem, setStart, setFinish, fcfsKeyLE, List.insertionSort,
        List.orderedInsert, List.range, List.range.loop, List.getD]
  · constructor <;>
      simp [rnSjf, rnSjfGo, rnSjfRunStep, pickMin, mkProc, arrivalAt, burstAt, remAt,
        nameAt, startAt, finishAt, procAt, decRem, setStart, setFinish, sjfKeyLT,
        List.range, List.range.loop, List.getD]

/-- Witness for C7 at a concrete input. -/
theorem C7_witness :
    FinOK (sjf [mkProc "A" 0 1] 2).2 ∧ FinOK (rnFcfs [mkProc "A" 0 1] 2).2 := by
  have h := C7_timestamps [mkProc "A" 0 1] 2 1
    ([Event.arrived 0 "A", Event.selected 0 "A" 1, Event.finished 1 "A", Event.idle 1],
     [⟨"A", 0, 1, 0, some 0, some 1⟩])
    (fun i hi => by
      cases i with
      | zero => exact ⟨rfl, rfl⟩
      | succ k => exact absurd hi (by
          simp only [List.length_cons, List.length_nil]
          omega))
    (fun i hi => by
      cases i with
      | zero => decide
      | succ k => exact absurd hi (by
          simp only [List.length_cons, List.length_nil]
          omega))
    (by decide)
    (by simp [rr, rrGo, rrSlice, rrRunBranch, popArrivals, arrEvents, arrivalsIndex,
      btSize, mkProc, nameAt, arrivalAt, burstAt, remAt, startAt, finishAt, procAt,
      decRem, setStart, setFinish, List.range, List.range.loop, List.getD])
  exact ⟨h.2.1, h.2.2.2.1⟩

end Sched
